import Mathlib

/-!
AVL map (`CS280::AVLmap`), heap-level embedding.

The C++ container stores one heap-allocated `Node` per key, linked by raw
`parent` / `left` / `right` pointers.  The embedding keeps that shape:

* a pointer is an `Option Nat` (`none` is `nullptr`);
* the heap is a list of cells indexed by address, a deleted cell is `none`;
* every method is a function on the explicit state that returns `none` when the
  C++ would dereference a null or dangling pointer, or when a loop does not
  come to an end within the number of cells of the heap (a cycle of pointers);
* `size_` is an `unsigned int`: arithmetic on it is taken modulo `2 ^ 32`;
* `height` and `balance` are `int`; they are bounded by the number of nodes, so
  they are modelled by `Int` without wrap-around.
-/

namespace CS280

/-- A cell of the tree, with the fields of `AVLmap::Node` (avl.h, lines 61-66). -/
structure Node (K V : Type) where
  key : K
  value : V
  parent : Option Nat
  left : Option Nat
  right : Option Nat
  height : Int
  balance : Int
deriving DecidableEq

/-- The heap: the cell stored at each address (`none`: deleted). -/
structure Heap (K V : Type) where
  cells : List (Option (Node K V))
deriving DecidableEq

variable {K V : Type}

/-- Read the cell at an address; `none` if nothing is allocated there. -/
def Heap.get? (h : Heap K V) (a : Nat) : Option (Node K V) :=
  h.cells[a]?.join

/-- Store the cell `c` at address `a`. -/
def Heap.put (h : Heap K V) (a : Nat) (c : Node K V) : Heap K V :=
  ⟨h.cells.set a (some c)⟩

/-- Overwrite fields of the live cell at address `a` (`none`: dangling pointer). -/
def Heap.modify (h : Heap K V) (a : Nat) (f : Node K V → Node K V) : Option (Heap K V) :=
  match h.get? a with
  | some n => some (h.put a (f n))
  | none => none

/-- The effect of `new Node(...)`: a fresh address holding the given cell. -/
def Heap.alloc (h : Heap K V) (n : Node K V) : Heap K V × Nat :=
  (⟨h.cells ++ [some n]⟩, h.cells.length)

/-- Empty the cell at address `a`. -/
def Heap.del (h : Heap K V) (a : Nat) : Heap K V :=
  ⟨h.cells.set a none⟩

/-- The effect of `delete N` on a live cell (`none`: dangling pointer). -/
def Heap.free (h : Heap K V) (a : Nat) : Option (Heap K V) :=
  match h.get? a with
  | some _ => some (h.del a)
  | none => none

/-- Bound on the number of iterations of a pointer-chasing loop that visits no
cell twice. -/
def Heap.fuel (h : Heap K V) : Nat := h.cells.length + 1

/-- The map object: the heap it lives in, `pRoot` and `size_` (avl.h, lines 118-119). -/
structure AVLmap (K V : Type) where
  heap : Heap K V
  pRoot : Option Nat
  size_ : Nat
deriving DecidableEq

/-- The default-constructed map (avl.cpp, lines 387-389): no node, size 0. -/
def AVLmap.empty : AVLmap K V := ⟨⟨[]⟩, none, 0⟩

/-- `AVLmap::size` (avl.cpp, lines 457-460). -/
def AVLmap.size (m : AVLmap K V) : Nat := m.size_

/-- `AVLmap::end` (avl.cpp, lines 611-614): the cursor holding `nullptr`. -/
def AVLmap.end_it : Option Nat := none

/-- Loop of `Node::first` (avl.cpp, lines 57-66). -/
def firstLoop (h : Heap K V) : Nat → Nat → Option Nat
  | 0, _ => none
  | fuel + 1, N => do
    let n ← h.get? N
    match n.left with
    | some l => firstLoop h fuel l
    | none => some N

/-- `Node::first` called on the node at address `N`. -/
def Node.first (h : Heap K V) (N : Nat) : Option Nat := firstLoop h h.fuel N

/-- Cached height of the node behind a pointer, `-1` for `nullptr`
(`(left) ? left->height : -1`). -/
def heightOf (h : Heap K V) (p : Option Nat) : Option Int :=
  match p with
  | none => some (-1)
  | some a => (h.get? a).map (fun c => c.height)

/-- `Node::getHeight` (avl.cpp, lines 144-152). -/
def Node.getHeight (h : Heap K V) (a : Nat) : Option Int := do
  let n ← h.get? a
  let leftHeight ← heightOf h n.left
  let rightHeight ← heightOf h n.right
  some (1 + max leftHeight rightHeight)

/-- `Node::getBalanceFactor` (avl.cpp, lines 157-163). -/
def Node.getBalanceFactor (h : Heap K V) (a : Nat) : Option Int := do
  let n ← h.get? a
  let leftHeight ← heightOf h n.left
  let rightHeight ← heightOf h n.right
  some (leftHeight - rightHeight)

/-- The parent-link update shared by the rotations (avl.cpp, lines 766-773 and
813-820): `if (par) { if (par->left == y) par->left = n; else par->right = n; }`. -/
def replaceChild (h : Heap K V) (par : Option Nat) (y : Nat) (n : Option Nat) :
    Option (Heap K V) :=
  match par with
  | some p => do
    let pn ← h.get? p
    h.modify p (fun c => if pn.left = some y then { c with left := n } else { c with right := n })
  | none => some h

/-- The statement `if (v) v->parent = p;` (avl.cpp, lines 775-777, 824-826). -/
def setParent (h : Heap K V) (v : Option Nat) (p : Option Nat) : Option (Heap K V) :=
  match v with
  | some a => h.modify a (fun c => { c with parent := p })
  | none => some h

/-- `AVLmap::leftRotate` (avl.cpp, lines 751-791).  The two height updates
(lines 782-788) compute the expression of `Node::getHeight`. -/
def leftRotate (h : Heap K V) (y : Option Nat) : Option (Heap K V × Option Nat) :=
  match y with
  | none => some (h, none)
  | some y => do
    let yn ← h.get? y
    match yn.right with
    | none => some (h, none)
    | some subTreeNewRoot => do
      let rn ← h.get? subTreeNewRoot
      let v := rn.left
      let h ← h.modify subTreeNewRoot (fun c => { c with left := some y })
      let h ← h.modify y (fun c => { c with right := v })
      let yn ← h.get? y
      let h ← h.modify subTreeNewRoot (fun c => { c with parent := yn.parent })
      let h ← replaceChild h yn.parent y (some subTreeNewRoot)
      let h ← h.modify y (fun c => { c with parent := some subTreeNewRoot })
      let h ← setParent h v (some y)
      let hy ← Node.getHeight h y
      let h ← h.modify y (fun c => { c with height := hy })
      let hr ← Node.getHeight h subTreeNewRoot
      let h ← h.modify subTreeNewRoot (fun c => { c with height := hr })
      some (h, some subTreeNewRoot)

/-- `AVLmap::rightRotate` (avl.cpp, lines 796-836). -/
def rightRotate (h : Heap K V) (y : Option Nat) : Option (Heap K V × Option Nat) :=
  match y with
  | none => some (h, none)
  | some y => do
    let yn ← h.get? y
    match yn.left with
    | none => some (h, none)
    | some subTreeNewRoot => do
      let rn ← h.get? subTreeNewRoot
      let v := rn.right
      let h ← h.modify subTreeNewRoot (fun c => { c with right := some y })
      let h ← h.modify y (fun c => { c with left := v })
      let yn ← h.get? y
      let h ← h.modify subTreeNewRoot (fun c => { c with parent := yn.parent })
      let h ← replaceChild h yn.parent y (some subTreeNewRoot)
      let h ← h.modify y (fun c => { c with parent := some subTreeNewRoot })
      let h ← setParent h v (some y)
      let hy ← Node.getHeight h y
      let h ← h.modify y (fun c => { c with height := hy })
      let hr ← Node.getHeight h subTreeNewRoot
      let h ← h.modify subTreeNewRoot (fun c => { c with height := hr })
      some (h, some subTreeNewRoot)

/-- The statement `if (node->left && node->left->balance < 0) node->left =
leftRotate(node->left);` (avl.cpp, lines 577-579); `left` is `node->left`. -/
def rotateLeftChild (h : Heap K V) (node : Nat) (left : Option Nat) : Option (Heap K V) :=
  match left with
  | some l => do
    let ln ← h.get? l
    if ln.balance < 0 then do
      let (h, r) ← leftRotate h (some l)
      h.modify node (fun c => { c with left := r })
    else some h
  | none => some h

/-- The statement `if (node->right && node->right->balance > 0) node->right =
rightRotate(node->right);` (avl.cpp, lines 585-587); `right` is `node->right`. -/
def rotateRightChild (h : Heap K V) (node : Nat) (right : Option Nat) : Option (Heap K V) :=
  match right with
  | some r => do
    let rn ← h.get? r
    if rn.balance > 0 then do
      let (h, l) ← rightRotate h (some r)
      h.modify node (fun c => { c with right := l })
    else some h
  | none => some h

/-- Body of the loop of `AVLmap::updateBalanceAfterInsert` up to the rotations
(avl.cpp, lines 571-589), run on the node at address `node`: the heap and the
value of the variable `node` after it. -/
def rebalanceAt (h : Heap K V) (node : Nat) : Option (Heap K V × Option Nat) := do
  let b ← Node.getBalanceFactor h node
  let h ← h.modify node (fun c => { c with balance := b })
  let ht ← Node.getHeight h node
  let h ← h.modify node (fun c => { c with height := ht })
  let n ← h.get? node
  if n.balance > 1 then do
    let h ← rotateLeftChild h node n.left
    rightRotate h (some node)
  else if n.balance < -1 then do
    let h ← rotateRightChild h node n.right
    leftRotate h (some node)
  else some (h, some node)

/-- Loop of `AVLmap::updateBalanceAfterInsert` (avl.cpp, lines 568-595). -/
def updateBalanceAfterInsertLoop : Nat → Heap K V → Option Nat → Option (Heap K V)
  | 0, _, _ => none
  | _ + 1, h, none => some h
  | fuel + 1, h, some node => do
    let (h, node') ← rebalanceAt h node
    match node' with
    | some nd => do
      let n ← h.get? nd
      updateBalanceAfterInsertLoop fuel h n.parent
    | none => updateBalanceAfterInsertLoop fuel h none

/-- `AVLmap::updateBalanceAfterInsert` (avl.cpp, lines 568-595). -/
def updateBalanceAfterInsert (h : Heap K V) (node : Option Nat) : Option (Heap K V) :=
  updateBalanceAfterInsertLoop h.fuel h node

section Ordered
variable [LinearOrder K]

/-- Loop of `AVLmap::find` (avl.cpp, lines 291-307): the cursor returned. -/
def findLoop (h : Heap K V) (key : K) : Nat → Option Nat → Option (Option Nat)
  | 0, _ => none
  | _ + 1, none => some none
  | fuel + 1, some N => do
    let n ← h.get? N
    if key < n.key then findLoop h key fuel n.left
    else if key > n.key then findLoop h key fuel n.right
    else some (some N)

/-- `AVLmap::find` (avl.cpp, lines 291-307); `none` inside is `end_it`. -/
def AVLmap.find (m : AVLmap K V) (key : K) : Option (Option Nat) :=
  findLoop m.heap key m.heap.fuel m.pRoot

/-- Search loop of `AVLmap::insert` (avl.cpp, lines 521-538): the values of `N`
and `P` when the loop is left (`N` is the node holding the key, or `nullptr`). -/
def insertLoop (h : Heap K V) (key : K) : Nat → Option Nat → Option Nat →
    Option (Option Nat × Option Nat)
  | 0, _, _ => none
  | _ + 1, none, P => some (none, P)
  | fuel + 1, some N, _ => do
    let n ← h.get? N
    if key < n.key then insertLoop h key fuel n.left (some N)
    else if key > n.key then insertLoop h key fuel n.right (some N)
    else some (some N, some N)

/-- The linking of the new node (avl.cpp, lines 542-552): the heap and the
value of `pRoot` after it. -/
def linkNewNode (h : Heap K V) (pRoot P : Option Nat) (newNode : Nat) (key : K) :
    Option (Heap K V × Option Nat) :=
  match P with
  | none => some (h, some newNode)
  | some p => do
    let pn ← h.get? p
    if key < pn.key then do
      let h ← h.modify p (fun c => { c with left := some newNode })
      let h ← h.modify newNode (fun c => { c with parent := some p })
      some (h, pRoot)
    else do
      let h ← h.modify p (fun c => { c with right := some newNode })
      let h ← h.modify newNode (fun c => { c with parent := some p })
      some (h, pRoot)

/-- The statement `if (pRoot && pRoot->parent != nullptr) pRoot = pRoot->parent;`
(avl.cpp, lines 560-562): the value of `pRoot` after it. -/
def rebindRoot (h : Heap K V) (pRoot : Option Nat) : Option (Option Nat) :=
  match pRoot with
  | some r => do
    let rn ← h.get? r
    if rn.parent ≠ none then some rn.parent else some (some r)
  | none => some none

/-- `AVLmap::insert` (avl.cpp, lines 519-563). -/
def AVLmap.insert (m : AVLmap K V) (key : K) (value : V) : Option (AVLmap K V) := do
  let (N, P) ← insertLoop m.heap key m.heap.fuel m.pRoot none
  match N with
  | some N => do
    let h ← m.heap.modify N (fun c => { c with value := value })
    some { m with heap := h }
  | none => do
    let (h, newNode) := m.heap.alloc
      { key := key, value := value, parent := none, height := 0, balance := 0,
        left := none, right := none }
    let (h, root) ← linkNewNode h m.pRoot P newNode key
    let size := (m.size_ + 1) % 2 ^ 32
    let h ← updateBalanceAfterInsert h P
    let root ← rebindRoot h root
    some ⟨h, root, size⟩

end Ordered

/-- `AVLmap::begin` (avl.cpp, lines 600-606). -/
def AVLmap.begin (m : AVLmap K V) : Option (Option Nat) :=
  match m.pRoot with
  | some r => (Node.first m.heap r).map some
  | none => some AVLmap.end_it

/-- Case 1 of `erase` (avl.cpp, lines 667-680): the node `N`, whose cell is
`n`, has no children. -/
def eraseLeaf (m : AVLmap K V) (N : Nat) (n : Node K V) : Option (AVLmap K V) := do
  let h ← replaceChild m.heap n.parent N none
  let root := if n.parent ≠ none then m.pRoot else none
  let h ← h.free N
  some { m with heap := h, pRoot := root }

/-- Case 2 of `erase` (avl.cpp, lines 682-699): the node `N`, whose cell is
`n`, has one child. -/
def eraseOneChild (m : AVLmap K V) (N : Nat) (n : Node K V) : Option (AVLmap K V) := do
  let child := if n.left ≠ none then n.left else n.right
  let h ← replaceChild m.heap n.parent N child
  let root := if n.parent ≠ none then m.pRoot else child
  let n ← h.get? N
  let h ← setParent h child n.parent
  let h ← h.free N
  some { m with heap := h, pRoot := root }

/-- `AVLmap::erase` (avl.cpp, lines 659-709); the fuel bounds the depth of the
recursion of the two-children case. -/
def eraseAux : Nat → AVLmap K V → Option Nat → Option (AVLmap K V)
  | 0, _, _ => none
  | _ + 1, m, none => some m
  | fuel + 1, m, some N => do
    let n ← m.heap.get? N
    let m ←
      if n.left = none ∧ n.right = none then eraseLeaf m N n
      else if n.left = none ∨ n.right = none then eraseOneChild m N n
      else do
        let r ← n.right
        let successor ← Node.first m.heap r
        let sn ← m.heap.get? successor
        let h ← m.heap.modify N (fun c => { c with key := sn.key })
        let sn ← h.get? successor
        let h ← h.modify N (fun c => { c with value := sn.value })
        eraseAux fuel { m with heap := h } (some successor)
    some { m with size_ := (m.size_ + 2 ^ 32 - 1) % 2 ^ 32 }

/-- `AVLmap::erase` (avl.cpp, lines 659-709) on the cursor `it`. -/
def AVLmap.erase (m : AVLmap K V) (it : Option Nat) : Option (AVLmap K V) :=
  eraseAux m.heap.fuel m it

/-- Loop of `AVLmap::clear` (avl.cpp, lines 841-846). -/
def clearLoop : Nat → AVLmap K V → Option (AVLmap K V)
  | 0, _ => none
  | fuel + 1, m =>
    match m.pRoot with
    | none => some m
    | some _ => do
      let b ← m.begin
      let m ← m.erase b
      clearLoop fuel m

/-- `AVLmap::clear` (avl.cpp, lines 841-846). -/
def AVLmap.clear (m : AVLmap K V) : Option (AVLmap K V) := clearLoop m.heap.fuel m

/-- Sequencing in `Option` under a name of its own, for stepwise evaluation of
the operations in proofs. -/
def obind {α β : Type} (x : Option α) (f : α → Option β) : Option β := x.bind f

/-! ## The tree a heap represents -/

/-- A finite binary tree of cells: each node records the address it is stored
at, its key, value, cached `height` and cached `balance`. -/
inductive Tree (K V : Type) where
  | nil : Tree K V
  | node (a : Nat) (l : Tree K V) (k : K) (v : V) (ht bal : Int) (r : Tree K V) : Tree K V
deriving DecidableEq

/-- The pointer to the root of a tree (`nullptr` for the empty tree). -/
def Tree.ptr : Tree K V → Option Nat
  | .nil => none
  | .node a _ _ _ _ _ _ => some a

/-- The heap `h` stores the tree `t` below a node whose `parent` field is
`par`: every node is a live cell with the recorded contents, its child pointers
lead to the roots of its subtrees and the `parent` pointer of each child leads
back to it. -/
def Heap.Repr (h : Heap K V) : Option Nat → Tree K V → Prop
  | _, .nil => True
  | par, .node a l k v ht bal r =>
    h.get? a = some ⟨k, v, par, l.ptr, r.ptr, ht, bal⟩ ∧
      h.Repr (some a) l ∧ h.Repr (some a) r

/-- Decision procedure for `Heap.Repr`. -/
def Heap.decRepr [DecidableEq K] [DecidableEq V] (h : Heap K V) :
    (par : Option Nat) → (t : Tree K V) → Decidable (h.Repr par t)
  | _, .nil => isTrue trivial
  | par, .node a l k v ht bal r =>
    match decEq (h.get? a) (some ⟨k, v, par, l.ptr, r.ptr, ht, bal⟩),
      h.decRepr (some a) l, h.decRepr (some a) r with
    | isTrue h1, isTrue h2, isTrue h3 => isTrue ⟨h1, h2, h3⟩
    | isFalse h1, _, _ => isFalse (fun hh => h1 hh.1)
    | _, isFalse h2, _ => isFalse (fun hh => h2 hh.2.1)
    | _, _, isFalse h3 => isFalse (fun hh => h3 hh.2.2)

instance [DecidableEq K] [DecidableEq V] (h : Heap K V) (par : Option Nat) (t : Tree K V) :
    Decidable (h.Repr par t) := h.decRepr par t

/-- The tree of the map `m` is `t`: `pRoot` points to the root of `t`, the root
has no parent and the heap stores `t`. -/
def AVLmap.Represents (m : AVLmap K V) (t : Tree K V) : Prop :=
  m.pRoot = t.ptr ∧ m.heap.Repr none t

instance [DecidableEq K] [DecidableEq V] (m : AVLmap K V) (t : Tree K V) :
    Decidable (m.Represents t) := by
  unfold AVLmap.Represents; infer_instance

/-- Addresses of the nodes, in in-order. -/
def Tree.addrs : Tree K V → List Nat
  | .nil => []
  | .node a l _ _ _ _ r => l.addrs ++ a :: r.addrs

/-- The key/value pairs in ascending position (in-order traversal). -/
def Tree.toList : Tree K V → List (K × V)
  | .nil => []
  | .node _ l k v _ _ r => l.toList ++ (k, v) :: r.toList

/-- The keys in in-order. -/
def Tree.keys (t : Tree K V) : List K := t.toList.map Prod.fst

/-- Number of nodes reachable from the root. -/
def Tree.size : Tree K V → Nat
  | .nil => 0
  | .node _ l _ _ _ _ r => l.size + 1 + r.size

/-- Actual height of a subtree, `-1` for an absent child. -/
def Tree.height : Tree K V → Int
  | .nil => -1
  | .node _ l _ _ _ _ r => 1 + max l.height r.height

/-- Cached height of the root of a subtree, `-1` for an absent child. -/
def Tree.ht : Tree K V → Int
  | .nil => -1
  | .node _ _ _ _ ht _ _ => ht

/-- AVL balance on actual heights: `|height(N.left) - height(N.right)| ≤ 1` at
every node `N`. -/
def Tree.Balanced : Tree K V → Prop
  | .nil => True
  | .node _ l _ _ _ _ r => |l.height - r.height| ≤ 1 ∧ l.Balanced ∧ r.Balanced

instance : (t : Tree K V) → Decidable t.Balanced
  | .nil => isTrue trivial
  | .node _ l _ _ _ _ r =>
    have : Decidable l.Balanced := instDecidableBalanced l
    have : Decidable r.Balanced := instDecidableBalanced r
    by unfold Tree.Balanced; infer_instance

/-- Cached-height consistency: every cached `height` is `1 + max` of the cached
heights of the children (`-1` for an absent child). -/
def Tree.HeightOK : Tree K V → Prop
  | .nil => True
  | .node _ l _ _ ht _ r => ht = 1 + max l.ht r.ht ∧ l.HeightOK ∧ r.HeightOK

/-- Every key of the tree satisfies `p`. -/
def Tree.All (p : K → Prop) : Tree K V → Prop
  | .nil => True
  | .node _ l k _ _ _ r => p k ∧ l.All p ∧ r.All p

/-- BST ordering: at every node the keys of the left subtree are strictly
smaller and the keys of the right subtree strictly greater than the key of the
node. -/
def Tree.BST [LinearOrder K] : Tree K V → Prop
  | .nil => True
  | .node _ l k _ _ _ r => l.All (fun x => x < k) ∧ r.All (fun x => k < x) ∧ l.BST ∧ r.BST

/-! ## The operations on represented trees -/

/-- What `leftRotate` does to the subtree below `y`: the right child becomes
the root (`none`: no right child, the rotation returns `nullptr`). -/
def Tree.rotL : Tree K V → Option (Tree K V)
  | .node y l k v _ bal (.node s sl sk sv _ sbal sr) =>
    some (.node s (.node y l k v (1 + max l.ht sl.ht) bal sl) sk sv
      (1 + max (1 + max l.ht sl.ht) sr.ht) sbal sr)
  | _ => none

/-- What `rightRotate` does to the subtree below `y`: the left child becomes
the root (`none`: no left child, the rotation returns `nullptr`). -/
def Tree.rotR : Tree K V → Option (Tree K V)
  | .node y (.node s sl sk sv _ sbal sr) k v _ bal r =>
    some (.node s sl sk sv (1 + max sl.ht (1 + max sr.ht r.ht)) sbal
      (.node y sr k v (1 + max sr.ht r.ht) bal r))
  | _ => none

/-- Cached balance of the root of a subtree (`0` for the empty tree, unused). -/
def Tree.bal : Tree K V → Int
  | .nil => 0
  | .node _ _ _ _ _ bal _ => bal

/-- What one round of the loop of `updateBalanceAfterInsert` does to the
subtree below the visited node, and whether the variable `node` is non-null
after it. -/
def Tree.rebalance : Tree K V → Tree K V × Bool
  | .nil => (.nil, false)
  | .node a l k v _ _ r =>
    let b := l.ht - r.ht
    let ht := 1 + max l.ht r.ht
    if b > 1 then
      let l' := if l.ptr ≠ none ∧ l.bal < 0 then (l.rotL).getD .nil else l
      match (Tree.node a l' k v ht b r).rotR with
      | some t => (t, true)
      | none => (.node a l' k v ht b r, false)
    else if b < -1 then
      let r' := if r.ptr ≠ none ∧ r.bal > 0 then (r.rotR).getD .nil else r
      match (Tree.node a l k v ht b r').rotL with
      | some t => (t, true)
      | none => (.node a l k v ht b r', false)
    else (.node a l k v ht b r, true)

/-- An ancestor of a position in a tree: the node (address, key, value, cached
height and balance) together with its other subtree. -/
inductive Frame (K V : Type) where
  | left (a : Nat) (k : K) (v : V) (ht bal : Int) (r : Tree K V) : Frame K V
  | right (a : Nat) (l : Tree K V) (k : K) (v : V) (ht bal : Int) : Frame K V

/-- Address of the node of a frame. -/
def Frame.addr : Frame K V → Nat
  | .left a _ _ _ _ _ => a
  | .right a _ _ _ _ _ => a

/-- The node of a frame with the subtree `t` put in the open position. -/
def Frame.fill : Frame K V → Tree K V → Tree K V
  | .left a k v ht bal r, t => .node a t k v ht bal r
  | .right a l k v ht bal, t => .node a l k v ht bal t

/-- A subtree below its parent, if it has one. -/
def fillO : Option (Frame K V) → Tree K V → Tree K V
  | none, t => t
  | some f, t => f.fill t

/-- The tree obtained by putting `t` below the ancestors `fs` (nearest first). -/
def plug : List (Frame K V) → Tree K V → Tree K V
  | [], t => t
  | f :: fs, t => plug fs (f.fill t)

/-- Addresses that precede the open position, in in-order. -/
def ctxAddrsL : List (Frame K V) → List Nat
  | [] => []
  | .left _ _ _ _ _ _ :: fs => ctxAddrsL fs
  | .right a l _ _ _ _ :: fs => ctxAddrsL fs ++ (l.addrs ++ [a])

/-- Addresses that follow the open position, in in-order. -/
def ctxAddrsR : List (Frame K V) → List Nat
  | [] => []
  | .left a _ _ _ _ r :: fs => a :: r.addrs ++ ctxAddrsR fs
  | .right _ _ _ _ _ _ :: fs => ctxAddrsR fs

/-- Key/value pairs that precede the open position, in in-order. -/
def ctxListL : List (Frame K V) → List (K × V)
  | [] => []
  | .left _ _ _ _ _ _ :: fs => ctxListL fs
  | .right _ l k v _ _ :: fs => ctxListL fs ++ (l.toList ++ [(k, v)])

/-- Key/value pairs that follow the open position, in in-order. -/
def ctxListR : List (Frame K V) → List (K × V)
  | [] => []
  | .left _ k v _ _ r :: fs => (k, v) :: r.toList ++ ctxListR fs
  | .right _ _ _ _ _ _ :: fs => ctxListR fs

/-- The `parent` pointer of a subtree placed below the ancestors `fs`. -/
def ctxParent : List (Frame K V) → Option Nat
  | [] => none
  | f :: _ => some f.addr

/-- What the loop of `updateBalanceAfterInsert` does, started at the root of
the subtree `s` that lies below the ancestors `fs`: the tree of the map at the
end of the walk. -/
def walkUp : List (Frame K V) → Tree K V → Tree K V
  | [], s => s.rebalance.1
  | f :: fs, s =>
    if s.rebalance.2 then walkUp fs (f.fill s.rebalance.1)
    else plug fs (f.fill s.rebalance.1)

/-- What `updateBalanceAfterInsertLoop` has to do for a subtree below the
ancestors `fs`: with enough fuel it ends, and the heap then stores the tree
`walkUp fs s`, no cell outside the tree being touched. -/
def WalkSpec (fs : List (Frame K V)) : Prop :=
  ∀ {s : Tree K V} {a : Nat} {h : Heap K V} {n : Nat}, s.ptr = some a →
    h.Repr none (plug fs s) → (plug fs s).addrs.Nodup → fs.length + 2 ≤ n →
    ∃ h', updateBalanceAfterInsertLoop n h (some a) = some h' ∧
      h'.Repr none (walkUp fs s) ∧
      ∀ x, x ∉ (plug fs s).addrs → h'.get? x = h.get? x

/-- The search loop shared by `find` and `insert`, on the represented tree:
the ancestors passed (pushed on `fs`) and the subtree at which the loop stops
(the node holding `key`, or the empty position where `key` belongs). -/
def Tree.descend [LinearOrder K] (key : K) :
    Tree K V → List (Frame K V) → List (Frame K V) × Tree K V
  | .nil, fs => (fs, .nil)
  | .node a l k v ht bal r, fs =>
    if key < k then l.descend key (.left a k v ht bal r :: fs)
    else if key > k then r.descend key (.right a l k v ht bal :: fs)
    else (fs, .node a l k v ht bal r)

/-- The search passed the frame in the direction of `key`: to the left of a
greater key, to the right of a smaller one. -/
def Frame.Dir [LinearOrder K] (key : K) : Frame K V → Prop
  | .left _ k _ _ _ _ => key < k
  | .right _ _ k _ _ _ => k < key

/-- The address of the root of `plug fs s`, for a subtree `s` rooted at `a`. -/
def rootAddr : List (Frame K V) → Nat → Nat
  | [], a => a
  | f :: fs, _ => rootAddr fs f.addr

/-- The node at address `a` is the root of `t` or a child of its root. -/
def Tree.RootOrChild (a : Nat) : Tree K V → Prop
  | .nil => False
  | .node b l _ _ _ _ r => b = a ∨ l.ptr = some a ∨ r.ptr = some a

/-- The tree with `value` stored at the node holding `key`. -/
def Tree.setValue [DecidableEq K] (key : K) (value : V) : Tree K V → Tree K V
  | .nil => .nil
  | .node a l k v ht bal r =>
    .node a (l.setValue key value) k (if k = key then value else v) ht bal
      (r.setValue key value)

/-- What `insert(key, value)` does to the represented tree; `n` is the address
of the node allocated when the key is new. -/
def Tree.insertAt [LinearOrder K] (t : Tree K V) (key : K) (value : V) (n : Nat) : Tree K V :=
  match t.descend key [] with
  | (fs, .node a l k _ ht bal r) => plug fs (.node a l k value ht bal r)
  | ([], .nil) => .node n .nil key value 0 0 .nil
  | (fr :: fs, .nil) => walkUp fs (fr.fill (.node n .nil key value 0 0 .nil))

/-! ## Sequences of calls -/

/-- A call of the public interface by a client; `erase k` stands for
`m.erase(m.find(k))`. -/
inductive Call (K V : Type) where
  | insert (k : K) (v : V)
  | erase (k : K)
  | clear

/-- Perform one call. -/
def AVLmap.call [LinearOrder K] (m : AVLmap K V) : Call K V → Option (AVLmap K V)
  | .insert k v => m.insert k v
  | .erase k => do
    let it ← m.find k
    m.erase it
  | .clear => m.clear

/-- Perform a sequence of calls, from left to right. -/
def AVLmap.run [LinearOrder K] (m : AVLmap K V) : List (Call K V) → Option (AVLmap K V)
  | [] => some m
  | c :: cs => do
    let m ← m.call c
    m.run cs

end CS280

namespace CS280
variable {K V : Type}

/-- The descent of `Node::first` on the represented tree: the ancestors passed
(pushed on `fs`) and the subtree of the leftmost node. -/
def Tree.minPath : Tree K V → List (Frame K V) → List (Frame K V) × Tree K V
  | .nil, fs => (fs, .nil)
  | .node a .nil k v ht bal r, fs => (fs, .node a .nil k v ht bal r)
  | .node a (.node b bl bk bv bht bbal br) k v ht bal r, fs =>
    (Tree.node b bl bk bv bht bbal br).minPath (.left a k v ht bal r :: fs)

/-- The right subtree of a node (`nil` for the empty tree). -/
def Tree.right : Tree K V → Tree K V
  | .nil => .nil
  | .node _ _ _ _ _ _ r => r

/-- What `erase` does to the subtree below the erased node: a node with at most
one child is replaced by that child; a node with two children takes the key and
value of the leftmost node of its right subtree, which is replaced by its right
child.  Cached heights and balances are left as they are. -/
def Tree.eraseRoot : Tree K V → Tree K V
  | .nil => .nil
  | .node a l k v ht bal r =>
    if l.ptr = none ∨ r.ptr = none then (if l.ptr ≠ none then l else r)
    else
      match (r.minPath []).2 with
      | .node _ _ k' v' _ _ r' => .node a l k' v' ht bal (plug (r.minPath []).1 r')
      | .nil => .node a l k v ht bal r

/-- AVL balance together with cached-height consistency, stated on the cached
heights: at every node the cached height is one more than the greater cached
height of the children, and the cached heights of the children differ by at
most one. -/
def Tree.AVL : Tree K V → Prop
  | .nil => True
  | .node _ l _ _ ht _ r =>
    ht = 1 + max l.ht r.ht ∧ -1 ≤ l.ht - r.ht ∧ l.ht - r.ht ≤ 1 ∧ l.AVL ∧ r.AVL

/-- The shape of a subtree that became higher by the insertion below it: the
cached balance of its root is up to date and not zero, or the root is a leaf. -/
def Tree.Grown : Tree K V → Prop
  | .nil => False
  | .node _ l _ _ _ bal r => bal = l.ht - r.ht ∧ (bal ≠ 0 ∨ (l = .nil ∧ r = .nil))

/-- The state of a subtree on the path of the post-insert walk, where the
subtree had height `H` before the insertion: it is an AVL tree again and has
kept its height, or has become higher by one and has the shape `Grown`. -/
def Tree.Res (t : Tree K V) (H : Int) : Prop :=
  t.AVL ∧ t ≠ .nil ∧ (t.ht = H ∨ (t.ht = H + 1 ∧ t.Grown))

/-- The ancestors `fs` of a position whose subtree has height `H`, in an AVL
tree: the sibling subtrees are AVL trees and differ in height by at most one
from the subtree on the path. -/
def CtxOK : List (Frame K V) → Int → Prop
  | [], _ => True
  | .left _ _ _ _ _ r :: fs, H =>
    r.AVL ∧ -1 ≤ H - r.ht ∧ H - r.ht ≤ 1 ∧ CtxOK fs (1 + max H r.ht)
  | .right _ l _ _ _ _ :: fs, H =>
    l.AVL ∧ -1 ≤ l.ht - H ∧ l.ht - H ≤ 1 ∧ CtxOK fs (1 + max l.ht H)

/-- The tree of `singleMap`. -/
def singleTree : Tree Nat Nat := .node 0 .nil 1 10 0 0 .nil

/-- The map after `insert(1, 10)` on the empty map. -/
def singleMap : AVLmap Nat Nat := ⟨⟨[some ⟨1, 10, none, none, none, 0, 0⟩]⟩, some 0, 1⟩

/-- The tree of `threeMap`: the node with key 2 (at address 1) has two
children. -/
def threeTree : Tree Nat Nat :=
  .node 1 (.node 0 .nil 1 10 0 (-2) .nil) 2 20 1 (-1) (.node 2 .nil 3 30 0 0 .nil)

/-- The map after `insert(1, 10)`, `insert(2, 20)`, `insert(3, 30)` on the
empty map. -/
def threeMap : AVLmap Nat Nat :=
  ⟨⟨[some ⟨1, 10, some 1, none, none, 0, -2⟩, some ⟨2, 20, none, some 0, some 2, 1, -1⟩,
    some ⟨3, 30, some 1, none, none, 0, 0⟩]⟩, some 1, 3⟩

section Ordered
variable [LinearOrder K]

/-- The states of a map that calls of `insert`, `erase` and `clear` lead to from
the empty map: each step is one call that returns.  The cursor passed to `erase`
is any pointer on which the call returns; a call that dereferences a null or
deleted cell, or whose loop does not end, returns `none` and leads to no state. -/
inductive Reachable : AVLmap K V → Prop
  | empty : Reachable AVLmap.empty
  | insert {m m' : AVLmap K V} (k : K) (v : V) :
      Reachable m → m.insert k v = some m' → Reachable m'
  | erase {m m' : AVLmap K V} (it : Option Nat) :
      Reachable m → m.erase it = some m' → Reachable m'
  | clear {m m' : AVLmap K V} : Reachable m → m.clear = some m' → Reachable m'

end Ordered

end CS280

namespace CS280
variable {K V : Type}

/-! ## Iteration, `operator[]`, copy and move -/

/-- One test of the loop of `Node::increment` (avl.cpp, line 93):
`(N->parent) && (N == N->parent->right)` continues the climb at the parent,
otherwise the loop ends at `N`. -/
def climbStep (h : Heap K V) (next : Nat → Option Nat) (N : Nat) (parent : Option Nat) :
    Option Nat :=
  match parent with
  | none => some N
  | some p => do
    let pn ← h.get? p
    if pn.right = some N then next p else some N

/-- Loop of `Node::increment` (avl.cpp, lines 93-96): the value of `N` when the
loop is left. -/
def incrementLoop (h : Heap K V) : Nat → Nat → Option Nat
  | 0, _ => none
  | fuel + 1, N => do
    let n ← h.get? N
    climbStep h (incrementLoop h fuel) N n.parent

/-- `Node::increment` (avl.cpp, lines 85-100) called on the node at address
`N`; the inner `none` is `nullptr`. -/
def Node.increment (h : Heap K V) (N : Nat) : Option (Option Nat) := do
  let n ← h.get? N
  match n.right with
  | some r => do
    let f ← Node.first h r
    some (some f)
  | none => do
    let N' ← incrementLoop h h.fuel N
    let n' ← h.get? N'
    some n'.parent

/-- The loop `for (it = begin(); it != end(); ++it)` of a client, where
`operator++` (avl.cpp, lines 240-244) sets `p_node = p_node->increment()`: the
nodes visited, in the order of the visits. -/
def traverseLoop (h : Heap K V) : Nat → Option Nat → Option (List Nat)
  | 0, _ => none
  | _ + 1, none => some []
  | fuel + 1, some N => do
    let nx ← Node.increment h N
    let rest ← traverseLoop h fuel nx
    some (N :: rest)

/-- The nodes visited by the traversal from `begin()` to `end()`. -/
def AVLmap.traverse (m : AVLmap K V) : Option (List Nat) := do
  let b ← m.begin
  traverseLoop m.heap m.heap.fuel b

/-- The key read at a node (`it->Key()`). -/
def Heap.keyAt (h : Heap K V) (a : Nat) : Option K := (h.get? a).map (fun c => c.key)

/-- The keys read during the traversal from `begin()` to `end()`. -/
def AVLmap.traverseKeys (m : AVLmap K V) : Option (List K) := do
  let ns ← m.traverse
  ns.mapM m.heap.keyAt

/-- The private fields of a second `AVLmap` object whose nodes live in the same
heap (avl.h, lines 118-119). -/
structure Obj where
  pRoot : Option Nat
  size_ : Nat
deriving DecidableEq

/-- The statement `if (dest->left) delete dest->left;` of `copyTree` (avl.cpp,
lines 469-470), for the pointer read from the field. -/
def freeChild (h : Heap K V) (p : Option Nat) : Option (Heap K V) :=
  match p with
  | some a => h.free a
  | none => some h

/-- The statement `if (src->left) { dest->left = new Node(...);
copyTree(dest->left, src->left); }` of `copyTree` (avl.cpp, lines 475-479);
`next` is the recursive call. -/
def copyLeft (next : Heap K V → Nat → Option Nat → Option (Heap K V)) (h : Heap K V)
    (dest src : Nat) : Option (Heap K V) := do
  let s ← h.get? src
  match s.left with
  | none => some h
  | some sl => do
    let sln ← h.get? sl
    let (h, n) := h.alloc ⟨sln.key, sln.value, some dest, none, none, 1, 0⟩
    let h ← h.modify dest (fun d => { d with left := some n })
    let d ← h.get? dest
    let s ← h.get? src
    let dl ← d.left
    next h dl s.left

/-- The statement `if (src->right) { dest->right = new Node(...);
copyTree(dest->right, src->right); }` of `copyTree` (avl.cpp, lines 480-484). -/
def copyRight (next : Heap K V → Nat → Option Nat → Option (Heap K V)) (h : Heap K V)
    (dest src : Nat) : Option (Heap K V) := do
  let s ← h.get? src
  match s.right with
  | none => some h
  | some sr => do
    let srn ← h.get? sr
    let (h, n) := h.alloc ⟨srn.key, srn.value, some dest, none, none, 1, 0⟩
    let h ← h.modify dest (fun d => { d with right := some n })
    let d ← h.get? dest
    let s ← h.get? src
    let dr ← d.right
    next h dr s.right

/-- The first statements of `copyTree` (avl.cpp, lines 469-474): the children
of `dest` are deleted, key and value are copied from `src`. -/
def copyFields (h : Heap K V) (dest src : Nat) : Option (Heap K V) := do
  let d ← h.get? dest
  let h ← freeChild h d.left
  let d ← h.get? dest
  let h ← freeChild h d.right
  let s ← h.get? src
  let h ← h.modify dest (fun c => { c with key := s.key })
  let s ← h.get? src
  h.modify dest (fun c => { c with value := s.value })

/-- The last statements of `copyTree` (avl.cpp, lines 487-489):
`dest->balance = dest->getBalanceFactor(); dest->height = dest->getHeight();`. -/
def refreshCached (h : Heap K V) (dest : Nat) : Option (Heap K V) := do
  let b ← Node.getBalanceFactor h dest
  let h ← h.modify dest (fun c => { c with balance := b })
  let ht ← Node.getHeight h dest
  h.modify dest (fun c => { c with height := ht })

/-- `AVLmap::copyTree` (avl.cpp, lines 465-490); the fuel bounds the depth of
the recursion. -/
def copyTree : Nat → Heap K V → Nat → Option Nat → Option (Heap K V)
  | 0, _, _, _ => none
  | _ + 1, h, _, none => some h
  | fuel + 1, h, dest, some src => do
    let h ← copyFields h dest src
    let h ← copyLeft (copyTree fuel) h dest src
    let h ← copyRight (copyTree fuel) h dest src
    refreshCached h dest

/-- The copy constructor (avl.cpp, lines 394-412) for the source `rhs`: the new
object, in the heap that now holds the nodes of both maps.  The fields of `rhs`
are not assigned. -/
def AVLmap.copyConstruct (rhs : AVLmap K V) : Option (AVLmap K V) :=
  match rhs.pRoot with
  | some r => do
    let rn ← rhs.heap.get? r
    let (h, n) := rhs.heap.alloc ⟨rn.key, rn.value, none, none, none, 0, 0⟩
    let h ← copyTree h.fuel h n rhs.pRoot
    some ⟨h, some n, rhs.size_⟩
  | none => some ⟨rhs.heap, none, rhs.size_⟩

/-- The body of copy assignment after `clear()` (avl.cpp, lines 424-440), `m`
being the target after `clear()`. -/
def copyInto (m : AVLmap K V) (rhs : Obj) : Option (AVLmap K V) :=
  match rhs.pRoot with
  | some r => do
    let rn ← m.heap.get? r
    let (h, n) := m.heap.alloc ⟨rn.key, rn.value, none, none, none, rn.height, rn.balance⟩
    let h ← copyTree h.fuel h n rhs.pRoot
    some ⟨h, some n, rhs.size_⟩
  | none => some ⟨m.heap, m.pRoot, rhs.size_⟩

/-- Copy assignment `operator=(const AVLmap&)` (avl.cpp, lines 417-444) on the
target `this`; `self` is the outcome of the test `this != &rhs` being false.
The fields of `rhs` are not assigned. -/
def AVLmap.copyAssign (this : AVLmap K V) (rhs : Obj) (self : Bool) : Option (AVLmap K V) :=
  if self then some this
  else do
    let m ← this.clear
    copyInto m rhs

/-- The move constructor (avl.cpp, lines 898-903): the new object and the
fields of `other` afterwards. -/
def AVLmap.moveConstruct (other : AVLmap K V) : AVLmap K V × Obj :=
  (⟨other.heap, other.pRoot, other.size_⟩, ⟨none, 0⟩)

/-- Move assignment `operator=(AVLmap&&)` (avl.cpp, lines 908-918) on the
target `this`: the target and the fields of `other` afterwards; `self` is the
outcome of the test `this != &other` being false. -/
def AVLmap.moveAssign (this : AVLmap K V) (other : Obj) (self : Bool) :
    Option (AVLmap K V × Obj) :=
  if self then some (this, other)
  else do
    let m ← this.clear
    some (⟨m.heap, other.pRoot, other.size_⟩, ⟨none, 0⟩)

/-- The fields of a map object. -/
def AVLmap.obj (m : AVLmap K V) : Obj := ⟨m.pRoot, m.size_⟩

section Ordered
variable [LinearOrder K]

end Ordered

/-! ## Notions used in the statements -/

/-- The address that follows the open position in in-order, if there is one:
the nearest ancestor of which the position is in the left subtree. -/
def ctxNext : List (Frame K V) → Option Nat
  | [] => none
  | .left a _ _ _ _ _ :: _ => some a
  | .right _ _ _ _ _ _ :: fs => ctxNext fs

/-- Two trees have the same shape and hold the same key and value at every
position (addresses, cached heights and balances may differ). -/
def Tree.SameShape : Tree K V → Tree K V → Prop
  | .nil, .nil => True
  | .node _ l k v _ _ r, .node _ l' k' v' _ _ r' =>
    k = k' ∧ v = v' ∧ l.SameShape l' ∧ r.SameShape r'
  | _, _ => False

/-- The cached balance of every node is the difference of the cached heights of
its children, and the cached height one more than the greater of them. -/
def Tree.Cached : Tree K V → Prop
  | .nil => True
  | .node _ l _ _ ht bal r =>
    ht = 1 + max l.ht r.ht ∧ bal = l.ht - r.ht ∧ l.Cached ∧ r.Cached

/-- The tree has root key `b`, a left child with key `a` and a right child with
key `c`, both children being leaves; `va`, `vb`, `vc` are the values stored with
the keys. -/
def Tree.IsTriple (t : Tree K V) (a : K) (va : V) (b : K) (vb : V) (c : K) (vc : V) : Prop :=
  ∃ r x y h1 b1 h2 b2 h3 b3,
    t = .node r (.node x .nil a va h1 b1 .nil) b vb h2 b2 (.node y .nil c vc h3 b3 .nil)

/-- The tree stored by `rotLeftHeap`: the root has a right child only. -/
def rotLeftTree : Tree Nat Nat := .node 0 .nil 1 10 1 (-1) (.node 1 .nil 2 20 0 0 .nil)

/-- A heap with two nodes, the second the right child of the first. -/
def rotLeftHeap : Heap Nat Nat :=
  ⟨[some ⟨1, 10, none, none, some 1, 1, -1⟩, some ⟨2, 20, some 0, none, none, 0, 0⟩]⟩

/-- The tree stored by `rotRightHeap`: the root has a left child only. -/
def rotRightTree : Tree Nat Nat := .node 0 (.node 1 .nil 2 20 0 0 .nil) 1 10 1 (-1) .nil

/-- A heap with two nodes, the second the left child of the first. -/
def rotRightHeap : Heap Nat Nat :=
  ⟨[some ⟨1, 10, none, some 1, none, 1, -1⟩, some ⟨2, 20, some 0, none, none, 0, 0⟩]⟩

/-- A heap that holds the nodes of two maps: the node of key 1 at address 0 and
the node of key 5 at address 1, each the root of a tree of its own. -/
def twoHeap : Heap Nat Nat :=
  ⟨[some ⟨1, 10, none, none, none, 0, 0⟩, some ⟨5, 50, none, none, none, 0, 0⟩]⟩

/-- The map in `twoHeap` whose tree is `singleTree` (key 1). -/
def twoSrc : AVLmap Nat Nat := ⟨twoHeap, some 0, 1⟩

/-- The fields of the second map in `twoHeap`, whose tree is `twoTgtTree`. -/
def twoTgt : Obj := ⟨some 1, 1⟩

/-- The tree of the second map in `twoHeap` (key 5). -/
def twoTgtTree : Tree Nat Nat := .node 1 .nil 5 50 0 0 .nil

/-- What `copyTree` with recursion depth at most `n` does for the nonempty
source subtree `t`, copied into the node `d` that has no children yet: the heap
then stores at `d` a tree of the same shape with the same keys and values and
with fresh cached fields, built from `d` and newly allocated cells; no other
cell is touched. -/
def CopySpec (t : Tree K V) (n : Nat) : Prop :=
  ∀ (h : Heap K V) (par : Option Nat) (d : Nat) (dc : Node K V), h.Repr par t → t ≠ .nil →
    h.get? d = some dc → dc.left = none → dc.right = none → d ∉ t.addrs →
    ∃ h' t', copyTree n h d t.ptr = some h' ∧ h'.Repr dc.parent t' ∧ t'.ptr = some d ∧
      t.SameShape t' ∧ t'.Cached ∧ t'.addrs.Nodup ∧ h.cells.length ≤ h'.cells.length ∧
      (∀ x, x < h.cells.length → x ≠ d → h'.get? x = h.get? x) ∧
      (∀ x ∈ t'.addrs, x ≠ d → h.cells.length ≤ x)

end CS280

namespace CS280
variable {K V : Type}

/-! ## The post-delete walk, the record of the post-insert walk, `decrement` -/

/-- The statement `if (node->right && node->right->getBalanceFactor() < 0)
rightRotate(node->right);` of `updateBalanceAfterDelete` (avl.cpp, lines
721-724); the pointer returned by the rotation is not used. -/
def deleteRotateRightChild (h : Heap K V) (right : Option Nat) : Option (Heap K V) :=
  match right with
  | some r => do
    let b ← Node.getBalanceFactor h r
    if b < 0 then do
      let (h, _) ← rightRotate h (some r)
      some h
    else some h
  | none => some h

/-- The statement `if (node->left && node->left->getBalanceFactor() > 0)
leftRotate(node->left);` of `updateBalanceAfterDelete` (avl.cpp, lines
729-732). -/
def deleteRotateLeftChild (h : Heap K V) (left : Option Nat) : Option (Heap K V) :=
  match left with
  | some l => do
    let b ← Node.getBalanceFactor h l
    if b > 0 then do
      let (h, _) ← leftRotate h (some l)
      some h
    else some h
  | none => some h

/-- Body of the loop of `AVLmap::updateBalanceAfterDelete` up to the rotations
(avl.cpp, lines 717-735), run on the node at address `node`. -/
def deleteStepAt (h : Heap K V) (node : Nat) : Option (Heap K V) := do
  let b ← Node.getBalanceFactor h node
  let h ← h.modify node (fun c => { c with balance := b })
  let ht ← Node.getHeight h node
  let h ← h.modify node (fun c => { c with height := ht })
  let n ← h.get? node
  if n.balance > 1 then do
    let h ← deleteRotateRightChild h n.right
    let (h, _) ← leftRotate h (some node)
    some h
  else if n.balance < -1 then do
    let h ← deleteRotateLeftChild h n.left
    let (h, _) ← rightRotate h (some node)
    some h
  else some h

/-- Loop of `AVLmap::updateBalanceAfterDelete` (avl.cpp, lines 714-739). -/
def updateBalanceAfterDeleteLoop : Nat → Heap K V → Option Nat → Option (Heap K V)
  | 0, _, _ => none
  | _ + 1, h, none => some h
  | fuel + 1, h, some node => do
    let h ← deleteStepAt h node
    let n ← h.get? node
    updateBalanceAfterDeleteLoop fuel h n.parent

/-- `AVLmap::updateBalanceAfterDelete` (avl.cpp, lines 714-739). -/
def updateBalanceAfterDelete (h : Heap K V) (node : Option Nat) : Option (Heap K V) :=
  updateBalanceAfterDeleteLoop h.fuel h node

/-- The step that the post-delete walk is specified to take at a visited node:
the decision rule of the post-insert walk (`rebalanceAt`), that is, a right
rotation of a left-heavy node, after a left rotation of its left child when
the balance of that child is negative, and the mirror image for a right-heavy
node. -/
def deleteStepSpec (h : Heap K V) (node : Nat) : Option (Heap K V) :=
  (rebalanceAt h node).map Prod.fst

/-- A call of a rotation made by the post-insert walk: whether it is
`leftRotate` (otherwise `rightRotate`), the node passed and the pointer
returned. -/
structure RotCall where
  isLeft : Bool
  arg : Nat
  ret : Option Nat
deriving DecidableEq

/-- One round of the post-insert walk: the node visited, whose cached balance
and height are assigned, and the calls of rotations made in the round. -/
structure Visit where
  node : Nat
  calls : List RotCall
deriving DecidableEq

/-- The statement `rotateLeftChild` (avl.cpp, lines 577-579) together with the
record of the call it makes. -/
def rotateLeftChildLog (h : Heap K V) (node : Nat) (left : Option Nat) :
    Option (Heap K V × List RotCall) :=
  match left with
  | some l => do
    let ln ← h.get? l
    if ln.balance < 0 then do
      let (h, r) ← leftRotate h (some l)
      let h ← h.modify node (fun c => { c with left := r })
      some (h, [⟨true, l, r⟩])
    else some (h, [])
  | none => some (h, [])

/-- The statement `rotateRightChild` (avl.cpp, lines 585-587) together with the
record of the call it makes. -/
def rotateRightChildLog (h : Heap K V) (node : Nat) (right : Option Nat) :
    Option (Heap K V × List RotCall) :=
  match right with
  | some r => do
    let rn ← h.get? r
    if rn.balance > 0 then do
      let (h, l) ← rightRotate h (some r)
      let h ← h.modify node (fun c => { c with right := l })
      some (h, [⟨false, r, l⟩])
    else some (h, [])
  | none => some (h, [])

/-- The round `rebalanceAt` of the post-insert walk (avl.cpp, lines 571-589)
together with the record of the calls of rotations made in it. -/
def rebalanceAtLog (h : Heap K V) (node : Nat) :
    Option (Heap K V × Option Nat × List RotCall) := do
  let h ← refreshCached h node
  let n ← h.get? node
  if n.balance > 1 then do
    let (h, c) ← rotateLeftChildLog h node n.left
    let (h, r) ← rightRotate h (some node)
    some (h, r, c ++ [⟨false, node, r⟩])
  else if n.balance < -1 then do
    let (h, c) ← rotateRightChildLog h node n.right
    let (h, r) ← leftRotate h (some node)
    some (h, r, c ++ [⟨true, node, r⟩])
  else some (h, some node, [])

/-- The loop of `updateBalanceAfterInsert` (avl.cpp, lines 568-595) together
with the record of its rounds, in the order in which they are run. -/
def walkLog : Nat → Heap K V → Option Nat → Option (Heap K V × List Visit)
  | 0, _, _ => none
  | _ + 1, h, none => some (h, [])
  | fuel + 1, h, some node => do
    let (h, node', calls) ← rebalanceAtLog h node
    match node' with
    | some nd => do
      let n ← h.get? nd
      let (h, rest) ← walkLog fuel h n.parent
      some (h, ⟨node, calls⟩ :: rest)
    | none => do
      let (h, rest) ← walkLog fuel h none
      some (h, ⟨node, calls⟩ :: rest)

/-- The number of rounds of a record in which a rotation was called. -/
def rotations (log : List Visit) : Nat := (log.filter (fun v => !v.calls.isEmpty)).length

section Ordered
variable [LinearOrder K]

/-- `AVLmap::insert` (avl.cpp, lines 519-563) together with the record of the
rounds of the walk `updateBalanceAfterInsert(P)` it runs (no round when the key
is present, where `insert` returns before the walk). -/
def AVLmap.insertLog (m : AVLmap K V) (key : K) (value : V) :
    Option (AVLmap K V × List Visit) := do
  let (N, P) ← insertLoop m.heap key m.heap.fuel m.pRoot none
  match N with
  | some N => do
    let h ← m.heap.modify N (fun c => { c with value := value })
    some ({ m with heap := h }, [])
  | none => do
    let (h, newNode) := m.heap.alloc
      { key := key, value := value, parent := none, height := 0, balance := 0,
        left := none, right := none }
    let (h, root) ← linkNewNode h m.pRoot P newNode key
    let size := (m.size_ + 1) % 2 ^ 32
    let (h, log) ← walkLog h.fuel h P
    let root ← rebindRoot h root
    some (⟨h, root, size⟩, log)

end Ordered

/-- Loop of `Node::last` (avl.cpp, lines 71-80). -/
def lastLoop (h : Heap K V) : Nat → Nat → Option Nat
  | 0, _ => none
  | fuel + 1, N => do
    let n ← h.get? N
    match n.right with
    | some r => lastLoop h fuel r
    | none => some N

/-- `Node::last` called on the node at address `N`. -/
def Node.last (h : Heap K V) (N : Nat) : Option Nat := lastLoop h h.fuel N

/-- One test of the loop of `Node::decrement` (avl.cpp, line 114):
`N->parent && N == N->parent->left` continues the climb at the parent,
otherwise the loop ends at `N`. -/
def climbStepLeft (h : Heap K V) (next : Nat → Option Nat) (N : Nat) (parent : Option Nat) :
    Option Nat :=
  match parent with
  | none => some N
  | some p => do
    let pn ← h.get? p
    if pn.left = some N then next p else some N

/-- Loop of `Node::decrement` (avl.cpp, lines 114-116): the value of `N` when
the loop is left. -/
def decrementLoop (h : Heap K V) : Nat → Nat → Option Nat
  | 0, _ => none
  | fuel + 1, N => do
    let n ← h.get? N
    climbStepLeft h (decrementLoop h fuel) N n.parent

/-- `Node::decrement` (avl.cpp, lines 105-119) called on the node at address
`N`; the inner `none` is `nullptr`. -/
def Node.decrement (h : Heap K V) (N : Nat) : Option (Option Nat) := do
  let n ← h.get? N
  match n.left with
  | some l => do
    let f ← Node.last h l
    some (some f)
  | none => do
    let N' ← decrementLoop h h.fuel N
    let n' ← h.get? N'
    some n'.parent

/-! ## Notions used in the statements and proofs -/

/-- The cell with the two child pointers exchanged. -/
def Node.mirror (c : Node K V) : Node K V := { c with left := c.right, right := c.left }

/-- The heap in which every cell has its child pointers exchanged. -/
def Heap.mirror (h : Heap K V) : Heap K V := ⟨h.cells.map (Option.map Node.mirror)⟩

/-- The mirror image of a tree. -/
def Tree.mirror : Tree K V → Tree K V
  | .nil => .nil
  | .node a l k v ht bal r => .node a r.mirror k v ht bal l.mirror

/-- The balance factor that `getBalanceFactor` computes at the root of a
subtree: the difference of the cached heights of its children. -/
def Tree.bf : Tree K V → Int
  | .nil => 0
  | .node _ l _ _ _ _ r => l.ht - r.ht

/-- The cached height, in a height-consistent tree, of the node of a frame
whose open position holds a subtree of cached height `H`. -/
def Frame.up : Frame K V → Int → Int
  | .left _ _ _ _ _ r, H => 1 + max H r.ht
  | .right _ l _ _ _ _, H => 1 + max l.ht H

/-- The node at address `a` is reached from the pointer `p` by following child
links. -/
inductive Linked (h : Heap K V) : Option Nat → Nat → Prop
  | root (a : Nat) : Linked h (some a) a
  | left {p : Option Nat} {a c : Nat} {n : Node K V} :
      Linked h p a → h.get? a = some n → n.left = some c → Linked h p c
  | right {p : Option Nat} {a c : Nat} {n : Node K V} :
      Linked h p a → h.get? a = some n → n.right = some c → Linked h p c

/-- Parent consistency of a map: the node recorded as root is live and has an
absent parent, and every child of a node reached from the root is live and has
that node as its parent. -/
def AVLmap.ParentConsistent (m : AVLmap K V) : Prop :=
  (∀ r, m.pRoot = some r → ∃ n, m.heap.get? r = some n ∧ n.parent = none) ∧
  ∀ a n c, Linked m.heap m.pRoot a → m.heap.get? a = some n →
    (n.left = some c ∨ n.right = some c) →
    ∃ cn, m.heap.get? c = some cn ∧ cn.parent = some a

/-- The calls `insert(0, 0)`, `insert(1, 0)`, ..., `insert(n - 1, 0)`. -/
def ascending (n : Nat) : List (Call Nat Nat) := (List.range n).map (fun k => Call.insert k 0)

/-- The map after `insert(1, 10)`, `insert(2, 20)` on the empty map; its tree is
`rotLeftTree`. -/
def pairMap : AVLmap Nat Nat := ⟨rotLeftHeap, some 0, 2⟩

/-- A heap of three nodes in a left chain: key 3 at address 0, its left child
key 2 at address 1 (stored balance 1), and the left child of that, key 1 at
address 2.  The cached fields of the node of key 3 are those it had before key
1 was inserted. -/
def chainHeap : Heap Nat Nat :=
  ⟨[some ⟨3, 30, none, some 1, none, 1, 1⟩, some ⟨2, 20, some 0, some 2, none, 1, 1⟩,
    some ⟨1, 10, some 1, none, none, 0, 0⟩]⟩

/-- A heap of three nodes in a right chain, the mirror image of `chainHeap`. -/
def chainHeapR : Heap Nat Nat :=
  ⟨[some ⟨1, 10, none, none, some 1, 1, -1⟩, some ⟨2, 20, some 0, none, some 2, 1, -1⟩,
    some ⟨3, 30, some 1, none, none, 0, 0⟩]⟩

end CS280

namespace CS280
variable {K V : Type}

/-! ## The pointer structure of a heap -/

/-- The three pointer fields of a cell (`parent`, `left`, `right` of
`AVLmap::Node`). -/
structure Ptrs where
  parent : Option Nat
  left : Option Nat
  right : Option Nat
deriving DecidableEq

/-- The pointer fields of a cell. -/
def Node.ptrs (n : Node K V) : Ptrs := ⟨n.parent, n.left, n.right⟩

/-- The pointer fields of the live cell at an address (`none`: no live cell). -/
def Heap.links (h : Heap K V) (a : Nat) : Option Ptrs := (h.get? a).map Node.ptrs

/-- The pointer structure with the two child pointers of every cell exchanged. -/
def Ptrs.mirror (n : Ptrs) : Ptrs := ⟨n.parent, n.right, n.left⟩

/-- Consistency of a pointer structure `G` over the addresses below `len`,
stated cell by cell, for all live cells whether the root leads to them or not:
every child pointer leads to a live cell whose `parent` pointer leads back; the
two child pointers of a cell differ; live cells and the targets of `parent`
pointers lie below `len`; and the `parent` pointers between live cells form no
cycle (some rank decreases along them). -/
structure LinksOK (G : Nat → Option Ptrs) (len : Nat) : Prop where
  back : ∀ a n c, G a = some n → (n.left = some c ∨ n.right = some c) →
    ∃ cn, G c = some cn ∧ cn.parent = some a
  sides : ∀ a n c, G a = some n → n.left = some c → n.right ≠ some c
  bound : ∀ a n, G a = some n → a < len ∧ ∀ p, n.parent = some p → p < len
  rank : ∃ rk : Nat → Nat, ∀ a n p pn, G a = some n → n.parent = some p → G p = some pn →
    rk p < rk a

/-- The cell at `r` is live and its `parent` pointer is null. -/
def RootTop (G : Nat → Option Ptrs) (r : Nat) : Prop := ∃ n, G r = some n ∧ n.parent = none

/-- The pointer structure of the heap of the map is consistent and the cell
`pRoot` points to, if any, has a null `parent` pointer. -/
def AVLmap.WellLinked (m : AVLmap K V) : Prop :=
  LinksOK m.heap.links m.heap.cells.length ∧ ∀ r, m.pRoot = some r → RootTop m.heap.links r

/-! ## The rounds of `clear` -/

/-- The loop of `clear` (avl.cpp, lines 841-846) with a record of its rounds:
besides the map it returns, in the order of the rounds, the cursor that each
round obtains from `begin()` and passes to `erase`. -/
def clearLogLoop : Nat → AVLmap K V → Option (AVLmap K V × List (Option Nat))
  | 0, _ => none
  | fuel + 1, m =>
    match m.pRoot with
    | none => some (m, [])
    | some _ => do
      let b ← m.begin
      let m ← m.erase b
      let (m, log) ← clearLogLoop fuel m
      some (m, b :: log)

/-- `AVLmap::clear` (avl.cpp, lines 841-846) with the record of its rounds. -/
def AVLmap.clearLog (m : AVLmap K V) : Option (AVLmap K V × List (Option Nat)) :=
  clearLogLoop m.heap.fuel m

/-! ## A sequence of calls that erases a node `insert` has unlinked -/

/-- The calls `insert` of 10, 5, 15, 3, 7, 20, 8 and `erase(find(k))` of 8, 7,
20, 15.  They leave the tree `10 -> (5 -> (3, -), -)` in which the cached
height of node 5 is still 2. -/
def orphanCalls : List (Call Nat Nat) :=
  [.insert 10 100, .insert 5 50, .insert 15 150, .insert 3 30, .insert 7 70, .insert 20 200,
    .insert 8 80, .erase 8, .erase 7, .erase 20, .erase 15]

/-- The state after `orphanCalls`, `it = find(5)`, `insert(12, 120)` and
`erase(it)`: node 10 at address 0, node 3 at address 3 as its right child, and
the live cell of node 12 at address 7, which no pointer of the tree leads to. -/
def orphanMap : AVLmap Nat Nat :=
  ⟨⟨[some ⟨10, 100, none, none, some 3, 3, 2⟩, none, none, some ⟨3, 30, some 0, none, none, 0, 0⟩,
    none, none, none, some ⟨12, 120, some 0, none, none, 0, 0⟩]⟩, some 0, 3⟩

/-- The tree stored in `orphanMap`. -/
def orphanTree : Tree Nat Nat := .node 0 .nil 10 100 3 2 (.node 3 .nil 3 30 0 0 .nil)

end CS280

namespace CS280
variable {K V : Type}

/-! ## Reading and writing cells -/

theorem Heap.lt_of_get? {h : Heap K V} {a : Nat} {n : Node K V} (hg : h.get? a = some n) :
    a < h.cells.length := by
  by_contra hlt
  have : h.cells[a]? = none := List.getElem?_eq_none (by omega)
  simp [Heap.get?, this] at hg

@[simp] theorem Heap.put_length (h : Heap K V) (a : Nat) (c : Node K V) :
    (h.put a c).cells.length = h.cells.length := by
  simp [Heap.put]

theorem Heap.get?_put {h : Heap K V} {a : Nat} (ha : a < h.cells.length) (c : Node K V) (x : Nat) :
    (h.put a c).get? x = if x = a then some c else h.get? x := by
  unfold Heap.get? Heap.put
  by_cases hx : x = a
  · subst hx; simp [List.getElem?_set, ha]
  · have : a ≠ x := fun e => hx e.symm
    simp [List.getElem?_set, this, hx]

theorem Heap.modify_eq {h : Heap K V} {a : Nat} {n : Node K V} (hg : h.get? a = some n)
    (f : Node K V → Node K V) : h.modify a f = some (h.put a (f n)) := by
  simp [Heap.modify, hg]

theorem Heap.get?_alloc (h : Heap K V) (c : Node K V) (x : Nat) :
    (h.alloc c).1.get? x = if x = h.cells.length then some c else h.get? x := by
  unfold Heap.get? Heap.alloc
  by_cases hx : x = h.cells.length
  · subst hx; simp
  · rcases Nat.lt_or_gt_of_ne hx with hlt | hgt
    · simp [List.getElem?_append_left hlt, hx]
    · have h1 : h.cells[x]? = none := List.getElem?_eq_none (by omega)
      have h2 : (h.cells ++ [some c])[x]? = none := List.getElem?_eq_none (by simp; omega)
      simp [h1, h2, hx]

theorem Heap.free_map (h : Heap K V) (a : Nat) :
    h.free a = (h.get? a).map (fun _ => h.del a) := by
  unfold Heap.free; cases h.get? a <;> rfl

@[simp] theorem Heap.del_length (h : Heap K V) (a : Nat) :
    (h.del a).cells.length = h.cells.length := by
  simp [Heap.del]

theorem Heap.get?_del_ne (h : Heap K V) {a x : Nat} (hx : x ≠ a) :
    (h.del a).get? x = h.get? x := by
  unfold Heap.get? Heap.del
  have : a ≠ x := fun e => hx e.symm
  simp [List.getElem?_set, this]

theorem Heap.get?_del_self (h : Heap K V) (a : Nat) : (h.del a).get? a = none := by
  unfold Heap.get? Heap.del
  by_cases ha : a < h.cells.length
  · simp [List.getElem?_set, ha]
  · simp [List.getElem?_set, ha]

end CS280

namespace CS280
variable {K V : Type}

/-! ## Basic facts on represented trees -/

@[simp] theorem Tree.ptr_nil : (Tree.nil : Tree K V).ptr = none := rfl

@[simp] theorem Tree.ptr_node (a : Nat) (l : Tree K V) (k : K) (v : V) (ht bal : Int)
    (r : Tree K V) : (Tree.node a l k v ht bal r).ptr = some a := rfl

theorem Tree.ptr_mem_addrs {t : Tree K V} {a : Nat} (h : t.ptr = some a) : a ∈ t.addrs := by
  cases t with
  | nil => simp [Tree.ptr] at h
  | node b l k v ht bal r =>
    simp only [Tree.ptr, Option.some.injEq] at h
    subst h
    simp [Tree.addrs]

/-- A represented tree only depends on the cells at its addresses. -/
theorem Heap.Repr.agree {h h' : Heap K V} :
    ∀ {t : Tree K V} {par : Option Nat}, h.Repr par t →
      (∀ x ∈ t.addrs, h'.get? x = h.get? x) → h'.Repr par t
  | .nil, _, _, _ => trivial
  | .node a l k v ht bal r, par, hr, hag => by
    obtain ⟨h1, h2, h3⟩ := hr
    refine ⟨?_, h2.agree fun x hx => hag x ?_, h3.agree fun x hx => hag x ?_⟩
    · rw [hag a (by simp [Tree.addrs])]; exact h1
    · simp [Tree.addrs, hx]
    · simp [Tree.addrs, hx]

/-- Every node of a represented tree is a live cell. -/
theorem Heap.Repr.live {h : Heap K V} :
    ∀ {t : Tree K V} {par : Option Nat}, h.Repr par t → ∀ x ∈ t.addrs, ∃ c, h.get? x = some c
  | .nil, _, _, x, hx => by simp [Tree.addrs] at hx
  | .node a l k v ht bal r, par, hr, x, hx => by
    obtain ⟨h1, h2, h3⟩ := hr
    simp only [Tree.addrs, List.mem_append, List.mem_cons] at hx
    rcases hx with hx | hx | hx
    · exact h2.live x hx
    · subst hx; exact ⟨_, h1⟩
    · exact h3.live x hx

theorem Heap.Repr.lt_length {h : Heap K V} {t : Tree K V} {par : Option Nat}
    (hr : h.Repr par t) {x : Nat} (hx : x ∈ t.addrs) : x < h.cells.length := by
  obtain ⟨c, hc⟩ := hr.live x hx
  exact Heap.lt_of_get? hc

/-- The same tree below another parent: only the `parent` field of the root
cell differs. -/
theorem Heap.Repr.reparent {h h' : Heap K V} {t : Tree K V} {par par' : Option Nat}
    (hr : h.Repr par t) (hnd : t.addrs.Nodup)
    (hroot : ∀ a c, t.ptr = some a → h.get? a = some c →
      h'.get? a = some { c with parent := par' })
    (hrest : ∀ x ∈ t.addrs, t.ptr ≠ some x → h'.get? x = h.get? x) : h'.Repr par' t := by
  cases t with
  | nil => trivial
  | node a l k v ht bal r =>
    obtain ⟨h1, h2, h3⟩ := hr
    simp only [Tree.addrs, List.nodup_append, List.nodup_cons, List.disjoint_cons_right] at hnd
    obtain ⟨_, ⟨har, _⟩, hal, _⟩ := hnd
    refine ⟨?_, h2.agree fun x hx => hrest x ?_ ?_, h3.agree fun x hx => hrest x ?_ ?_⟩
    · rw [hroot a _ rfl h1]
    · simp [Tree.addrs, hx]
    · simp only [Tree.ptr, ne_eq, Option.some.injEq]; rintro rfl; exact hal hx
    · simp [Tree.addrs, hx]
    · simp only [Tree.ptr, ne_eq, Option.some.injEq]; rintro rfl; exact har hx

@[simp] theorem Tree.ht_nil : (Tree.nil : Tree K V).ht = -1 := rfl

@[simp] theorem Tree.ht_node (a : Nat) (l : Tree K V) (k : K) (v : V) (ht bal : Int)
    (r : Tree K V) : (Tree.node a l k v ht bal r).ht = ht := rfl

theorem Heap.get?_put_self {h : Heap K V} {a : Nat} (ha : a < h.cells.length) (c : Node K V) :
    (h.put a c).get? a = some c := by
  rw [Heap.get?_put ha, if_pos rfl]

theorem Heap.modify_map (h : Heap K V) (a : Nat) (f : Node K V → Node K V) :
    h.modify a f = (h.get? a).map (fun n => h.put a (f n)) := by
  unfold Heap.modify; cases h.get? a <;> rfl

theorem Heap.get?_put_ne (h : Heap K V) {a x : Nat} (c : Node K V) (hx : x ≠ a) :
    (h.put a c).get? x = h.get? x := by
  unfold Heap.get? Heap.put
  have : a ≠ x := fun e => hx e.symm
  simp [List.getElem?_set, this]

theorem Heap.Repr.put {h : Heap K V} {t : Tree K V} {par : Option Nat} (hr : h.Repr par t)
    {a : Nat} (ha : a ∉ t.addrs) (c : Node K V) : (h.put a c).Repr par t :=
  hr.agree fun _ hx => Heap.get?_put_ne h c (fun e => ha (e ▸ hx))

theorem heightOf_none (h : Heap K V) : heightOf h none = some (-1) := rfl

theorem heightOf_put_ne (h : Heap K V) (a : Nat) (c : Node K V)
    {p : Option Nat} (hp : p ≠ some a) : heightOf (h.put a c) p = heightOf h p := by
  cases p with
  | none => rfl
  | some x =>
    have : x ≠ a := fun e => hp (by rw [e])
    simp [CS280.heightOf, Heap.get?_put_ne h c this]

theorem heightOf_put_eq {h : Heap K V} {a : Nat} (ha : a < h.cells.length) (c : Node K V) :
    heightOf (h.put a c) (some a) = some c.height := by
  simp [CS280.heightOf, Heap.get?_put ha]

theorem Tree.ptr_ne_of_not_mem {t : Tree K V} {a : Nat} (h : a ∉ t.addrs) : t.ptr ≠ some a :=
  fun e => h (Tree.ptr_mem_addrs e)

theorem Heap.Repr.heightOf {h : Heap K V} {t : Tree K V} {par : Option Nat}
    (hr : h.Repr par t) : heightOf h t.ptr = some t.ht := by
  cases t with
  | nil => rfl
  | node a l k v ht bal r => simp [CS280.heightOf, Tree.ptr, hr.1, Tree.ht]

end CS280

namespace CS280
variable {K V : Type}

/-! ## Stepwise evaluation -/

theorem bind_eq_obind {α β : Type} (x : Option α) (f : α → Option β) :
    (x >>= f) = obind x f := rfl

@[congr] theorem obind_congr {α β : Type} {x x' : Option α} (f : α → Option β) (h : x = x') :
    obind x f = obind x' f := by rw [h]

theorem obind_some {α β : Type} (a : α) (f : α → Option β) : obind (some a) f = f a := rfl

theorem obind_none {α β : Type} (f : α → Option β) : obind none f = none := rfl

theorem replaceChild_some (h : Heap K V) (p : Nat) (y : Nat) (n : Option Nat) :
    replaceChild h (some p) y n = obind (h.get? p) (fun pn =>
      h.modify p (fun c =>
        if pn.left = some y then { c with left := n } else { c with right := n })) := rfl

theorem replaceChild_none (h : Heap K V) (y : Nat) (n : Option Nat) :
    replaceChild h none y n = some h := rfl

theorem setParent_some (h : Heap K V) (a : Nat) (p : Option Nat) :
    setParent h (some a) p = h.modify a (fun c => { c with parent := p }) := rfl

theorem setParent_none (h : Heap K V) (p : Option Nat) : setParent h none p = some h := rfl

theorem getHeight_eq (h : Heap K V) (a : Nat) : Node.getHeight h a =
    obind (h.get? a) (fun n => obind (heightOf h n.left) (fun x => obind (heightOf h n.right)
      (fun y => some (1 + max x y)))) := rfl

theorem getBalanceFactor_eq (h : Heap K V) (a : Nat) : Node.getBalanceFactor h a =
    obind (h.get? a) (fun n => obind (heightOf h n.left) (fun x => obind (heightOf h n.right)
      (fun y => some (x - y)))) := rfl

theorem leftRotate_some (h : Heap K V) (y : Nat) : leftRotate h (some y) =
    obind (h.get? y) (fun yn =>
      match yn.right with
      | none => some (h, none)
      | some subTreeNewRoot => do
        let rn ← h.get? subTreeNewRoot
        let v := rn.left
        let h ← h.modify subTreeNewRoot (fun c => { c with left := some y })
        let h ← h.modify y (fun c => { c with right := v })
        let yn ← h.get? y
        let h ← h.modify subTreeNewRoot (fun c => { c with parent := yn.parent })
        let h ← replaceChild h yn.parent y (some subTreeNewRoot)
        let h ← h.modify y (fun c => { c with parent := some subTreeNewRoot })
        let h ← setParent h v (some y)
        let hy ← Node.getHeight h y
        let h ← h.modify y (fun c => { c with height := hy })
        let hr ← Node.getHeight h subTreeNewRoot
        let h ← h.modify subTreeNewRoot (fun c => { c with height := hr })
        some (h, some subTreeNewRoot)) := rfl

theorem rightRotate_some (h : Heap K V) (y : Nat) : rightRotate h (some y) =
    obind (h.get? y) (fun yn =>
      match yn.left with
      | none => some (h, none)
      | some subTreeNewRoot => do
        let rn ← h.get? subTreeNewRoot
        let v := rn.right
        let h ← h.modify subTreeNewRoot (fun c => { c with right := some y })
        let h ← h.modify y (fun c => { c with left := v })
        let yn ← h.get? y
        let h ← h.modify subTreeNewRoot (fun c => { c with parent := yn.parent })
        let h ← replaceChild h yn.parent y (some subTreeNewRoot)
        let h ← h.modify y (fun c => { c with parent := some subTreeNewRoot })
        let h ← setParent h v (some y)
        let hy ← Node.getHeight h y
        let h ← h.modify y (fun c => { c with height := hy })
        let hr ← Node.getHeight h subTreeNewRoot
        let h ← h.modify subTreeNewRoot (fun c => { c with height := hr })
        some (h, some subTreeNewRoot)) := rfl

/-! ## The rotations on a represented subtree -/

set_option maxHeartbeats 1000000 in
/-- `leftRotate` on a node `y` with a right child, in a tree without shared
nodes: the heap then stores the rotated subtree, linked to the former parent of
`y`; no cell outside the subtree and its parent is touched. -/
theorem leftRotate_local {h : Heap K V} (c : Option (Frame K V)) {par : Option Nat}
    (hc : c = none → par = none)
    {y r : Nat} {l rl rr : Tree K V} {k : K} {v : V}
    {ht bal : Int} {rk : K} {rv : V} {rht rbal : Int}
    (hr : h.Repr par (fillO c (.node y l k v ht bal (.node r rl rk rv rht rbal rr))))
    (hnd : (fillO c (.node y l k v ht bal (.node r rl rk rv rht rbal rr))).addrs.Nodup) :
    ∃ h', leftRotate h (some y) = some (h', some r) ∧
      h'.Repr par (fillO c (.node r (.node y l k v (1 + max l.ht rl.ht) bal rl) rk rv
        (1 + max (1 + max l.ht rl.ht) rr.ht) rbal rr)) ∧
      ∀ x, x ∉ (fillO c (.node y l k v ht bal (.node r rl rk rv rht rbal rr))).addrs →
        h'.get? x = h.get? x := by
  rcases c with _ | ⟨p, pk, pv, pht, pbal, ps⟩ | ⟨p, ps, pk, pv, pht, pbal⟩
  on_goal 1 => obtain rfl := hc rfl
  all_goals
    rcases rl with _ | ⟨w, wl, wk, wv, wht, wbal, wr⟩
  all_goals
    clear hc
    have hr2 := hr
    have hnd2 := hnd
    simp only [fillO, Frame.fill, Heap.Repr, Tree.ptr_node, Tree.ptr_nil] at hr2
    simp only [fillO, Frame.fill, Tree.addrs, List.nodup_append, List.nodup_cons,
      List.disjoint_cons_right, List.disjoint_cons_left,
      List.mem_append, List.mem_cons, not_or, List.disjoint_append_right,
      List.disjoint_append_left, List.not_mem_nil,
      not_false_eq_true, List.nodup_nil, List.disjoint_nil_right, List.disjoint_nil_left,
      true_and, and_true, List.nil_append, List.append_nil] at hnd2
    casesm* _ ∧ _
    simp only [fillO, Frame.fill, Heap.Repr, Tree.ptr_node, Tree.ptr_nil] at hr
    have q1 := Heap.Repr.heightOf ‹h.Repr (some y) l›
    have q2 := Heap.Repr.heightOf ‹h.Repr (some r) rr›
    simp (disch := first | omega | assumption |
        ((try simp only [Heap.put_length]); exact Heap.lt_of_get? (by assumption)) |
        exact Tree.ptr_ne_of_not_mem (by assumption)) only
      [leftRotate_some, ↓bind_eq_obind, obind_some, replaceChild_some, replaceChild_none,
       setParent_some, setParent_none, getHeight_eq, Heap.modify_map, Option.map_some',
       Heap.get?_put_ne, Heap.get?_put_self, heightOf_put_ne, heightOf_put_eq, heightOf_none,
       hr, q1, q2, Option.pure_def, if_true, if_neg]
    refine ⟨_, rfl, ?_, ?_⟩
    · simp only [fillO, Frame.fill, Heap.Repr, Tree.ptr_node, Tree.ptr_nil, Tree.ht_nil,
        Tree.ht_node]
      repeat' apply And.intro
      all_goals
        first
        | trivial
        | (simp (disch := first | omega |
              ((try simp only [Heap.put_length]); exact Heap.lt_of_get? (by assumption))) only
            [Heap.get?_put_ne, Heap.get?_put_self])
        | (repeat (first | assumption | refine Heap.Repr.put ?_ (by assumption) _))
    · intro x hx
      simp only [fillO, Frame.fill, Tree.addrs, List.mem_append, List.mem_cons, not_or,
        List.not_mem_nil, not_false_eq_true, true_and, and_true] at hx
      casesm* _ ∧ _
      simp (disch := omega) only [Heap.get?_put_ne]

set_option maxHeartbeats 1000000 in
/-- `rightRotate` on a node `y` with a left child, in a tree without shared
nodes: the mirror image of `leftRotate_local`. -/
theorem rightRotate_local {h : Heap K V} (c : Option (Frame K V)) {par : Option Nat}
    (hc : c = none → par = none)
    {y r : Nat} {t rl rr : Tree K V} {k : K} {v : V}
    {ht bal : Int} {rk : K} {rv : V} {rht rbal : Int}
    (hr : h.Repr par (fillO c (.node y (.node r rl rk rv rht rbal rr) k v ht bal t)))
    (hnd : (fillO c (.node y (.node r rl rk rv rht rbal rr) k v ht bal t)).addrs.Nodup) :
    ∃ h', rightRotate h (some y) = some (h', some r) ∧
      h'.Repr par (fillO c (.node r rl rk rv (1 + max rl.ht (1 + max rr.ht t.ht)) rbal
        (.node y rr k v (1 + max rr.ht t.ht) bal t))) ∧
      ∀ x, x ∉ (fillO c (.node y (.node r rl rk rv rht rbal rr) k v ht bal t)).addrs →
        h'.get? x = h.get? x := by
  rcases c with _ | ⟨p, pk, pv, pht, pbal, ps⟩ | ⟨p, ps, pk, pv, pht, pbal⟩
  on_goal 1 => obtain rfl := hc rfl
  all_goals
    rcases rr with _ | ⟨w, wl, wk, wv, wht, wbal, wr⟩
  all_goals
    clear hc
    have hr2 := hr
    have hnd2 := hnd
    simp only [fillO, Frame.fill, Heap.Repr, Tree.ptr_node, Tree.ptr_nil] at hr2
    simp only [fillO, Frame.fill, Tree.addrs, List.nodup_append, List.nodup_cons,
      List.disjoint_cons_right, List.disjoint_cons_left,
      List.mem_append, List.mem_cons, not_or, List.disjoint_append_right,
      List.disjoint_append_left, List.not_mem_nil,
      not_false_eq_true, List.nodup_nil, List.disjoint_nil_right, List.disjoint_nil_left,
      true_and, and_true, List.nil_append, List.append_nil] at hnd2
    casesm* _ ∧ _
    simp only [fillO, Frame.fill, Heap.Repr, Tree.ptr_node, Tree.ptr_nil] at hr
    have q1 := Heap.Repr.heightOf ‹h.Repr (some y) t›
    have q2 := Heap.Repr.heightOf ‹h.Repr (some r) rl›
    simp (disch := first | omega | assumption |
        ((try simp only [Heap.put_length]); exact Heap.lt_of_get? (by assumption)) |
        exact Tree.ptr_ne_of_not_mem (by assumption)) only
      [rightRotate_some, ↓bind_eq_obind, obind_some, replaceChild_some, replaceChild_none,
       setParent_some, setParent_none, getHeight_eq, Heap.modify_map, Option.map_some',
       Heap.get?_put_ne, Heap.get?_put_self, heightOf_put_ne, heightOf_put_eq, heightOf_none,
       hr, q1, q2, Option.pure_def, if_true, if_neg]
    refine ⟨_, rfl, ?_, ?_⟩
    · simp only [fillO, Frame.fill, Heap.Repr, Tree.ptr_node, Tree.ptr_nil, Tree.ht_nil,
        Tree.ht_node]
      repeat' apply And.intro
      all_goals
        first
        | trivial
        | (simp (disch := first | omega |
              ((try simp only [Heap.put_length]); exact Heap.lt_of_get? (by assumption))) only
            [Heap.get?_put_ne, Heap.get?_put_self])
        | (repeat (first | assumption | refine Heap.Repr.put ?_ (by assumption) _))
    · intro x hx
      simp only [fillO, Frame.fill, Tree.addrs, List.mem_append, List.mem_cons, not_or,
        List.not_mem_nil, not_false_eq_true, true_and, and_true] at hx
      casesm* _ ∧ _
      simp (disch := omega) only [Heap.get?_put_ne]

end CS280

namespace CS280
variable {K V : Type}

/-! ## Subtrees in context -/

theorem plug_addrs : ∀ (fs : List (Frame K V)) (t : Tree K V),
    (plug fs t).addrs = ctxAddrsL fs ++ t.addrs ++ ctxAddrsR fs
  | [], t => by simp [plug, ctxAddrsL, ctxAddrsR]
  | .left a k v ht bal r :: fs, t => by
    simp [plug, Frame.fill, ctxAddrsL, ctxAddrsR, plug_addrs fs, Tree.addrs]
  | .right a l k v ht bal :: fs, t => by
    simp [plug, Frame.fill, ctxAddrsL, ctxAddrsR, plug_addrs fs, Tree.addrs]

theorem plug_toList : ∀ (fs : List (Frame K V)) (t : Tree K V),
    (plug fs t).toList = ctxListL fs ++ t.toList ++ ctxListR fs
  | [], t => by simp [plug, ctxListL, ctxListR]
  | .left a k v ht bal r :: fs, t => by
    simp [plug, Frame.fill, ctxListL, ctxListR, plug_toList fs, Tree.toList]
  | .right a l k v ht bal :: fs, t => by
    simp [plug, Frame.fill, ctxListL, ctxListR, plug_toList fs, Tree.toList]

theorem plug_size : ∀ (fs : List (Frame K V)) (t : Tree K V),
    (plug fs t).size = (plug fs .nil).size + t.size
  | [], t => by simp [plug, Tree.size]
  | f :: fs, t => by
    rw [plug, plug, plug_size fs (f.fill t), plug_size fs (f.fill .nil)]
    cases f <;> simp [Frame.fill, Tree.size] <;> omega

theorem Tree.addrs_length (t : Tree K V) : t.addrs.length = t.size := by
  induction t with
  | nil => rfl
  | node a l k v ht bal r ihl ihr => simp [Tree.addrs, Tree.size, ihl, ihr]; omega

theorem Tree.toList_length (t : Tree K V) : t.toList.length = t.size := by
  induction t with
  | nil => rfl
  | node a l k v ht bal r ihl ihr => simp [Tree.toList, Tree.size, ihl, ihr]; omega

/-- The subtree in the open position is stored below the nearest ancestor. -/
theorem Heap.Repr.of_plug {h : Heap K V} : ∀ {F : List (Frame K V)} {t : Tree K V},
    h.Repr none (plug F t) → h.Repr (ctxParent F) t
  | [], _, hr => hr
  | .left a k v ht bal r :: fs, t, hr => by
    have := Heap.Repr.of_plug (F := fs) hr
    exact this.2.1
  | .right a l k v ht bal :: fs, t, hr => by
    have := Heap.Repr.of_plug (F := fs) hr
    exact this.2.2

theorem mem_plug_of_mem_fill {f : Frame K V} {fs : List (Frame K V)} {t : Tree K V} {x : Nat}
    (hx : x ∈ (f.fill t).addrs) : x ∈ (plug (f :: fs) t).addrs := by
  rw [plug, plug_addrs]
  simp [hx]

/-- Replacing the subtree in the open position by one with the same root
pointer, when the heap does not change at the other addresses of the tree. -/
theorem Heap.Repr.plug_replace' {h h' : Heap K V} :
    ∀ {F : List (Frame K V)} {t t' : Tree K V}, h.Repr none (plug F t) →
      (plug F t).addrs.Nodup → t'.ptr = t.ptr → h'.Repr (ctxParent F) t' →
      (∀ x, x ∈ (plug F t).addrs → x ∉ t.addrs → h'.get? x = h.get? x) →
      h'.Repr none (plug F t')
  | [], _, _, _, _, _, ht', _ => ht'
  | .left a k v ht bal r :: fs, t, t', hr, hnd, hp, ht', hag => by
    have hr1 := Heap.Repr.of_plug (F := fs) hr
    have hnd1 : (Tree.node a t k v ht bal r).addrs.Nodup := by
      have := hnd
      rw [plug, plug_addrs] at this
      exact (List.nodup_append.1 (List.nodup_append.1 this).1).2.1
    have hmem : ∀ x, x ∈ (Tree.node a t k v ht bal r).addrs →
        x ∈ (plug (.left a k v ht bal r :: fs) t).addrs :=
      fun x hx => mem_plug_of_mem_fill (f := .left a k v ht bal r) hx
    simp only [Tree.addrs, List.nodup_append, List.nodup_cons, List.disjoint_cons_right] at hnd1
    obtain ⟨_, ⟨har, _⟩, hat, hd⟩ := hnd1
    refine Heap.Repr.plug_replace' (F := fs) (t := .node a t k v ht bal r) hr hnd rfl ?_ ?_
    · refine ⟨?_, ht', ?_⟩
      · rw [hag a (hmem a (by simp [Tree.addrs])) hat, hp]; exact hr1.1
      · exact hr1.2.2.agree fun x hx =>
          hag x (hmem x (by simp [Tree.addrs, hx])) fun hxt => hd hxt hx
    · intro x hm hx
      exact hag x hm fun hxt => hx (by simp [Tree.addrs, hxt])
  | .right a l k v ht bal :: fs, t, t', hr, hnd, hp, ht', hag => by
    have hr1 := Heap.Repr.of_plug (F := fs) hr
    have hnd1 : (Tree.node a l k v ht bal t).addrs.Nodup := by
      have := hnd
      rw [plug, plug_addrs] at this
      exact (List.nodup_append.1 (List.nodup_append.1 this).1).2.1
    have hmem : ∀ x, x ∈ (Tree.node a l k v ht bal t).addrs →
        x ∈ (plug (.right a l k v ht bal :: fs) t).addrs :=
      fun x hx => mem_plug_of_mem_fill (f := .right a l k v ht bal) hx
    simp only [Tree.addrs, List.nodup_append, List.nodup_cons, List.disjoint_cons_right] at hnd1
    obtain ⟨_, ⟨hat, _⟩, hal, hd⟩ := hnd1
    refine Heap.Repr.plug_replace' (F := fs) (t := .node a l k v ht bal t) hr hnd rfl ?_ ?_
    · refine ⟨?_, ?_, ht'⟩
      · rw [hag a (hmem a (by simp [Tree.addrs])) hat, hp]; exact hr1.1
      · exact hr1.2.1.agree fun x hx =>
          hag x (hmem x (by simp [Tree.addrs, hx])) fun hxt => hd hx hxt
    · intro x hm hx
      exact hag x hm fun hxt => hx (by simp [Tree.addrs, hxt])

theorem Heap.Repr.plug_replace {h h' : Heap K V} {F : List (Frame K V)} {t t' : Tree K V}
    (hr : h.Repr none (plug F t)) (hnd : (plug F t).addrs.Nodup) (hp : t'.ptr = t.ptr)
    (ht' : h'.Repr (ctxParent F) t') (hag : ∀ x, x ∉ t.addrs → h'.get? x = h.get? x) :
    h'.Repr none (plug F t') :=
  Heap.Repr.plug_replace' hr hnd hp ht' fun x _ hx => hag x hx

theorem plug_nodup_sub {F : List (Frame K V)} {t : Tree K V} (hnd : (plug F t).addrs.Nodup) :
    t.addrs.Nodup := by
  rw [plug_addrs] at hnd
  exact (List.nodup_append.1 (List.nodup_append.1 hnd).1).2.1

/-- Nodes stay distinct when the subtree in the open position is replaced by
one built from a part of its nodes. -/
theorem plug_nodup_of_sublist {F : List (Frame K V)} {t u : Tree K V}
    (hnd : (plug F t).addrs.Nodup) (hs : u.addrs.Sublist t.addrs) :
    (plug F u).addrs.Nodup := by
  rw [plug_addrs] at hnd ⊢
  exact hnd.sublist ((List.Sublist.refl _).append hs |>.append (List.Sublist.refl _))

end CS280

namespace CS280
variable {K V : Type}

/-! ## Rotations in context -/

theorem Tree.rotL_addrs {s s' : Tree K V} (hs : s.rotL = some s') : s'.addrs = s.addrs := by
  rcases s with _ | ⟨y, l, k, v, ht, bal, _ | ⟨r, rl, rk, rv, rht, rbal, rr⟩⟩ <;>
    simp only [Tree.rotL, Option.some.injEq, reduceCtorEq] at hs
  subst hs
  simp [Tree.addrs]

theorem Tree.rotR_addrs {s s' : Tree K V} (hs : s.rotR = some s') : s'.addrs = s.addrs := by
  rcases s with _ | ⟨y, _ | ⟨r, rl, rk, rv, rht, rbal, rr⟩, k, v, ht, bal, t⟩ <;>
    simp only [Tree.rotR, Option.some.injEq, reduceCtorEq] at hs
  subst hs
  simp [Tree.addrs]

theorem Tree.rotL_toList {s s' : Tree K V} (hs : s.rotL = some s') : s'.toList = s.toList := by
  rcases s with _ | ⟨y, l, k, v, ht, bal, _ | ⟨r, rl, rk, rv, rht, rbal, rr⟩⟩ <;>
    simp only [Tree.rotL, Option.some.injEq, reduceCtorEq] at hs
  subst hs
  simp [Tree.toList]

theorem Tree.rotR_toList {s s' : Tree K V} (hs : s.rotR = some s') : s'.toList = s.toList := by
  rcases s with _ | ⟨y, _ | ⟨r, rl, rk, rv, rht, rbal, rr⟩, k, v, ht, bal, t⟩ <;>
    simp only [Tree.rotR, Option.some.injEq, reduceCtorEq] at hs
  subst hs
  simp [Tree.toList]

theorem fillO_plug (f : Frame K V) (fs : List (Frame K V)) (t : Tree K V) :
    plug (f :: fs) t = plug fs (fillO (some f) t) := rfl

theorem not_mem_plug_of_cons {f : Frame K V} {fs : List (Frame K V)} {s : Tree K V} {x : Nat}
    (hx : x ∉ (plug (f :: fs) s).addrs) : x ∉ (f.fill s).addrs := by
  intro hm
  apply hx
  rw [plug, plug_addrs]
  simp [hm]

/-- `leftRotate` at the root of a subtree `s` with a right child, anywhere in
the tree of the map: the heap then stores the tree with `s` rotated. -/
theorem leftRotate_plug {h : Heap K V} {F : List (Frame K V)} {s s' : Tree K V} {y : Nat}
    (hs : s.rotL = some s') (hy : s.ptr = some y)
    (hr : h.Repr none (plug F s)) (hnd : (plug F s).addrs.Nodup) :
    ∃ h', leftRotate h (some y) = some (h', s'.ptr) ∧ s'.ptr ≠ none ∧
      h'.Repr none (plug F s') ∧
      ∀ x, x ∉ (plug F s).addrs → h'.get? x = h.get? x := by
  rcases s with _ | ⟨y', l, k, v, ht, bal, _ | ⟨r, rl, rk, rv, rht, rbal, rr⟩⟩ <;>
    simp only [Tree.rotL, Option.some.injEq, reduceCtorEq] at hs
  subst hs
  simp only [Tree.ptr_node, Option.some.injEq] at hy
  subst hy
  rcases F with _ | ⟨f, F⟩
  · obtain ⟨h', e, hr', hag⟩ := leftRotate_local none (fun _ => rfl) hr hnd
    exact ⟨h', e, by simp, hr', hag⟩
  · have hnd1 : (fillO (some f) (Tree.node y' l k v ht bal
        (.node r rl rk rv rht rbal rr))).addrs.Nodup := plug_nodup_sub (F := F) hnd
    obtain ⟨h', e, hr', hag⟩ := leftRotate_local (some f) (by simp)
      (Heap.Repr.of_plug (F := F) hr) hnd1
    refine ⟨h', e, by simp, ?_, fun x hx => hag x (not_mem_plug_of_cons hx)⟩
    exact Heap.Repr.plug_replace (F := F) hr hnd (by cases f <;> rfl) hr' hag

/-- `rightRotate` at the root of a subtree `s` with a left child, anywhere in
the tree of the map. -/
theorem rightRotate_plug {h : Heap K V} {F : List (Frame K V)} {s s' : Tree K V} {y : Nat}
    (hs : s.rotR = some s') (hy : s.ptr = some y)
    (hr : h.Repr none (plug F s)) (hnd : (plug F s).addrs.Nodup) :
    ∃ h', rightRotate h (some y) = some (h', s'.ptr) ∧ s'.ptr ≠ none ∧
      h'.Repr none (plug F s') ∧
      ∀ x, x ∉ (plug F s).addrs → h'.get? x = h.get? x := by
  rcases s with _ | ⟨y', _ | ⟨r, rl, rk, rv, rht, rbal, rr⟩, k, v, ht, bal, t⟩ <;>
    simp only [Tree.rotR, Option.some.injEq, reduceCtorEq] at hs
  subst hs
  simp only [Tree.ptr_node, Option.some.injEq] at hy
  subst hy
  rcases F with _ | ⟨f, F⟩
  · obtain ⟨h', e, hr', hag⟩ := rightRotate_local none (fun _ => rfl) hr hnd
    exact ⟨h', e, by simp, hr', hag⟩
  · have hnd1 : (fillO (some f) (Tree.node y' (.node r rl rk rv rht rbal rr)
        k v ht bal t)).addrs.Nodup := plug_nodup_sub (F := F) hnd
    obtain ⟨h', e, hr', hag⟩ := rightRotate_local (some f) (by simp)
      (Heap.Repr.of_plug (F := F) hr) hnd1
    refine ⟨h', e, by simp, ?_, fun x hx => hag x (not_mem_plug_of_cons hx)⟩
    exact Heap.Repr.plug_replace (F := F) hr hnd (by cases f <;> rfl) hr' hag

/-- `leftRotate` returns `nullptr` and changes nothing on a node without a
right child. -/
theorem leftRotate_null {h : Heap K V} {y : Nat} {c : Node K V} (hy : h.get? y = some c)
    (hc : c.right = none) : leftRotate h (some y) = some (h, none) := by
  simp only [leftRotate_some, hy, obind_some, hc]

/-- `rightRotate` returns `nullptr` and changes nothing on a node without a
left child. -/
theorem rightRotate_null {h : Heap K V} {y : Nat} {c : Node K V} (hy : h.get? y = some c)
    (hc : c.left = none) : rightRotate h (some y) = some (h, none) := by
  simp only [rightRotate_some, hy, obind_some, hc]

/-! ## One round of the post-insert walk -/

theorem rotateLeftChild_some (h : Heap K V) (node l : Nat) :
    rotateLeftChild h node (some l) = obind (h.get? l) (fun ln =>
      if ln.balance < 0 then
        obind (leftRotate h (some l)) (fun p => p.1.modify node (fun c => { c with left := p.2 }))
      else some h) := rfl

theorem rotateLeftChild_none (h : Heap K V) (node : Nat) :
    rotateLeftChild h node none = some h := rfl

theorem rotateRightChild_some (h : Heap K V) (node r : Nat) :
    rotateRightChild h node (some r) = obind (h.get? r) (fun rn =>
      if rn.balance > 0 then
        obind (rightRotate h (some r)) (fun p => p.1.modify node (fun c => { c with right := p.2 }))
      else some h) := rfl

theorem rotateRightChild_none (h : Heap K V) (node : Nat) :
    rotateRightChild h node none = some h := rfl

theorem rebalanceAt_eq (h : Heap K V) (node : Nat) : rebalanceAt h node =
    obind (Node.getBalanceFactor h node) (fun b =>
    obind (h.modify node (fun c => { c with balance := b })) (fun h =>
    obind (Node.getHeight h node) (fun ht =>
    obind (h.modify node (fun c => { c with height := ht })) (fun h =>
    obind (h.get? node) (fun n =>
      if n.balance > 1 then
        obind (rotateLeftChild h node n.left) (fun h => rightRotate h (some node))
      else if n.balance < -1 then
        obind (rotateRightChild h node n.right) (fun h => leftRotate h (some node))
      else some (h, some node)))))) := rfl

theorem Heap.get?_put_same {h : Heap K V} {a : Nat} {c : Node K V} (hc : h.get? a = some c)
    (x : Nat) : (h.put a c).get? x = h.get? x := by
  rw [Heap.get?_put (Heap.lt_of_get? hc)]
  split
  · next e => rw [e, hc]
  · rfl

/-- Overwriting fields of the root cell of the subtree in the open position. -/
theorem Heap.Repr.plug_put_root {h : Heap K V} {fs : List (Frame K V)} {a : Nat}
    {l r l' r' : Tree K V} {k q : K} {v w : V} {ht bal c d : Int}
    (hr : h.Repr none (plug fs (.node a l k v ht bal r)))
    (hnd : (plug fs (.node a l k v ht bal r)).addrs.Nodup)
    (hl : l' = l ∨ l' = .nil) (hr' : r' = r ∨ r' = .nil) :
    (h.put a ⟨q, w, ctxParent fs, l'.ptr, r'.ptr, c, d⟩).Repr none
      (plug fs (.node a l' q w c d r')) := by
  have hr1 := Heap.Repr.of_plug (F := fs) hr
  have hnd1 := plug_nodup_sub (F := fs) hnd
  simp only [Tree.addrs, List.nodup_append, List.nodup_cons, List.disjoint_cons_right] at hnd1
  obtain ⟨_, ⟨har, _⟩, hal, _⟩ := hnd1
  refine Heap.Repr.plug_replace (F := fs) hr hnd rfl ⟨?_, ?_, ?_⟩ ?_
  · exact Heap.get?_put_self (Heap.lt_of_get? hr1.1) _
  · rcases hl with rfl | rfl
    · exact hr1.2.1.put hal _
    · trivial
  · rcases hr' with rfl | rfl
    · exact hr1.2.2.put har _
    · trivial
  · intro x hx
    exact Heap.get?_put_ne h _ fun e => hx (by simp [Tree.addrs, e])

/-- The optional rotation of the left child in the left-heavy case. -/
theorem rotateLeftChild_plug {h : Heap K V} {fs : List (Frame K V)} {a : Nat}
    {l r : Tree K V} {k : K} {v : V} {ht bal : Int}
    (hr : h.Repr none (plug fs (.node a l k v ht bal r)))
    (hnd : (plug fs (.node a l k v ht bal r)).addrs.Nodup) :
    ∃ h', rotateLeftChild h a l.ptr = some h' ∧
      h'.Repr none (plug fs (.node a
        (if l.ptr ≠ none ∧ l.bal < 0 then (l.rotL).getD .nil else l) k v ht bal r)) ∧
      ∀ x, x ∉ (plug fs (.node a l k v ht bal r)).addrs → h'.get? x = h.get? x := by
  have hr1 := Heap.Repr.of_plug (F := fs) hr
  rcases l with _ | ⟨la, ll, lk, lv, lht, lbal, lr⟩
  · exact ⟨h, rfl, by simpa using hr, fun _ _ => rfl⟩
  · have hla := hr1.2.1.1
    by_cases hb : lbal < 0
    · simp only [Tree.ptr_node, rotateLeftChild_some, hla, obind_some, hb, if_true, ne_eq,
        reduceCtorEq, not_false_eq_true, Tree.bal, and_self]
      rcases hrot : (Tree.node la ll lk lv lht lbal lr).rotL with _ | l'
      · have hlr : lr = .nil := by
          rcases lr with _ | _
          · rfl
          · simp [Tree.rotL] at hrot
        subst hlr
        rw [leftRotate_null hla rfl, obind_some]
        simp only [Heap.modify_map, hr1.1, Option.map_some', Option.getD_none]
        refine ⟨_, rfl, ?_, ?_⟩
        · exact Heap.Repr.plug_put_root hr hnd (Or.inr rfl) (Or.inl rfl)
        · intro x hx
          refine Heap.get?_put_ne h _ fun e => hx ?_
          rw [plug_addrs]; simp [Tree.addrs, e]
      · obtain ⟨h1, e1, _, hr2, hag⟩ := leftRotate_plug
          (F := .left a k v ht bal r :: fs) hrot rfl hr hnd
        rw [e1, obind_some]
        have hca := (Heap.Repr.of_plug (F := fs) hr2).1
        simp only [Heap.modify_map, hca, Option.map_some', Option.getD_some]
        refine ⟨_, rfl, ?_, ?_⟩
        · exact hr2.agree fun x _ => Heap.get?_put_same hca x
        · intro x hx
          rw [Heap.get?_put_same hca x]
          exact hag x hx
    · simp only [Tree.ptr_node, rotateLeftChild_some, hla, obind_some, hb, if_false, Tree.bal,
        and_false]
      exact ⟨h, rfl, hr, fun _ _ => rfl⟩

/-- The optional rotation of the right child in the right-heavy case. -/
theorem rotateRightChild_plug {h : Heap K V} {fs : List (Frame K V)} {a : Nat}
    {l r : Tree K V} {k : K} {v : V} {ht bal : Int}
    (hr : h.Repr none (plug fs (.node a l k v ht bal r)))
    (hnd : (plug fs (.node a l k v ht bal r)).addrs.Nodup) :
    ∃ h', rotateRightChild h a r.ptr = some h' ∧
      h'.Repr none (plug fs (.node a l k v ht bal
        (if r.ptr ≠ none ∧ r.bal > 0 then (r.rotR).getD .nil else r))) ∧
      ∀ x, x ∉ (plug fs (.node a l k v ht bal r)).addrs → h'.get? x = h.get? x := by
  have hr1 := Heap.Repr.of_plug (F := fs) hr
  rcases r with _ | ⟨ra, rl, rk, rv, rht, rbal, rr⟩
  · exact ⟨h, rfl, by simpa using hr, fun _ _ => rfl⟩
  · have hra := hr1.2.2.1
    by_cases hb : rbal > 0
    · simp only [Tree.ptr_node, rotateRightChild_some, hra, obind_some, hb, if_true, ne_eq,
        reduceCtorEq, not_false_eq_true, Tree.bal, and_self]
      rcases hrot : (Tree.node ra rl rk rv rht rbal rr).rotR with _ | r'
      · have hrl : rl = .nil := by
          rcases rl with _ | _
          · rfl
          · simp [Tree.rotR] at hrot
        subst hrl
        rw [rightRotate_null hra rfl, obind_some]
        simp only [Heap.modify_map, hr1.1, Option.map_some', Option.getD_none]
        refine ⟨_, rfl, ?_, ?_⟩
        · exact Heap.Repr.plug_put_root hr hnd (Or.inl rfl) (Or.inr rfl)
        · intro x hx
          refine Heap.get?_put_ne h _ fun e => hx ?_
          rw [plug_addrs]; simp [Tree.addrs, e]
      · obtain ⟨h1, e1, _, hr2, hag⟩ := rightRotate_plug
          (F := .right a l k v ht bal :: fs) hrot rfl hr hnd
        rw [e1, obind_some]
        have hca := (Heap.Repr.of_plug (F := fs) hr2).1
        simp only [Heap.modify_map, hca, Option.map_some', Option.getD_some]
        refine ⟨_, rfl, ?_, ?_⟩
        · exact hr2.agree fun x _ => Heap.get?_put_same hca x
        · intro x hx
          rw [Heap.get?_put_same hca x]
          exact hag x hx
    · simp only [Tree.ptr_node, rotateRightChild_some, hra, obind_some, hb, if_false, Tree.bal,
        and_false]
      exact ⟨h, rfl, hr, fun _ _ => rfl⟩

end CS280

namespace CS280
variable {K V : Type}

theorem Tree.rotL_getD_sublist (l : Tree K V) : ((l.rotL).getD .nil).addrs.Sublist l.addrs := by
  rcases h : l.rotL with _ | l'
  · simp [Tree.addrs]
  · simp [Tree.rotL_addrs h]

theorem Tree.rotR_getD_sublist (l : Tree K V) : ((l.rotR).getD .nil).addrs.Sublist l.addrs := by
  rcases h : l.rotR with _ | l'
  · simp [Tree.addrs]
  · simp [Tree.rotR_addrs h]

theorem Tree.rotL_getD_toList_sublist (l : Tree K V) :
    ((l.rotL).getD .nil).toList.Sublist l.toList := by
  rcases h : l.rotL with _ | l'
  · simp [Tree.toList]
  · simp [Tree.rotL_toList h]

theorem Tree.rotR_getD_toList_sublist (l : Tree K V) :
    ((l.rotR).getD .nil).toList.Sublist l.toList := by
  rcases h : l.rotR with _ | l'
  · simp [Tree.toList]
  · simp [Tree.rotR_toList h]

theorem Tree.leftFix_sublist (l : Tree K V) :
    (if l.ptr ≠ none ∧ l.bal < 0 then (l.rotL).getD .nil else l).addrs.Sublist l.addrs := by
  split
  · exact Tree.rotL_getD_sublist l
  · exact List.Sublist.refl _

theorem Tree.rightFix_sublist (r : Tree K V) :
    (if r.ptr ≠ none ∧ r.bal > 0 then (r.rotR).getD .nil else r).addrs.Sublist r.addrs := by
  split
  · exact Tree.rotR_getD_sublist r
  · exact List.Sublist.refl _

theorem Tree.rotR_eq_none {a : Nat} {l r : Tree K V} {k : K} {v : V} {ht bal : Int}
    (h : (Tree.node a l k v ht bal r).rotR = none) : l = .nil := by
  rcases l with _ | _
  · rfl
  · simp [Tree.rotR] at h

theorem Tree.rotL_eq_none {a : Nat} {l r : Tree K V} {k : K} {v : V} {ht bal : Int}
    (h : (Tree.node a l k v ht bal r).rotL = none) : r = .nil := by
  rcases r with _ | _
  · rfl
  · simp [Tree.rotL] at h

theorem Tree.rotL_ptr_ne {s s' : Tree K V} (hs : s.rotL = some s') : s'.ptr ≠ none := by
  rcases s with _ | ⟨y, l, k, v, ht, bal, _ | ⟨r, rl, rk, rv, rht, rbal, rr⟩⟩ <;>
    simp only [Tree.rotL, Option.some.injEq, reduceCtorEq] at hs
  subst hs; simp

theorem Tree.rotR_ptr_ne {s s' : Tree K V} (hs : s.rotR = some s') : s'.ptr ≠ none := by
  rcases s with _ | ⟨y, _ | ⟨r, rl, rk, rv, rht, rbal, rr⟩, k, v, ht, bal, t⟩ <;>
    simp only [Tree.rotR, Option.some.injEq, reduceCtorEq] at hs
  subst hs; simp

set_option maxHeartbeats 1000000 in
/-- One round of the loop of `updateBalanceAfterInsert` at the root of the
subtree `s`: the heap then stores the tree with `s` replaced by
`s.rebalance.1`, and the variable `node` is the new root of that subtree, or
`nullptr` when a rotation returned `nullptr`. -/
theorem rebalanceAt_plug {h : Heap K V} {fs : List (Frame K V)} {s : Tree K V} {a : Nat}
    (hs : s.ptr = some a) (hr : h.Repr none (plug fs s)) (hnd : (plug fs s).addrs.Nodup) :
    ∃ h', rebalanceAt h a = some (h', if s.rebalance.2 then s.rebalance.1.ptr else none) ∧
      h'.Repr none (plug fs s.rebalance.1) ∧
      (s.rebalance.2 = true → s.rebalance.1.ptr ≠ none) ∧
      ∀ x, x ∉ (plug fs s).addrs → h'.get? x = h.get? x := by
  rcases s with _ | ⟨a', l, k, v, ht, bal, r⟩
  · simp at hs
  simp only [Tree.ptr_node, Option.some.injEq] at hs
  subst hs
  have hr1 := Heap.Repr.of_plug (F := fs) hr
  have hnd1 := plug_nodup_sub (F := fs) hnd
  simp only [Tree.addrs, List.nodup_append, List.nodup_cons, List.disjoint_cons_right] at hnd1
  obtain ⟨_, ⟨har, _⟩, hal, _⟩ := hnd1
  have q1 := hr1.2.1.heightOf
  have q2 := hr1.2.2.heightOf
  have hla := Heap.lt_of_get? hr1.1
  have H1 := Heap.Repr.plug_put_root (q := k) (w := v) (c := ht) (d := l.ht - r.ht)
    hr hnd (Or.inl rfl) (Or.inl rfl)
  have hnd' : ∀ b c, (plug fs (.node a' l k v b c r)).addrs.Nodup := fun b c =>
    plug_nodup_of_sublist hnd (by simp [Tree.addrs])
  have H2 := Heap.Repr.plug_put_root (q := k) (w := v) (c := 1 + max l.ht r.ht)
    (d := l.ht - r.ht) H1 (hnd' _ _) (Or.inl rfl) (Or.inl rfl)
  have hag0 : ∀ x, x ∉ (plug fs (.node a' l k v ht bal r)).addrs →
      ((h.put a' ⟨k, v, ctxParent fs, l.ptr, r.ptr, ht, l.ht - r.ht⟩).put a'
        ⟨k, v, ctxParent fs, l.ptr, r.ptr, 1 + max l.ht r.ht, l.ht - r.ht⟩).get? x = h.get? x := by
    intro x hx
    have : x ≠ a' := fun e => hx (by rw [plug_addrs]; simp [Tree.addrs, e])
    rw [Heap.get?_put_ne _ _ this, Heap.get?_put_ne _ _ this]
  have hsame : ∀ b c (x : Nat), x ∉ (plug fs (.node a' l k v ht bal r)).addrs →
      x ∉ (plug fs (.node a' l k v b c r)).addrs := by
    intro b c x hx
    simpa [plug_addrs, Tree.addrs] using hx
  simp (disch := first | omega | assumption |
      ((try simp only [Heap.put_length]); assumption) |
      exact Tree.ptr_ne_of_not_mem (by assumption)) only
    [rebalanceAt_eq, getBalanceFactor_eq, getHeight_eq, obind_some, Heap.modify_map,
     Option.map_some', Heap.get?_put_self, heightOf_put_ne, hr1.1, q1, q2]
  simp only [Tree.rebalance]
  by_cases hb1 : l.ht - r.ht > 1
  · simp only [hb1, if_true]
    obtain ⟨h2, e2, hr2, hag2⟩ := rotateLeftChild_plug H2 (hnd' _ _)
    rw [e2, obind_some]
    have hnd2 := plug_nodup_of_sublist (u := Tree.node a'
      (if l.ptr ≠ none ∧ l.bal < 0 then (l.rotL).getD .nil else l) k v
      (1 + max l.ht r.ht) (l.ht - r.ht) r) hnd
      (by simp only [Tree.addrs]; exact (Tree.leftFix_sublist l).append (List.Sublist.refl _))
    rcases hrot : (Tree.node a' (if l.ptr ≠ none ∧ l.bal < 0 then (l.rotL).getD .nil else l)
      k v (1 + max l.ht r.ht) (l.ht - r.ht) r).rotR with _ | t
    · have hnil := Tree.rotR_eq_none hrot
      have hca := (Heap.Repr.of_plug (F := fs) hr2).1
      rw [hnil] at hca
      rw [rightRotate_null hca rfl]
      refine ⟨h2, by simp, hr2, by simp, fun x hx => ?_⟩
      rw [hag2 x (hsame _ _ x hx), hag0 x hx]
    · obtain ⟨h3, e3, hne, hr3, hag3⟩ := rightRotate_plug hrot rfl hr2 hnd2
      refine ⟨h3, by simpa using e3, hr3, fun _ => hne, fun x hx => ?_⟩
      rw [hag3 x ?_, hag2 x (hsame _ _ x hx), hag0 x hx]
      intro hm
      apply hx
      rw [plug_addrs] at hm ⊢
      simp only [Tree.addrs, List.mem_append, List.mem_cons] at hm ⊢
      rcases hm with (hm | hm | hm | hm) | hm
      · exact Or.inl (Or.inl hm)
      · exact Or.inl (Or.inr (Or.inl ((Tree.leftFix_sublist l).subset hm)))
      · exact Or.inl (Or.inr (Or.inr (Or.inl hm)))
      · exact Or.inl (Or.inr (Or.inr (Or.inr hm)))
      · exact Or.inr hm
  · by_cases hb2 : l.ht - r.ht < -1
    · simp only [hb1, hb2, if_true, if_false]
      obtain ⟨h2, e2, hr2, hag2⟩ := rotateRightChild_plug H2 (hnd' _ _)
      rw [e2, obind_some]
      have hnd2 := plug_nodup_of_sublist (u := Tree.node a' l k v
        (1 + max l.ht r.ht) (l.ht - r.ht)
        (if r.ptr ≠ none ∧ r.bal > 0 then (r.rotR).getD .nil else r)) hnd
        (by simp only [Tree.addrs]
            exact (List.Sublist.refl _).append ((Tree.rightFix_sublist r).cons₂ _))
      rcases hrot : (Tree.node a' l k v (1 + max l.ht r.ht) (l.ht - r.ht)
        (if r.ptr ≠ none ∧ r.bal > 0 then (r.rotR).getD .nil else r)).rotL with _ | t
      · have hnil := Tree.rotL_eq_none hrot
        have hca := (Heap.Repr.of_plug (F := fs) hr2).1
        rw [hnil] at hca
        rw [leftRotate_null hca rfl]
        refine ⟨h2, by simp, hr2, by simp, fun x hx => ?_⟩
        rw [hag2 x (hsame _ _ x hx), hag0 x hx]
      · obtain ⟨h3, e3, hne, hr3, hag3⟩ := leftRotate_plug hrot rfl hr2 hnd2
        refine ⟨h3, by simpa using e3, hr3, fun _ => hne, fun x hx => ?_⟩
        rw [hag3 x ?_, hag2 x (hsame _ _ x hx), hag0 x hx]
        intro hm
        apply hx
        rw [plug_addrs] at hm ⊢
        simp only [Tree.addrs, List.mem_append, List.mem_cons] at hm ⊢
        rcases hm with (hm | hm | hm | hm) | hm
        · exact Or.inl (Or.inl hm)
        · exact Or.inl (Or.inr (Or.inl hm))
        · exact Or.inl (Or.inr (Or.inr (Or.inl hm)))
        · exact Or.inl (Or.inr (Or.inr (Or.inr ((Tree.rightFix_sublist r).subset hm))))
        · exact Or.inr hm
    · simp only [hb1, hb2, if_false]
      exact ⟨_, by simp, H2, by simp, hag0⟩

end CS280

namespace CS280
variable {K V : Type}

/-! ## The post-insert walk -/

theorem Tree.rebalance_addrs_sublist (s : Tree K V) : s.rebalance.1.addrs.Sublist s.addrs := by
  rcases s with _ | ⟨a, l, k, v, ht, bal, r⟩
  · exact List.Sublist.refl _
  · simp only [Tree.rebalance]
    have hl : (Tree.node a (if l.ptr ≠ none ∧ l.bal < 0 then (l.rotL).getD .nil else l) k v
        (1 + max l.ht r.ht) (l.ht - r.ht) r).addrs.Sublist (Tree.node a l k v ht bal r).addrs := by
      simp only [Tree.addrs]; exact (Tree.leftFix_sublist l).append (List.Sublist.refl _)
    have hr : (Tree.node a l k v (1 + max l.ht r.ht) (l.ht - r.ht)
        (if r.ptr ≠ none ∧ r.bal > 0 then (r.rotR).getD .nil else r)).addrs.Sublist
        (Tree.node a l k v ht bal r).addrs := by
      simp only [Tree.addrs]
      exact (List.Sublist.refl _).append ((Tree.rightFix_sublist r).cons₂ _)
    split
    · split
      · next t ht' => rw [Tree.rotR_addrs ht']; exact hl
      · exact hl
    · split
      · split
        · next t ht' => rw [Tree.rotL_addrs ht']; exact hr
        · exact hr
      · simp [Tree.addrs]

theorem updateBalanceAfterInsertLoop_succ (fuel : Nat) (h : Heap K V) (node : Nat) :
    updateBalanceAfterInsertLoop (fuel + 1) h (some node) =
      obind (rebalanceAt h node) (fun p =>
        match p.2 with
        | some nd => obind (p.1.get? nd) (fun n => updateBalanceAfterInsertLoop fuel p.1 n.parent)
        | none => updateBalanceAfterInsertLoop fuel p.1 none) := rfl

theorem updateBalanceAfterInsertLoop_null (fuel : Nat) (h : Heap K V) :
    updateBalanceAfterInsertLoop (fuel + 1) h none = some h := rfl

theorem walkSpec_step (fs : List (Frame K V))
    (ih : ∀ fr fs', fs = fr :: fs' → WalkSpec fs') : WalkSpec fs := by
  intro s a h fuel hs hr hnd hf
  obtain ⟨f, rfl⟩ : ∃ f, fuel = f + 1 := ⟨fuel - 1, by omega⟩
  obtain ⟨h1, e1, hr1, hne, hag1⟩ := rebalanceAt_plug hs hr hnd
  rw [updateBalanceAfterInsertLoop_succ, e1, obind_some]
  by_cases hc : s.rebalance.2 = true
  · obtain ⟨nd, hnd'⟩ := Option.ne_none_iff_exists'.1 (hne hc)
    simp only [hc, if_true, hnd']
    rcases hs' : s.rebalance.1 with _ | ⟨nd', l, k, v, ht, bal, r⟩
    · rw [hs'] at hnd'; simp at hnd'
    rw [hs'] at hnd' hr1
    simp only [Tree.ptr_node, Option.some.injEq] at hnd'
    subst hnd'
    have hcell := (Heap.Repr.of_plug (F := fs) hr1).1
    rw [hcell, obind_some]
    rcases fs with _ | ⟨fr, fs'⟩
    · obtain ⟨f', rfl⟩ : ∃ f', f = f' + 1 := ⟨f - 1, by omega⟩
      refine ⟨h1, rfl, ?_, hag1⟩
      simpa [walkUp, hs', plug] using hr1
    · have hnd2 : (plug fs' (fr.fill s.rebalance.1)).addrs.Nodup :=
        plug_nodup_of_sublist (F := fr :: fs') hnd (Tree.rebalance_addrs_sublist s)
      have hr2 : h1.Repr none (plug fs' (fr.fill s.rebalance.1)) := by rw [hs']; exact hr1
      obtain ⟨h2, e2, hr3, hag2⟩ := ih fr fs' rfl
        (s := fr.fill s.rebalance.1) (a := fr.addr) (n := f) (by cases fr <;> rfl) hr2 hnd2
        (by simp at hf; omega)
      refine ⟨h2, ?_, ?_, ?_⟩
      · simpa [ctxParent] using e2
      · simpa [walkUp, hc] using hr3
      · intro x hx
        rw [hag2 x ?_, hag1 x hx]
        intro hm
        apply hx
        have := (plug_addrs fs' (fr.fill s.rebalance.1)).symm ▸ hm
        rw [plug, plug_addrs]
        simp only [List.mem_append] at this ⊢
        rcases this with (hm | hm) | hm
        · exact Or.inl (Or.inl hm)
        · refine Or.inl (Or.inr ?_)
          cases fr <;> simp only [Frame.fill, Tree.addrs, List.mem_append, List.mem_cons] at hm ⊢
          · rcases hm with hm | hm | hm
            · exact Or.inl ((Tree.rebalance_addrs_sublist s).subset hm)
            · exact Or.inr (Or.inl hm)
            · exact Or.inr (Or.inr hm)
          · rcases hm with hm | hm | hm
            · exact Or.inl hm
            · exact Or.inr (Or.inl hm)
            · exact Or.inr (Or.inr ((Tree.rebalance_addrs_sublist s).subset hm))
        · exact Or.inr hm
  · have hc' : s.rebalance.2 = false := by simpa using hc
    simp only [hc', Bool.false_eq_true, if_false]
    obtain ⟨f', rfl⟩ : ∃ f', f = f' + 1 := ⟨f - 1, by omega⟩
    refine ⟨h1, rfl, ?_, hag1⟩
    rcases fs with _ | ⟨fr, fs'⟩
    · simpa [walkUp, plug] using hr1
    · simpa [walkUp, hc', plug] using hr1

/-- The loop of `updateBalanceAfterInsert`, started at the root of the subtree
`s` with enough fuel for the ancestors of `s`, comes to an end; the heap then
stores the tree `walkUp fs s`. -/
theorem updateBalanceAfterInsertLoop_plug (fs : List (Frame K V)) : WalkSpec fs := by
  induction fs with
  | nil => exact walkSpec_step [] (fun _ _ e => by cases e)
  | cons fr fs' ih => exact walkSpec_step (fr :: fs') (fun fr' fs'' e => by cases e; exact ih)

end CS280

namespace CS280
variable {K V : Type}

/-! ## Fuel -/

theorem List.length_le_of_nodup_bounded {l : List Nat} {n : Nat} (hnd : l.Nodup)
    (hb : ∀ x ∈ l, x < n) : l.length ≤ n := by
  have h1 : l.toFinset ⊆ Finset.range n := by
    intro x hx
    exact Finset.mem_range.2 (hb x (List.mem_toFinset.1 hx))
  have h2 := Finset.card_le_card h1
  rwa [List.toFinset_card_of_nodup hnd, Finset.card_range] at h2

/-- A represented tree without shared nodes has at most as many nodes as the
heap has cells: the fuel of the loops is enough. -/
theorem Heap.Repr.size_le {h : Heap K V} {t : Tree K V} {par : Option Nat}
    (hr : h.Repr par t) (hnd : t.addrs.Nodup) : t.size ≤ h.cells.length := by
  rw [← Tree.addrs_length]
  exact List.length_le_of_nodup_bounded hnd fun x hx => hr.lt_length hx

theorem plug_length_le : ∀ (fs : List (Frame K V)) (t : Tree K V),
    fs.length ≤ (plug fs t).size
  | [], _ => Nat.zero_le _
  | f :: fs, t => by
    have h1 := plug_length_le fs .nil
    have h2 := plug_size fs (f.fill t)
    have : 1 ≤ (f.fill t).size := by
      cases f <;> simp [Frame.fill, Tree.size] <;> omega
    simp only [plug, List.length_cons]
    omega

/-! ## The search loop -/

section Ordered
variable [LinearOrder K]

theorem Tree.descend_plug (key : K) : ∀ (t : Tree K V) (fs : List (Frame K V)),
    plug (t.descend key fs).1 (t.descend key fs).2 = plug fs t
  | .nil, fs => rfl
  | .node a l k v ht bal r, fs => by
    simp only [Tree.descend]
    split
    · rw [Tree.descend_plug key l]; rfl
    · split
      · rw [Tree.descend_plug key r]; rfl
      · rfl

theorem Tree.descend_snd (key : K) : ∀ (t : Tree K V) (fs fs' : List (Frame K V)),
    (t.descend key fs).2 = (t.descend key fs').2
  | .nil, _, _ => rfl
  | .node a l k v ht bal r, fs, fs' => by
    simp only [Tree.descend]
    split
    · exact Tree.descend_snd key l _ _
    · split
      · exact Tree.descend_snd key r _ _
      · rfl

/-- The subtree at which the search stops is empty or holds the key at its
root. -/
theorem Tree.descend_key (key : K) : ∀ (t : Tree K V) (fs : List (Frame K V)),
    (t.descend key fs).2 = .nil ∨
      ∃ a l v ht bal r, (t.descend key fs).2 = .node a l key v ht bal r
  | .nil, _ => Or.inl rfl
  | .node a l k v ht bal r, fs => by
    simp only [Tree.descend]
    split
    · exact Tree.descend_key key l _
    · split
      · exact Tree.descend_key key r _
      · next h1 h2 =>
        have : key = k := le_antisymm (not_lt.1 h2) (not_lt.1 h1)
        subst this
        exact Or.inr ⟨a, l, v, ht, bal, r, rfl⟩

theorem findLoop_zero (h : Heap K V) (key : K) (p : Option Nat) :
    findLoop h key 0 p = none := rfl

theorem findLoop_null (h : Heap K V) (key : K) (fuel : Nat) :
    findLoop h key (fuel + 1) none = some none := rfl

theorem findLoop_succ (h : Heap K V) (key : K) (fuel N : Nat) :
    findLoop h key (fuel + 1) (some N) = obind (h.get? N) (fun n =>
      if key < n.key then findLoop h key fuel n.left
      else if key > n.key then findLoop h key fuel n.right
      else some (some N)) := rfl

/-- The loop of `find` on a represented tree returns the root pointer of the
subtree at which the search stops. -/
theorem findLoop_repr (key : K) : ∀ (t : Tree K V) {h : Heap K V} {par : Option Nat}
    {fuel : Nat}, h.Repr par t → t.size + 1 ≤ fuel →
    findLoop h key fuel t.ptr = some (t.descend key []).2.ptr
  | .nil, h, par, fuel, _, hf => by
    obtain ⟨f, rfl⟩ : ∃ f, fuel = f + 1 := ⟨fuel - 1, by omega⟩
    rfl
  | .node a l k v ht bal r, h, par, fuel, hr, hf => by
    obtain ⟨f, rfl⟩ : ∃ f, fuel = f + 1 := ⟨fuel - 1, by omega⟩
    simp only [Tree.size] at hf
    simp only [Tree.ptr_node, findLoop_succ, hr.1, obind_some, Tree.descend]
    split
    · rw [findLoop_repr key l hr.2.1 (by omega), Tree.descend_snd key l [] _]
    · split
      · rw [findLoop_repr key r hr.2.2 (by omega), Tree.descend_snd key r [] _]
      · rfl

theorem insertLoop_null (h : Heap K V) (key : K) (fuel : Nat) (P : Option Nat) :
    insertLoop h key (fuel + 1) none P = some (none, P) := rfl

theorem insertLoop_succ (h : Heap K V) (key : K) (fuel N : Nat) (P : Option Nat) :
    insertLoop h key (fuel + 1) (some N) P = obind (h.get? N) (fun n =>
      if key < n.key then insertLoop h key fuel n.left (some N)
      else if key > n.key then insertLoop h key fuel n.right (some N)
      else some (some N, some N)) := rfl

/-- The search loop of `insert` on a represented tree: `N` ends as the root
pointer of the subtree at which the search stops, `P` as the last node
visited. -/
theorem insertLoop_repr (key : K) : ∀ (t : Tree K V) (fs : List (Frame K V)) {h : Heap K V}
    {par : Option Nat} {n : Nat}, h.Repr par t → t.size + 1 ≤ n →
    insertLoop h key n t.ptr (ctxParent fs) =
      some ((t.descend key fs).2.ptr,
        if (t.descend key fs).2.ptr = none then ctxParent (t.descend key fs).1
        else (t.descend key fs).2.ptr)
  | .nil, fs, h, par, fuel, _, hf => by
    obtain ⟨f, rfl⟩ : ∃ f, fuel = f + 1 := ⟨fuel - 1, by omega⟩
    simp [Tree.descend, insertLoop_null]
  | .node a l k v ht bal r, fs, h, par, fuel, hr, hf => by
    obtain ⟨f, rfl⟩ : ∃ f, fuel = f + 1 := ⟨fuel - 1, by omega⟩
    simp only [Tree.size] at hf
    simp only [Tree.ptr_node, insertLoop_succ, hr.1, obind_some, Tree.descend]
    split
    · exact insertLoop_repr key l (.left a k v ht bal r :: fs) hr.2.1 (by omega)
    · split
      · exact insertLoop_repr key r (.right a l k v ht bal :: fs) hr.2.2 (by omega)
      · simp

end Ordered

end CS280

namespace CS280
variable {K V : Type}

/-! ## Ordering of the keys -/

theorem Tree.keys_node (a : Nat) (l r : Tree K V) (k : K) (v : V) (ht bal : Int) :
    (Tree.node a l k v ht bal r).keys = l.keys ++ k :: r.keys := by
  simp [Tree.keys, Tree.toList]

theorem Tree.keys_nil : (Tree.nil : Tree K V).keys = [] := rfl

theorem Tree.all_iff (p : K → Prop) : ∀ t : Tree K V, t.All p ↔ ∀ k ∈ t.keys, p k
  | .nil => by simp [Tree.All, Tree.keys_nil]
  | .node a l k v ht bal r => by
    simp only [Tree.All, Tree.keys_node, List.mem_append, List.mem_cons, Tree.all_iff p l,
      Tree.all_iff p r]
    constructor
    · rintro ⟨h1, h2, h3⟩ x (hx | rfl | hx)
      · exact h2 x hx
      · exact h1
      · exact h3 x hx
    · intro h
      exact ⟨h k (Or.inr (Or.inl rfl)), fun x hx => h x (Or.inl hx),
        fun x hx => h x (Or.inr (Or.inr hx))⟩

section Ordered
variable [LinearOrder K]

/-- BST ordering says that the keys in in-order are strictly increasing. -/
theorem Tree.bst_iff_pairwise : ∀ t : Tree K V, t.BST ↔ t.keys.Pairwise (fun x y => x < y)
  | .nil => by simp [Tree.BST, Tree.keys_nil]
  | .node a l k v ht bal r => by
    simp only [Tree.BST, Tree.keys_node, List.pairwise_append, List.pairwise_cons,
      Tree.all_iff, Tree.bst_iff_pairwise l, Tree.bst_iff_pairwise r, List.mem_cons]
    constructor
    · rintro ⟨h1, h2, h3, h4⟩
      refine ⟨h3, ⟨h2, h4⟩, ?_⟩
      rintro x hx y (rfl | hy)
      · exact h1 x hx
      · exact lt_trans (h1 x hx) (h2 y hy)
    · rintro ⟨h1, ⟨h2, h3⟩, h4⟩
      exact ⟨fun x hx => h4 x hx k (Or.inl rfl), h2, h1, h3⟩

theorem Tree.keys_nodup_of_bst {t : Tree K V} (h : t.BST) : t.keys.Nodup :=
  ((Tree.bst_iff_pairwise t).1 h).imp fun hlt => ne_of_lt hlt

end Ordered

theorem Heap.Repr.keys_eq {h : Heap K V} : ∀ {t : Tree K V} {par : Option Nat},
    h.Repr par t → t.addrs.map (fun a => (h.get? a).map (fun c => c.key)) = t.keys.map some
  | .nil, _, _ => rfl
  | .node a l k v ht bal r, par, hr => by
    simp only [Tree.addrs, Tree.keys_node, List.map_append, List.map_cons, hr.2.1.keys_eq,
      hr.2.2.keys_eq, hr.1, Option.map_some']

/-- A represented tree with pairwise distinct keys has no shared node. -/
theorem Heap.Repr.addrs_nodup {h : Heap K V} {t : Tree K V} {par : Option Nat}
    (hr : h.Repr par t) (hk : t.keys.Nodup) : t.addrs.Nodup := by
  have h1 : (t.keys.map some).Nodup := hk.map (Option.some_injective K)
  rw [← hr.keys_eq] at h1
  exact List.Nodup.of_map _ h1

section Ordered
variable [LinearOrder K]

theorem Heap.Repr.nodup_of_bst {h : Heap K V} {t : Tree K V} {par : Option Nat}
    (hr : h.Repr par t) (hb : t.BST) : t.addrs.Nodup :=
  hr.addrs_nodup (Tree.keys_nodup_of_bst hb)

/-- On a BST the search stops at the node holding the key when there is one,
and at an empty position otherwise. -/
theorem Tree.descend_spec (key : K) : ∀ (t : Tree K V) (fs : List (Frame K V)), t.BST →
    ((t.descend key fs).2 = .nil ∧ key ∉ t.keys) ∨
      ∃ a l v ht bal r, (t.descend key fs).2 = .node a l key v ht bal r ∧ key ∈ t.keys ∧
        a ∈ t.addrs
  | .nil, _, _ => Or.inl ⟨rfl, by simp [Tree.keys_nil]⟩
  | .node a l k v ht bal r, fs, hb => by
    obtain ⟨h1, h2, h3, h4⟩ := hb
    rw [Tree.all_iff] at h1 h2
    simp only [Tree.descend, Tree.keys_node, List.mem_append, List.mem_cons, Tree.addrs]
    split
    · next hlt =>
      rcases Tree.descend_spec key l (.left a k v ht bal r :: fs) h3 with ⟨e, hn⟩ | ⟨a', l', v', ht', bal', r', e, hm, ha⟩
      · refine Or.inl ⟨e, ?_⟩
        rintro (hx | rfl | hx)
        · exact hn hx
        · exact lt_irrefl _ hlt
        · exact lt_asymm hlt (h2 _ hx)
      · exact Or.inr ⟨a', l', v', ht', bal', r', e, Or.inl hm, Or.inl ha⟩
    · split
      · next hnlt hgt =>
        rcases Tree.descend_spec key r (.right a l k v ht bal :: fs) h4 with ⟨e, hn⟩ | ⟨a', l', v', ht', bal', r', e, hm, ha⟩
        · refine Or.inl ⟨e, ?_⟩
          rintro (hx | rfl | hx)
          · exact lt_asymm hgt (h1 _ hx)
          · exact lt_irrefl _ hgt
          · exact hn hx
        · exact Or.inr ⟨a', l', v', ht', bal', r', e, Or.inr (Or.inr hm), Or.inr (Or.inr ha)⟩
      · next hnlt hngt =>
        have : key = k := le_antisymm (not_lt.1 hngt) (not_lt.1 hnlt)
        subst this
        exact Or.inr ⟨a, l, v, ht, bal, r, rfl, Or.inr (Or.inl rfl), Or.inr (Or.inl rfl)⟩

/-- The node at which the search stops is stored in the heap with the fields
the tree records. -/
theorem Heap.Repr.descend_cell {h : Heap K V} {t : Tree K V} (hr : h.Repr none t) (key : K)
    {a : Nat} {l r : Tree K V} {k : K} {v : V} {ht bal : Int}
    (e : (t.descend key []).2 = .node a l k v ht bal r) :
    h.get? a = some ⟨k, v, ctxParent (t.descend key []).1, l.ptr, r.ptr, ht, bal⟩ := by
  have h1 : h.Repr none (plug (t.descend key []).1 (t.descend key []).2) := by
    rw [Tree.descend_plug]; exact hr
  have h2 := Heap.Repr.of_plug h1
  rw [e] at h2
  exact h2.1

end Ordered

end CS280

namespace CS280
variable {K V : Type}

/-! ## `insert` on a represented tree -/

theorem rebindRoot_some (h : Heap K V) (r : Nat) :
    rebindRoot h (some r) = obind (h.get? r) (fun rn =>
      if rn.parent ≠ none then some rn.parent else some (some r)) := rfl

theorem plug_ptr : ∀ (fs : List (Frame K V)) {s : Tree K V} {a : Nat}, s.ptr = some a →
    (plug fs s).ptr = some (rootAddr fs a)
  | [], _, _, h => h
  | f :: fs, s, a, _ => by
    rw [plug, rootAddr]
    exact plug_ptr fs (by cases f <;> rfl)

theorem Tree.rootOrChild_of_ptr {t : Tree K V} {a : Nat} (h : t.ptr = some a) :
    t.RootOrChild a := by
  cases t with
  | nil => simp at h
  | node b l k v ht bal r =>
    simp only [Tree.ptr_node, Option.some.injEq] at h
    exact Or.inl h

theorem Tree.rebalance_root {s : Tree K V} {a : Nat} (hs : s.ptr = some a) :
    s.rebalance.1.RootOrChild a := by
  rcases s with _ | ⟨a', l, k, v, ht, bal, r⟩
  · simp at hs
  simp only [Tree.ptr_node, Option.some.injEq] at hs
  subst hs
  simp only [Tree.rebalance]
  split
  · split
    · next t ht' =>
      rcases hl : (if l.ptr ≠ none ∧ l.bal < 0 then (l.rotL).getD .nil else l) with
        _ | ⟨b, bl, bk, bv, bht, bbal, br⟩
      · rw [hl] at ht'; simp [Tree.rotR] at ht'
      · rw [hl] at ht'
        simp only [Tree.rotR, Option.some.injEq] at ht'
        subst ht'
        exact Or.inr (Or.inr rfl)
    · exact Or.inl rfl
  · split
    · split
      · next t ht' =>
        rcases hl : (if r.ptr ≠ none ∧ r.bal > 0 then (r.rotR).getD .nil else r) with
          _ | ⟨b, bl, bk, bv, bht, bbal, br⟩
        · rw [hl] at ht'; simp [Tree.rotL] at ht'
        · rw [hl] at ht'
          simp only [Tree.rotL, Option.some.injEq] at ht'
          subst ht'
          exact Or.inr (Or.inl rfl)
      · exact Or.inl rfl
    · exact Or.inl rfl

/-- After the walk, the former root is the root or a child of the root. -/
theorem walkUp_root : ∀ (fs : List (Frame K V)) {s : Tree K V} {a : Nat}, s.ptr = some a →
    (walkUp fs s).RootOrChild (rootAddr fs a)
  | [], _, _, hs => Tree.rebalance_root hs
  | f :: fs, s, a, _ => by
    simp only [walkUp, rootAddr]
    split
    · exact walkUp_root fs (by cases f <;> rfl)
    · exact Tree.rootOrChild_of_ptr (plug_ptr fs (by cases f <;> rfl))

/-- `rebindRoot` finds the root of the tree from a node that is the root or a
child of the root. -/
theorem rebindRoot_repr {h : Heap K V} {t : Tree K V} {a : Nat} (hr : h.Repr none t)
    (ha : t.RootOrChild a) : rebindRoot h (some a) = some t.ptr := by
  rcases t with _ | ⟨b, l, k, v, ht, bal, r⟩
  · exact ha.elim
  · rcases ha with rfl | ha | ha
    · simp [rebindRoot_some, hr.1, obind_some]
    · rcases l with _ | ⟨c, cl, ck, cv, cht, cbal, cr⟩
      · simp at ha
      · simp only [Tree.ptr_node, Option.some.injEq] at ha
        subst ha
        simp [rebindRoot_some, hr.2.1.1, obind_some]
    · rcases r with _ | ⟨c, cl, ck, cv, cht, cbal, cr⟩
      · simp at ha
      · simp only [Tree.ptr_node, Option.some.injEq] at ha
        subst ha
        simp [rebindRoot_some, hr.2.2.1, obind_some]

section Ordered
variable [LinearOrder K]

theorem AVLmap.insert_eq (m : AVLmap K V) (key : K) (value : V) :
    m.insert key value = obind (insertLoop m.heap key m.heap.fuel m.pRoot none) (fun np =>
      match np.1 with
      | some N => obind (m.heap.modify N (fun c => { c with value := value }))
          (fun h => some { m with heap := h })
      | none =>
        obind (linkNewNode (m.heap.alloc ⟨key, value, none, none, none, 0, 0⟩).1 m.pRoot np.2
            (m.heap.alloc ⟨key, value, none, none, none, 0, 0⟩).2 key) (fun hr =>
          obind (updateBalanceAfterInsert hr.1 np.2) (fun h =>
            obind (rebindRoot h hr.2) (fun root =>
              some ⟨h, root, (m.size_ + 1) % 2 ^ 32⟩)))) := rfl

theorem linkNewNode_none (h : Heap K V) (pRoot : Option Nat) (n : Nat) (key : K) :
    linkNewNode h pRoot none n key = some (h, some n) := rfl

theorem linkNewNode_some (h : Heap K V) (pRoot : Option Nat) (p n : Nat) (key : K) :
    linkNewNode h pRoot (some p) n key = obind (h.get? p) (fun pn =>
      if key < pn.key then
        obind (h.modify p (fun c => { c with left := some n })) (fun h =>
          obind (h.modify n (fun c => { c with parent := some p })) (fun h => some (h, pRoot)))
      else
        obind (h.modify p (fun c => { c with right := some n })) (fun h =>
          obind (h.modify n (fun c => { c with parent := some p })) (fun h => some (h, pRoot))))
    := rfl

theorem Tree.descend_dirs (key : K) : ∀ (t : Tree K V) (fs : List (Frame K V)),
    (∀ f ∈ fs, Frame.Dir key f) → ∀ f ∈ (t.descend key fs).1, Frame.Dir key f
  | .nil, _, h => h
  | .node a l k v ht bal r, fs, h => by
    simp only [Tree.descend]
    split
    · next hlt =>
      refine Tree.descend_dirs key l _ ?_
      intro f hf
      rcases List.mem_cons.1 hf with rfl | hf
      · exact hlt
      · exact h f hf
    · split
      · next hgt =>
        refine Tree.descend_dirs key r _ ?_
        intro f hf
        rcases List.mem_cons.1 hf with rfl | hf
        · exact hgt
        · exact h f hf
      · exact h

/-- The entries before the position found by the search have smaller keys, the
entries after it greater keys. -/
theorem Tree.descend_bounds (key : K) : ∀ (t : Tree K V) (fs : List (Frame K V)), t.BST →
    ((∀ e ∈ ctxListL fs, e.1 < key) ∧ (∀ e ∈ ctxListR fs, key < e.1)) →
    (∀ e ∈ ctxListL (t.descend key fs).1, e.1 < key) ∧
      (∀ e ∈ ctxListR (t.descend key fs).1, key < e.1)
  | .nil, _, _, h => h
  | .node a l k v ht bal r, fs, hb, h => by
    obtain ⟨h1, h2, h3, h4⟩ := hb
    rw [Tree.all_iff] at h1 h2
    simp only [Tree.descend]
    split
    · next hlt =>
      refine Tree.descend_bounds key l _ h3 ⟨h.1, ?_⟩
      intro e he
      simp only [ctxListR, List.cons_append, List.mem_cons, List.mem_append] at he
      rcases he with rfl | he | he
      · exact hlt
      · exact lt_trans hlt (h2 e.1 (List.mem_map_of_mem _ he))
      · exact h.2 e he
    · split
      · next hgt =>
        refine Tree.descend_bounds key r _ h4 ⟨?_, h.2⟩
        intro e he
        simp only [ctxListL, List.mem_append, List.mem_singleton] at he
        rcases he with he | he | rfl
        · exact h.1 e he
        · exact lt_trans (h1 e.1 (List.mem_map_of_mem _ he)) hgt
        · exact hgt
      · exact h

/-! ### The root after the walk -/

end Ordered

end CS280

namespace CS280
variable {K V : Type}

theorem Heap.alloc_length (h : Heap K V) (c : Node K V) :
    (h.alloc c).1.cells.length = h.cells.length + 1 := by
  simp [Heap.alloc]

theorem Heap.alloc_snd (h : Heap K V) (c : Node K V) : (h.alloc c).2 = h.cells.length := rfl

theorem Heap.Repr.alloc {h : Heap K V} {t : Tree K V} {par : Option Nat} (hr : h.Repr par t)
    (c : Node K V) : (h.alloc c).1.Repr par t :=
  hr.agree fun x hx => by
    rw [Heap.get?_alloc, if_neg (Nat.ne_of_lt (hr.lt_length hx))]

section Ordered
variable [LinearOrder K]

set_option maxHeartbeats 1000000 in
/-- Linking the new leaf below the last node visited by the search. -/
theorem linkNewNode_plug {h : Heap K V} {fr : Frame K V} {fs : List (Frame K V)} {key : K}
    (value : V) (pRoot : Option Nat)
    (hr : h.Repr none (plug (fr :: fs) .nil)) (hnd : (plug (fr :: fs) .nil).addrs.Nodup)
    (hd : Frame.Dir key fr) :
    ∃ h', linkNewNode (h.alloc ⟨key, value, none, none, none, 0, 0⟩).1 pRoot (some fr.addr)
        h.cells.length key = some (h', pRoot) ∧
      h'.Repr none (plug (fr :: fs) (.node h.cells.length .nil key value 0 0 .nil)) ∧
      h'.cells.length = h.cells.length + 1 := by
  have hr1 := Heap.Repr.of_plug (F := fs) hr
  have hnd1 := plug_nodup_sub (F := fs) hnd
  have hfresh : ∀ x ∈ (plug (fr :: fs) (Tree.nil : Tree K V)).addrs, x ≠ h.cells.length :=
    fun x hx => Nat.ne_of_lt (hr.lt_length hx)
  have hp : fr.addr < h.cells.length :=
    hr.lt_length (mem_plug_of_mem_fill (by cases fr <;> simp [Frame.fill, Tree.addrs, Frame.addr]))
  have hpne : fr.addr ≠ h.cells.length := Nat.ne_of_lt hp
  have hpne' : h.cells.length ≠ fr.addr := fun e => hpne e.symm
  have hl0 : fr.addr < (h.alloc ⟨key, value, none, none, none, 0, 0⟩).1.cells.length := by
    rw [Heap.alloc_length]; omega
  have hl1 : h.cells.length < (h.alloc ⟨key, value, none, none, none, 0, 0⟩).1.cells.length := by
    rw [Heap.alloc_length]; omega
  rcases fr with ⟨p, pk, pv, pht, pbal, pr⟩ | ⟨p, pl, pk, pv, pht, pbal⟩
  all_goals
    simp only [Frame.fill, Frame.addr, Heap.Repr, Tree.ptr_nil] at hr1 hpne hpne' hl0 hp
    simp only [Frame.Dir] at hd
    simp (disch := first | omega | assumption | (simp only [Heap.put_length]; omega) |
        exact not_lt_of_gt hd) only
      [linkNewNode_some, Frame.addr, Heap.get?_alloc, if_neg, if_pos, hr1.1, obind_some, hd,
       Heap.modify_map, Option.map_some', Heap.get?_put_ne, Heap.get?_put_self, if_true]
    refine ⟨_, rfl, ?_, by simp [Heap.alloc_length]⟩
    refine Heap.Repr.plug_replace' (F := fs) hr hnd rfl ?_ ?_
    · simp only [Frame.fill, Heap.Repr, Tree.ptr_nil, Tree.ptr_node]
      refine ⟨?_, ?_, ?_⟩
      all_goals
        first
        | trivial
        | (simp (disch := first | omega | assumption | (simp only [Heap.put_length]; omega)) only
            [Heap.get?_put_ne, Heap.get?_put_self, and_self, and_true, true_and])
        | skip
      all_goals
        refine (Heap.Repr.put (Heap.Repr.put (Heap.Repr.alloc ?_ _) ?_ _) ?_ _)
        · first | exact hr1.2.2 | exact hr1.2.1
        · simp only [Frame.fill, Tree.addrs, List.nodup_append, List.nodup_cons,
            List.disjoint_cons_right, List.nil_append, List.not_mem_nil, not_false_eq_true,
            List.nodup_nil, true_and, List.append_nil] at hnd1
          tauto
        · intro hm
          refine hfresh _ (mem_plug_of_mem_fill ?_) rfl
          simp [Frame.fill, Tree.addrs, hm]
    · intro x hx hx'
      have h1 : x ≠ h.cells.length := hfresh x hx
      have h2 : x ≠ p := fun e => hx' (by simp [Frame.fill, Tree.addrs, e])
      rw [Heap.get?_put_ne _ _ h1, Heap.get?_put_ne _ _ h2, Heap.get?_alloc, if_neg h1]

theorem Tree.insertAt_new {t : Tree K V} {key : K} (value : V) (n : Nat)
    (e : (t.descend key []).2 = .nil) :
    t.insertAt key value n = plug (t.descend key []).1 (.node n .nil key value 0 0 .nil) ∨
    ∃ fr fs, (t.descend key []).1 = fr :: fs ∧
      t.insertAt key value n = walkUp fs (fr.fill (.node n .nil key value 0 0 .nil)) := by
  rcases hfs : (t.descend key []).1 with _ | ⟨fr, fs⟩
  · left
    have hpair : t.descend key [] = ([], .nil) := Prod.ext hfs e
    simp [Tree.insertAt, hpair, plug]
  · right
    have hpair : t.descend key [] = (fr :: fs, .nil) := Prod.ext hfs e
    exact ⟨fr, fs, rfl, by simp [Tree.insertAt, hpair]⟩

/-- `insert` of a key that the tree does not hold: the call returns, the new
map holds the tree `insertAt`, whose new node lies at the first free address,
and `size_` is incremented modulo `2 ^ 32`. -/
theorem AVLmap.insert_new {m : AVLmap K V} {t : Tree K V} {key : K} (value : V)
    (hm : m.Represents t) (hb : t.BST) (hk : key ∉ t.keys) :
    ∃ h', m.insert key value =
        some ⟨h', (t.insertAt key value m.heap.cells.length).ptr, (m.size_ + 1) % 2 ^ 32⟩ ∧
      h'.Repr none (t.insertAt key value m.heap.cells.length) := by
  obtain ⟨hp, hr⟩ := hm
  have hnd := hr.nodup_of_bst hb
  have hsz := hr.size_le hnd
  have e : (t.descend key []).2 = .nil := by
    rcases Tree.descend_spec key t [] hb with ⟨e, _⟩ | ⟨_, _, _, _, _, _, _, hm', _⟩
    · exact e
    · exact absurd hm' hk
  have hloop := insertLoop_repr key t [] hr (n := m.heap.fuel) (by simp [Heap.fuel]; omega)
  simp only [e, Tree.ptr_nil, if_true] at hloop
  rw [show ctxParent ([] : List (Frame K V)) = none from rfl] at hloop
  rw [AVLmap.insert_eq, hp, hloop, obind_some]
  simp only []
  have hplug := Tree.descend_plug key t []
  rw [e] at hplug
  simp only [plug] at hplug
  rcases hfs : (t.descend key []).1 with _ | ⟨fr, fs'⟩
  · have hpair : t.descend key [] = ([], .nil) := Prod.ext hfs e
    have hleaf : ((m.heap.alloc ⟨key, value, none, none, none, 0, 0⟩).1).Repr none
        (Tree.node m.heap.cells.length .nil key value 0 0 .nil) :=
      ⟨by rw [Heap.get?_alloc, if_pos rfl]; rfl, trivial, trivial⟩
    have hins : t.insertAt key value m.heap.cells.length =
        Tree.node m.heap.cells.length .nil key value 0 0 .nil := by
      simp [Tree.insertAt, hpair]
    rw [hins]
    simp only [show ctxParent ([] : List (Frame K V)) = none from rfl, linkNewNode_none,
      obind_some, updateBalanceAfterInsert, Heap.fuel,
      updateBalanceAfterInsertLoop_null, Heap.alloc_snd,
      rebindRoot_repr hleaf (Or.inl rfl)]
    exact ⟨_, rfl, hleaf⟩
  · have hpair : t.descend key [] = (fr :: fs', .nil) := Prod.ext hfs e
    rw [hfs] at hplug
    have hr' : m.heap.Repr none (plug (fr :: fs') .nil) := by rw [hplug]; exact hr
    have hnd' : (plug (fr :: fs') (Tree.nil : Tree K V)).addrs.Nodup := by rw [hplug]; exact hnd
    have hd : Frame.Dir key fr := by
      have := Tree.descend_dirs key t [] (by simp) fr
      rw [hfs] at this
      exact this (List.mem_cons_self _ _)
    obtain ⟨h1, e1, hr1, hlen1⟩ := linkNewNode_plug value t.ptr hr' hnd' hd
    have hins : t.insertAt key value m.heap.cells.length =
        walkUp fs' (fr.fill (Tree.node m.heap.cells.length .nil key value 0 0 .nil)) := by
      simp [Tree.insertAt, hpair]
    rw [hins]
    simp only [show ctxParent (fr :: fs') = some fr.addr from rfl, Heap.alloc_snd]
    rw [e1, obind_some]
    have hnd1 : (plug fs' (fr.fill (Tree.node m.heap.cells.length .nil key value 0 0
        .nil))).addrs.Nodup := by
      have h0 := hnd'
      have hfresh : m.heap.cells.length ∉ (plug (fr :: fs') (Tree.nil : Tree K V)).addrs :=
        fun hm => Nat.lt_irrefl _ (hr'.lt_length hm)
      rw [plug_addrs] at h0 hfresh
      have := plug_addrs (fr :: fs') (Tree.node m.heap.cells.length .nil key value 0 0 .nil)
      rw [plug] at this
      rw [this]
      simp only [Tree.addrs, List.append_nil, List.nil_append, List.mem_append,
        not_or] at h0 hfresh
      simp only [Tree.addrs, List.append_nil, List.nil_append]
      rw [List.append_assoc, List.nodup_append]
      rw [List.nodup_append] at h0
      refine ⟨h0.1, ?_, ?_⟩
      · exact List.nodup_cons.2 ⟨hfresh.2, h0.2.1⟩
      · intro x hx hx'
        rcases List.mem_cons.1 hx' with rfl | hx'
        · exact hfresh.1 hx
        · exact h0.2.2 hx hx'
    have hlen : fs'.length + 2 ≤ h1.fuel := by
      have h2 := plug_length_le (fr :: fs') (Tree.nil : Tree K V)
      rw [hplug] at h2
      simp only [List.length_cons] at h2
      simp only [Heap.fuel, hlen1]
      omega
    obtain ⟨h2, e2, hr2, _⟩ := updateBalanceAfterInsertLoop_plug fs'
      (s := fr.fill (Tree.node m.heap.cells.length .nil key value 0 0 .nil)) (a := fr.addr)
      (by cases fr <;> rfl) hr1 hnd1 hlen
    simp only [updateBalanceAfterInsert]
    rw [e2, obind_some]
    have hroot : t.ptr = some (rootAddr fs' fr.addr) := by
      rw [← hplug]
      exact plug_ptr fs' (s := fr.fill .nil) (by cases fr <;> rfl)
    have hrc := walkUp_root fs'
      (s := fr.fill (Tree.node m.heap.cells.length .nil key value 0 0 .nil)) (a := fr.addr)
      (by cases fr <;> rfl)
    rw [hroot, rebindRoot_repr hr2 hrc, obind_some]
    exact ⟨_, rfl, hr2⟩

end Ordered

end CS280

namespace CS280
variable {K V : Type}

section Ordered
variable [LinearOrder K]

theorem Tree.setValue_of_not_mem (key : K) (value : V) : ∀ t : Tree K V, key ∉ t.keys →
    t.setValue key value = t
  | .nil, _ => rfl
  | .node a l k v ht bal r, h => by
    simp only [Tree.keys_node, List.mem_append, List.mem_cons, not_or] at h
    have hk : ¬ k = key := fun e => h.2.1 e.symm
    simp only [Tree.setValue, Tree.setValue_of_not_mem key value l h.1,
      Tree.setValue_of_not_mem key value r h.2.2, if_neg hk]

theorem Tree.setValue_ptr (key : K) (value : V) (t : Tree K V) :
    (t.setValue key value).ptr = t.ptr := by
  cases t <;> rfl

/-- Overwriting the value at the node found by the search is `setValue`. -/
theorem Tree.setValue_descend (key : K) (value : V) : ∀ (t : Tree K V) (fs : List (Frame K V)),
    t.BST → ∀ {a : Nat} {l r : Tree K V} {v : V} {ht bal : Int},
    (t.descend key fs).2 = .node a l key v ht bal r →
    plug (t.descend key fs).1 (.node a l key value ht bal r) = plug fs (t.setValue key value)
  | .nil, _, _, _, _, _, _, _, _, e => by simp [Tree.descend] at e
  | .node a' l' k v' ht' bal' r', fs, hb, a, l, r, v, ht, bal, e => by
    obtain ⟨h1, h2, h3, h4⟩ := hb
    rw [Tree.all_iff] at h1 h2
    simp only [Tree.descend] at e ⊢
    split at e
    · next hlt =>
      simp only [hlt, if_true]
      rw [Tree.setValue_descend key value l' _ h3 e]
      have hk : ¬ k = key := fun e' => lt_irrefl _ (e' ▸ hlt)
      have hr : key ∉ r'.keys := fun hm => lt_asymm hlt (h2 _ hm)
      simp only [plug, Frame.fill, Tree.setValue, if_neg hk,
        Tree.setValue_of_not_mem key value r' hr]
    · next hnlt =>
      split at e
      · next hgt =>
        simp only [hnlt, hgt, if_true, if_false]
        rw [Tree.setValue_descend key value r' _ h4 e]
        have hk : ¬ k = key := fun e' => lt_irrefl _ (e' ▸ hgt)
        have hl : key ∉ l'.keys := fun hm => lt_asymm hgt (h1 _ hm)
        simp only [plug, Frame.fill, Tree.setValue, if_neg hk,
          Tree.setValue_of_not_mem key value l' hl]
      · next hngt =>
        simp only [hnlt, hngt, if_false]
        simp only [Tree.node.injEq] at e
        obtain ⟨rfl, rfl, rfl, rfl, rfl, rfl, rfl⟩ := e
        have hl : k ∉ l'.keys := fun hm => lt_irrefl _ (h1 _ hm)
        have hr : k ∉ r'.keys := fun hm => lt_irrefl _ (h2 _ hm)
        simp only [Tree.setValue, if_true, Tree.setValue_of_not_mem k value l' hl,
          Tree.setValue_of_not_mem k value r' hr]

/-- `insert` of a key that the tree holds: the call returns, and the only
change of the state is the `value` field of the cell holding the key; the map
then holds the tree `setValue`. -/
theorem AVLmap.insert_existing {m : AVLmap K V} {t : Tree K V} {key : K} (value : V)
    (hm : m.Represents t) (hb : t.BST) (hk : key ∈ t.keys) :
    ∃ a c, a ∈ t.addrs ∧ m.heap.get? a = some c ∧ c.key = key ∧
      m.insert key value = some { m with heap := m.heap.put a { c with value := value } } ∧
      ({ m with heap := m.heap.put a { c with value := value } } : AVLmap K V).Represents
        (t.setValue key value) ∧
      t.insertAt key value m.heap.cells.length = t.setValue key value := by
  obtain ⟨hp, hr⟩ := hm
  have hnd := hr.nodup_of_bst hb
  have hsz := hr.size_le hnd
  rcases Tree.descend_spec key t [] hb with ⟨_, hn⟩ | ⟨a, l, v, ht, bal, r, e, _, ha⟩
  · exact absurd hk hn
  have hcell := hr.descend_cell key e
  have hloop := insertLoop_repr key t [] hr (n := m.heap.fuel) (by simp [Heap.fuel]; omega)
  simp only [e, Tree.ptr_node, reduceCtorEq, if_false] at hloop
  rw [show ctxParent ([] : List (Frame K V)) = none from rfl] at hloop
  have hplug := Tree.descend_plug key t []
  rw [e] at hplug
  simp only [plug] at hplug
  have hset := Tree.setValue_descend key value t [] hb e
  simp only [plug] at hset
  refine ⟨a, _, ha, hcell, rfl, ?_, ⟨?_, ?_⟩, ?_⟩
  · rw [AVLmap.insert_eq, hp, hloop, obind_some]
    simp only [Heap.modify_map, hcell, Option.map_some', obind_some]
  · simp only [hp, Tree.setValue_ptr]
  · rw [← hset]
    have hr0 : m.heap.Repr none (plug (t.descend key []).1 (.node a l key v ht bal r)) := by
      rw [hplug]; exact hr
    have hnd0 : (plug (t.descend key []).1 (.node a l key v ht bal r)).addrs.Nodup := by
      rw [hplug]; exact hnd
    exact Heap.Repr.plug_put_root hr0 hnd0 (Or.inl rfl) (Or.inl rfl)
  · rw [← hset]
    rcases hd : t.descend key [] with ⟨fs, s⟩
    rw [hd] at e
    simp only at e
    subst e
    simp [Tree.insertAt, hd]

end Ordered

end CS280

namespace CS280
variable {K V : Type}

/-! ## Erase: a node with at most one child -/

theorem Heap.Repr.del {h : Heap K V} {t : Tree K V} {par : Option Nat} (hr : h.Repr par t)
    {a : Nat} (ha : a ∉ t.addrs) : (h.del a).Repr par t :=
  hr.agree fun _ hx => Heap.get?_del_ne h (fun e => ha (e ▸ hx))

theorem eraseLeaf_eq (m : AVLmap K V) (N : Nat) (n : Node K V) : eraseLeaf m N n =
    obind (replaceChild m.heap n.parent N none) (fun h => obind (h.free N) (fun h' =>
      some ⟨h', if n.parent ≠ none then m.pRoot else none, m.size_⟩)) := rfl

theorem eraseOneChild_eq (m : AVLmap K V) (N : Nat) (n : Node K V) : eraseOneChild m N n =
    obind (replaceChild m.heap n.parent N (if n.left ≠ none then n.left else n.right))
      (fun h => obind (h.get? N) (fun n' =>
        obind (setParent h (if n.left ≠ none then n.left else n.right) n'.parent) (fun h' =>
          obind (h'.free N) (fun h'' =>
            some ⟨h'', if n.parent ≠ none then m.pRoot
              else (if n.left ≠ none then n.left else n.right), m.size_⟩)))) := rfl

theorem eraseAux_succ (fuel : Nat) (m : AVLmap K V) (N : Nat) :
    eraseAux (fuel + 1) m (some N) =
    obind (m.heap.get? N) (fun n =>
      if n.left = none ∧ n.right = none then
        obind (eraseLeaf m N n) (fun y =>
          some ⟨y.heap, y.pRoot, (y.size_ + 2 ^ 32 - 1) % 2 ^ 32⟩)
      else if n.left = none ∨ n.right = none then
        obind (eraseOneChild m N n) (fun y =>
          some ⟨y.heap, y.pRoot, (y.size_ + 2 ^ 32 - 1) % 2 ^ 32⟩)
      else obind n.right (fun r => obind (Node.first m.heap r) (fun successor =>
        obind (m.heap.get? successor) (fun sn =>
          obind (m.heap.modify N (fun c => { c with key := sn.key })) (fun h =>
            obind (h.get? successor) (fun sn' =>
              obind (h.modify N (fun c => { c with value := sn'.value })) (fun h' =>
                obind (eraseAux fuel ⟨h', m.pRoot, m.size_⟩ (some successor)) (fun y =>
                  some ⟨y.heap, y.pRoot, (y.size_ + 2 ^ 32 - 1) % 2 ^ 32⟩)))))))) := rfl

set_option maxHeartbeats 1000000 in
/-- Cases 1 and 2 of `erase` on a node `N` with at most one child, in a tree
without shared nodes: the child (if any) takes the place of `N` below the
parent of `N`, the cell of `N` is freed, `size_` is decremented, and no cell
outside the subtree and its parent is touched. -/
theorem eraseShallow_local {h : Heap K V} (c : Option (Frame K V)) {par : Option Nat}
    (hc : c = none → par = none)
    {N : Nat} {l r : Tree K V} {k : K} {v : V} {ht bal : Int}
    (hlr : l = .nil ∨ r = .nil) (root : Option Nat) (sz f : Nat)
    (hr : h.Repr par (fillO c (.node N l k v ht bal r)))
    (hnd : (fillO c (.node N l k v ht bal r)).addrs.Nodup) :
    ∃ h', eraseAux (f + 1) ⟨h, root, sz⟩ (some N) =
        some ⟨h', if c.isNone then (if l.ptr ≠ none then l else r).ptr else root,
          (sz + 2 ^ 32 - 1) % 2 ^ 32⟩ ∧
      h'.Repr par (fillO c (if l.ptr ≠ none then l else r)) ∧
      (∀ x, x ∉ (fillO c (.node N l k v ht bal r)).addrs → h'.get? x = h.get? x) ∧
      h'.get? N = none ∧ h'.cells.length = h.cells.length := by
  rcases c with _ | ⟨p, pk, pv, pht, pbal, ps⟩ | ⟨p, ps, pk, pv, pht, pbal⟩
  on_goal 1 => obtain rfl := hc rfl
  all_goals
    rcases l with _ | ⟨w, wl, wk, wv, wht, wbal, wr⟩
  all_goals
    rcases r with _ | ⟨u, ul, uk, uv, uht, ubal, ur⟩
  all_goals
    try (cases hlr <;> contradiction)
  all_goals
    clear hc
    have hr2 := hr
    have hnd2 := hnd
    simp only [fillO, Frame.fill, Heap.Repr, Tree.ptr_node, Tree.ptr_nil] at hr2
    simp only [fillO, Frame.fill, Tree.addrs, List.nodup_append, List.nodup_cons,
      List.disjoint_cons_right, List.disjoint_cons_left,
      List.mem_append, List.mem_cons, not_or, List.disjoint_append_right,
      List.disjoint_append_left, List.not_mem_nil,
      not_false_eq_true, List.nodup_nil, List.disjoint_nil_right, List.disjoint_nil_left,
      true_and, and_true, List.nil_append, List.append_nil] at hnd2
    casesm* _ ∧ _
    simp only [fillO, Frame.fill, Heap.Repr, Tree.ptr_node, Tree.ptr_nil] at hr
    simp (disch := first | omega | assumption |
        ((try simp only [Heap.put_length, Heap.del_length]);
          exact Heap.lt_of_get? (by assumption)) |
        (apply Tree.ptr_ne_of_not_mem; assumption)) only
      [eraseAux_succ, eraseLeaf_eq, eraseOneChild_eq, ↓bind_eq_obind, obind_some,
       replaceChild_some, replaceChild_none,
       setParent_some, setParent_none, Heap.modify_map, Heap.free_map, Option.map_some',
       Heap.get?_put_ne, Heap.get?_put_self, Heap.get?_del_ne, Heap.get?_del_self,
       hr, Option.pure_def, if_true, if_false, if_neg, and_self, and_true, true_and,
       and_false, false_and, or_true, true_or, or_false, false_or, ne_eq, not_true_eq_false,
       not_false_eq_true, reduceCtorEq, Option.isNone_none, Option.isNone_some,
       Tree.ptr_node, Tree.ptr_nil, Bool.false_eq_true]
    refine ⟨_, rfl, ?_, ?_, ?_, ?_⟩
    · simp only [fillO, Frame.fill, Heap.Repr, Tree.ptr_node, Tree.ptr_nil]
      repeat' apply And.intro
      all_goals
        first
        | trivial
        | (simp (disch := first | omega |
              ((try simp only [Heap.put_length, Heap.del_length]);
                exact Heap.lt_of_get? (by assumption))) only
            [Heap.get?_put_ne, Heap.get?_put_self, Heap.get?_del_ne])
        | (repeat (first
            | assumption
            | refine Heap.Repr.put ?_ (by assumption) _
            | refine Heap.Repr.del ?_ (by assumption)))
    · intro x hx
      simp only [fillO, Frame.fill, Tree.addrs, List.mem_append, List.mem_cons, not_or,
        List.not_mem_nil, not_false_eq_true, true_and, and_true] at hx
      casesm* _ ∧ _
      simp (disch := omega) only [Heap.get?_put_ne, Heap.get?_del_ne]
    · simp only [Heap.get?_del_self]
    · simp only [Heap.put_length, Heap.del_length]

theorem plug_ptr_congr : ∀ (fs : List (Frame K V)) {s s' : Tree K V}, s.ptr = s'.ptr →
    (plug fs s).ptr = (plug fs s').ptr
  | [], _, _, h => h
  | f :: fs, _, _, _ => plug_ptr_congr fs (by cases f <;> rfl)

theorem not_mem_fillO_of_plug {F : List (Frame K V)} {s : Tree K V} {x : Nat}
    (hx : x ∉ (plug F s).addrs) : x ∉ s.addrs := by
  intro hm
  apply hx
  rw [plug_addrs]
  simp [hm]

/-- Cases 1 and 2 of `erase` at the root `N` of a subtree with at most one
child, anywhere in the tree of the map. -/
theorem eraseShallow_plug {h : Heap K V} {F : List (Frame K V)}
    {N : Nat} {l r : Tree K V} {k : K} {v : V} {ht bal : Int}
    (hlr : l = .nil ∨ r = .nil) (sz f : Nat)
    (hr : h.Repr none (plug F (.node N l k v ht bal r)))
    (hnd : (plug F (.node N l k v ht bal r)).addrs.Nodup) :
    ∃ h', eraseAux (f + 1) ⟨h, (plug F (.node N l k v ht bal r)).ptr, sz⟩ (some N) =
        some ⟨h', (plug F (if l.ptr ≠ none then l else r)).ptr, (sz + 2 ^ 32 - 1) % 2 ^ 32⟩ ∧
      h'.Repr none (plug F (if l.ptr ≠ none then l else r)) ∧
      (∀ x, x ∉ (plug F (.node N l k v ht bal r)).addrs → h'.get? x = h.get? x) ∧
      h'.get? N = none ∧ h'.cells.length = h.cells.length := by
  rcases F with _ | ⟨fr, F⟩
  · obtain ⟨h', e, hr', hag, hN, hlen⟩ :=
      eraseShallow_local none (fun _ => rfl) hlr (some N) sz f hr hnd
    exact ⟨h', e, hr', hag, hN, hlen⟩
  · have hnd1 : (fillO (some fr) (Tree.node N l k v ht bal r)).addrs.Nodup :=
      plug_nodup_sub (F := F) hnd
    obtain ⟨h', e, hr', hag, hN, hlen⟩ :=
      eraseShallow_local (some fr) (by simp) hlr
        (plug (fr :: F) (.node N l k v ht bal r)).ptr sz f
        (Heap.Repr.of_plug (F := F) hr) hnd1
    refine ⟨h', ?_, ?_, fun x hx => hag x (not_mem_plug_of_cons hx), hN, hlen⟩
    · rw [e]
      simp only [Option.isNone_some, Bool.false_eq_true, if_false]
      have e2 : (plug (fr :: F) (.node N l k v ht bal r)).ptr =
          (plug (fr :: F) (if l.ptr ≠ none then l else r)).ptr :=
        plug_ptr_congr F (by cases fr <;> rfl)
      rw [e2]
    · exact Heap.Repr.plug_replace (F := F) hr hnd (by cases fr <;> rfl) hr' hag

/-! ## Erase: a node with two children -/

theorem plug_append : ∀ (gs fs : List (Frame K V)) (t : Tree K V),
    plug (gs ++ fs) t = plug fs (plug gs t)
  | [], _, _ => rfl
  | g :: gs, fs, t => plug_append gs fs (g.fill t)

theorem Tree.minPath_snd : ∀ (t : Tree K V) (fs : List (Frame K V)),
    (t.minPath fs).2 = (t.minPath []).2
  | .nil, _ => rfl
  | .node _ .nil _ _ _ _ _, _ => rfl
  | .node a (.node b bl bk bv bht bbal br) k v ht bal r, fs => by
    rw [Tree.minPath, Tree.minPath, Tree.minPath_snd (.node b bl bk bv bht bbal br) (_ :: fs),
      Tree.minPath_snd (.node b bl bk bv bht bbal br) [_]]

/-- The leftmost node of a nonempty tree has no left child and holds the first
entry of the in-order sequence. -/
theorem Tree.minPath_spec : ∀ (t : Tree K V) (fs : List (Frame K V)), t ≠ .nil →
    ∃ path a k v ht bal r', t.minPath fs = (path ++ fs, .node a .nil k v ht bal r') ∧
      plug path (.node a .nil k v ht bal r') = t ∧
      t.toList = (k, v) :: (plug path r').toList ∧
      t.addrs = a :: (plug path r').addrs
  | .nil, _, h => absurd rfl h
  | .node a .nil k v ht bal r, fs, _ =>
    ⟨[], a, k, v, ht, bal, r, rfl, rfl, by simp [Tree.toList, plug], by simp [Tree.addrs, plug]⟩
  | .node a (.node b bl bk bv bht bbal br) k v ht bal r, fs, _ => by
    obtain ⟨path, a', k', v', ht', bal', r', e1, e2, e3, e4⟩ :=
      Tree.minPath_spec (.node b bl bk bv bht bbal br) (.left a k v ht bal r :: fs)
        (by simp)
    refine ⟨path ++ [.left a k v ht bal r], a', k', v', ht', bal', r', ?_, ?_, ?_, ?_⟩
    · rw [Tree.minPath, e1, List.append_assoc]; rfl
    · rw [plug_append, e2]; rfl
    · rw [plug_append]
      simp only [plug, Frame.fill, Tree.toList] at e3 ⊢
      rw [e3]; rfl
    · rw [plug_append]
      simp only [plug, Frame.fill, Tree.addrs] at e4 ⊢
      rw [e4]; rfl

theorem firstLoop_succ (h : Heap K V) (fuel N : Nat) : firstLoop h (fuel + 1) N =
    obind (h.get? N) (fun n =>
      match n.left with
      | some l => firstLoop h fuel l
      | none => some N) := rfl

/-- The loop of `Node::first` on a represented subtree returns the pointer to
its leftmost node. -/
theorem firstLoop_repr : ∀ (t : Tree K V) {h : Heap K V} {par : Option Nat} {fuel N : Nat},
    h.Repr par t → t.ptr = some N → t.size ≤ fuel →
    firstLoop h fuel N = (t.minPath []).2.ptr
  | .nil, _, _, _, _, _, hp, _ => by simp at hp
  | .node a .nil k v ht bal r, h, par, fuel, N, hr, hp, hf => by
    simp only [Tree.ptr_node, Option.some.injEq] at hp
    subst hp
    obtain ⟨n, rfl⟩ : ∃ n, fuel = n + 1 := ⟨fuel - 1, by simp [Tree.size] at hf; omega⟩
    rw [firstLoop_succ, hr.1, obind_some]
    rfl
  | .node a (.node b bl bk bv bht bbal br) k v ht bal r, h, par, fuel, N, hr, hp, hf => by
    simp only [Tree.ptr_node, Option.some.injEq] at hp
    subst hp
    obtain ⟨n, rfl⟩ : ∃ n, fuel = n + 1 := ⟨fuel - 1, by simp [Tree.size] at hf; omega⟩
    rw [firstLoop_succ, hr.1, obind_some]
    simp only [Tree.ptr_node]
    rw [firstLoop_repr (.node b bl bk bv bht bbal br) hr.2.1 rfl
      (by simp only [Tree.size] at hf ⊢; omega), Tree.minPath]
    exact (congrArg Tree.ptr (Tree.minPath_snd _ _)).symm

end CS280

namespace CS280
variable {K V : Type}

theorem plug_addrs_congr (F : List (Frame K V)) (s s' : Tree K V) (h : s.addrs = s'.addrs) :
    (plug F s).addrs = (plug F s').addrs := by
  rw [plug_addrs, plug_addrs, h]

/-- Case 3 of `erase` at the root `N` of a subtree with two children, anywhere
in the tree of the map: `N` takes the key and value of the leftmost node of its
right subtree, that node is replaced by its right child and freed, and `size_`
is decremented by the recursive call and once more by the outer call. -/
theorem eraseDeep_plug {h : Heap K V} {F : List (Frame K V)}
    {N : Nat} {l r : Tree K V} {k : K} {v : V} {ht bal : Int}
    (hl : l ≠ .nil) (hrn : r ≠ .nil) (sz f : Nat)
    (hr : h.Repr none (plug F (.node N l k v ht bal r)))
    (hnd : (plug F (.node N l k v ht bal r)).addrs.Nodup) :
    ∃ h', eraseAux (f + 2) ⟨h, (plug F (.node N l k v ht bal r)).ptr, sz⟩ (some N) =
        some ⟨h', (plug F (Tree.node N l k v ht bal r).eraseRoot).ptr,
          ((sz + 2 ^ 32 - 1) % 2 ^ 32 + 2 ^ 32 - 1) % 2 ^ 32⟩ ∧
      h'.Repr none (plug F (Tree.node N l k v ht bal r).eraseRoot) ∧
      (∀ x, x ∉ (plug F (.node N l k v ht bal r)).addrs → h'.get? x = h.get? x) ∧
      h'.cells.length = h.cells.length := by
  obtain ⟨path, S, sk, sv, sht, sbal, sr, hmp, hplug, -, had⟩ := Tree.minPath_spec r [] hrn
  rw [List.append_nil] at hmp
  have hrN := Heap.Repr.of_plug (F := F) hr
  have hndN := plug_nodup_sub (F := F) hnd
  have hfirst : ∀ a, r.ptr = some a → Node.first h a = some S := by
    intro a ha
    have hndr : r.addrs.Nodup := by
      simp only [Tree.addrs] at hndN
      exact (List.nodup_cons.1 (List.nodup_append.1 hndN).2.1).2
    have : firstLoop h h.fuel a = (r.minPath []).2.ptr :=
      firstLoop_repr r hrN.2.2 ha (Nat.le_succ_of_le (hrN.2.2.size_le hndr))
    rw [Node.first, this, hmp]; rfl
  have eq1 : ∀ (q : K) (w : V), plug F (.node N l q w ht bal r) =
      plug (path ++ .right N l q w ht bal :: F) (.node S .nil sk sv sht sbal sr) := by
    intro q w
    rw [plug_append, hplug]; rfl
  have hS0 : h.Repr (ctxParent (path ++ .right N l k v ht bal :: F))
      (.node S .nil sk sv sht sbal sr) :=
    Heap.Repr.of_plug (by rw [← eq1 k v]; exact hr)
  have hS := hS0.1
  have hSN : S ≠ N := by
    intro e
    simp only [Tree.addrs, had, e] at hndN
    have := (List.nodup_append.1 hndN).2.1
    simp at this
  have hlN := Heap.lt_of_get? hrN.1
  have hr1 := Heap.Repr.plug_put_root (q := sk) (w := v) (c := ht) (d := bal) hr hnd
    (Or.inl rfl) (Or.inl rfl)
  have hnd1 : (plug F (.node N l sk v ht bal r)).addrs.Nodup := by
    rw [plug_addrs_congr F (.node N l sk v ht bal r) (.node N l k v ht bal r) rfl]
    exact hnd
  have hr2 := Heap.Repr.plug_put_root (q := sk) (w := sv) (c := ht) (d := bal) hr1 hnd1
    (Or.inl rfl) (Or.inl rfl)
  have hnd2 : (plug F (.node N l sk sv ht bal r)).addrs.Nodup := by
    rw [plug_addrs_congr F (.node N l sk sv ht bal r) (.node N l k v ht bal r) rfl]
    exact hnd
  rw [eq1 sk sv] at hr2 hnd2
  obtain ⟨h', e, hr', hag, -, hlen⟩ := eraseShallow_plug (Or.inl rfl) sz f hr2 hnd2
  have hroot : ∀ (q : K) (w : V) (x : Tree K V),
      (plug (path ++ .right N l q w ht bal :: F) x).ptr =
        (plug F (.node N l k v ht bal r)).ptr := by
    intro q w x
    rw [plug_append]
    exact plug_ptr_congr F (by cases path <;> rfl)
  rw [hroot sk sv] at e
  simp only [Tree.ptr_nil, ne_eq, not_true_eq_false, if_false] at e hr'
  rw [plug_append] at e hr'
  have hN1 := hrN.1
  rcases l with _ | ⟨la, ll, lk, lv, lht, lbal, lr⟩
  · exact absurd rfl hl
  rcases r with _ | ⟨ra, rl, rk, rv, rht, rbal, rr⟩
  · exact absurd rfl hrn
  simp only [Tree.ptr_node] at e
  rw [show f + 2 = (f + 1) + 1 from rfl, eraseAux_succ]
  simp (disch := first | omega | assumption) only [hN1, obind_some, Tree.ptr_node,
    reduceCtorEq, and_self, or_self,
    if_false, hfirst _ rfl, hS, Heap.modify_map, Option.map_some', Heap.get?_put_ne,
    Heap.get?_put_self, e]
  have her : (Tree.node N (Tree.node la ll lk lv lht lbal lr) k v ht bal
      (Tree.node ra rl rk rv rht rbal rr)).eraseRoot =
      .node N (Tree.node la ll lk lv lht lbal lr) sk sv ht bal (plug path sr) := by
    simp only [Tree.eraseRoot, Tree.ptr_node, reduceCtorEq, or_self, if_false, hmp]
  rw [her]
  refine ⟨h', ?_, hr', ?_, ?_⟩
  · rfl
  · intro x hx
    have hxN : x ≠ N := by
      rintro rfl
      exact not_mem_fillO_of_plug hx (by simp [Tree.addrs])
    rw [hag x, Heap.get?_put_ne _ _ hxN, Heap.get?_put_ne _ _ hxN]
    rw [← eq1 sk sv, plug_addrs_congr F (.node N _ sk sv ht bal _)
      (.node N (Tree.node la ll lk lv lht lbal lr) k v ht bal
        (Tree.node ra rl rk rv rht rbal rr)) rfl]
    exact hx
  · rw [hlen, Heap.put_length, Heap.put_length]

end CS280

namespace CS280
variable {K V : Type}

/-- Every node of a tree is the root of a subtree in some context. -/
theorem Tree.exists_plug_of_mem : ∀ (t : Tree K V) {a : Nat}, a ∈ t.addrs →
    ∃ fs l k v ht bal r, t = plug fs (.node a l k v ht bal r)
  | .nil, _, h => by simp [Tree.addrs] at h
  | .node b l k v ht bal r, a, h => by
    simp only [Tree.addrs, List.mem_append, List.mem_cons] at h
    rcases h with h | rfl | h
    · obtain ⟨fs, l', k', v', ht', bal', r', e⟩ := Tree.exists_plug_of_mem l h
      refine ⟨fs ++ [.left b k v ht bal r], l', k', v', ht', bal', r', ?_⟩
      rw [plug_append, ← e]; rfl
    · exact ⟨[], l, k, v, ht, bal, r, rfl⟩
    · obtain ⟨fs, l', k', v', ht', bal', r', e⟩ := Tree.exists_plug_of_mem r h
      refine ⟨fs ++ [.right b l k v ht bal], l', k', v', ht', bal', r', ?_⟩
      rw [plug_append, ← e]; rfl

/-- A heap stores at most one tree below a given root pointer. -/
theorem Heap.Repr.unique {h : Heap K V} : ∀ {t t' : Tree K V} {par par' : Option Nat},
    h.Repr par t → h.Repr par' t' → t.ptr = t'.ptr → t = t'
  | .nil, .nil, _, _, _, _, _ => rfl
  | .nil, .node _ _ _ _ _ _ _, _, _, _, _, e => by simp at e
  | .node _ _ _ _ _ _ _, .nil, _, _, _, _, e => by simp at e
  | .node a l k v ht bal r, .node a' l' k' v' ht' bal' r', par, par', hr, hr', e => by
    simp only [Tree.ptr_node, Option.some.injEq] at e
    subst e
    have h1 := hr.1.symm.trans hr'.1
    simp only [Option.some.injEq, Node.mk.injEq] at h1
    obtain ⟨rfl, rfl, -, hl, hr2, rfl, rfl⟩ := h1
    rw [Heap.Repr.unique hr.2.1 hr'.2.1 hl, Heap.Repr.unique hr.2.2 hr'.2.2 hr2]

theorem AVLmap.represents_unique {m : AVLmap K V} {t t' : Tree K V}
    (h1 : m.Represents t) (h2 : m.Represents t') : t = t' :=
  Heap.Repr.unique h1.2 h2.2 (h1.1.symm.trans h2.1)

theorem Tree.ptr_eq_none {t : Tree K V} : t.ptr = none ↔ t = .nil := by
  cases t <;> simp

theorem Tree.eraseRoot_shallow {a : Nat} {l r : Tree K V} {k : K} {v : V} {ht bal : Int}
    (hlr : l = .nil ∨ r = .nil) :
    (Tree.node a l k v ht bal r).eraseRoot = if l.ptr ≠ none then l else r := by
  have : l.ptr = none ∨ r.ptr = none := by
    rcases hlr with rfl | rfl
    · exact Or.inl rfl
    · exact Or.inr rfl
  simp only [Tree.eraseRoot, this, if_true]

/-- The in-order sequence after `erase` at the root of a subtree: the entry of
the root is gone, the others stay in order. -/
theorem Tree.eraseRoot_toList (a : Nat) (l r : Tree K V) (k : K) (v : V) (ht bal : Int) :
    (Tree.node a l k v ht bal r).eraseRoot.toList = l.toList ++ r.toList := by
  by_cases hlr : l = .nil ∨ r = .nil
  · rw [Tree.eraseRoot_shallow hlr]
    rcases hlr with rfl | rfl
    · simp [Tree.toList]
    · cases l <;> simp [Tree.toList]
  · have hl : l ≠ .nil := fun e => hlr (Or.inl e)
    have hr : r ≠ .nil := fun e => hlr (Or.inr e)
    obtain ⟨path, S, sk, sv, sht, sbal, sr, hmp, -, htl, -⟩ := Tree.minPath_spec r [] hr
    rw [List.append_nil] at hmp
    have hl' : l.ptr ≠ none := by cases l <;> simp at hl ⊢
    have hr' : r.ptr ≠ none := by cases r <;> simp at hr ⊢
    simp only [Tree.eraseRoot, hl', hr', or_self, if_false, hmp, Tree.toList, htl]

/-- `erase` on a cursor to the node `N` of the tree of the map: the heap then
stores the tree with `eraseRoot` applied below `N`; `size_` is decremented once
if `N` has at most one child, and twice if it has two. -/
theorem AVLmap.erase_plug {m : AVLmap K V} {F : List (Frame K V)}
    {N : Nat} {l r : Tree K V} {k : K} {v : V} {ht bal : Int}
    (hm : m.Represents (plug F (.node N l k v ht bal r)))
    (hnd : (plug F (.node N l k v ht bal r)).addrs.Nodup) :
    ∃ h', m.erase (some N) = some ⟨h', (plug F (Tree.node N l k v ht bal r).eraseRoot).ptr,
        if l.ptr = none ∨ r.ptr = none then (m.size_ + 2 ^ 32 - 1) % 2 ^ 32
        else ((m.size_ + 2 ^ 32 - 1) % 2 ^ 32 + 2 ^ 32 - 1) % 2 ^ 32⟩ ∧
      h'.Repr none (plug F (Tree.node N l k v ht bal r).eraseRoot) ∧
      h'.cells.length = m.heap.cells.length := by
  obtain ⟨h, root, sz⟩ := m
  obtain ⟨hp, hr⟩ := hm
  simp only at hp hr
  subst hp
  have hlen : 0 < h.cells.length := by
    have := (Heap.Repr.of_plug (F := F) hr).1
    exact Nat.lt_of_le_of_lt (Nat.zero_le _) (Heap.lt_of_get? this)
  obtain ⟨f, hf⟩ : ∃ f, h.fuel = f + 2 := ⟨h.cells.length - 1, by simp only [Heap.fuel]; omega⟩
  simp only [AVLmap.erase, hf]
  by_cases hlr : l.ptr = none ∨ r.ptr = none
  · have hlr' : l = .nil ∨ r = .nil := hlr.imp Tree.ptr_eq_none.1 Tree.ptr_eq_none.1
    obtain ⟨h', e, hr', -, -, hl'⟩ := eraseShallow_plug hlr' sz (f + 1) hr hnd
    rw [Tree.eraseRoot_shallow hlr', if_pos hlr]
    exact ⟨h', e, hr', hl'⟩
  · obtain ⟨h', e, hr', -, hl'⟩ := eraseDeep_plug
      (fun e => hlr (Or.inl (Tree.ptr_eq_none.2 e)))
      (fun e => hlr (Or.inr (Tree.ptr_eq_none.2 e))) sz f hr hnd
    rw [if_neg hlr]
    exact ⟨h', e, hr', hl'⟩

section Ordered
variable [LinearOrder K]

theorem Tree.bst_of_toList_sublist {t t' : Tree K V} (hb : t.BST)
    (hs : t'.toList.Sublist t.toList) : t'.BST := by
  rw [Tree.bst_iff_pairwise] at hb ⊢
  exact hb.sublist (hs.map _)

/-- `erase` on a cursor to a node of a BST-ordered tree returns, and the map
then holds the previous entries without the entry of the cursor, in order. -/
theorem AVLmap.erase_spec {m : AVLmap K V} {t : Tree K V} {a : Nat}
    (hm : m.Represents t) (hb : t.BST) (ha : a ∈ t.addrs) :
    ∃ m' t' c pre post, m.erase (some a) = some m' ∧ m'.Represents t' ∧
      m.heap.get? a = some c ∧ t.toList = pre ++ (c.key, c.value) :: post ∧
      t'.toList = pre ++ post ∧ t'.BST ∧
      m'.heap.cells.length = m.heap.cells.length := by
  obtain ⟨F, l, k, v, ht, bal, r, rfl⟩ := Tree.exists_plug_of_mem t ha
  have hnd := hm.2.nodup_of_bst hb
  obtain ⟨h', e, hr', hl'⟩ := AVLmap.erase_plug hm hnd
  have e1 : (plug F (.node a l k v ht bal r)).toList =
      (ctxListL F ++ l.toList) ++ (k, v) :: (r.toList ++ ctxListR F) := by
    simp [plug_toList, Tree.toList]
  have e2 : (plug F (Tree.node a l k v ht bal r).eraseRoot).toList =
      (ctxListL F ++ l.toList) ++ (r.toList ++ ctxListR F) := by
    simp [plug_toList, Tree.eraseRoot_toList]
  refine ⟨_, _, _, _, _, e, ⟨rfl, hr'⟩, (Heap.Repr.of_plug (F := F) hm.2).1, e1, e2, ?_, hl'⟩
  refine Tree.bst_of_toList_sublist hb ?_
  rw [e1, e2]
  exact (List.Sublist.refl _).append (List.sublist_cons_self _ _)

end Ordered

end CS280

namespace CS280
variable {K V : Type}

/-! ## AVL trees under the post-insert walk -/

theorem Tree.HeightOK.ht_eq : ∀ {t : Tree K V}, t.HeightOK → t.ht = t.height
  | .nil, _ => rfl
  | .node _ l _ _ ht _ r, h => by
    obtain ⟨h1, h2, h3⟩ := h
    simp only [Tree.ht_node, Tree.height, h1, h2.ht_eq, h3.ht_eq]

theorem Tree.avl_iff : ∀ t : Tree K V, t.AVL ↔ t.Balanced ∧ t.HeightOK
  | .nil => by simp [Tree.AVL, Tree.Balanced, Tree.HeightOK]
  | .node a l k v ht bal r => by
    simp only [Tree.AVL, Tree.Balanced, Tree.HeightOK, Tree.avl_iff l, Tree.avl_iff r, abs_le]
    constructor
    · rintro ⟨h1, h2, h3, ⟨h4, h5⟩, h6, h7⟩
      rw [← h5.ht_eq, ← h7.ht_eq]
      exact ⟨⟨⟨by omega, by omega⟩, h4, h6⟩, h1, h5, h7⟩
    · rintro ⟨⟨⟨h2, h3⟩, h4, h6⟩, h1, h5, h7⟩
      rw [← h5.ht_eq, ← h7.ht_eq] at h2 h3
      exact ⟨h1, by omega, by omega, ⟨h4, h5⟩, h6, h7⟩

theorem Tree.AVL.ht_ge : ∀ {t : Tree K V}, t.AVL → -1 ≤ t.ht
  | .nil, _ => by simp
  | .node _ l _ _ ht _ r, h => by
    have := h.2.2.2.1.ht_ge
    have := h.1
    simp only [Tree.ht_node]
    omega

theorem Tree.AVL.ht_nonneg {t : Tree K V} (h : t.AVL) (hne : t ≠ .nil) : 0 ≤ t.ht := by
  rcases t with _ | ⟨a, l, k, v, ht, bal, r⟩
  · exact absurd rfl hne
  · have := h.2.2.2.1.ht_ge
    have := h.1
    simp only [Tree.ht_node]
    omega

theorem Tree.AVL.eq_nil {t : Tree K V} (h : t.AVL) (hh : t.ht < 0) : t = .nil := by
  by_contra hne
  have := h.ht_nonneg hne
  omega

/-- One round of the walk at a node whose left subtree holds the new node. -/
theorem Tree.rebalance_left (a : Nat) (k : K) (v : V) (ht bal : Int) {l r : Tree K V} {H : Int}
    (hl : l.Res H) (hr : r.AVL) (h1 : -1 ≤ H - r.ht) (h2 : H - r.ht ≤ 1) :
    (Tree.node a l k v ht bal r).rebalance.2 = true ∧
      (Tree.node a l k v ht bal r).rebalance.1.Res (1 + max H r.ht) ∧
      (Tree.node a l k v ht bal r).rebalance.1.toList = l.toList ++ (k, v) :: r.toList := by
  obtain ⟨hla, hlne, hlh⟩ := hl
  have hrge := hr.ht_ge
  have hlge := hla.ht_nonneg hlne
  by_cases hb : l.ht - r.ht > 1
  · have hg : l.ht = H + 1 ∧ l.Grown := by
      rcases hlh with e | e
      · omega
      · exact e
    rcases l with _ | ⟨la, ll, lk, lv, lht, lbal, lr⟩
    · exact absurd rfl hlne
    obtain ⟨e1, e2, e3, hlla, hlra⟩ := hla
    obtain ⟨e4, hfresh, hshape⟩ := hg
    simp only [Tree.ht_node] at hb e4 hlge
    have hll := hlla.ht_ge
    have hlr := hlra.ht_ge
    by_cases hneg : lbal < 0
    · rcases lr with _ | ⟨c, cl, ck, cv, cht, cbal, cr⟩
      · simp only [Tree.ht_nil] at *
        omega
      obtain ⟨c1, c2, c3, hcl, hcr⟩ := hlra
      have := hcl.ht_ge
      have := hcr.ht_ge
      simp only [Tree.ht_node] at *
      simp only [Tree.rebalance, Tree.rotL, Tree.rotR, Tree.ptr_node, Tree.bal, Tree.ht_node,
        hb, hneg, if_true, ne_eq, reduceCtorEq, not_false_eq_true, and_self,
        Option.getD_some, Tree.Res, Tree.AVL, Tree.toList, true_and, List.append_assoc,
        List.cons_append, and_true]
      refine ⟨?_, Or.inl ?_⟩
      · repeat' apply And.intro
        all_goals first | assumption | omega
      · omega
    · have hpos : 0 < lbal := by
        rcases hshape with h | ⟨rfl, rfl⟩
        · omega
        · simp only [Tree.ht_nil] at *
          omega
      simp only [Tree.ht_node] at *
      simp only [Tree.rebalance, Tree.rotL, Tree.rotR, Tree.ptr_node, Tree.bal, Tree.ht_node,
        hb, hneg, if_true, if_false, ne_eq, reduceCtorEq, not_false_eq_true, and_self,
        and_false, Option.getD_some, Tree.Res, Tree.AVL, Tree.toList, true_and,
        List.append_assoc, List.cons_append, and_true]
      refine ⟨?_, Or.inl ?_⟩
      · repeat' apply And.intro
        all_goals first | assumption | omega
      · omega
  · have hb2 : ¬ l.ht - r.ht < -1 := by omega
    simp only [Tree.rebalance, hb, hb2, if_false, Tree.Res, Tree.AVL, Tree.toList, true_and,
      ne_eq, reduceCtorEq, not_false_eq_true, and_true, Tree.ht_node, Tree.Grown]
    refine ⟨⟨by omega, by omega, hla, hr⟩, ?_⟩
    rcases hlh with e | ⟨e, _⟩
    · left; omega
    · by_cases hc : H < r.ht
      · left; omega
      · right
        exact ⟨by omega, Or.inl (by omega)⟩

/-- One round of the walk at a node whose right subtree holds the new node. -/
theorem Tree.rebalance_right (a : Nat) (k : K) (v : V) (ht bal : Int) {l r : Tree K V} {H : Int}
    (hr : r.Res H) (hl : l.AVL) (h1 : -1 ≤ l.ht - H) (h2 : l.ht - H ≤ 1) :
    (Tree.node a l k v ht bal r).rebalance.2 = true ∧
      (Tree.node a l k v ht bal r).rebalance.1.Res (1 + max l.ht H) ∧
      (Tree.node a l k v ht bal r).rebalance.1.toList = l.toList ++ (k, v) :: r.toList := by
  obtain ⟨hra, hrne, hrh⟩ := hr
  have hlge := hl.ht_ge
  have hrge := hra.ht_nonneg hrne
  have hb0 : ¬ l.ht - r.ht > 1 := by
    rcases hrh with e | ⟨e, _⟩ <;> omega
  by_cases hb : l.ht - r.ht < -1
  · have hg : r.ht = H + 1 ∧ r.Grown := by
      rcases hrh with e | e
      · omega
      · exact e
    rcases r with _ | ⟨ra, rl, rk, rv, rht, rbal, rr⟩
    · exact absurd rfl hrne
    obtain ⟨e1, e2, e3, hrla, hrra⟩ := hra
    obtain ⟨e4, hfresh, hshape⟩ := hg
    simp only [Tree.ht_node] at hb hb0 e4 hrge
    have hrl := hrla.ht_ge
    have hrr := hrra.ht_ge
    by_cases hpos : rbal > 0
    · rcases rl with _ | ⟨c, cl, ck, cv, cht, cbal, cr⟩
      · simp only [Tree.ht_nil] at *
        omega
      obtain ⟨c1, c2, c3, hcl, hcr⟩ := hrla
      have := hcl.ht_ge
      have := hcr.ht_ge
      simp only [Tree.ht_node] at *
      simp only [Tree.rebalance, Tree.rotL, Tree.rotR, Tree.ptr_node, Tree.bal, Tree.ht_node,
        hb, hb0, hpos, if_true, if_false, ne_eq, reduceCtorEq, not_false_eq_true, and_self,
        Option.getD_some, Tree.Res, Tree.AVL, Tree.toList, true_and, List.append_assoc,
        List.cons_append, and_true]
      refine ⟨?_, Or.inl ?_⟩
      · repeat' apply And.intro
        all_goals first | assumption | omega
      · omega
    · have hneg : rbal < 0 := by
        rcases hshape with h | ⟨rfl, rfl⟩
        · omega
        · simp only [Tree.ht_nil] at *
          omega
      simp only [Tree.ht_node] at *
      simp only [Tree.rebalance, Tree.rotL, Tree.rotR, Tree.ptr_node, Tree.bal, Tree.ht_node,
        hb, hb0, hpos, if_true, if_false, ne_eq, reduceCtorEq, not_false_eq_true, and_self,
        and_false, Option.getD_some, Tree.Res, Tree.AVL, Tree.toList, true_and,
        List.append_assoc, List.cons_append, and_true]
      refine ⟨?_, Or.inl ?_⟩
      · repeat' apply And.intro
        all_goals first | assumption | omega
      · omega
  · simp only [Tree.rebalance, hb, hb0, if_false, Tree.Res, Tree.AVL, Tree.toList, true_and,
      ne_eq, reduceCtorEq, not_false_eq_true, and_true, Tree.ht_node, Tree.Grown]
    refine ⟨⟨by omega, by omega, hl, hra⟩, ?_⟩
    rcases hrh with e | ⟨e, _⟩
    · left; omega
    · by_cases hc : H < l.ht
      · left; omega
      · right
        exact ⟨by omega, Or.inl (by omega)⟩

theorem Frame.fill_toList_congr (f : Frame K V) {s s' : Tree K V} (h : s.toList = s'.toList) :
    (f.fill s).toList = (f.fill s').toList := by
  cases f <;> simp [Frame.fill, Tree.toList, h]

theorem plug_toList_congr (fs : List (Frame K V)) {s s' : Tree K V}
    (h : s.toList = s'.toList) : (plug fs s).toList = (plug fs s').toList := by
  rw [plug_toList, plug_toList, h]

/-- One round of the walk at the parent `f` of a subtree `c` on the path. -/
theorem Tree.rebalance_fill (f : Frame K V) (fs : List (Frame K V)) {c : Tree K V} {H : Int}
    (hc : c.Res H) (hctx : CtxOK (f :: fs) H) :
    ∃ H', (f.fill c).rebalance.2 = true ∧ (f.fill c).rebalance.1.Res H' ∧
      (f.fill c).rebalance.1.toList = (f.fill c).toList ∧ CtxOK fs H' := by
  rcases f with ⟨a, k, v, ht, bal, r⟩ | ⟨a, l, k, v, ht, bal⟩
  · obtain ⟨hr, h1, h2, hrest⟩ := hctx
    obtain ⟨e1, e2, e3⟩ := Tree.rebalance_left a k v ht bal hc hr h1 h2
    exact ⟨_, e1, e2, e3, hrest⟩
  · obtain ⟨hl, h1, h2, hrest⟩ := hctx
    obtain ⟨e1, e2, e3⟩ := Tree.rebalance_right a k v ht bal hc hl h1 h2
    exact ⟨_, e1, e2, e3, hrest⟩

/-- The post-insert walk in an AVL tree: no rotation returns `nullptr`, the
result is an AVL tree and holds the same entries in the same order. -/
theorem walkUp_avl : ∀ (fs : List (Frame K V)) (f : Frame K V) {c : Tree K V} {H : Int},
    c.Res H → CtxOK (f :: fs) H →
    (walkUp fs (f.fill c)).AVL ∧ (walkUp fs (f.fill c)).toList = (plug (f :: fs) c).toList
  | [], f, c, H, hc, hctx => by
    obtain ⟨H', e1, e2, e3, _⟩ := Tree.rebalance_fill f [] hc hctx
    exact ⟨e2.1, e3⟩
  | g :: fs, f, c, H, hc, hctx => by
    obtain ⟨H', e1, e2, e3, hrest⟩ := Tree.rebalance_fill f (g :: fs) hc hctx
    obtain ⟨i1, i2⟩ := walkUp_avl fs g e2 hrest
    simp only [walkUp, e1, if_true]
    refine ⟨i1, i2.trans ?_⟩
    exact plug_toList_congr (g :: fs) e3

theorem Tree.AVL.sub : ∀ (fs : List (Frame K V)) {t : Tree K V}, (plug fs t).AVL → t.AVL
  | [], _, h => h
  | .left _ _ _ _ _ _ :: fs, _, h => (Tree.AVL.sub fs h).2.2.2.1
  | .right _ _ _ _ _ _ :: fs, _, h => (Tree.AVL.sub fs h).2.2.2.2

theorem ctxOK_of_avl : ∀ (fs : List (Frame K V)) {t : Tree K V}, (plug fs t).AVL →
    CtxOK fs t.ht
  | [], _, _ => trivial
  | .left a k v ht bal r :: fs, t, h => by
    have h1 := Tree.AVL.sub fs h
    have h2 := ctxOK_of_avl fs h
    obtain ⟨e1, e2, e3, _, e5⟩ := h1
    simp only [Frame.fill, Tree.ht_node] at h2
    rw [e1] at h2
    exact ⟨e5, e2, e3, h2⟩
  | .right a l k v ht bal :: fs, t, h => by
    have h1 := Tree.AVL.sub fs h
    have h2 := ctxOK_of_avl fs h
    obtain ⟨e1, e2, e3, e4, _⟩ := h1
    simp only [Frame.fill, Tree.ht_node] at h2
    rw [e1] at h2
    exact ⟨e4, e2, e3, h2⟩

end CS280

namespace CS280
variable {K V : Type}

/-! ## The entries after `insert` -/

theorem Tree.leftFix_toList_sublist (l : Tree K V) :
    (if l.ptr ≠ none ∧ l.bal < 0 then (l.rotL).getD .nil else l).toList.Sublist l.toList := by
  split
  · exact Tree.rotL_getD_toList_sublist l
  · exact List.Sublist.refl _

theorem Tree.rightFix_toList_sublist (r : Tree K V) :
    (if r.ptr ≠ none ∧ r.bal > 0 then (r.rotR).getD .nil else r).toList.Sublist r.toList := by
  split
  · exact Tree.rotR_getD_toList_sublist r
  · exact List.Sublist.refl _

/-- One round of the walk loses entries at most (when a rotation returns
`nullptr`), and keeps the others in order. -/
theorem Tree.rebalance_toList_sublist (s : Tree K V) :
    s.rebalance.1.toList.Sublist s.toList := by
  rcases s with _ | ⟨a, l, k, v, ht, bal, r⟩
  · exact List.Sublist.refl _
  · simp only [Tree.rebalance]
    have hl : (Tree.node a (if l.ptr ≠ none ∧ l.bal < 0 then (l.rotL).getD .nil else l) k v
        (1 + max l.ht r.ht) (l.ht - r.ht) r).toList.Sublist
        (Tree.node a l k v ht bal r).toList := by
      simp only [Tree.toList]
      exact (Tree.leftFix_toList_sublist l).append (List.Sublist.refl _)
    have hr : (Tree.node a l k v (1 + max l.ht r.ht) (l.ht - r.ht)
        (if r.ptr ≠ none ∧ r.bal > 0 then (r.rotR).getD .nil else r)).toList.Sublist
        (Tree.node a l k v ht bal r).toList := by
      simp only [Tree.toList]
      exact (List.Sublist.refl _).append ((Tree.rightFix_toList_sublist r).cons₂ _)
    split
    · split
      · next t ht' => rw [Tree.rotR_toList ht']; exact hl
      · exact hl
    · split
      · split
        · next t ht' => rw [Tree.rotL_toList ht']; exact hr
        · exact hr
      · simp [Tree.toList]

theorem plug_toList_sublist (fs : List (Frame K V)) {s s' : Tree K V}
    (h : s.toList.Sublist s'.toList) : (plug fs s).toList.Sublist (plug fs s').toList := by
  rw [plug_toList, plug_toList]
  exact ((List.Sublist.refl _).append h).append (List.Sublist.refl _)

theorem Frame.fill_toList_sublist (f : Frame K V) {s s' : Tree K V}
    (h : s.toList.Sublist s'.toList) : (f.fill s).toList.Sublist (f.fill s').toList :=
  plug_toList_sublist [f] h

theorem walkUp_toList_sublist : ∀ (fs : List (Frame K V)) (s : Tree K V),
    (walkUp fs s).toList.Sublist (plug fs s).toList
  | [], s => Tree.rebalance_toList_sublist s
  | f :: fs, s => by
    have h1 : (plug fs (f.fill s.rebalance.1)).toList.Sublist (plug (f :: fs) s).toList :=
      plug_toList_sublist fs (f.fill_toList_sublist (Tree.rebalance_toList_sublist s))
    simp only [walkUp]
    split
    · exact (walkUp_toList_sublist fs _).trans h1
    · exact h1

section Ordered
variable [LinearOrder K]

/-- The position of an absent key in the in-order sequence of a BST. -/
theorem Tree.descend_split {t : Tree K V} (key : K) (hb : t.BST)
    (e : (t.descend key []).2 = .nil) :
    t.toList = ctxListL (t.descend key []).1 ++ ctxListR (t.descend key []).1 ∧
      (∀ x ∈ ctxListL (t.descend key []).1, x.1 < key) ∧
      (∀ x ∈ ctxListR (t.descend key []).1, key < x.1) := by
  have h1 := Tree.descend_plug key t []
  rw [e] at h1
  have h2 := congrArg Tree.toList h1
  rw [plug_toList] at h2
  simp only [plug, Tree.toList, List.append_nil] at h2
  exact ⟨h2.symm, Tree.descend_bounds key t [] hb (by simp [ctxListL, ctxListR])⟩

theorem pairwise_insert_mid {pre post : List (K × V)} {key : K} (value : V)
    (hp : ((pre ++ post).map Prod.fst).Pairwise (fun x y => x < y))
    (h1 : ∀ x ∈ pre, x.1 < key) (h2 : ∀ x ∈ post, key < x.1) :
    ((pre ++ (key, value) :: post).map Prod.fst).Pairwise (fun x y => x < y) := by
  simp only [List.map_append, List.map_cons, List.pairwise_append, List.pairwise_cons,
    List.mem_map, List.mem_cons, forall_exists_index, and_imp, Prod.forall,
    Prod.exists, exists_and_right, exists_eq_right] at hp ⊢
  obtain ⟨p1, p2, p3⟩ := hp
  refine ⟨p1, ⟨?_, p2⟩, ?_⟩
  · intro a b hab
    exact h2 (a, b) hab
  · intro a b hab c hc
    rcases hc with rfl | ⟨d, hd⟩
    · exact h1 (a, b) hab
    · exact p3 a b hab c d hd

/-- The entries after `insert` of an absent key: a sublist of the previous
entries with the new entry at its sorted position. -/
theorem Tree.insertAt_new_sublist {t : Tree K V} (key : K) (value : V) (n : Nat) (hb : t.BST)
    (hk : key ∉ t.keys) :
    ∃ pre post, t.toList = pre ++ post ∧ (∀ x ∈ pre, x.1 < key) ∧ (∀ x ∈ post, key < x.1) ∧
      (t.insertAt key value n).toList.Sublist (pre ++ (key, value) :: post) ∧
      (t.AVL → (t.insertAt key value n).toList = pre ++ (key, value) :: post ∧
        (t.insertAt key value n).AVL) := by
  have e : (t.descend key []).2 = .nil := by
    rcases Tree.descend_spec key t [] hb with ⟨e, _⟩ | ⟨_, _, _, _, _, _, _, hm', _⟩
    · exact e
    · exact absurd hm' hk
  obtain ⟨s1, s2, s3⟩ := Tree.descend_split key hb e
  refine ⟨_, _, s1, s2, s3, ?_, ?_⟩
  · rcases Tree.insertAt_new value n e with h | ⟨fr, fs, hfs, h⟩
    · rw [h, plug_toList]
      simp [Tree.toList]
    · rw [h, hfs]
      refine (walkUp_toList_sublist fs _).trans ?_
      rw [← plug, plug_toList]
      simp [Tree.toList]
  · intro havl
    have hleaf : (Tree.node n .nil key value 0 0 .nil : Tree K V).Res (-1) := by
      refine ⟨?_, by simp, Or.inr ⟨by simp, ?_⟩⟩
      · simp [Tree.AVL]
      · simp [Tree.Grown]
    rcases hfs : (t.descend key []).1 with _ | ⟨fr, fs⟩
    · have hpair : t.descend key [] = ([], .nil) := Prod.ext hfs e
      have ht : t = .nil := by
        have := Tree.descend_plug key t []
        rw [hpair] at this
        exact this.symm
      subst ht
      simp [Tree.insertAt, Tree.descend, ctxListL, ctxListR, Tree.toList, Tree.AVL]
    · have hpair : t.descend key [] = (fr :: fs, .nil) := Prod.ext hfs e
      have hplug : plug (fr :: fs) .nil = t := by
        have := Tree.descend_plug key t []
        rw [hpair] at this
        exact this
      have hctx : CtxOK (fr :: fs) (-1) := by
        have := ctxOK_of_avl (fr :: fs) (t := .nil) (by rw [hplug]; exact havl)
        exact this
      obtain ⟨i1, i2⟩ := walkUp_avl fs fr hleaf hctx
      have hins : t.insertAt key value n =
          walkUp fs (fr.fill (.node n .nil key value 0 0 .nil)) := by
        simp [Tree.insertAt, hpair]
      rw [hins]
      refine ⟨?_, i1⟩
      rw [i2, plug_toList]
      simp [Tree.toList]

/-- `insert` keeps the BST order, whatever the cached heights and balances. -/
theorem Tree.insertAt_bst {t : Tree K V} (key : K) (value : V) (n : Nat) (hb : t.BST) :
    (t.insertAt key value n).BST := by
  by_cases hk : key ∈ t.keys
  · rcases Tree.descend_spec key t [] hb with ⟨_, hn⟩ | ⟨a, l, v, ht, bal, r, e, _, _⟩
    · exact absurd hk hn
    obtain ⟨fs, s, hd⟩ : ∃ fs s, t.descend key [] = (fs, s) := ⟨_, _, rfl⟩
    rw [hd] at e
    simp only at e
    subst e
    have hins : t.insertAt key value n = plug fs (.node a l key value ht bal r) := by
      simp only [Tree.insertAt, hd]
    have hplug : plug fs (.node a l key v ht bal r) = t := by
      have := Tree.descend_plug key t []
      rw [hd] at this
      exact this
    rw [Tree.bst_iff_pairwise] at hb ⊢
    have : (t.insertAt key value n).keys = t.keys := by
      rw [hins, ← hplug]
      simp [Tree.keys, plug_toList, Tree.toList]
    rw [this]
    exact hb
  · obtain ⟨pre, post, s1, s2, s3, hsub, -⟩ := Tree.insertAt_new_sublist key value n hb hk
    rw [Tree.bst_iff_pairwise] at hb ⊢
    have hp := pairwise_insert_mid value (by rw [← s1]; exact hb) s2 s3
    exact hp.sublist (hsub.map _)

end Ordered

end CS280

namespace CS280
variable {K V : Type}

/-! ## The loop of `clear` and the tree after `insert` -/

/-- The loop of `clear` ends only with an absent root. -/
theorem clearLoop_root : ∀ (fuel : Nat) (m m' : AVLmap K V),
    clearLoop fuel m = some m' → m'.pRoot = none
  | 0, _, _, h => by simp [clearLoop] at h
  | fuel + 1, m, m', h => by
    rw [clearLoop] at h
    split at h
    · next hp =>
      simp only [Option.some.injEq] at h
      rw [← h]; exact hp
    · simp only [Option.bind_eq_bind, Option.bind_eq_some] at h
      obtain ⟨b, _, m1, _, h3⟩ := h
      exact clearLoop_root fuel m1 m' h3

section Ordered
variable [LinearOrder K]

/-- `insert` on a map with a BST-ordered tree returns, and the tree of the new
map is `insertAt` of the former tree, BST-ordered again. -/
theorem AVLmap.insert_represents {m : AVLmap K V} {t : Tree K V} (key : K) (value : V)
    (hm : m.Represents t) (hb : t.BST) :
    ∃ m', m.insert key value = some m' ∧
      m'.Represents (t.insertAt key value m.heap.cells.length) ∧
      (t.insertAt key value m.heap.cells.length).BST := by
  by_cases hk : key ∈ t.keys
  · obtain ⟨a, c, _, _, _, e, hr, hins⟩ := AVLmap.insert_existing value hm hb hk
    refine ⟨_, e, ?_, Tree.insertAt_bst key value _ hb⟩
    rw [hins]; exact hr
  · obtain ⟨h', e, hr⟩ := AVLmap.insert_new value hm hb hk
    exact ⟨_, e, ⟨rfl, hr⟩, Tree.insertAt_bst key value _ hb⟩

end Ordered

end CS280

namespace CS280
open Call

/-! ## Concrete runs -/

/-- C1 (evaluation at the failing input): after inserting 1, 2, 3, 4 and erasing
key 1, the map holds the tree `2 -> (nil, 3 -> (nil, 4))`, whose root has an
absent left child (height -1) and a right subtree of height 1: the AVL balance
condition is broken, because `erase` does no rebalancing. -/
theorem erase_leaves_tree_unbalanced :
    ∃ m : AVLmap Nat Nat,
      AVLmap.empty.run [insert 1 10, insert 2 20, insert 3 30, insert 4 40, erase 1] = some m ∧
      m.Represents (.node 1 .nil 2 20 2 (-1) (.node 2 .nil 3 30 1 (-1) (.node 3 .nil 4 40 0 0 .nil))) ∧
      ¬ (Tree.node 1 .nil 2 20 2 (-1)
          (.node 2 .nil 3 30 1 (-1) (.node 3 .nil 4 40 0 0 .nil)) : Tree Nat Nat).Balanced :=
  ⟨_, rfl, by decide, by decide⟩

/-- C3 (evaluation at the failing input): the map built by inserting 10, 5, 15,
3, 7, 20, 8 and erasing 8, 7, 20, 15 holds key 5 (with value 50) at address 1;
after `insert(12, 120)` the lookup `find(5)` returns the terminal cursor: the
insertion walk trusted the stale cached height and balance of node 5 and
overwrote the left link of node 10 with the null result of `leftRotate`. -/
theorem insert_after_erase_loses_entry :
    ∃ m m' : AVLmap Nat Nat,
      AVLmap.empty.run [insert 10 100, insert 5 50, insert 15 150, insert 3 30, insert 7 70,
        insert 20 200, insert 8 80, erase 8, erase 7, erase 20, erase 15] = some m ∧
      m.Represents (.node 0 (.node 1 (.node 3 .nil 3 30 0 0 .nil) 5 50 2 (-1) .nil) 10 100 3 1 .nil) ∧
      m.find 5 = some (some 1) ∧
      m.insert 12 120 = some m' ∧
      m'.Represents (.node 0 .nil 10 100 3 2 (.node 7 .nil 12 120 0 0 .nil)) ∧
      m'.find 5 = some AVLmap.end_it :=
  ⟨_, _, rfl, by decide, by decide, rfl, by decide, by decide⟩

/-- C4 (evaluation at the failing input): after inserting 1, 2, 3 and erasing
key 2 (a node with two children) the tree has two nodes but `size()` is 1. -/
theorem size_differs_from_node_count :
    ∃ (m : AVLmap Nat Nat) (t : Tree Nat Nat),
      AVLmap.empty.run [insert 1 10, insert 2 20, insert 3 30, erase 2] = some m ∧
      m.Represents t ∧ t.size = 2 ∧ m.size = 1 :=
  ⟨_, .node 1 (.node 0 .nil 1 10 0 (-2) .nil) 3 30 1 (-1) .nil, rfl, by decide, by decide, by decide⟩

/-- C9 (evaluation at the failing input): in the map built by inserting 1, 2, 3
the root (address 1, key 2) has two children; one call of `erase` on it takes
`size()` from 3 to 1: the recursive call on the successor and the outer call
both execute `--size_`. -/
theorem erase_two_children_decrements_twice :
    ∃ m m' : AVLmap Nat Nat,
      AVLmap.empty.run [insert 1 10, insert 2 20, insert 3 30] = some m ∧
      m.Represents (.node 1 (.node 0 .nil 1 10 0 (-2) .nil) 2 20 1 (-1) (.node 2 .nil 3 30 0 0 .nil)) ∧
      m.size = 3 ∧ m.erase (some 1) = some m' ∧ m'.size = 1 :=
  ⟨_, _, rfl, by decide, by decide, rfl, by decide⟩

/-- C10: `erase` on the terminal cursor `end()` returns at once and leaves the
heap (hence the whole tree), `pRoot` and `size()` as they were. -/
theorem erase_end_noop (m : AVLmap K V) : m.erase AVLmap.end_it = some m := rfl

end CS280

namespace CS280
variable {K V : Type}

/-! ## The claims on `find`, `insert` and `erase` -/

theorem singleMap_spec : AVLmap.empty.insert 1 10 = some singleMap ∧
    singleMap.Represents singleTree := ⟨rfl, by decide⟩

theorem threeMap_spec :
    AVLmap.empty.run [.insert 1 10, .insert 2 20, .insert 3 30] = some threeMap ∧
    threeMap.Represents threeTree := ⟨rfl, by decide⟩

theorem singleTree_bst : singleTree.BST := by simp [singleTree, Tree.BST, Tree.All]

theorem threeTree_bst : threeTree.BST := by simp [threeTree, Tree.BST, Tree.All]

section Ordered
variable [LinearOrder K]

/-- C5: on a map whose tree is BST-ordered, `find(k)` returns a cursor to a
node of the tree whose key is `k` if the tree holds `k`, and the terminal cursor
`end()` otherwise; on the empty map it returns the terminal cursor. -/
theorem find_correct_lookup (m : AVLmap K V) (t : Tree K V) (k : K)
    (hm : m.Represents t) (hb : t.BST) :
    (k ∈ t.keys → ∃ a c, m.find k = some (some a) ∧ a ∈ t.addrs ∧
        m.heap.get? a = some c ∧ c.key = k) ∧
      (k ∉ t.keys → m.find k = some AVLmap.end_it) ∧
      (AVLmap.empty : AVLmap K V).find k = some AVLmap.end_it := by
  have hnd := hm.2.nodup_of_bst hb
  have hsz := hm.2.size_le hnd
  have hf : m.find k = some (t.descend k []).2.ptr := by
    rw [AVLmap.find, hm.1]
    exact findLoop_repr k t hm.2 (by simp only [Heap.fuel]; omega)
  refine ⟨fun hk => ?_, fun hk => ?_, rfl⟩
  · rcases Tree.descend_spec k t [] hb with ⟨_, hn⟩ | ⟨a, l, v, ht, bal, r, e, _, ha⟩
    · exact absurd hk hn
    · exact ⟨a, _, by rw [hf, e]; rfl, ha, hm.2.descend_cell k e, rfl⟩
  · rcases Tree.descend_spec k t [] hb with ⟨e, _⟩ | ⟨_, _, _, _, _, _, _, hk', _⟩
    · rw [hf, e]; rfl
    · exact absurd hk' hk

/-- C6 (amended): on a map whose tree is BST-ordered, AVL-balanced and has
consistent cached heights, `insert(k, v)` of an absent key returns, the
ascending sequence of key/value pairs of the new tree is the previous sequence
with `(k, v)` added at its sorted position, the new tree is again BST-ordered,
balanced and height-consistent, and `size()` is the previous size plus one
modulo `2 ^ 32`. -/
theorem insert_absent_sorted (m : AVLmap K V) (t : Tree K V) (key : K) (value : V)
    (hm : m.Represents t) (hb : t.BST) (hbal : t.Balanced) (hh : t.HeightOK)
    (hk : key ∉ t.keys) :
    ∃ m' t' pre post, m.insert key value = some m' ∧ m'.Represents t' ∧
      t.toList = pre ++ post ∧ (∀ x ∈ pre, x.1 < key) ∧ (∀ x ∈ post, key < x.1) ∧
      t'.toList = pre ++ (key, value) :: post ∧
      t'.BST ∧ t'.Balanced ∧ t'.HeightOK ∧
      m'.size = (m.size + 1) % 2 ^ 32 := by
  obtain ⟨h', e, hr⟩ := AVLmap.insert_new value hm hb hk
  obtain ⟨pre, post, s1, s2, s3, _, s5⟩ :=
    Tree.insertAt_new_sublist key value m.heap.cells.length hb hk
  obtain ⟨s6, s7⟩ := s5 ((Tree.avl_iff t).2 ⟨hbal, hh⟩)
  obtain ⟨s8, s9⟩ := (Tree.avl_iff _).1 s7
  exact ⟨_, _, pre, post, e, ⟨rfl, hr⟩, s1, s2, s3, s6, Tree.insertAt_bst key value _ hb,
    s8, s9, rfl⟩

/-- C7: on a map whose tree is BST-ordered and holds `key`, `insert(key, value)`
returns and changes one cell of the heap only, the cell of the node holding
`key`, in which it overwrites the value: the tree keeps its shape, its keys,
the other values and every cached height and balance, and `pRoot` and `size()`
are unchanged. -/
theorem insert_present_overwrites (m : AVLmap K V) (t : Tree K V) (key : K) (value : V)
    (hm : m.Represents t) (hb : t.BST) (hk : key ∈ t.keys) :
    ∃ m' a c, m.insert key value = some m' ∧ a ∈ t.addrs ∧ m.heap.get? a = some c ∧
      c.key = key ∧ m'.heap = m.heap.put a { c with value := value } ∧
      m'.Represents (t.setValue key value) ∧ m'.pRoot = m.pRoot ∧ m'.size = m.size := by
  obtain ⟨a, c, ha, hc, hck, e, hr, _⟩ := AVLmap.insert_existing value hm hb hk
  exact ⟨_, a, c, e, ha, hc, hck, rfl, hr, rfl, rfl⟩

/-- C8: on a map whose tree is BST-ordered (with consistent parent links, as
`Represents` requires), `erase` on a cursor to a node of the tree returns, and
the ascending sequence of key/value pairs of the new tree is the previous
sequence without the entry of the cursor, all other entries kept in order; the
new tree is BST-ordered. -/
theorem erase_removes_entry (m : AVLmap K V) (t : Tree K V) (a : Nat)
    (hm : m.Represents t) (hb : t.BST) (ha : a ∈ t.addrs) :
    ∃ m' t' c pre post, m.erase (some a) = some m' ∧ m'.Represents t' ∧
      m.heap.get? a = some c ∧ t.toList = pre ++ (c.key, c.value) :: post ∧
      t'.toList = pre ++ post ∧ t'.BST := by
  obtain ⟨m', t', c, pre, post, e, hr, hc, h1, h2, h3, _⟩ := AVLmap.erase_spec hm hb ha
  exact ⟨m', t', c, pre, post, e, hr, hc, h1, h2, h3⟩

end Ordered

theorem find_correct_lookup_witness :
    singleMap.Represents singleTree ∧ singleTree.BST ∧
      ((1 ∈ singleTree.keys → ∃ a c, singleMap.find 1 = some (some a) ∧ a ∈ singleTree.addrs ∧
        singleMap.heap.get? a = some c ∧ c.key = 1) ∧
      (1 ∉ singleTree.keys → singleMap.find 1 = some AVLmap.end_it) ∧
      (AVLmap.empty : AVLmap Nat Nat).find 1 = some AVLmap.end_it) :=
  ⟨singleMap_spec.2, singleTree_bst,
    find_correct_lookup singleMap singleTree 1 singleMap_spec.2 singleTree_bst⟩

theorem insert_absent_sorted_witness :
    singleMap.Represents singleTree ∧ singleTree.BST ∧ singleTree.Balanced ∧
      singleTree.HeightOK ∧ 2 ∉ singleTree.keys ∧
      ∃ m' t' pre post, singleMap.insert 2 20 = some m' ∧ m'.Represents t' ∧
        singleTree.toList = pre ++ post ∧ (∀ x ∈ pre, x.1 < 2) ∧ (∀ x ∈ post, 2 < x.1) ∧
        t'.toList = pre ++ (2, 20) :: post ∧
        t'.BST ∧ t'.Balanced ∧ t'.HeightOK ∧
        m'.size = (singleMap.size + 1) % 2 ^ 32 :=
  ⟨singleMap_spec.2, singleTree_bst, by decide, by simp [singleTree, Tree.HeightOK],
    by decide,
    insert_absent_sorted singleMap singleTree 2 20 singleMap_spec.2 singleTree_bst
      (by decide) (by simp [singleTree, Tree.HeightOK]) (by decide)⟩

theorem insert_present_overwrites_witness :
    singleMap.Represents singleTree ∧ singleTree.BST ∧ 1 ∈ singleTree.keys ∧
      ∃ m' a c, singleMap.insert 1 11 = some m' ∧ a ∈ singleTree.addrs ∧
        singleMap.heap.get? a = some c ∧
        c.key = 1 ∧ m'.heap = singleMap.heap.put a { c with value := 11 } ∧
        m'.Represents (singleTree.setValue 1 11) ∧ m'.pRoot = singleMap.pRoot ∧
        m'.size = singleMap.size :=
  ⟨singleMap_spec.2, singleTree_bst, by decide,
    insert_present_overwrites singleMap singleTree 1 11 singleMap_spec.2 singleTree_bst
      (by decide)⟩

theorem erase_removes_entry_witness :
    threeMap.Represents threeTree ∧ threeTree.BST ∧ 1 ∈ threeTree.addrs ∧
      ∃ m' t' c pre post, threeMap.erase (some 1) = some m' ∧ m'.Represents t' ∧
        threeMap.heap.get? 1 = some c ∧ threeTree.toList = pre ++ (c.key, c.value) :: post ∧
        t'.toList = pre ++ post ∧ t'.BST :=
  ⟨threeMap_spec.2, threeTree_bst, by decide,
    erase_removes_entry threeMap threeTree 1 threeMap_spec.2 threeTree_bst (by decide)⟩

/-- C6 (counterexample to the claim as stated): the calls `insert(1, 10)`,
`insert(2, 20)`, `insert(3, 30)`, `erase(find(2))`, `erase(find(1))`,
`erase(find(3))` lead to a map with an empty tree, which is BST-ordered,
balanced and height-consistent, and with `size() = 4294967295`; after
`insert(5, 50)` the value of `size()` is 0, not the previous size plus one. -/
theorem insert_size_wraps :
    ∃ m m' : AVLmap Nat Nat,
      AVLmap.empty.run [.insert 1 10, .insert 2 20, .insert 3 30, .erase 2, .erase 1,
        .erase 3] = some m ∧
      m.Represents .nil ∧ (Tree.nil : Tree Nat Nat).BST ∧ (Tree.nil : Tree Nat Nat).Balanced ∧
      (Tree.nil : Tree Nat Nat).HeightOK ∧ 5 ∉ (Tree.nil : Tree Nat Nat).keys ∧
      m.size = 4294967295 ∧ m.insert 5 50 = some m' ∧ m'.size = 0 ∧
      m'.size ≠ m.size + 1 :=
  ⟨_, _, rfl, by decide, trivial, trivial, trivial, by decide, by decide, rfl, by decide,
    by decide⟩

end CS280

namespace CS280
variable {K V : Type}

/-! ## `Node::increment` and the traversal -/

theorem climbStep_none (h : Heap K V) (next : Nat → Option Nat) (N : Nat) :
    climbStep h next N none = some N := rfl

theorem climbStep_some (h : Heap K V) (next : Nat → Option Nat) (N p : Nat) :
    climbStep h next N (some p) =
      obind (h.get? p) (fun pn => if pn.right = some N then next p else some N) := rfl

theorem incrementLoop_succ (h : Heap K V) (fuel N : Nat) : incrementLoop h (fuel + 1) N =
    obind (h.get? N) (fun n => climbStep h (incrementLoop h fuel) N n.parent) := rfl

theorem increment_eq (h : Heap K V) (N : Nat) : Node.increment h N =
    obind (h.get? N) (fun n =>
      match n.right with
      | some r => obind (Node.first h r) (fun f => some (some f))
      | none => obind (incrementLoop h h.fuel N) (fun N' =>
          obind (h.get? N') (fun n' => some n'.parent))) := rfl

theorem ctxAddrsR_head : ∀ fs : List (Frame K V), (ctxAddrsR fs).head? = ctxNext fs
  | [] => rfl
  | .left _ _ _ _ _ _ :: _ => rfl
  | .right _ _ _ _ _ _ :: fs => ctxAddrsR_head fs

/-- The climb of `Node::increment` from the root `N` of the subtree in the open
position: it ends at a node whose parent is the nearest ancestor that has the
position in its left subtree. -/
theorem incrementLoop_plug {h : Heap K V} : ∀ (fs : List (Frame K V)) {s : Tree K V}
    {N n : Nat}, s.ptr = some N → h.Repr none (plug fs s) → (plug fs s).addrs.Nodup →
    fs.length + 1 ≤ n →
    ∃ N' c, incrementLoop h n N = some N' ∧ h.get? N' = some c ∧ c.parent = ctxNext fs
  | [], s, N, fuel, hs, hr, _, hf => by
    obtain ⟨m, rfl⟩ : ∃ m, fuel = m + 1 := ⟨fuel - 1, by omega⟩
    rcases s with _ | ⟨a, l, k, v, ht, bal, r⟩
    · simp at hs
    simp only [Tree.ptr_node, Option.some.injEq] at hs
    subst hs
    refine ⟨a, _, ?_, hr.1, rfl⟩
    rw [incrementLoop_succ, hr.1, obind_some, climbStep_none]
  | .left p pk pv pht pbal pr :: fs, s, N, fuel, hs, hr, hnd, hf => by
    obtain ⟨m, rfl⟩ : ∃ m, fuel = m + 1 := ⟨fuel - 1, by omega⟩
    rcases s with _ | ⟨a, l, k, v, ht, bal, r⟩
    · simp at hs
    simp only [Tree.ptr_node, Option.some.injEq] at hs
    subst hs
    have hr1 := Heap.Repr.of_plug (F := fs) hr
    have hnd1 := plug_nodup_sub (F := fs) hnd
    simp only [Frame.fill, Tree.addrs] at hnd1
    have hne : pr.ptr ≠ some a := by
      apply Tree.ptr_ne_of_not_mem
      intro hm
      exact List.disjoint_of_nodup_append hnd1 (by simp) (List.mem_cons_of_mem _ hm)
    refine ⟨a, _, ?_, hr1.2.1.1, rfl⟩
    rw [incrementLoop_succ, hr1.2.1.1, obind_some, climbStep_some, hr1.1, obind_some]
    simp only [hne, if_false]
  | .right p pl pk pv pht pbal :: fs, s, N, fuel, hs, hr, hnd, hf => by
    obtain ⟨m, rfl⟩ : ∃ m, fuel = m + 1 := ⟨fuel - 1, by omega⟩
    have hr1 := Heap.Repr.of_plug (F := fs) hr
    have hcell : ∃ c, h.get? N = some c ∧ c.parent = some p := by
      rcases s with _ | ⟨a, l, k, v, ht, bal, r⟩
      · simp at hs
      simp only [Tree.ptr_node, Option.some.injEq] at hs
      subst hs
      exact ⟨_, hr1.2.2.1, rfl⟩
    obtain ⟨c, hc, hcp⟩ := hcell
    obtain ⟨N', c', e1, e2, e3⟩ := incrementLoop_plug fs (s := Frame.fill (.right p pl pk pv pht pbal) s)
      (N := p) (n := m) rfl hr hnd (by simp only [List.length_cons] at hf; omega)
    refine ⟨N', c', ?_, e2, e3⟩
    rw [incrementLoop_succ, hc, obind_some, hcp, climbStep_some, hr1.1, obind_some]
    simp only [hs, if_true]
    exact e1

/-- `Node::increment` at the root `N` of the subtree in the open position:
the address that follows `N` in the in-order sequence of the tree. -/
theorem increment_plug {h : Heap K V} {fs : List (Frame K V)} {N : Nat} {l r : Tree K V}
    {k : K} {v : V} {ht bal : Int}
    (hr : h.Repr none (plug fs (.node N l k v ht bal r)))
    (hnd : (plug fs (.node N l k v ht bal r)).addrs.Nodup) :
    Node.increment h N = some (r.addrs ++ ctxAddrsR fs).head? := by
  have hrN := Heap.Repr.of_plug (F := fs) hr
  have hsz := hr.size_le hnd
  rw [increment_eq, hrN.1, obind_some]
  rcases r with _ | ⟨ra, rl, rk, rv, rht, rbal, rr⟩
  · simp only [Tree.ptr_nil, Tree.addrs, List.nil_append, ctxAddrsR_head]
    have hlen := plug_length_le fs (.node N l k v ht bal .nil)
    obtain ⟨N', c, e1, e2, e3⟩ := incrementLoop_plug fs (s := .node N l k v ht bal .nil)
      (N := N) (n := h.fuel) rfl hr hnd
      (by simp only [Heap.fuel]; omega)
    rw [e1, obind_some, e2, obind_some, e3]
  · simp only [Tree.ptr_node]
    obtain ⟨path, S, sk, sv, sht, sbal, sr, hmp, -, -, had⟩ :=
      Tree.minPath_spec (.node ra rl rk rv rht rbal rr) [] (by simp)
    have hndr : (Tree.node ra rl rk rv rht rbal rr).addrs.Nodup := by
      have := plug_nodup_sub (F := fs) hnd
      simp only [Tree.addrs] at this
      exact (List.nodup_cons.1 (List.nodup_append.1 this).2.1).2
    have hfirst : firstLoop h h.fuel ra = (Tree.minPath (.node ra rl rk rv rht rbal rr) []).2.ptr :=
      firstLoop_repr _ hrN.2.2 rfl (Nat.le_succ_of_le (hrN.2.2.size_le hndr))
    simp only [Node.first, hfirst, hmp, Tree.ptr_node, obind_some, had, List.cons_append,
      List.head?_cons]

/-- `Node::increment` in terms of the in-order sequence of addresses. -/
theorem increment_spec {h : Heap K V} {t : Tree K V} (hr : h.Repr none t)
    (hnd : t.addrs.Nodup) {pre post : List Nat} {a : Nat} (e : t.addrs = pre ++ a :: post) :
    Node.increment h a = some post.head? := by
  have ha : a ∈ t.addrs := by rw [e]; simp
  obtain ⟨fs, l, k, v, ht, bal, r, rfl⟩ := Tree.exists_plug_of_mem t ha
  rw [increment_plug hr hnd]
  have e2 : (plug fs (.node a l k v ht bal r)).addrs =
      (ctxAddrsL fs ++ l.addrs) ++ a :: (r.addrs ++ ctxAddrsR fs) := by
    simp [plug_addrs, Tree.addrs]
  rw [e2] at e hnd
  have hn1 : a ∉ ctxAddrsL fs ++ l.addrs := fun hm =>
    List.disjoint_of_nodup_append hnd hm (List.mem_cons_self _ _)
  have hn2 : a ∉ r.addrs ++ ctxAddrsR fs :=
    (List.nodup_cons.1 (List.nodup_append.1 hnd).2.1).1
  have := (List.append_cons_inj_of_not_mem hn1 hn2).1 e
  rw [this.2.2]

theorem traverseLoop_null (h : Heap K V) (fuel : Nat) :
    traverseLoop h (fuel + 1) none = some [] := rfl

theorem traverseLoop_succ (h : Heap K V) (fuel N : Nat) :
    traverseLoop h (fuel + 1) (some N) = obind (Node.increment h N) (fun nx =>
      obind (traverseLoop h fuel nx) (fun rest => some (N :: rest))) := rfl

/-- The traversal, started at any node, visits the rest of the in-order
sequence of addresses. -/
theorem traverseLoop_spec {h : Heap K V} {t : Tree K V} (hr : h.Repr none t)
    (hnd : t.addrs.Nodup) : ∀ (post pre : List Nat) (n : Nat), t.addrs = pre ++ post →
    post.length + 1 ≤ n → traverseLoop h n post.head? = some post
  | [], _, n, _, hf => by
    obtain ⟨m, rfl⟩ : ∃ m, n = m + 1 := ⟨n - 1, by omega⟩
    rfl
  | a :: post, pre, n, e, hf => by
    obtain ⟨m, rfl⟩ : ∃ m, n = m + 1 := ⟨n - 1, by simp only [List.length_cons] at hf; omega⟩
    simp only [List.head?_cons]
    rw [traverseLoop_succ, increment_spec hr hnd e, obind_some,
      traverseLoop_spec hr hnd post (pre ++ [a]) m (by simp [e])
        (by simp only [List.length_cons] at hf; omega), obind_some]

/-- `begin()` is the cursor to the first node of the in-order sequence. -/
theorem AVLmap.begin_spec {m : AVLmap K V} {t : Tree K V} (hm : m.Represents t)
    (hnd : t.addrs.Nodup) : m.begin = some t.addrs.head? := by
  obtain ⟨hp, hr⟩ := hm
  rcases t with _ | ⟨a, l, k, v, ht, bal, r⟩
  · simp only [Tree.ptr_nil] at hp
    simp only [AVLmap.begin, hp, Tree.addrs, List.head?_nil]
    rfl
  · simp only [Tree.ptr_node] at hp
    obtain ⟨path, S, sk, sv, sht, sbal, sr, hmp, -, -, had⟩ :=
      Tree.minPath_spec (.node a l k v ht bal r) [] (by simp)
    have hfirst : firstLoop m.heap m.heap.fuel a =
        (Tree.minPath (.node a l k v ht bal r) []).2.ptr :=
      firstLoop_repr _ hr rfl (Nat.le_succ_of_le (hr.size_le hnd))
    simp only [AVLmap.begin, hp, Node.first, hfirst, hmp, had, List.head?_cons,
      Tree.ptr_node, Option.map_some']

/-- The traversal from `begin()` to `end()` visits every node of the tree once,
in in-order. -/
theorem AVLmap.traverse_spec {m : AVLmap K V} {t : Tree K V} (hm : m.Represents t)
    (hnd : t.addrs.Nodup) : m.traverse = some t.addrs := by
  have hsz := hm.2.size_le hnd
  rw [AVLmap.traverse, AVLmap.begin_spec hm hnd]
  exact traverseLoop_spec hm.2 hnd t.addrs [] m.heap.fuel rfl
    (by rw [Tree.addrs_length]; simp only [Heap.fuel]; omega)

theorem mapM_keyAt {h : Heap K V} : ∀ (l : List Nat) (ks : List K),
    l.map h.keyAt = ks.map some → l.mapM h.keyAt = some ks
  | [], [], _ => rfl
  | [], _ :: _, e => by simp at e
  | _ :: _, [], e => by simp at e
  | a :: l, k :: ks, e => by
    simp only [List.map_cons, List.cons.injEq] at e
    rw [List.mapM_cons, e.1, mapM_keyAt l ks e.2]
    rfl

/-- The keys read during the traversal are the keys of the tree in in-order. -/
theorem AVLmap.traverseKeys_spec {m : AVLmap K V} {t : Tree K V} (hm : m.Represents t)
    (hnd : t.addrs.Nodup) : m.traverseKeys = some t.keys := by
  rw [AVLmap.traverseKeys, AVLmap.traverse_spec hm hnd]
  exact mapM_keyAt _ _ hm.2.keys_eq

end CS280

namespace CS280
variable {K V : Type}

/-! ## `clear` -/

theorem clearLoop_none (fuel : Nat) (m : AVLmap K V) (hp : m.pRoot = none) :
    clearLoop (fuel + 1) m = some m := by
  rw [clearLoop, hp]

theorem clearLoop_some (fuel : Nat) (m : AVLmap K V) {r : Nat} (hp : m.pRoot = some r) :
    clearLoop (fuel + 1) m =
      obind m.begin (fun b => obind (m.erase b) (fun m' => clearLoop fuel m')) := by
  rw [clearLoop, hp]
  rfl

/-- The value of `size_` after `k` decrements. -/
theorem decr_iter (s k : Nat) :
    ((s + 2 ^ 32 - 1) % 2 ^ 32 + k * (2 ^ 32 - 1)) % 2 ^ 32 =
      (s + (k + 1) * (2 ^ 32 - 1)) % 2 ^ 32 := by
  omega

/-- The loop of `clear` on a map whose tree has `k` nodes, none shared: it
ends after `k` calls of `erase`, each on the first node of the in-order
sequence; all nodes of the tree are freed, no other cell is touched, and
`size_` has been decremented `k` times. -/
theorem clearLoop_spec : ∀ (k : Nat) (m : AVLmap K V) (t : Tree K V) (n : Nat),
    m.Represents t → t.addrs.Nodup → t.size = k → k + 1 ≤ n →
    ∃ h' sz, clearLoop n m = some ⟨h', none, sz⟩ ∧
      (m.size_ < 2 ^ 32 → sz = (m.size_ + k * (2 ^ 32 - 1)) % 2 ^ 32) ∧
      h'.cells.length = m.heap.cells.length ∧
      (∀ x, x ∉ t.addrs → h'.get? x = m.heap.get? x) ∧
      (∀ x ∈ t.addrs, h'.get? x = none)
  | 0, m, t, n, hm, _, hk, hn => by
    obtain ⟨f, rfl⟩ : ∃ f, n = f + 1 := ⟨n - 1, by omega⟩
    have ht : t = .nil := by
      cases t with
      | nil => rfl
      | node a l k v ht bal r => simp only [Tree.size] at hk; omega
    subst ht
    have hp : m.pRoot = none := hm.1
    refine ⟨m.heap, m.size_, ?_, fun hs => ?_, rfl, fun _ _ => rfl,
      fun x hx => by simp [Tree.addrs] at hx⟩
    · rw [clearLoop_none f m hp]
      obtain ⟨h, root, sz⟩ := m
      simp only at hp
      subst hp
      rfl
    · simp only [zero_mul, add_zero]
      exact (Nat.mod_eq_of_lt hs).symm
  | k + 1, m, t, n, hm, hnd, hk, hn => by
    obtain ⟨f, rfl⟩ : ∃ f, n = f + 1 := ⟨n - 1, by omega⟩
    have hne : t ≠ .nil := by
      rintro rfl
      simp [Tree.size] at hk
    obtain ⟨path, a, ka, va, hta, bala, r', hmp, hplug, -, had⟩ := Tree.minPath_spec t [] hne
    obtain ⟨rt, hrt⟩ : ∃ rt, m.pRoot = some rt := by
      rw [hm.1]
      rcases t with _ | ⟨b, _, _, _, _, _, _⟩
      · exact absurd rfl hne
      · exact ⟨b, rfl⟩
    have hbegin := AVLmap.begin_spec hm hnd
    rw [had, List.head?_cons] at hbegin
    have hsz := hm.2.size_le hnd
    have hr0 : m.heap.Repr none (plug path (.node a .nil ka va hta bala r')) := by
      rw [hplug]; exact hm.2
    have hnd0 : (plug path (.node a .nil ka va hta bala r')).addrs.Nodup := by
      rw [hplug]; exact hnd
    obtain ⟨h1, e1, hr1, hag1, hfree1, hlen1⟩ :=
      eraseShallow_plug (Or.inl rfl) m.size_ m.heap.cells.length hr0 hnd0
    simp only [Tree.ptr_nil, ne_eq, not_true_eq_false, if_false] at e1 hr1
    rw [hplug] at e1 hag1
    have herase : m.erase (some a) =
        some ⟨h1, (plug path r').ptr, (m.size_ + 2 ^ 32 - 1) % 2 ^ 32⟩ := by
      rw [← e1, AVLmap.erase]
      obtain ⟨h, root, sz⟩ := m
      have hp : root = t.ptr := hm.1
      subst hp
      rfl
    have hnd1 : (plug path r').addrs.Nodup := by
      rw [had] at hnd
      exact (List.nodup_cons.1 hnd).2
    have hk1 : (plug path r').size = k := by
      have h1 := Tree.addrs_length t
      rw [had, List.length_cons, Tree.addrs_length] at h1
      omega
    obtain ⟨h', sz', e2, hsz', hlen2, hag2, hfree2⟩ :=
      clearLoop_spec k ⟨h1, (plug path r').ptr, (m.size_ + 2 ^ 32 - 1) % 2 ^ 32⟩
        (plug path r') f ⟨rfl, hr1⟩ hnd1 hk1 (by omega)
    refine ⟨h', sz', ?_, fun hs => ?_, hlen2.trans hlen1, fun x hx => ?_, fun x hx => ?_⟩
    · rw [clearLoop_some f m hrt, hbegin, obind_some, herase, obind_some, e2]
    · rw [hsz' (Nat.mod_lt _ (by norm_num))]
      exact decr_iter m.size_ k
    · rw [hag2 x (fun hm' => hx (by rw [had]; exact List.mem_cons_of_mem _ hm')), hag1 x hx]
    · rw [had] at hx hnd
      rcases List.mem_cons.1 hx with rfl | hx'
      · rw [hag2 x (List.nodup_cons.1 hnd).1, hfree1]
      · exact hfree2 x hx'

/-- `clear` on a map whose tree has no shared node returns; afterwards the root
is absent, the nodes of the tree are freed and no other cell is touched. -/
theorem AVLmap.clear_spec {m : AVLmap K V} {t : Tree K V} (hm : m.Represents t)
    (hnd : t.addrs.Nodup) :
    ∃ h' sz, m.clear = some ⟨h', none, sz⟩ ∧
      (m.size_ < 2 ^ 32 → sz = (m.size_ + t.size * (2 ^ 32 - 1)) % 2 ^ 32) ∧
      h'.cells.length = m.heap.cells.length ∧
      (∀ x, x ∉ t.addrs → h'.get? x = m.heap.get? x) ∧
      (∀ x ∈ t.addrs, h'.get? x = none) := by
  have hsz := hm.2.size_le hnd
  exact clearLoop_spec t.size m t m.heap.fuel hm hnd rfl (by simp only [Heap.fuel]; omega)

end CS280

namespace CS280
variable {K V : Type}

/-! ## `copyTree` -/

theorem freeChild_none (h : Heap K V) : freeChild h none = some h := rfl

theorem copyFields_eq (h : Heap K V) (d src : Nat) : copyFields h d src =
    obind (h.get? d) (fun dn => obind (freeChild h dn.left) (fun h1 =>
      obind (h1.get? d) (fun dn' => obind (freeChild h1 dn'.right) (fun h2 =>
        obind (h2.get? src) (fun s =>
          obind (h2.modify d (fun c => { c with key := s.key })) (fun h3 =>
            obind (h3.get? src) (fun s' =>
              h3.modify d (fun c => { c with value := s'.value })))))))) := rfl

theorem refreshCached_eq (h : Heap K V) (d : Nat) : refreshCached h d =
    obind (Node.getBalanceFactor h d) (fun b =>
      obind (h.modify d (fun c => { c with balance := b })) (fun h1 =>
        obind (Node.getHeight h1 d) (fun ht =>
          h1.modify d (fun c => { c with height := ht })))) := rfl

theorem copyLeft_eq (next : Heap K V → Nat → Option Nat → Option (Heap K V)) (h : Heap K V)
    (d src : Nat) : copyLeft next h d src =
    obind (h.get? src) (fun s =>
      match s.left with
      | none => some h
      | some sl => obind (h.get? sl) (fun sln =>
          obind ((h.alloc ⟨sln.key, sln.value, some d, none, none, 1, 0⟩).1.modify d
              (fun c => { c with left := some (h.alloc ⟨sln.key, sln.value, some d, none, none,
                1, 0⟩).2 })) (fun h2 =>
            obind (h2.get? d) (fun dn => obind (h2.get? src) (fun s' =>
              obind dn.left (fun dl => next h2 dl s'.left)))))) := rfl

theorem copyRight_eq (next : Heap K V → Nat → Option Nat → Option (Heap K V)) (h : Heap K V)
    (d src : Nat) : copyRight next h d src =
    obind (h.get? src) (fun s =>
      match s.right with
      | none => some h
      | some sr => obind (h.get? sr) (fun srn =>
          obind ((h.alloc ⟨srn.key, srn.value, some d, none, none, 1, 0⟩).1.modify d
              (fun c => { c with right := some (h.alloc ⟨srn.key, srn.value, some d, none, none,
                1, 0⟩).2 })) (fun h2 =>
            obind (h2.get? d) (fun dn => obind (h2.get? src) (fun s' =>
              obind dn.right (fun dr => next h2 dr s'.right)))))) := rfl

theorem copyTree_succ (n : Nat) (h : Heap K V) (d src : Nat) :
    copyTree (n + 1) h d (some src) =
      obind (copyFields h d src) (fun h1 => obind (copyLeft (copyTree n) h1 d src) (fun h2 =>
        obind (copyRight (copyTree n) h2 d src) (fun h3 => refreshCached h3 d))) := rfl

theorem Heap.put_put (h : Heap K V) (a : Nat) (c c' : Node K V) :
    (h.put a c).put a c' = h.put a c' := by
  simp [Heap.put, List.set_set]

theorem Heap.get?_alloc_lt (h : Heap K V) (c : Node K V) {x : Nat} (hx : x < h.cells.length) :
    (h.alloc c).1.get? x = h.get? x := by
  rw [Heap.get?_alloc, if_neg (Nat.ne_of_lt hx)]

theorem Heap.get?_alloc_new (h : Heap K V) (c : Node K V) :
    (h.alloc c).1.get? h.cells.length = some c := by
  rw [Heap.get?_alloc, if_pos rfl]

/-- The first statements of `copyTree` on a destination without children. -/
theorem copyFields_spec {h : Heap K V} {d src : Nat} {dc sc : Node K V}
    (hd : h.get? d = some dc) (hdl : dc.left = none) (hdr : dc.right = none)
    (hs : h.get? src = some sc) (hsd : src ≠ d) :
    copyFields h d src = some (h.put d { dc with key := sc.key, value := sc.value }) := by
  have hlt := Heap.lt_of_get? hd
  rw [copyFields_eq, hd, obind_some, hdl, freeChild_none, obind_some, hd, obind_some, hdr,
    freeChild_none, obind_some, hs, obind_some, Heap.modify_eq hd, obind_some,
    Heap.get?_put_ne _ _ hsd, hs, obind_some, Heap.modify_eq (Heap.get?_put_self hlt _),
    Heap.put_put]
  simp only [hdl, hdr]

/-- The last statements of `copyTree`. -/
theorem refreshCached_spec {h : Heap K V} {d : Nat} {c : Node K V} {x y : Int}
    (hd : h.get? d = some c) (hx : heightOf h c.left = some x)
    (hy : heightOf h c.right = some y) (hl : c.left ≠ some d) (hr : c.right ≠ some d) :
    refreshCached h d =
      some (h.put d { c with balance := x - y, height := 1 + max x y }) := by
  have hlt := Heap.lt_of_get? hd
  rw [refreshCached_eq, getBalanceFactor_eq, hd, obind_some, hx, obind_some, hy, obind_some,
    obind_some, Heap.modify_eq hd, obind_some, getHeight_eq, Heap.get?_put_self hlt,
    obind_some]
  simp only []
  rw [heightOf_put_ne _ _ _ hl, hx, obind_some, heightOf_put_ne _ _ _ hr, hy, obind_some,
    obind_some, Heap.modify_eq (Heap.get?_put_self hlt _), Heap.put_put]

/-- The copy of the left subtree `l` of `src` below the destination `d`. -/
theorem copyLeft_spec {l : Tree K V} {n : Nat} (ih : CopySpec l n) {h : Heap K V}
    {d src : Nat} {dc sc : Node K V} (hd : h.get? d = some dc) (hdl : dc.left = none)
    (hs : h.get? src = some sc) (hsl : sc.left = l.ptr) (hr : h.Repr (some src) l)
    (hdn : d ∉ l.addrs) (hsd : src ≠ d) :
    ∃ h' l', copyLeft (copyTree n) h d src = some h' ∧ h'.Repr (some d) l' ∧
      l.SameShape l' ∧ l'.Cached ∧ l'.addrs.Nodup ∧ h.cells.length ≤ h'.cells.length ∧
      (∀ x, x < h.cells.length → x ≠ d → h'.get? x = h.get? x) ∧
      h'.get? d = some { dc with left := l'.ptr } ∧
      (∀ x ∈ l'.addrs, h.cells.length ≤ x) := by
  rcases l with _ | ⟨sl, ll, lk, lv, lht, lbal, lr⟩
  · refine ⟨h, .nil, ?_, trivial, trivial, trivial, List.nodup_nil, le_refl _,
      fun _ _ _ => rfl, ?_, fun x hx => by simp [Tree.addrs] at hx⟩
    · rw [copyLeft_eq, hs, obind_some]
      simp only [hsl, Tree.ptr_nil]
    · rw [hd, Tree.ptr_nil, ← hdl]
  · have hcell := hr.1
    have hdL := Heap.lt_of_get? hd
    have hsL := Heap.lt_of_get? hs
    have hdne : d ≠ h.cells.length := Nat.ne_of_lt hdL
    have hsne : src ≠ h.cells.length := Nat.ne_of_lt hsL
    have h1d : (h.alloc ⟨lk, lv, some d, none, none, 1, 0⟩).1.get? d = some dc := by
      rw [Heap.get?_alloc_lt _ _ hdL, hd]
    have h1len : d < (h.alloc ⟨lk, lv, some d, none, none, 1, 0⟩).1.cells.length := by
      rw [Heap.alloc_length]; omega
    have hr2 : ((h.alloc ⟨lk, lv, some d, none, none, 1, 0⟩).1.put d
        { dc with left := some h.cells.length }).Repr (some src)
        (.node sl ll lk lv lht lbal lr) := (hr.alloc _).put hdn _
    have hnew : ((h.alloc ⟨lk, lv, some d, none, none, 1, 0⟩).1.put d
        { dc with left := some h.cells.length }).get? h.cells.length =
        some ⟨lk, lv, some d, none, none, 1, 0⟩ := by
      rw [Heap.get?_put_ne _ _ (Ne.symm hdne), Heap.get?_alloc_new]
    have hfresh : h.cells.length ∉ (Tree.node sl ll lk lv lht lbal lr).addrs := fun hm =>
      Nat.lt_irrefl _ (hr.lt_length hm)
    obtain ⟨h', t', e, hr', hp', hss, hc, hnd', hlen, hag, hnw⟩ :=
      ih _ (some src) h.cells.length _ hr2 (by simp) hnew rfl rfl hfresh
    simp only [Heap.put_length, Heap.alloc_length] at hlen hag hnw
    refine ⟨h', t', ?_, hr', hss, hc, hnd', by omega, fun x hx hxd => ?_, ?_, fun x hx => ?_⟩
    · rw [copyLeft_eq, hs, obind_some]
      simp only [hsl, Tree.ptr_node]
      rw [hcell, obind_some]
      simp only [Heap.alloc_snd]
      rw [Heap.modify_eq h1d, obind_some, Heap.get?_put_self h1len, obind_some,
        Heap.get?_put_ne _ _ hsd, Heap.get?_alloc_lt _ _ hsL, hs, obind_some]
      simp only [obind_some, hsl, Tree.ptr_node]
      exact e
    · rw [hag x (by omega) (Nat.ne_of_lt hx), Heap.get?_put_ne _ _ hxd,
        Heap.get?_alloc_lt _ _ hx]
    · rw [hag d (by omega) hdne, Heap.get?_put_self h1len, hp']
    · by_cases hx' : x = h.cells.length
      · omega
      · have := hnw x hx hx'
        omega

/-- The copy of the right subtree `l` of `src` below the destination `d`. -/
theorem copyRight_spec {l : Tree K V} {n : Nat} (ih : CopySpec l n) {h : Heap K V}
    {d src : Nat} {dc sc : Node K V} (hd : h.get? d = some dc) (hdl : dc.right = none)
    (hs : h.get? src = some sc) (hsl : sc.right = l.ptr) (hr : h.Repr (some src) l)
    (hdn : d ∉ l.addrs) (hsd : src ≠ d) :
    ∃ h' l', copyRight (copyTree n) h d src = some h' ∧ h'.Repr (some d) l' ∧
      l.SameShape l' ∧ l'.Cached ∧ l'.addrs.Nodup ∧ h.cells.length ≤ h'.cells.length ∧
      (∀ x, x < h.cells.length → x ≠ d → h'.get? x = h.get? x) ∧
      h'.get? d = some { dc with right := l'.ptr } ∧
      (∀ x ∈ l'.addrs, h.cells.length ≤ x) := by
  rcases l with _ | ⟨sl, ll, lk, lv, lht, lbal, lr⟩
  · refine ⟨h, .nil, ?_, trivial, trivial, trivial, List.nodup_nil, le_refl _,
      fun _ _ _ => rfl, ?_, fun x hx => by simp [Tree.addrs] at hx⟩
    · rw [copyRight_eq, hs, obind_some]
      simp only [hsl, Tree.ptr_nil]
    · rw [hd, Tree.ptr_nil, ← hdl]
  · have hcell := hr.1
    have hdL := Heap.lt_of_get? hd
    have hsL := Heap.lt_of_get? hs
    have hdne : d ≠ h.cells.length := Nat.ne_of_lt hdL
    have hsne : src ≠ h.cells.length := Nat.ne_of_lt hsL
    have h1d : (h.alloc ⟨lk, lv, some d, none, none, 1, 0⟩).1.get? d = some dc := by
      rw [Heap.get?_alloc_lt _ _ hdL, hd]
    have h1len : d < (h.alloc ⟨lk, lv, some d, none, none, 1, 0⟩).1.cells.length := by
      rw [Heap.alloc_length]; omega
    have hr2 : ((h.alloc ⟨lk, lv, some d, none, none, 1, 0⟩).1.put d
        { dc with right := some h.cells.length }).Repr (some src)
        (.node sl ll lk lv lht lbal lr) := (hr.alloc _).put hdn _
    have hnew : ((h.alloc ⟨lk, lv, some d, none, none, 1, 0⟩).1.put d
        { dc with right := some h.cells.length }).get? h.cells.length =
        some ⟨lk, lv, some d, none, none, 1, 0⟩ := by
      rw [Heap.get?_put_ne _ _ (Ne.symm hdne), Heap.get?_alloc_new]
    have hfresh : h.cells.length ∉ (Tree.node sl ll lk lv lht lbal lr).addrs := fun hm =>
      Nat.lt_irrefl _ (hr.lt_length hm)
    obtain ⟨h', t', e, hr', hp', hss, hc, hnd', hlen, hag, hnw⟩ :=
      ih _ (some src) h.cells.length _ hr2 (by simp) hnew rfl rfl hfresh
    simp only [Heap.put_length, Heap.alloc_length] at hlen hag hnw
    refine ⟨h', t', ?_, hr', hss, hc, hnd', by omega, fun x hx hxd => ?_, ?_, fun x hx => ?_⟩
    · rw [copyRight_eq, hs, obind_some]
      simp only [hsl, Tree.ptr_node]
      rw [hcell, obind_some]
      simp only [Heap.alloc_snd]
      rw [Heap.modify_eq h1d, obind_some, Heap.get?_put_self h1len, obind_some,
        Heap.get?_put_ne _ _ hsd, Heap.get?_alloc_lt _ _ hsL, hs, obind_some]
      simp only [obind_some, hsl, Tree.ptr_node]
      exact e
    · rw [hag x (by omega) (Nat.ne_of_lt hx), Heap.get?_put_ne _ _ hxd,
        Heap.get?_alloc_lt _ _ hx]
    · rw [hag d (by omega) hdne, Heap.get?_put_self h1len, hp']
    · by_cases hx' : x = h.cells.length
      · omega
      · have := hnw x hx hx'
        omega

/-- `copyTree`, given recursion depth for the size of the source subtree,
meets `CopySpec`. -/
theorem copyTree_spec : ∀ (t : Tree K V) (n : Nat), t.size ≤ n → CopySpec t n
  | .nil, _, _ => fun _ _ _ _ _ hne => absurd rfl hne
  | .node src l k v ht bal r, n, hn => by
    intro h par d dc hr _ hd hdl hdr hdn
    obtain ⟨m, rfl⟩ : ∃ m, n = m + 1 := ⟨n - 1, by simp only [Tree.size] at hn; omega⟩
    simp only [Tree.size] at hn
    have ihl := copyTree_spec l m (by omega)
    have ihr := copyTree_spec r m (by omega)
    simp only [Tree.addrs, List.mem_append, List.mem_cons, not_or] at hdn
    obtain ⟨hdnl, hds, hdnr⟩ := hdn
    have hsd : src ≠ d := fun e => hds e.symm
    have hs := hr.1
    have hdL := Heap.lt_of_get? hd
    have hsL := Heap.lt_of_get? hs
    have e1 := copyFields_spec hd hdl hdr hs hsd
    have hd1 : (h.put d { dc with key := k, value := v }).get? d =
        some { dc with key := k, value := v } := Heap.get?_put_self hdL _
    have hs1 : (h.put d { dc with key := k, value := v }).get? src =
        some ⟨k, v, par, l.ptr, r.ptr, ht, bal⟩ := by
      rw [Heap.get?_put_ne _ _ hsd, hs]
    obtain ⟨h2, l', e2, hrl', ssl, cl, ndl, len2, ag2, hd2, new2⟩ :=
      copyLeft_spec ihl hd1 hdl hs1 rfl (hr.2.1.put hdnl _) hdnl hsd
    simp only [Heap.put_length] at len2 ag2 new2
    have hs2 : h2.get? src = some ⟨k, v, par, l.ptr, r.ptr, ht, bal⟩ := by
      rw [ag2 src hsL hsd, hs1]
    have hrr2 : h2.Repr (some src) r := hr.2.2.agree fun x hx => by
      have hxd : x ≠ d := fun e => hdnr (e ▸ hx)
      rw [ag2 x (hr.2.2.lt_length hx) hxd, Heap.get?_put_ne _ _ hxd]
    obtain ⟨h3, r', e3, hrr', ssr, cr, ndr, len3, ag3, hd3, new3⟩ :=
      copyRight_spec ihr hd2 hdr hs2 rfl hrr2 hdnr hsd
    have hdl' : d ∉ l'.addrs := fun hm => by
      have := new2 d hm
      omega
    have hdr' : d ∉ r'.addrs := fun hm => by
      have := new3 d hm
      omega
    have hrl3 : h3.Repr (some d) l' := hrl'.agree fun x hx =>
      ag3 x (hrl'.lt_length hx) (fun e => hdl' (e ▸ hx))
    have hd3L := Heap.lt_of_get? hd3
    have e4 := refreshCached_spec hd3 hrl3.heightOf hrr'.heightOf
      (Tree.ptr_ne_of_not_mem hdl') (Tree.ptr_ne_of_not_mem hdr')
    refine ⟨_, .node d l' k v (1 + max l'.ht r'.ht) (l'.ht - r'.ht) r', ?_,
      ⟨Heap.get?_put_self hd3L _, hrl3.put hdl' _, hrr'.put hdr' _⟩, rfl,
      ⟨rfl, rfl, ssl, ssr⟩, ⟨rfl, rfl, cl, cr⟩, ?_, ?_, fun x hx hxd => ?_, fun x hx hxd => ?_⟩
    · rw [Tree.ptr_node, copyTree_succ, e1, obind_some, e2, obind_some, e3, obind_some, e4]
    · simp only [Tree.addrs]
      refine List.nodup_append.2 ⟨ndl, List.nodup_cons.2 ⟨hdr', ndr⟩, ?_⟩
      intro x hx hx'
      rcases List.mem_cons.1 hx' with rfl | hx'
      · exact hdl' hx
      · have h1 := hrl'.lt_length hx
        have h2 := new3 x hx'
        omega
    · simp only [Heap.put_length]
      omega
    · rw [Heap.get?_put_ne _ _ hxd, ag3 x (by omega) hxd, ag2 x hx hxd,
        Heap.get?_put_ne _ _ hxd]
    · simp only [Tree.addrs, List.mem_append, List.mem_cons] at hx
      rcases hx with hx | rfl | hx
      · exact new2 x hx
      · exact absurd rfl hxd
      · have := new3 x hx
        omega

end CS280

namespace CS280
variable {K V : Type}

/-! ## Copy construction and copy assignment -/

theorem Tree.SameShape.toList_eq : ∀ {t t' : Tree K V}, t.SameShape t' → t'.toList = t.toList
  | .nil, .nil, _ => rfl
  | .nil, .node _ _ _ _ _ _ _, h => h.elim
  | .node _ _ _ _ _ _ _, .nil, h => h.elim
  | .node _ l k v _ _ r, .node _ l' k' v' _ _ r', h => by
    obtain ⟨rfl, rfl, hl, hr⟩ := h
    simp only [Tree.toList, hl.toList_eq, hr.toList_eq]

theorem Tree.SameShape.size_eq : ∀ {t t' : Tree K V}, t.SameShape t' → t'.size = t.size
  | .nil, .nil, _ => rfl
  | .nil, .node _ _ _ _ _ _ _, h => h.elim
  | .node _ _ _ _ _ _ _, .nil, h => h.elim
  | .node _ l k v _ _ r, .node _ l' k' v' _ _ r', h => by
    obtain ⟨rfl, rfl, hl, hr⟩ := h
    simp only [Tree.size, hl.size_eq, hr.size_eq]

theorem Tree.Cached.heightOK : ∀ {t : Tree K V}, t.Cached → t.HeightOK
  | .nil, _ => trivial
  | .node _ _ _ _ _ _ _, h => ⟨h.1, h.2.2.1.heightOK, h.2.2.2.heightOK⟩

/-- The creation of the root of the copy followed by `copyTree` (avl.cpp,
lines 398-409 and 427-439), for a nonempty source tree and any initial values
`c` and `b` of the cached fields of the new root. -/
theorem copyRoot_spec {h : Heap K V} {r : Nat} {l rt : Tree K V} {k : K} {v : V}
    {ht bal : Int} (c b : Int) (hr : h.Repr none (.node r l k v ht bal rt))
    (hnd : (Tree.node r l k v ht bal rt).addrs.Nodup) :
    ∃ h' t', copyTree (h.alloc ⟨k, v, none, none, none, c, b⟩).1.fuel
        (h.alloc ⟨k, v, none, none, none, c, b⟩).1 h.cells.length (some r) = some h' ∧
      h'.Repr none t' ∧ t'.ptr = some h.cells.length ∧
      (Tree.node r l k v ht bal rt).SameShape t' ∧ t'.Cached ∧ t'.addrs.Nodup ∧
      (∀ x, x < h.cells.length → h'.get? x = h.get? x) ∧
      (∀ x ∈ t'.addrs, h.cells.length ≤ x) := by
  have hsz := hr.size_le hnd
  have hfresh : h.cells.length ∉ (Tree.node r l k v ht bal rt).addrs := fun hm =>
    Nat.lt_irrefl _ (hr.lt_length hm)
  obtain ⟨h', t', e, hr', hp', hss, hc, hnd', _, hag, hnw⟩ :=
    copyTree_spec (.node r l k v ht bal rt) (h.alloc ⟨k, v, none, none, none, c, b⟩).1.fuel
      (by simp only [Heap.fuel, Heap.alloc_length]; omega)
      (h.alloc ⟨k, v, none, none, none, c, b⟩).1 none h.cells.length _ (hr.alloc _) (by simp)
      (Heap.get?_alloc_new _ _) rfl rfl hfresh
  simp only [Heap.alloc_length] at hag hnw
  refine ⟨h', t', e, hr', hp', hss, hc, hnd', fun x hx => ?_, fun x hx => ?_⟩
  · rw [hag x (by omega) (Nat.ne_of_lt hx), Heap.get?_alloc_lt _ _ hx]
  · by_cases hx' : x = h.cells.length
    · omega
    · have := hnw x hx hx'
      omega

/-- The copy constructor on a source map whose tree has no shared node: the
new map stores a tree of the same shape with the same keys and values, built
from new cells only, and has the `size_` of the source; no cell of the heap of
the source is changed. -/
theorem AVLmap.copyConstruct_spec {rhs : AVLmap K V} {t : Tree K V} (hm : rhs.Represents t)
    (hnd : t.addrs.Nodup) :
    ∃ m t', rhs.copyConstruct = some m ∧ m.Represents t' ∧ t.SameShape t' ∧ t'.Cached ∧
      t'.addrs.Nodup ∧ m.size_ = rhs.size_ ∧
      (∀ x, x < rhs.heap.cells.length → m.heap.get? x = rhs.heap.get? x) ∧
      (∀ x ∈ t'.addrs, rhs.heap.cells.length ≤ x) := by
  obtain ⟨h, root, sz⟩ := rhs
  obtain ⟨hp, hr⟩ := hm
  simp only at hp hr
  subst hp
  rcases t with _ | ⟨r, l, k, v, ht, bal, rt⟩
  · exact ⟨⟨h, none, sz⟩, .nil, rfl, ⟨rfl, trivial⟩, trivial, trivial, List.nodup_nil, rfl,
      fun _ _ => rfl, fun x hx => by simp [Tree.addrs] at hx⟩
  · obtain ⟨h', t', e, hr', hp', hss, hc, hnd', hag, hnw⟩ := copyRoot_spec 0 0 hr hnd
    refine ⟨⟨h', some h.cells.length, sz⟩, t', ?_, ⟨hp'.symm, hr'⟩, hss, hc, hnd', rfl,
      hag, hnw⟩
    simp only [AVLmap.copyConstruct, Tree.ptr_node, hr.1, Option.bind_eq_bind,
      Option.some_bind, Heap.alloc_snd]
    rw [e]
    rfl

/-- The body of copy assignment after `clear()`. -/
theorem copyInto_spec {m : AVLmap K V} {rhs : Obj} {t : Tree K V} (hp : rhs.pRoot = t.ptr)
    (hr : m.heap.Repr none t) (hnd : t.addrs.Nodup) (hroot : m.pRoot = none) :
    ∃ m' t', copyInto m rhs = some m' ∧ m'.Represents t' ∧ t.SameShape t' ∧ t'.Cached ∧
      t'.addrs.Nodup ∧ m'.size_ = rhs.size_ ∧
      (∀ x, x < m.heap.cells.length → m'.heap.get? x = m.heap.get? x) ∧
      (∀ x ∈ t'.addrs, m.heap.cells.length ≤ x) := by
  obtain ⟨h, root, sz⟩ := m
  obtain ⟨rp, rs⟩ := rhs
  simp only at hp hr hroot
  subst hp hroot
  rcases t with _ | ⟨r, l, k, v, ht, bal, rt⟩
  · exact ⟨⟨h, none, rs⟩, .nil, rfl, ⟨rfl, trivial⟩, trivial, trivial, List.nodup_nil, rfl,
      fun _ _ => rfl, fun x hx => by simp [Tree.addrs] at hx⟩
  · obtain ⟨h', t', e, hr', hp', hss, hc, hnd', hag, hnw⟩ := copyRoot_spec ht bal hr hnd
    refine ⟨⟨h', some h.cells.length, rs⟩, t', ?_, ⟨hp'.symm, hr'⟩, hss, hc, hnd', rfl,
      hag, hnw⟩
    simp only [copyInto, Tree.ptr_node, hr.1, Option.bind_eq_bind,
      Option.some_bind, Heap.alloc_snd]
    rw [e]
    rfl

/-- Copy assignment to a target distinct from the source, both with trees
without shared nodes and with no node in common: the target then stores a tree
of the same shape with the same keys and values as the source, built from new
cells, and has the `size_` of the source; the tree of the source is still
stored as before. -/
theorem AVLmap.copyAssign_spec {this : AVLmap K V} (rhs : Obj) {t0 t : Tree K V}
    (h0 : this.Represents t0) (hnd0 : t0.addrs.Nodup) (hp : rhs.pRoot = t.ptr)
    (hr : this.heap.Repr none t) (hnd : t.addrs.Nodup) (hdis : t0.addrs.Disjoint t.addrs) :
    ∃ m t', this.copyAssign rhs false = some m ∧ m.Represents t' ∧ t.SameShape t' ∧
      t'.Cached ∧ t'.addrs.Nodup ∧ m.size_ = rhs.size_ ∧ m.heap.Repr none t ∧
      (∀ x ∈ t'.addrs, x ∉ t.addrs) := by
  obtain ⟨h1, sz1, e1, -, hlen1, hag1, -⟩ := AVLmap.clear_spec h0 hnd0
  have hr1 : h1.Repr none t := hr.agree fun x hx => hag1 x (fun hx0 => hdis hx0 hx)
  obtain ⟨m', t', e2, hm', hss, hc, hnd', hsz, hag2, hnw⟩ :=
    copyInto_spec (m := ⟨h1, none, sz1⟩) hp hr1 hnd rfl
  refine ⟨m', t', ?_, hm', hss, hc, hnd', hsz, ?_, fun x hx hx' => ?_⟩
  · simp only [AVLmap.copyAssign, Bool.false_eq_true, if_false, e1, Option.bind_eq_bind,
      Option.some_bind]
    exact e2
  · exact hr1.agree fun x hx => hag2 x (hr1.lt_length hx)
  · have h1' := hnw x hx
    have h2' := hr1.lt_length hx'
    simp only at h1'
    omega

end CS280

namespace CS280
variable {K V : Type}

/-! ## Keys along the in-order sequence, `operator[]` -/

/-- The keys of the tree split where the addresses split. -/
theorem Heap.Repr.keys_split {h : Heap K V} {t : Tree K V} {par : Option Nat}
    (hr : h.Repr par t) {pre post : List Nat} {a : Nat} (e : t.addrs = pre ++ a :: post) :
    ∃ kpre ka kpost, t.keys = kpre ++ ka :: kpost ∧ h.keyAt a = some ka ∧
      post.map h.keyAt = kpost.map some := by
  have h1 : t.addrs.map h.keyAt = t.keys.map some := hr.keys_eq
  rw [e, List.map_append, List.map_cons] at h1
  obtain ⟨kpre, krest, e1, -, e3⟩ := List.append_eq_map_iff.1 h1
  obtain ⟨ka, kpost, e4, e5, e6⟩ := List.map_eq_cons_iff.1 e3
  exact ⟨kpre, ka, kpost, by rw [e1, e4], e5.symm, e6.symm⟩

section Ordered
variable [LinearOrder K]

/-- `Node::increment` in terms of keys, on a BST-ordered tree: the result is
the node that holds the smallest key greater than the key of `a`, and it is
`nullptr` when `a` holds the greatest key. -/
theorem increment_keys {h : Heap K V} {t : Tree K V} (hr : h.Repr none t) (hb : t.BST)
    {a : Nat} (ha : a ∈ t.addrs) :
    ∃ ka, h.keyAt a = some ka ∧
      ((∃ b kb, Node.increment h a = some (some b) ∧ b ∈ t.addrs ∧ h.keyAt b = some kb ∧
          kb ∈ t.keys ∧ ka < kb ∧ ∀ x ∈ t.keys, ka < x → kb ≤ x) ∨
        (Node.increment h a = some none ∧ ∀ x ∈ t.keys, x ≤ ka)) := by
  have hnd := hr.nodup_of_bst hb
  obtain ⟨pre, post, e⟩ := List.append_of_mem ha
  obtain ⟨kpre, ka, kpost, ek, eka, ekp⟩ := hr.keys_split e
  have hinc := increment_spec hr hnd e
  have hp := (Tree.bst_iff_pairwise t).1 hb
  rw [ek, List.pairwise_append] at hp
  obtain ⟨-, hp2, hp3⟩ := hp
  rw [List.pairwise_cons] at hp2
  refine ⟨ka, eka, ?_⟩
  rcases post with _ | ⟨b, post'⟩
  · right
    have hk0 : kpost = [] := by
      cases kpost with
      | nil => rfl
      | cons _ _ => simp at ekp
    subst hk0
    refine ⟨hinc, fun x hx => ?_⟩
    rw [ek] at hx
    simp only [List.mem_append, List.mem_cons, List.not_mem_nil, or_false] at hx
    rcases hx with hx | rfl
    · exact le_of_lt (hp3 x hx ka (List.mem_cons_self _ _))
    · exact le_refl _
  · left
    rcases kpost with _ | ⟨kb, kpost'⟩
    · simp at ekp
    simp only [List.map_cons, List.cons.injEq] at ekp
    refine ⟨b, kb, hinc, by rw [e]; simp, ekp.1, by rw [ek]; simp, ?_, ?_⟩
    · exact hp2.1 kb (List.mem_cons_self _ _)
    · intro x hx hlt
      rw [ek] at hx
      simp only [List.mem_append, List.mem_cons] at hx
      rcases hx with hx | rfl | rfl | hx
      · exact absurd hlt (not_lt_of_gt (hp3 x hx ka (List.mem_cons_self _ _)))
      · exact absurd hlt (lt_irrefl _)
      · exact le_refl _
      · exact le_of_lt ((List.pairwise_cons.1 hp2.2).1 x hx)

end Ordered

end CS280

namespace CS280
variable {K V : Type}

/-! ## Three keys inserted into the empty map -/

section Ordered
variable [LinearOrder K]

theorem Tree.insertAt_new_keys {t : Tree K V} {key : K} (value : V) (n : Nat) (hb : t.BST)
    (hk : key ∉ t.keys) :
    ∀ x ∈ (t.insertAt key value n).keys, x = key ∨ x ∈ t.keys := by
  obtain ⟨pre, post, s1, -, -, hsub, -⟩ := Tree.insertAt_new_sublist key value n hb hk
  intro x hx
  have h1 := (hsub.map Prod.fst).subset hx
  simp only [Tree.keys, s1, List.map_append, List.map_cons, List.mem_append, List.mem_cons] at h1 ⊢
  tauto

/-- Three pairwise distinct keys inserted into the empty map: the calls return
and the map holds the tree obtained by `insertAt` three times, with `size()`
equal to 3. -/
theorem AVLmap.insert_three (x y z : K) (vx vy vz : V) (hxy : x ≠ y) (hxz : x ≠ z)
    (hyz : y ≠ z) :
    ∃ m n1 n2 n3,
      AVLmap.empty.run [.insert x vx, .insert y vy, .insert z vz] = some m ∧
      m.Represents ((((Tree.nil : Tree K V).insertAt x vx n1).insertAt y vy n2).insertAt
        z vz n3) ∧ m.size = 3 := by
  have h0 : (AVLmap.empty : AVLmap K V).Represents .nil := ⟨rfl, trivial⟩
  have hb0 : (Tree.nil : Tree K V).BST := trivial
  have hk0 : x ∉ (Tree.nil : Tree K V).keys := by simp [Tree.keys_nil]
  obtain ⟨h1, e1, r1⟩ := AVLmap.insert_new vx h0 hb0 hk0
  have hb1 := Tree.insertAt_bst x vx (AVLmap.empty : AVLmap K V).heap.cells.length hb0
  have hk1 : y ∉ ((Tree.nil : Tree K V).insertAt x vx
      (AVLmap.empty : AVLmap K V).heap.cells.length).keys := by
    intro hm
    rcases Tree.insertAt_new_keys vx _ hb0 hk0 y hm with e | e
    · exact hxy e.symm
    · simp [Tree.keys_nil] at e
  have m1 : (⟨h1, ((Tree.nil : Tree K V).insertAt x vx
      (AVLmap.empty : AVLmap K V).heap.cells.length).ptr,
      ((AVLmap.empty : AVLmap K V).size_ + 1) % 2 ^ 32⟩ : AVLmap K V).Represents
      ((Tree.nil : Tree K V).insertAt x vx (AVLmap.empty : AVLmap K V).heap.cells.length) :=
    ⟨rfl, r1⟩
  obtain ⟨h2, e2, r2⟩ := AVLmap.insert_new vy m1 hb1 hk1
  have hb2 := Tree.insertAt_bst y vy h1.cells.length hb1
  have hk2 : z ∉ (((Tree.nil : Tree K V).insertAt x vx
      (AVLmap.empty : AVLmap K V).heap.cells.length).insertAt y vy h1.cells.length).keys := by
    intro hm
    rcases Tree.insertAt_new_keys vy _ hb1 hk1 z hm with e | e
    · exact hyz e.symm
    · rcases Tree.insertAt_new_keys vx _ hb0 hk0 z e with e' | e'
      · exact hxz e'.symm
      · simp [Tree.keys_nil] at e'
  have m2 : (⟨h2, (((Tree.nil : Tree K V).insertAt x vx
      (AVLmap.empty : AVLmap K V).heap.cells.length).insertAt y vy h1.cells.length).ptr,
      (((AVLmap.empty : AVLmap K V).size_ + 1) % 2 ^ 32 + 1) % 2 ^ 32⟩ :
      AVLmap K V).Represents
      (((Tree.nil : Tree K V).insertAt x vx
        (AVLmap.empty : AVLmap K V).heap.cells.length).insertAt y vy h1.cells.length) :=
    ⟨rfl, r2⟩
  obtain ⟨h3, e3, r3⟩ := AVLmap.insert_new vz m2 hb2 hk2
  have m3 : (⟨h3, ((((Tree.nil : Tree K V).insertAt x vx
      (AVLmap.empty : AVLmap K V).heap.cells.length).insertAt y vy h1.cells.length).insertAt
        z vz h2.cells.length).ptr,
      ((((AVLmap.empty : AVLmap K V).size_ + 1) % 2 ^ 32 + 1) % 2 ^ 32 + 1) % 2 ^ 32⟩ :
      AVLmap K V).Represents
      ((((Tree.nil : Tree K V).insertAt x vx
        (AVLmap.empty : AVLmap K V).heap.cells.length).insertAt y vy h1.cells.length).insertAt
          z vz h2.cells.length) :=
    ⟨rfl, r3⟩
  refine ⟨_, _, _, _, ?_, m3, rfl⟩
  simp only [AVLmap.run, AVLmap.call, Option.bind_eq_bind, e1, Option.some_bind, e2, e3]

/-- The tree after the insertion of three keys `a < b < c` in any order. -/
theorem Tree.insertAt_three (a b c : K) (va vb vc : V) (n1 n2 n3 : Nat) (hab : a < b)
    (hbc : b < c) :
    ((((Tree.nil : Tree K V).insertAt a va n1).insertAt b vb n2).insertAt c vc n3).IsTriple
        a va b vb c vc ∧
    ((((Tree.nil : Tree K V).insertAt a va n1).insertAt c vc n2).insertAt b vb n3).IsTriple
        a va b vb c vc ∧
    ((((Tree.nil : Tree K V).insertAt b vb n1).insertAt a va n2).insertAt c vc n3).IsTriple
        a va b vb c vc ∧
    ((((Tree.nil : Tree K V).insertAt b vb n1).insertAt c vc n2).insertAt a va n3).IsTriple
        a va b vb c vc ∧
    ((((Tree.nil : Tree K V).insertAt c vc n1).insertAt a va n2).insertAt b vb n3).IsTriple
        a va b vb c vc ∧
    ((((Tree.nil : Tree K V).insertAt c vc n1).insertAt b vb n2).insertAt a va n3).IsTriple
        a va b vb c vc := by
  have hac := hab.trans hbc
  refine ⟨?_, ?_, ?_, ?_, ?_, ?_⟩ <;>
    simp [Tree.IsTriple, Tree.insertAt, Tree.descend, walkUp, Tree.rebalance, plug, Frame.fill,
      Tree.rotL, Tree.rotR, Tree.bal, hab, hbc, hac, hab.not_lt, hbc.not_lt, hac.not_lt,
      lt_irrefl]

end Ordered

end CS280

namespace CS280
variable {K V : Type}

/-! ## The claims on cached heights, traversal, `clear`, `operator[]`, copy,
move and the rotations -/

/-- C11 (evaluation at the failing input): after `insert(1, 10)`,
`insert(2, 20)` and `erase(find(2))` the map holds the single node of key 1,
whose cached height is still 1 although both children are absent (it should be
0): `erase` updates no cached height. -/
theorem erase_leaves_height_stale :
    ∃ m : AVLmap Nat Nat,
      AVLmap.empty.run [.insert 1 10, .insert 2 20, .erase 2] = some m ∧
      m.Represents (.node 0 .nil 1 10 1 (-1) .nil) ∧
      ¬ (Tree.node 0 .nil 1 10 1 (-1) .nil : Tree Nat Nat).HeightOK :=
  ⟨_, rfl, by decide, by simp [Tree.HeightOK]⟩

/-- C12 (evaluation at the failing input): after inserting 1, 2, 3 and erasing
key 2, the traversal from `begin()` to `end()` visits the keys 1 and 3, a
strictly increasing sequence of two elements, while `size()` is 1. -/
theorem traversal_count_differs_from_size :
    ∃ m : AVLmap Nat Nat,
      AVLmap.empty.run [.insert 1 10, .insert 2 20, .insert 3 30, .erase 2] = some m ∧
      m.traverseKeys = some [1, 3] ∧ ([1, 3] : List Nat).length = 2 ∧ m.size = 1 :=
  ⟨_, rfl, by decide, rfl, by decide⟩

/-- C14 (evaluation at the failing input): after inserting 1, 2, 3 and erasing
key 2 (which leaves two nodes and `size() = 1`), `clear()` returns with an
absent root and `begin() == end()`, but `size()` is 4294967295, not 0: `clear`
only calls `erase`, which decrements the counter once per node. -/
theorem clear_leaves_size_nonzero :
    ∃ m m' : AVLmap Nat Nat,
      AVLmap.empty.run [.insert 1 10, .insert 2 20, .insert 3 30, .erase 2] = some m ∧
      m.size = 1 ∧ m.clear = some m' ∧ m'.pRoot = none ∧ m'.begin = some AVLmap.end_it ∧
      m'.size = 4294967295 :=
  ⟨_, _, rfl, by decide, rfl, by decide, by decide, by decide⟩

/-- C19: in the map built by inserting the keys 1 to 7 in ascending order the
root (address 3) holds key 4 and the node at address 4 holds key 5; after
`erase(find(4))` the root is still the node at address 3, which now holds key 5
with the value of 5, the node at address 4 is freed, the keys of the tree are
1, 2, 3, 5, 6, 7, and the tree is balanced at every node (actual heights). -/
theorem erase_four_of_seven :
    ∃ m m' : AVLmap Nat Nat,
      AVLmap.empty.run [.insert 1 10, .insert 2 20, .insert 3 30, .insert 4 40, .insert 5 50,
        .insert 6 60, .insert 7 70] = some m ∧
      m.pRoot = some 3 ∧ m.find 4 = some (some 3) ∧ m.find 5 = some (some 4) ∧
      m.heap.get? 4 = some ⟨5, 50, some 5, none, none, 0, -2⟩ ∧
      m.call (.erase 4) = some m' ∧
      m'.Represents (.node 3
        (.node 1 (.node 0 .nil 1 10 0 (-2) .nil) 2 20 1 (-2) (.node 2 .nil 3 30 0 (-2) .nil))
        5 50 2 0 (.node 5 .nil 6 60 1 (-1) (.node 6 .nil 7 70 0 0 .nil))) ∧
      m'.heap.get? 4 = none ∧
      (Tree.node 3
        (.node 1 (.node 0 .nil 1 10 0 (-2) .nil) 2 20 1 (-2) (.node 2 .nil 3 30 0 (-2) .nil))
        5 50 2 0 (.node 5 .nil 6 60 1 (-1) (.node 6 .nil 7 70 0 0 .nil)) :
          Tree Nat Nat).keys = [1, 2, 3, 5, 6, 7] ∧
      (Tree.node 3
        (.node 1 (.node 0 .nil 1 10 0 (-2) .nil) 2 20 1 (-2) (.node 2 .nil 3 30 0 (-2) .nil))
        5 50 2 0 (.node 5 .nil 6 60 1 (-1) (.node 6 .nil 7 70 0 0 .nil)) :
          Tree Nat Nat).Balanced :=
  ⟨_, _, rfl, by decide, by decide, by decide, by decide, rfl, by decide, by decide,
    by decide, by decide⟩

/-- C17: the move constructor gives the new object the heap, root and size of
the source `S` and leaves `S` with an absent root and size 0; move assignment to
a distinct target (whose own tree has no shared node) clears the target, then
gives it the root and size of `S` and leaves `S` with an absent root and size
0, touching no cell outside the former tree of the target. -/
theorem move_transfers_state (S : AVLmap K V) (tgt : Obj) (t0 : Tree K V)
    (h0 : (⟨S.heap, tgt.pRoot, tgt.size_⟩ : AVLmap K V).Represents t0)
    (hnd0 : t0.addrs.Nodup) :
    (S.moveConstruct.1.pRoot = S.pRoot ∧ S.moveConstruct.1.size = S.size ∧
      S.moveConstruct.1.heap = S.heap ∧ S.moveConstruct.2 = ⟨none, 0⟩) ∧
    ∃ h', (⟨S.heap, tgt.pRoot, tgt.size_⟩ : AVLmap K V).moveAssign S.obj false =
        some (⟨h', S.pRoot, S.size_⟩, ⟨none, 0⟩) ∧
      ∀ x, x ∉ t0.addrs → h'.get? x = S.heap.get? x := by
  refine ⟨⟨rfl, rfl, rfl, rfl⟩, ?_⟩
  obtain ⟨h1, sz1, e1, -, -, hag1, -⟩ := AVLmap.clear_spec h0 hnd0
  refine ⟨h1, ?_, hag1⟩
  simp only [AVLmap.moveAssign, Bool.false_eq_true, if_false, e1, Option.bind_eq_bind,
    Option.some_bind, AVLmap.obj]

/-- C16: for a source map whose tree has no shared node, the copy-constructed
map, and the target of copy assignment (a distinct map with a tree of its own,
whatever it held), stores a tree built from new cells that has the same shape
and the same key and value at every position, hence the same ascending
sequence of key/value pairs, and has the `size()` of the source; the tree of the
source is stored as before.  Copy assignment of a map to itself changes
nothing. -/
theorem copy_structural_clone (src : AVLmap K V) (t : Tree K V) (tgt : Obj) (t0 : Tree K V)
    (hs : src.Represents t) (hnd : t.addrs.Nodup)
    (h0 : (⟨src.heap, tgt.pRoot, tgt.size_⟩ : AVLmap K V).Represents t0)
    (hnd0 : t0.addrs.Nodup) (hdis : t0.addrs.Disjoint t.addrs) :
    (∃ m t', src.copyConstruct = some m ∧ m.Represents t' ∧ t.SameShape t' ∧
        t'.toList = t.toList ∧ m.size = src.size ∧
        (⟨m.heap, src.pRoot, src.size_⟩ : AVLmap K V).Represents t ∧
        ∀ x ∈ t'.addrs, x ∉ t.addrs) ∧
    (∃ m t', (⟨src.heap, tgt.pRoot, tgt.size_⟩ : AVLmap K V).copyAssign src.obj false =
          some m ∧ m.Represents t' ∧ t.SameShape t' ∧
        t'.toList = t.toList ∧ m.size = src.size ∧
        (⟨m.heap, src.pRoot, src.size_⟩ : AVLmap K V).Represents t ∧
        ∀ x ∈ t'.addrs, x ∉ t.addrs) ∧
    src.copyAssign src.obj true = some src := by
  refine ⟨?_, ?_, rfl⟩
  · obtain ⟨m, t', e, hm, hss, -, -, hsz, hag, hnw⟩ := AVLmap.copyConstruct_spec hs hnd
    refine ⟨m, t', e, hm, hss, hss.toList_eq, hsz, ⟨hs.1, ?_⟩, fun x hx hx' => ?_⟩
    · exact hs.2.agree fun x hx => hag x (hs.2.lt_length hx)
    · have h1 := hnw x hx
      have h2 := hs.2.lt_length hx'
      omega
  · obtain ⟨m, t', e, hm, hss, -, -, hsz, hr, hnw⟩ :=
      AVLmap.copyAssign_spec src.obj h0 hnd0 hs.1 hs.2 hnd hdis
    exact ⟨m, t', e, hm, hss, hss.toList_eq, hsz, ⟨hs.1, hr⟩, hnw⟩

/-- C20: `leftRotate(Y)` on a node `Y` with right child `R`, anywhere in a tree
without shared nodes, returns `R`; afterwards `R` is the root of the subtree in
the place of `Y` (linked to the former parent of `Y`), `Y` is the left child of
`R`, the former left subtree of `R` is the right subtree of `Y`, the other
subtrees and the rest of the tree are as before, the cached height of `Y` is
one more than the greater cached height of its new children, the cached height
of `R` is then computed in the same way, and the in-order sequence of
key/value pairs is unchanged; `rightRotate` on a node with a left child is the
mirror image. -/
theorem rotation_contract (h h2 : Heap K V) (F : List (Frame K V)) (y r : Nat)
    (l rl rr : Tree K V) (k rk : K) (v rv : V) (ht bal rht rbal : Int)
    (hA : h.Repr none (plug F (.node y l k v ht bal (.node r rl rk rv rht rbal rr))))
    (hAn : (plug F (.node y l k v ht bal (.node r rl rk rv rht rbal rr))).addrs.Nodup)
    (hB : h2.Repr none (plug F (.node y (.node r rl rk rv rht rbal rr) k v ht bal l)))
    (hBn : (plug F (.node y (.node r rl rk rv rht rbal rr) k v ht bal l)).addrs.Nodup) :
    (∃ h', leftRotate h (some y) = some (h', some r) ∧
      h'.Repr none (plug F (.node r (.node y l k v (1 + max l.ht rl.ht) bal rl) rk rv
        (1 + max (1 + max l.ht rl.ht) rr.ht) rbal rr)) ∧
      (∀ x, x ∉ (plug F (.node y l k v ht bal (.node r rl rk rv rht rbal rr))).addrs →
        h'.get? x = h.get? x) ∧
      (plug F (.node r (.node y l k v (1 + max l.ht rl.ht) bal rl) rk rv
        (1 + max (1 + max l.ht rl.ht) rr.ht) rbal rr)).toList =
        (plug F (.node y l k v ht bal (.node r rl rk rv rht rbal rr))).toList) ∧
    (∃ h', rightRotate h2 (some y) = some (h', some r) ∧
      h'.Repr none (plug F (.node r rl rk rv (1 + max rl.ht (1 + max rr.ht l.ht)) rbal
        (.node y rr k v (1 + max rr.ht l.ht) bal l))) ∧
      (∀ x, x ∉ (plug F (.node y (.node r rl rk rv rht rbal rr) k v ht bal l)).addrs →
        h'.get? x = h2.get? x) ∧
      (plug F (.node r rl rk rv (1 + max rl.ht (1 + max rr.ht l.ht)) rbal
        (.node y rr k v (1 + max rr.ht l.ht) bal l))).toList =
        (plug F (.node y (.node r rl rk rv rht rbal rr) k v ht bal l)).toList) := by
  constructor
  · obtain ⟨h', e, -, hr', hag⟩ := leftRotate_plug (s := .node y l k v ht bal
      (.node r rl rk rv rht rbal rr)) rfl rfl hA hAn
    exact ⟨h', e, hr', hag, by simp [plug_toList, Tree.toList]⟩
  · obtain ⟨h', e, -, hr', hag⟩ := rightRotate_plug (s := .node y
      (.node r rl rk rv rht rbal rr) k v ht bal l) rfl rfl hB hBn
    exact ⟨h', e, hr', hag, by simp [plug_toList, Tree.toList]⟩

section Ordered
variable [LinearOrder K]

/-- C13: on a heap that stores a BST-ordered tree with consistent parent links,
`increment` called on a node returns the node that follows it in the in-order
sequence, which holds the smallest key greater than the key of the node, and
returns `nullptr` when the node holds the greatest key; the iteration of
`increment` from `root.first()` visits every node of the tree exactly once, in
in-order, so the keys read are the keys of the tree in ascending order. -/
theorem increment_in_order_successor (h : Heap K V) (t : Tree K V) (hr : h.Repr none t)
    (hb : t.BST) :
    (∀ a ∈ t.addrs, ∃ ka, h.keyAt a = some ka ∧
      ((∃ b kb, Node.increment h a = some (some b) ∧ b ∈ t.addrs ∧ h.keyAt b = some kb ∧
          kb ∈ t.keys ∧ ka < kb ∧ ∀ x ∈ t.keys, ka < x → kb ≤ x) ∨
        (Node.increment h a = some none ∧ ∀ x ∈ t.keys, x ≤ ka))) ∧
    (∀ pre a post, t.addrs = pre ++ a :: post → Node.increment h a = some post.head?) ∧
    (∀ r, t.ptr = some r → ∃ f, Node.first h r = some f ∧
      traverseLoop h h.fuel (some f) = some t.addrs) ∧
    t.addrs.Nodup ∧ t.addrs.mapM h.keyAt = some t.keys ∧
    t.keys.Pairwise (fun x y => x < y) := by
  have hnd := hr.nodup_of_bst hb
  have hsz := hr.size_le hnd
  refine ⟨fun a ha => increment_keys hr hb ha, fun pre a post e => increment_spec hr hnd e,
    fun r hp => ?_, hnd, mapM_keyAt _ _ hr.keys_eq, (Tree.bst_iff_pairwise t).1 hb⟩
  have hbeg := AVLmap.begin_spec (m := ⟨h, t.ptr, 0⟩) ⟨rfl, hr⟩ hnd
  have htr := traverseLoop_spec hr hnd t.addrs [] h.fuel rfl
    (by rw [Tree.addrs_length]; simp only [Heap.fuel]; omega)
  simp only [AVLmap.begin, hp] at hbeg
  rcases hf : Node.first h r with _ | f
  · rw [hf] at hbeg
    simp at hbeg
  · rw [hf] at hbeg
    simp only [Option.map_some', Option.some.injEq] at hbeg
    rw [← hbeg] at htr
    exact ⟨f, rfl, htr⟩

/-- C18: three keys `a < b < c` inserted into the empty map in any of the six
orders: the calls return, the tree has root key `b` with the leaves `a` and `c`
as left and right child (the root has no parent, as `Represents` requires), and
`size()` is 3. -/
theorem three_keys_any_order (a b c : K) (va vb vc : V) (hab : a < b) (hbc : b < c) :
    (∃ m t, AVLmap.empty.run [.insert a va, .insert b vb, .insert c vc] = some m ∧
      m.Represents t ∧ t.IsTriple a va b vb c vc ∧ m.size = 3) ∧
    (∃ m t, AVLmap.empty.run [.insert a va, .insert c vc, .insert b vb] = some m ∧
      m.Represents t ∧ t.IsTriple a va b vb c vc ∧ m.size = 3) ∧
    (∃ m t, AVLmap.empty.run [.insert b vb, .insert a va, .insert c vc] = some m ∧
      m.Represents t ∧ t.IsTriple a va b vb c vc ∧ m.size = 3) ∧
    (∃ m t, AVLmap.empty.run [.insert b vb, .insert c vc, .insert a va] = some m ∧
      m.Represents t ∧ t.IsTriple a va b vb c vc ∧ m.size = 3) ∧
    (∃ m t, AVLmap.empty.run [.insert c vc, .insert a va, .insert b vb] = some m ∧
      m.Represents t ∧ t.IsTriple a va b vb c vc ∧ m.size = 3) ∧
    (∃ m t, AVLmap.empty.run [.insert c vc, .insert b vb, .insert a va] = some m ∧
      m.Represents t ∧ t.IsTriple a va b vb c vc ∧ m.size = 3) := by
  have hac := hab.trans hbc
  have nab := ne_of_lt hab
  have nbc := ne_of_lt hbc
  have nac := ne_of_lt hac
  refine ⟨?_, ?_, ?_, ?_, ?_, ?_⟩
  · obtain ⟨m, n1, n2, n3, e, hm, hs⟩ := AVLmap.insert_three a b c va vb vc nab nac nbc
    exact ⟨m, _, e, hm, (Tree.insertAt_three a b c va vb vc n1 n2 n3 hab hbc).1, hs⟩
  · obtain ⟨m, n1, n2, n3, e, hm, hs⟩ := AVLmap.insert_three a c b va vc vb nac nab nbc.symm
    exact ⟨m, _, e, hm, (Tree.insertAt_three a b c va vb vc n1 n2 n3 hab hbc).2.1, hs⟩
  · obtain ⟨m, n1, n2, n3, e, hm, hs⟩ := AVLmap.insert_three b a c vb va vc nab.symm nbc nac
    exact ⟨m, _, e, hm, (Tree.insertAt_three a b c va vb vc n1 n2 n3 hab hbc).2.2.1, hs⟩
  · obtain ⟨m, n1, n2, n3, e, hm, hs⟩ := AVLmap.insert_three b c a vb vc va nbc nab.symm
      nac.symm
    exact ⟨m, _, e, hm, (Tree.insertAt_three a b c va vb vc n1 n2 n3 hab hbc).2.2.2.1, hs⟩
  · obtain ⟨m, n1, n2, n3, e, hm, hs⟩ := AVLmap.insert_three c a b vc va vb nac.symm
      nbc.symm nab
    exact ⟨m, _, e, hm, (Tree.insertAt_three a b c va vb vc n1 n2 n3 hab hbc).2.2.2.2.1, hs⟩
  · obtain ⟨m, n1, n2, n3, e, hm, hs⟩ := AVLmap.insert_three c b a vc vb va nbc.symm
      nac.symm nab.symm
    exact ⟨m, _, e, hm, (Tree.insertAt_three a b c va vb vc n1 n2 n3 hab hbc).2.2.2.2.2, hs⟩

end Ordered

theorem twoHeap_spec : twoSrc.Represents singleTree ∧ singleTree.addrs.Nodup ∧
    (⟨twoSrc.heap, twoTgt.pRoot, twoTgt.size_⟩ : AVLmap Nat Nat).Represents twoTgtTree ∧
    twoTgtTree.addrs.Nodup ∧ twoTgtTree.addrs.Disjoint singleTree.addrs :=
  ⟨by decide, by decide, by decide, by decide,
    by simp [twoTgtTree, singleTree, Tree.addrs, List.Disjoint]⟩

theorem rotHeaps_spec :
    rotLeftHeap.Repr none (plug [] (.node 0 .nil 1 10 1 (-1) (.node 1 .nil 2 20 0 0 .nil))) ∧
    (plug [] (.node 0 .nil 1 10 1 (-1) (.node 1 .nil 2 20 0 0 .nil) :
      Tree Nat Nat)).addrs.Nodup ∧
    rotRightHeap.Repr none (plug [] (.node 0 (.node 1 .nil 2 20 0 0 .nil) 1 10 1 (-1) .nil)) ∧
    (plug [] (.node 0 (.node 1 .nil 2 20 0 0 .nil) 1 10 1 (-1) .nil :
      Tree Nat Nat)).addrs.Nodup :=
  ⟨by decide, by decide, by decide, by decide⟩

theorem move_transfers_state_witness :
    (⟨twoSrc.heap, twoTgt.pRoot, twoTgt.size_⟩ : AVLmap Nat Nat).Represents twoTgtTree ∧
    twoTgtTree.addrs.Nodup ∧
    ((twoSrc.moveConstruct.1.pRoot = twoSrc.pRoot ∧
        twoSrc.moveConstruct.1.size = twoSrc.size ∧
        twoSrc.moveConstruct.1.heap = twoSrc.heap ∧ twoSrc.moveConstruct.2 = ⟨none, 0⟩) ∧
      ∃ h', (⟨twoSrc.heap, twoTgt.pRoot, twoTgt.size_⟩ : AVLmap Nat Nat).moveAssign
          twoSrc.obj false = some (⟨h', twoSrc.pRoot, twoSrc.size_⟩, ⟨none, 0⟩) ∧
        ∀ x, x ∉ twoTgtTree.addrs → h'.get? x = twoSrc.heap.get? x) :=
  ⟨twoHeap_spec.2.2.1, twoHeap_spec.2.2.2.1,
    move_transfers_state twoSrc twoTgt twoTgtTree twoHeap_spec.2.2.1 twoHeap_spec.2.2.2.1⟩

theorem copy_structural_clone_witness :
    twoSrc.Represents singleTree ∧ singleTree.addrs.Nodup ∧
    (⟨twoSrc.heap, twoTgt.pRoot, twoTgt.size_⟩ : AVLmap Nat Nat).Represents twoTgtTree ∧
    twoTgtTree.addrs.Nodup ∧ twoTgtTree.addrs.Disjoint singleTree.addrs ∧
    ((∃ m t', twoSrc.copyConstruct = some m ∧ m.Represents t' ∧ singleTree.SameShape t' ∧
        t'.toList = singleTree.toList ∧ m.size = twoSrc.size ∧
        (⟨m.heap, twoSrc.pRoot, twoSrc.size_⟩ : AVLmap Nat Nat).Represents singleTree ∧
        ∀ x ∈ t'.addrs, x ∉ singleTree.addrs) ∧
      (∃ m t', (⟨twoSrc.heap, twoTgt.pRoot, twoTgt.size_⟩ : AVLmap Nat Nat).copyAssign
            twoSrc.obj false = some m ∧ m.Represents t' ∧ singleTree.SameShape t' ∧
        t'.toList = singleTree.toList ∧ m.size = twoSrc.size ∧
        (⟨m.heap, twoSrc.pRoot, twoSrc.size_⟩ : AVLmap Nat Nat).Represents singleTree ∧
        ∀ x ∈ t'.addrs, x ∉ singleTree.addrs) ∧
      twoSrc.copyAssign twoSrc.obj true = some twoSrc) :=
  ⟨twoHeap_spec.1, twoHeap_spec.2.1, twoHeap_spec.2.2.1, twoHeap_spec.2.2.2.1,
    twoHeap_spec.2.2.2.2,
    copy_structural_clone twoSrc singleTree twoTgt twoTgtTree twoHeap_spec.1 twoHeap_spec.2.1
      twoHeap_spec.2.2.1 twoHeap_spec.2.2.2.1 twoHeap_spec.2.2.2.2⟩

theorem rotation_contract_witness :
    rotLeftHeap.Repr none (plug [] (.node 0 .nil 1 10 1 (-1) (.node 1 .nil 2 20 0 0 .nil))) ∧
    rotRightHeap.Repr none (plug [] (.node 0 (.node 1 .nil 2 20 0 0 .nil) 1 10 1 (-1) .nil)) ∧
    (∃ h', leftRotate rotLeftHeap (some 0) = some (h', some 1) ∧
      h'.Repr none (plug [] (.node 1 (.node 0 .nil 1 10 (1 + max (Tree.nil : Tree Nat Nat).ht
          (Tree.nil : Tree Nat Nat).ht) (-1) .nil) 2 20
        (1 + max (1 + max (Tree.nil : Tree Nat Nat).ht (Tree.nil : Tree Nat Nat).ht)
          (Tree.nil : Tree Nat Nat).ht) 0 .nil))) ∧
    (∃ h', rightRotate rotRightHeap (some 0) = some (h', some 1) ∧
      h'.Repr none (plug [] (.node 1 .nil 2 20 (1 + max (Tree.nil : Tree Nat Nat).ht
          (1 + max (Tree.nil : Tree Nat Nat).ht (Tree.nil : Tree Nat Nat).ht)) 0
        (.node 0 .nil 1 10 (1 + max (Tree.nil : Tree Nat Nat).ht
          (Tree.nil : Tree Nat Nat).ht) (-1) .nil)))) :=
  ⟨rotHeaps_spec.1, rotHeaps_spec.2.2.1,
    (rotation_contract rotLeftHeap rotRightHeap [] 0 1 .nil .nil .nil 1 2 10 20 1 (-1) 0 0
      rotHeaps_spec.1 rotHeaps_spec.2.1 rotHeaps_spec.2.2.1 rotHeaps_spec.2.2.2).1.imp
      fun _ hx => ⟨hx.1, hx.2.1⟩,
    (rotation_contract rotLeftHeap rotRightHeap [] 0 1 .nil .nil .nil 1 2 10 20 1 (-1) 0 0
      rotHeaps_spec.1 rotHeaps_spec.2.1 rotHeaps_spec.2.2.1 rotHeaps_spec.2.2.2).2.imp
      fun _ hx => ⟨hx.1, hx.2.1⟩⟩

theorem increment_in_order_successor_witness :
    threeMap.heap.Repr none threeTree ∧ threeTree.BST ∧
    (∀ pre a post, threeTree.addrs = pre ++ a :: post →
      Node.increment threeMap.heap a = some post.head?) ∧
    (∀ r, threeTree.ptr = some r → ∃ f, Node.first threeMap.heap r = some f ∧
      traverseLoop threeMap.heap threeMap.heap.fuel (some f) = some threeTree.addrs) ∧
    threeTree.addrs.mapM threeMap.heap.keyAt = some threeTree.keys :=
  ⟨threeMap_spec.2.2, threeTree_bst,
    (increment_in_order_successor threeMap.heap threeTree threeMap_spec.2.2
      threeTree_bst).2.1,
    (increment_in_order_successor threeMap.heap threeTree threeMap_spec.2.2
      threeTree_bst).2.2.1,
    (increment_in_order_successor threeMap.heap threeTree threeMap_spec.2.2
      threeTree_bst).2.2.2.2.1⟩

theorem three_keys_any_order_witness :
    (1 : Nat) < 2 ∧ (2 : Nat) < 3 ∧
    (∃ m t, (AVLmap.empty : AVLmap Nat Nat).run [.insert 1 10, .insert 2 20, .insert 3 30] =
        some m ∧ m.Represents t ∧ t.IsTriple 1 10 2 20 3 30 ∧ m.size = 3) ∧
    (∃ m t, (AVLmap.empty : AVLmap Nat Nat).run [.insert 3 30, .insert 1 10, .insert 2 20] =
        some m ∧ m.Represents t ∧ t.IsTriple 1 10 2 20 3 30 ∧ m.size = 3) :=
  ⟨by decide, by decide,
    (three_keys_any_order 1 2 3 10 20 30 (by decide) (by decide)).1,
    (three_keys_any_order 1 2 3 10 20 30 (by decide) (by decide)).2.2.2.2.1⟩

end CS280

namespace CS280
variable {K V : Type}

/-! ## Where the post-insert walk rotates -/

/-- A round of the walk at a node whose left subtree holds the new node: if
that subtree has kept its height, the node is in balance and keeps its height;
if the node is out of balance, the rotation gives the subtree below it the
height it had before the insertion. -/
theorem Tree.rebalance_left_ht (a : Nat) (k : K) (v : V) (ht bal : Int) {l r : Tree K V}
    {H : Int} (hl : l.Res H) (hr : r.AVL) (h1 : -1 ≤ H - r.ht) (h2 : H - r.ht ≤ 1) :
    (l.ht = H → (-1 ≤ l.ht - r.ht ∧ l.ht - r.ht ≤ 1) ∧
      (Tree.node a l k v ht bal r).rebalance.1.ht = 1 + max H r.ht) ∧
    (¬ (-1 ≤ l.ht - r.ht ∧ l.ht - r.ht ≤ 1) →
      (Tree.node a l k v ht bal r).rebalance.1.ht = 1 + max H r.ht) := by
  obtain ⟨hla, hlne, hlh⟩ := hl
  have hrge := hr.ht_ge
  have hlge := hla.ht_nonneg hlne
  constructor
  · intro e
    have hb : ¬ l.ht - r.ht > 1 := by omega
    have hb2 : ¬ l.ht - r.ht < -1 := by omega
    refine ⟨⟨by omega, by omega⟩, ?_⟩
    simp only [Tree.rebalance, hb, hb2, if_false, Tree.ht_node]
    rw [e]
  · intro hout
    have hb : l.ht - r.ht > 1 := by
      rcases hlh with e | ⟨e, _⟩ <;> omega
    have hg : l.ht = H + 1 ∧ l.Grown := by
      rcases hlh with e | e
      · omega
      · exact e
    rcases l with _ | ⟨la, ll, lk, lv, lht, lbal, lr⟩
    · exact absurd rfl hlne
    obtain ⟨e1, e2, e3, hlla, hlra⟩ := hla
    obtain ⟨e4, hfresh, hshape⟩ := hg
    simp only [Tree.ht_node] at hb e4 hlge
    have hll := hlla.ht_ge
    have hlr := hlra.ht_ge
    by_cases hneg : lbal < 0
    · rcases lr with _ | ⟨c, cl, ck, cv, cht, cbal, cr⟩
      · simp only [Tree.ht_nil] at *
        omega
      obtain ⟨c1, c2, c3, hcl, hcr⟩ := hlra
      have := hcl.ht_ge
      have := hcr.ht_ge
      simp only [Tree.ht_node] at *
      simp only [Tree.rebalance, Tree.rotL, Tree.rotR, Tree.ptr_node, Tree.bal, Tree.ht_node,
        hb, hneg, if_true, ne_eq, reduceCtorEq, not_false_eq_true, and_self,
        Option.getD_some]
      omega
    · have hpos : 0 < lbal := by
        rcases hshape with h | ⟨rfl, rfl⟩
        · omega
        · simp only [Tree.ht_nil] at *
          omega
      simp only [Tree.ht_node] at *
      simp only [Tree.rebalance, Tree.rotL, Tree.rotR, Tree.ptr_node, Tree.bal, Tree.ht_node,
        hb, hneg, if_true, if_false, ne_eq, reduceCtorEq, not_false_eq_true, and_self,
        and_false, Option.getD_some]
      omega

/-- The mirror image of `Tree.rebalance_left_ht`. -/
theorem Tree.rebalance_right_ht (a : Nat) (k : K) (v : V) (ht bal : Int) {l r : Tree K V}
    {H : Int} (hr : r.Res H) (hl : l.AVL) (h1 : -1 ≤ l.ht - H) (h2 : l.ht - H ≤ 1) :
    (r.ht = H → (-1 ≤ l.ht - r.ht ∧ l.ht - r.ht ≤ 1) ∧
      (Tree.node a l k v ht bal r).rebalance.1.ht = 1 + max l.ht H) ∧
    (¬ (-1 ≤ l.ht - r.ht ∧ l.ht - r.ht ≤ 1) →
      (Tree.node a l k v ht bal r).rebalance.1.ht = 1 + max l.ht H) := by
  obtain ⟨hra, hrne, hrh⟩ := hr
  have hlge := hl.ht_ge
  have hrge := hra.ht_nonneg hrne
  have hb0 : ¬ l.ht - r.ht > 1 := by
    rcases hrh with e | ⟨e, _⟩ <;> omega
  constructor
  · intro e
    have hb2 : ¬ l.ht - r.ht < -1 := by omega
    refine ⟨⟨by omega, by omega⟩, ?_⟩
    simp only [Tree.rebalance, hb0, hb2, if_false, Tree.ht_node]
    rw [e]
  · intro hout
    have hb : l.ht - r.ht < -1 := by omega
    have hg : r.ht = H + 1 ∧ r.Grown := by
      rcases hrh with e | e
      · omega
      · exact e
    rcases r with _ | ⟨ra, rl, rk, rv, rht, rbal, rr⟩
    · exact absurd rfl hrne
    obtain ⟨e1, e2, e3, hrla, hrra⟩ := hra
    obtain ⟨e4, hfresh, hshape⟩ := hg
    simp only [Tree.ht_node] at hb hb0 e4 hrge
    have hrl := hrla.ht_ge
    have hrr := hrra.ht_ge
    by_cases hpos : rbal > 0
    · rcases rl with _ | ⟨c, cl, ck, cv, cht, cbal, cr⟩
      · simp only [Tree.ht_nil] at *
        omega
      obtain ⟨c1, c2, c3, hcl, hcr⟩ := hrla
      have := hcl.ht_ge
      have := hcr.ht_ge
      simp only [Tree.ht_node] at *
      simp only [Tree.rebalance, Tree.rotL, Tree.rotR, Tree.ptr_node, Tree.bal, Tree.ht_node,
        hb, hb0, hpos, if_true, if_false, ne_eq, reduceCtorEq, not_false_eq_true, and_self,
        Option.getD_some]
      omega
    · have hneg : rbal < 0 := by
        rcases hshape with h | ⟨rfl, rfl⟩
        · omega
        · simp only [Tree.ht_nil] at *
          omega
      simp only [Tree.ht_node] at *
      simp only [Tree.rebalance, Tree.rotL, Tree.rotR, Tree.ptr_node, Tree.bal, Tree.ht_node,
        hb, hb0, hpos, if_true, if_false, ne_eq, reduceCtorEq, not_false_eq_true, and_self,
        and_false, Option.getD_some]
      omega

/-- One round of the walk at the parent `f` of a subtree `c` on the path: the
round ends with a non-null `node`; the subtree below `f` is then an AVL tree of
the height it had before the insertion or one more; it has the former height if
`c` kept its height (and then `f` is in balance) or if `f` was out of
balance. -/
theorem Tree.rebalance_fill_ht (f : Frame K V) (fs : List (Frame K V)) {c : Tree K V} {H : Int}
    (hc : c.Res H) (hctx : CtxOK (f :: fs) H) :
    (f.fill c).rebalance.2 = true ∧ (f.fill c).rebalance.1.Res (f.up H) ∧ CtxOK fs (f.up H) ∧
      (c.ht = H → (-1 ≤ (f.fill c).bf ∧ (f.fill c).bf ≤ 1) ∧
        (f.fill c).rebalance.1.ht = f.up H) ∧
      (¬ (-1 ≤ (f.fill c).bf ∧ (f.fill c).bf ≤ 1) → (f.fill c).rebalance.1.ht = f.up H) := by
  rcases f with ⟨a, k, v, ht, bal, r⟩ | ⟨a, l, k, v, ht, bal⟩
  · obtain ⟨hr, h1, h2, hrest⟩ := hctx
    obtain ⟨e1, e2, _⟩ := Tree.rebalance_left a k v ht bal hc hr h1 h2
    obtain ⟨e4, e5⟩ := Tree.rebalance_left_ht a k v ht bal hc hr h1 h2
    exact ⟨e1, e2, hrest, e4, e5⟩
  · obtain ⟨hl, h1, h2, hrest⟩ := hctx
    obtain ⟨e1, e2, _⟩ := Tree.rebalance_right a k v ht bal hc hl h1 h2
    obtain ⟨e4, e5⟩ := Tree.rebalance_right_ht a k v ht bal hc hl h1 h2
    exact ⟨e1, e2, hrest, e4, e5⟩

end CS280

namespace CS280
variable {K V : Type}

/-! ## The record of the post-insert walk -/

theorem rotateLeftChildLog_fst (h : Heap K V) (node : Nat) (left : Option Nat) :
    (rotateLeftChildLog h node left).map Prod.fst = rotateLeftChild h node left := by
  rcases left with _ | l
  · rfl
  · simp only [rotateLeftChildLog, rotateLeftChild, Option.bind_eq_bind]
    rcases h.get? l with _ | ln
    · rfl
    · simp only [Option.some_bind]
      split
      · rcases leftRotate h (some l) with _ | ⟨h1, r⟩
        · rfl
        · simp only [Option.some_bind]
          rcases h1.modify node _ with _ | h2 <;> rfl
      · rfl

theorem rotateRightChildLog_fst (h : Heap K V) (node : Nat) (right : Option Nat) :
    (rotateRightChildLog h node right).map Prod.fst = rotateRightChild h node right := by
  rcases right with _ | r
  · rfl
  · simp only [rotateRightChildLog, rotateRightChild, Option.bind_eq_bind]
    rcases h.get? r with _ | rn
    · rfl
    · simp only [Option.some_bind]
      split
      · rcases rightRotate h (some r) with _ | ⟨h1, l⟩
        · rfl
        · simp only [Option.some_bind]
          rcases h1.modify node _ with _ | h2 <;> rfl
      · rfl

theorem rebalanceAt_refresh (h : Heap K V) (node : Nat) : rebalanceAt h node =
    obind (refreshCached h node) (fun h => obind (h.get? node) (fun n =>
      if n.balance > 1 then
        obind (rotateLeftChild h node n.left) (fun h => rightRotate h (some node))
      else if n.balance < -1 then
        obind (rotateRightChild h node n.right) (fun h => leftRotate h (some node))
      else some (h, some node))) := by
  rw [rebalanceAt_eq, refreshCached_eq]
  simp only [obind, Option.bind_assoc]

theorem rebalanceAtLog_eq (h : Heap K V) (node : Nat) : rebalanceAtLog h node =
    obind (refreshCached h node) (fun h => obind (h.get? node) (fun n =>
      if n.balance > 1 then
        obind (rotateLeftChildLog h node n.left) (fun p =>
          obind (rightRotate p.1 (some node)) (fun q =>
            some (q.1, q.2, p.2 ++ [⟨false, node, q.2⟩])))
      else if n.balance < -1 then
        obind (rotateRightChildLog h node n.right) (fun p =>
          obind (leftRotate p.1 (some node)) (fun q =>
            some (q.1, q.2, p.2 ++ [⟨true, node, q.2⟩])))
      else some (h, some node, []))) := rfl

theorem walkLog_succ (fuel : Nat) (h : Heap K V) (node : Nat) :
    walkLog (fuel + 1) h (some node) =
      obind (rebalanceAtLog h node) (fun p =>
        match p.2.1 with
        | some nd => obind (p.1.get? nd) (fun n => obind (walkLog fuel p.1 n.parent)
            (fun q => some (q.1, ⟨node, p.2.2⟩ :: q.2)))
        | none => obind (walkLog fuel p.1 none)
            (fun q => some (q.1, ⟨node, p.2.2⟩ :: q.2))) := rfl

theorem walkLog_null (fuel : Nat) (h : Heap K V) : walkLog (fuel + 1) h none = some (h, []) :=
  rfl

/-- A right rotation that returns a node was called on a node with a left
child. -/
theorem rightRotate_ret {h h' : Heap K V} {y : Nat} {x : Option Nat}
    (e : rightRotate h (some y) = some (h', x)) (hx : x ≠ none) :
    ∃ yn, h.get? y = some yn ∧ yn.left ≠ none := by
  rw [rightRotate_some] at e
  rcases hy : h.get? y with _ | yn
  · rw [hy] at e; simp [obind] at e
  · rw [hy, obind_some] at e
    refine ⟨yn, rfl, fun hl => ?_⟩
    rw [hl] at e
    simp only [Option.some.injEq, Prod.mk.injEq] at e
    exact hx e.2.symm

/-- A left rotation that returns a node was called on a node with a right
child. -/
theorem leftRotate_ret {h h' : Heap K V} {y : Nat} {x : Option Nat}
    (e : leftRotate h (some y) = some (h', x)) (hx : x ≠ none) :
    ∃ yn, h.get? y = some yn ∧ yn.right ≠ none := by
  rw [leftRotate_some] at e
  rcases hy : h.get? y with _ | yn
  · rw [hy] at e; simp [obind] at e
  · rw [hy, obind_some] at e
    refine ⟨yn, rfl, fun hl => ?_⟩
    rw [hl] at e
    simp only [Option.some.injEq, Prod.mk.injEq] at e
    exact hx e.2.symm

/-- The pointer returned by the rotation of the left child is the pointer
stored in the `left` field of the node. -/
theorem rotateLeftChildLog_ret {h h3 : Heap K V} {node : Nat} {left : Option Nat}
    {c : List RotCall} (e : rotateLeftChildLog h node left = some (h3, c)) :
    ∀ x ∈ c, ∀ yn, h3.get? node = some yn → x.ret = yn.left := by
  rcases left with _ | l
  · simp only [rotateLeftChildLog, Option.some.injEq, Prod.mk.injEq] at e
    intro x hx
    rw [← e.2] at hx
    simp at hx
  · simp only [rotateLeftChildLog, Option.bind_eq_bind] at e
    rcases hq : h.get? l with _ | ln
    · rw [hq] at e; simp at e
    · rw [hq] at e
      simp only [Option.some_bind] at e
      split at e
      · rcases hq2 : leftRotate h (some l) with _ | ⟨h1, r⟩
        · rw [hq2] at e; simp at e
        · rw [hq2] at e
          simp only [Option.some_bind] at e
          rcases hn : h1.get? node with _ | cn
          · simp [Heap.modify_map, hn] at e
          · rw [Heap.modify_eq hn] at e
            simp only [Option.some_bind, Option.some.injEq, Prod.mk.injEq] at e
            obtain ⟨rfl, rfl⟩ := e
            intro x hx yn hyn
            rw [Heap.get?_put_self (Heap.lt_of_get? hn)] at hyn
            simp only [List.mem_singleton] at hx
            simp only [Option.some.injEq] at hyn
            subst hx hyn
            rfl
      · simp only [Option.some.injEq, Prod.mk.injEq] at e
        intro x hx
        rw [← e.2] at hx
        simp at hx

/-- The pointer returned by the rotation of the right child is the pointer
stored in the `right` field of the node. -/
theorem rotateRightChildLog_ret {h h3 : Heap K V} {node : Nat} {right : Option Nat}
    {c : List RotCall} (e : rotateRightChildLog h node right = some (h3, c)) :
    ∀ x ∈ c, ∀ yn, h3.get? node = some yn → x.ret = yn.right := by
  rcases right with _ | l
  · simp only [rotateRightChildLog, Option.some.injEq, Prod.mk.injEq] at e
    intro x hx
    rw [← e.2] at hx
    simp at hx
  · simp only [rotateRightChildLog, Option.bind_eq_bind] at e
    rcases hq : h.get? l with _ | ln
    · rw [hq] at e; simp at e
    · rw [hq] at e
      simp only [Option.some_bind] at e
      split at e
      · rcases hq2 : rightRotate h (some l) with _ | ⟨h1, r⟩
        · rw [hq2] at e; simp at e
        · rw [hq2] at e
          simp only [Option.some_bind] at e
          rcases hn : h1.get? node with _ | cn
          · simp [Heap.modify_map, hn] at e
          · rw [Heap.modify_eq hn] at e
            simp only [Option.some_bind, Option.some.injEq, Prod.mk.injEq] at e
            obtain ⟨rfl, rfl⟩ := e
            intro x hx yn hyn
            rw [Heap.get?_put_self (Heap.lt_of_get? hn)] at hyn
            simp only [List.mem_singleton] at hx
            simp only [Option.some.injEq] at hyn
            subst hx hyn
            rfl
      · simp only [Option.some.injEq, Prod.mk.injEq] at e
        intro x hx
        rw [← e.2] at hx
        simp at hx

theorem exists_log_of_fst {α β : Type} {x : Option (α × β)} {a : α}
    (e : x.map Prod.fst = some a) : ∃ b, x = some (a, b) := by
  rcases x with _ | ⟨a', b⟩
  · simp at e
  · simp only [Option.map_some', Option.some.injEq] at e
    exact ⟨b, by rw [e]⟩

/-- A round of the walk and its record: the record is empty exactly when the
node is found in balance, and when the round ends with a non-null `node` every
rotation called in it has returned a node. -/
theorem rebalanceAtLog_of {h h' : Heap K V} {a : Nat} {nd : Option Nat}
    (e : rebalanceAt h a = some (h', nd)) :
    ∃ calls, rebalanceAtLog h a = some (h', nd, calls) ∧
      (nd ≠ none → ∀ c ∈ calls, c.ret ≠ none) ∧
      (∀ h2 n, refreshCached h a = some h2 → h2.get? a = some n →
        (calls = [] ↔ ¬ n.balance > 1 ∧ ¬ n.balance < -1)) := by
  rw [rebalanceAt_refresh] at e
  rw [rebalanceAtLog_eq]
  rcases hq : refreshCached h a with _ | h2
  · rw [hq] at e; simp [obind] at e
  rw [hq, obind_some] at e
  rw [obind_some]
  rcases hn : h2.get? a with _ | n
  · rw [hn] at e; simp [obind] at e
  rw [hn, obind_some] at e
  rw [obind_some]
  by_cases hb1 : n.balance > 1
  · simp only [hb1, if_true] at e ⊢
    rcases hc : rotateLeftChild h2 a n.left with _ | h3
    · rw [hc] at e; simp [obind] at e
    rw [hc, obind_some] at e
    obtain ⟨c, hc'⟩ := exists_log_of_fst ((rotateLeftChildLog_fst h2 a n.left).trans hc)
    rw [hc', obind_some, e, obind_some]
    refine ⟨_, rfl, fun hnd x hx => ?_, fun h2' n' e1 e2 => ?_⟩
    · rcases List.mem_append.1 hx with hx | hx
      · obtain ⟨yn, hyn, hl⟩ := rightRotate_ret e hnd
        rw [rotateLeftChildLog_ret hc' x hx yn hyn]
        exact hl
      · simp only [List.mem_singleton] at hx
        subst hx
        exact hnd
    · simp only [Option.some.injEq] at e1
      subst e1
      rw [hn] at e2
      simp only [Option.some.injEq] at e2
      subst e2
      simp [hb1]
  · by_cases hb2 : n.balance < -1
    · simp only [hb1, hb2, if_true, if_false] at e ⊢
      rcases hc : rotateRightChild h2 a n.right with _ | h3
      · rw [hc] at e; simp [obind] at e
      rw [hc, obind_some] at e
      obtain ⟨c, hc'⟩ := exists_log_of_fst ((rotateRightChildLog_fst h2 a n.right).trans hc)
      rw [hc', obind_some, e, obind_some]
      refine ⟨_, rfl, fun hnd x hx => ?_, fun h2' n' e1 e2 => ?_⟩
      · rcases List.mem_append.1 hx with hx | hx
        · obtain ⟨yn, hyn, hl⟩ := leftRotate_ret e hnd
          rw [rotateRightChildLog_ret hc' x hx yn hyn]
          exact hl
        · simp only [List.mem_singleton] at hx
          subst hx
          exact hnd
      · simp only [Option.some.injEq] at e1
        subst e1
        rw [hn] at e2
        simp only [Option.some.injEq] at e2
        subst e2
        simp [hb2]
    · simp only [hb1, hb2, if_false] at e ⊢
      simp only [Option.some.injEq, Prod.mk.injEq] at e
      obtain ⟨rfl, rfl⟩ := e
      refine ⟨[], rfl, fun _ x hx => by simp at hx, fun h2' n' e1 e2 => ?_⟩
      simp only [Option.some.injEq] at e1
      subst e1
      rw [hn] at e2
      simp only [Option.some.injEq] at e2
      subst e2
      simp [hb1, hb2]

/-- One round of the walk at the root of the subtree `s`, with its record: in
addition to `rebalanceAt_plug`, the record is empty exactly when the balance
factor of the node is in `{-1, 0, 1}`, and every rotation called has returned a
node when the round ends with a non-null `node`. -/
theorem rebalanceAtLog_plug {h : Heap K V} {F : List (Frame K V)} {s : Tree K V} {a : Nat}
    (hs : s.ptr = some a) (hr : h.Repr none (plug F s)) (hnd : (plug F s).addrs.Nodup) :
    ∃ h' calls,
      rebalanceAtLog h a =
        some (h', (if s.rebalance.2 then s.rebalance.1.ptr else none), calls) ∧
      h'.Repr none (plug F s.rebalance.1) ∧
      (s.rebalance.2 = true → s.rebalance.1.ptr ≠ none) ∧
      (s.rebalance.2 = true → ∀ c ∈ calls, c.ret ≠ none) ∧
      (calls = [] ↔ -1 ≤ s.bf ∧ s.bf ≤ 1) := by
  obtain ⟨h', e, hr', hne, -⟩ := rebalanceAt_plug hs hr hnd
  obtain ⟨calls, e', hret, hemp⟩ := rebalanceAtLog_of e
  refine ⟨h', calls, e', hr', hne, fun hc => hret (by simpa [hc] using hne hc), ?_⟩
  rcases s with _ | ⟨a', l, k, v, ht, bal, r⟩
  · simp at hs
  simp only [Tree.ptr_node, Option.some.injEq] at hs
  subst hs
  have hr1 := Heap.Repr.of_plug (F := F) hr
  have hnd1 := plug_nodup_sub (F := F) hnd
  simp only [Tree.addrs, List.nodup_append, List.nodup_cons, List.disjoint_cons_right] at hnd1
  obtain ⟨_, ⟨har, _⟩, hal, _⟩ := hnd1
  have hrc := refreshCached_spec hr1.1 hr1.2.1.heightOf hr1.2.2.heightOf
    (Tree.ptr_ne_of_not_mem hal) (Tree.ptr_ne_of_not_mem har)
  have := hemp _ _ hrc (Heap.get?_put_self (Heap.lt_of_get? hr1.1) _)
  rw [this]
  simp only [Tree.bf]
  constructor
  · rintro ⟨h1, h2⟩; exact ⟨by omega, by omega⟩
  · rintro ⟨h1, h2⟩; exact ⟨by omega, by omega⟩

theorem rebalanceAtLog_fst (h : Heap K V) (a : Nat) :
    (rebalanceAtLog h a).map (fun p => (p.1, p.2.1)) = rebalanceAt h a := by
  rw [rebalanceAt_refresh, rebalanceAtLog_eq]
  rcases refreshCached h a with _ | h2
  · rfl
  simp only [obind_some]
  rcases h2.get? a with _ | n
  · rfl
  simp only [obind_some]
  split
  · rw [← rotateLeftChildLog_fst]
    rcases rotateLeftChildLog h2 a n.left with _ | ⟨h3, c⟩
    · rfl
    simp only [obind_some, Option.map_some']
    rcases rightRotate h3 (some a) with _ | ⟨h4, r⟩ <;> rfl
  · split
    · rw [← rotateRightChildLog_fst]
      rcases rotateRightChildLog h2 a n.right with _ | ⟨h3, c⟩
      · rfl
      simp only [obind_some, Option.map_some']
      rcases leftRotate h3 (some a) with _ | ⟨h4, r⟩ <;> rfl
    · rfl

theorem walkLog_fst : ∀ (n : Nat) (h : Heap K V) (p : Option Nat),
    (walkLog n h p).map Prod.fst = updateBalanceAfterInsertLoop n h p
  | 0, _, _ => rfl
  | _ + 1, _, none => rfl
  | n + 1, h, some node => by
    rw [walkLog_succ, updateBalanceAfterInsertLoop_succ, ← rebalanceAtLog_fst]
    rcases rebalanceAtLog h node with _ | ⟨h1, nd, calls⟩
    · rfl
    simp only [Option.map_some', obind_some]
    rcases nd with _ | nd
    · simp only []
      rw [← walkLog_fst n h1 none]
      rcases walkLog n h1 none with _ | ⟨h2, rest⟩ <;> rfl
    · simp only []
      rcases h1.get? nd with _ | c
      · rfl
      simp only [obind_some]
      rw [← walkLog_fst n h1 c.parent]
      rcases walkLog n h1 c.parent with _ | ⟨h2, rest⟩ <;> rfl

end CS280

namespace CS280
variable {K V : Type}

theorem rotations_cons_nil (node : Nat) (log : List Visit) :
    rotations (⟨node, []⟩ :: log) = rotations log := by
  simp [rotations]

theorem rotations_cons_le (v : Visit) (log : List Visit) :
    rotations (v :: log) ≤ 1 + rotations log := by
  simp only [rotations, List.filter_cons]
  split
  · simp; omega
  · omega

theorem Frame.fill_ptr (f : Frame K V) (c : Tree K V) : (f.fill c).ptr = some f.addr := by
  cases f <;> rfl

/-- The post-insert walk in an AVL tree, with its record: started at the parent
`f` of a subtree `c` on the path, it visits `f` and then every further
ancestor in turn; every rotation called returns a node; a rotation is called in
at most one round, and in none if `c` has kept its height. -/
theorem walkLog_plug : ∀ (fs : List (Frame K V)) (f : Frame K V) {c : Tree K V} {H : Int}
    {h : Heap K V} {n : Nat}, c.Res H → CtxOK (f :: fs) H →
    h.Repr none (plug (f :: fs) c) → (plug (f :: fs) c).addrs.Nodup → fs.length + 2 ≤ n →
    ∃ h' log, walkLog n h (some f.addr) = some (h', log) ∧
      log.map Visit.node = (f :: fs).map Frame.addr ∧
      (∀ v ∈ log, ∀ x ∈ v.calls, x.ret ≠ none) ∧
      rotations log ≤ 1 ∧ (c.ht = H → rotations log = 0)
  | [], f, c, H, h, n, hc, hctx, hr, hnd, hn => by
    obtain ⟨m, rfl⟩ : ∃ m, n = m + 1 := ⟨n - 1, by omega⟩
    obtain ⟨e1, e2, e3, e4, e5⟩ := Tree.rebalance_fill_ht f [] hc hctx
    obtain ⟨h1, calls, q1, q2, q3, q4, q5⟩ :=
      rebalanceAtLog_plug (F := []) (Frame.fill_ptr f c) hr hnd
    rw [walkLog_succ, q1, obind_some]
    simp only [e1, if_true]
    rcases hs' : (f.fill c).rebalance.1 with _ | ⟨nd, l, k, v, ht, bal, r⟩
    · exact absurd hs' e2.2.1
    rw [hs'] at q2
    simp only [Tree.ptr_node]
    have hcell := (Heap.Repr.of_plug (F := []) q2).1
    rw [hcell, obind_some]
    simp only []
    have hcalls : ∀ x ∈ calls, x.ret ≠ none := q4 e1
    have hzero : (-1 ≤ (f.fill c).bf ∧ (f.fill c).bf ≤ 1) → calls = [] := q5.2
    obtain ⟨m', rfl⟩ : ∃ m', m = m' + 1 := ⟨m - 1, by simp at hn; omega⟩
    simp only [ctxParent, walkLog_null, obind_some]
    refine ⟨h1, _, rfl, by simp, ?_, ?_, ?_⟩
    · intro v hv
      simp only [List.mem_singleton] at hv
      subst hv
      exact hcalls
    · exact (rotations_cons_le _ _).trans (by simp [rotations])
    · intro hh
      rw [hzero (e4 hh).1, rotations_cons_nil]
      rfl
  | g :: fs', f, c, H, h, n, hc, hctx, hr, hnd, hn => by
    obtain ⟨m, rfl⟩ : ∃ m, n = m + 1 := ⟨n - 1, by omega⟩
    obtain ⟨e1, e2, e3, e4, e5⟩ := Tree.rebalance_fill_ht f (g :: fs') hc hctx
    obtain ⟨h1, calls, q1, q2, q3, q4, q5⟩ :=
      rebalanceAtLog_plug (F := g :: fs') (Frame.fill_ptr f c) hr hnd
    rw [walkLog_succ, q1, obind_some]
    simp only [e1, if_true]
    rcases hs' : (f.fill c).rebalance.1 with _ | ⟨nd, l, k, v, ht, bal, r⟩
    · exact absurd hs' e2.2.1
    rw [hs'] at q2
    simp only [Tree.ptr_node]
    have hcell := (Heap.Repr.of_plug (F := g :: fs') q2).1
    rw [hcell, obind_some]
    simp only []
    have hcalls : ∀ x ∈ calls, x.ret ≠ none := q4 e1
    have hzero : (-1 ≤ (f.fill c).bf ∧ (f.fill c).bf ≤ 1) → calls = [] := q5.2
    have hnd2 : (plug (g :: fs') (f.fill c).rebalance.1).addrs.Nodup :=
      plug_nodup_of_sublist (F := g :: fs') hnd (Tree.rebalance_addrs_sublist _)
    have hr2 : h1.Repr none (plug (g :: fs') (f.fill c).rebalance.1) := by
      rw [hs']; exact q2
    obtain ⟨h2, log, i1, i2, i3, i4, i5⟩ :=
      walkLog_plug fs' g (n := m) e2 e3 hr2 hnd2 (by simp at hn; omega)
    simp only [ctxParent]
    rw [i1, obind_some]
    simp only []
    refine ⟨h2, _, rfl, by simp [i2], ?_, ?_, ?_⟩
    · intro v hv
      rcases List.mem_cons.1 hv with rfl | hv
      · exact hcalls
      · exact i3 v hv
    · by_cases hb : -1 ≤ (f.fill c).bf ∧ (f.fill c).bf ≤ 1
      · rw [hzero hb, rotations_cons_nil]
        exact i4
      · have := i5 (e5 hb)
        exact (rotations_cons_le _ _).trans (by omega)
    · intro hh
      rw [hzero (e4 hh).1, rotations_cons_nil]
      exact i5 (e4 hh).2

end CS280

namespace CS280
variable {K V : Type}

section Ordered
variable [LinearOrder K]

theorem AVLmap.insertLog_eq (m : AVLmap K V) (key : K) (value : V) :
    m.insertLog key value = obind (insertLoop m.heap key m.heap.fuel m.pRoot none) (fun np =>
      match np.1 with
      | some N => obind (m.heap.modify N (fun c => { c with value := value }))
          (fun h => some ({ m with heap := h }, []))
      | none =>
        obind (linkNewNode (m.heap.alloc ⟨key, value, none, none, none, 0, 0⟩).1 m.pRoot np.2
            (m.heap.alloc ⟨key, value, none, none, none, 0, 0⟩).2 key) (fun hr =>
          obind (walkLog hr.1.fuel hr.1 np.2) (fun hl =>
            obind (rebindRoot hl.1 hr.2) (fun root =>
              some (⟨hl.1, root, (m.size_ + 1) % 2 ^ 32⟩, hl.2))))) := rfl

/-- The record added to `insert` does not change what `insert` does. -/
theorem AVLmap.insertLog_fst (m : AVLmap K V) (key : K) (value : V) :
    (m.insertLog key value).map Prod.fst = m.insert key value := by
  rw [AVLmap.insertLog_eq, AVLmap.insert_eq]
  rcases insertLoop m.heap key m.heap.fuel m.pRoot none with _ | ⟨N, P⟩
  · rfl
  simp only [obind_some]
  rcases N with _ | N
  · simp only []
    rcases linkNewNode (m.heap.alloc ⟨key, value, none, none, none, 0, 0⟩).1 m.pRoot P
      (m.heap.alloc ⟨key, value, none, none, none, 0, 0⟩).2 key with _ | ⟨h1, root⟩
    · rfl
    simp only [obind_some, updateBalanceAfterInsert]
    rw [← walkLog_fst]
    rcases walkLog h1.fuel h1 P with _ | ⟨h2, log⟩
    · rfl
    simp only [obind_some, Option.map_some']
    rcases rebindRoot h2 root with _ | rt <;> rfl
  · simp only []
    rcases m.heap.modify N _ with _ | h1 <;> rfl

/-- The state in which `insert` of an absent key starts the walk: the search
has ended below the last ancestor `fr` of the position of the key, and the new
node is linked there as a leaf. -/
theorem AVLmap.insert_prewalk {m : AVLmap K V} {t : Tree K V} {key : K} (value : V)
    (hm : m.Represents t) (hb : t.BST) (hk : key ∉ t.keys) :
    insertLoop m.heap key m.heap.fuel m.pRoot none =
        some (none, ctxParent (t.descend key []).1) ∧
    ∀ fr fs, (t.descend key []).1 = fr :: fs →
      plug (fr :: fs) .nil = t ∧
      ∃ h1, linkNewNode (m.heap.alloc ⟨key, value, none, none, none, 0, 0⟩).1 m.pRoot
          (some fr.addr) (m.heap.alloc ⟨key, value, none, none, none, 0, 0⟩).2 key =
            some (h1, m.pRoot) ∧
        h1.Repr none (plug (fr :: fs) (.node m.heap.cells.length .nil key value 0 0 .nil)) ∧
        (plug (fr :: fs) (Tree.node m.heap.cells.length .nil key value 0 0 .nil)).addrs.Nodup ∧
        fs.length + 2 ≤ h1.fuel := by
  obtain ⟨hp, hr⟩ := hm
  have hnd := hr.nodup_of_bst hb
  have hsz := hr.size_le hnd
  have e : (t.descend key []).2 = .nil := by
    rcases Tree.descend_spec key t [] hb with ⟨e, _⟩ | ⟨_, _, _, _, _, _, _, hm', _⟩
    · exact e
    · exact absurd hm' hk
  have hloop := insertLoop_repr key t [] hr (n := m.heap.fuel) (by simp [Heap.fuel]; omega)
  simp only [e, Tree.ptr_nil, if_true] at hloop
  rw [show ctxParent ([] : List (Frame K V)) = none from rfl, ← hp] at hloop
  refine ⟨hloop, fun fr fs' hfs => ?_⟩
  have hplug := Tree.descend_plug key t []
  rw [e] at hplug
  simp only [plug] at hplug
  rw [hfs] at hplug
  have hr' : m.heap.Repr none (plug (fr :: fs') .nil) := by rw [hplug]; exact hr
  have hnd' : (plug (fr :: fs') (Tree.nil : Tree K V)).addrs.Nodup := by rw [hplug]; exact hnd
  have hd : Frame.Dir key fr := by
    have := Tree.descend_dirs key t [] (by simp) fr
    rw [hfs] at this
    exact this (List.mem_cons_self _ _)
  obtain ⟨h1, e1, hr1, hlen1⟩ := linkNewNode_plug value m.pRoot hr' hnd' hd
  refine ⟨hplug, h1, by rw [Heap.alloc_snd]; exact e1, hr1, ?_, ?_⟩
  · have h0 := hnd'
    have hfresh : m.heap.cells.length ∉ (plug (fr :: fs') (Tree.nil : Tree K V)).addrs :=
      fun hm => Nat.lt_irrefl _ (hr'.lt_length hm)
    rw [plug_addrs] at h0 hfresh ⊢
    simp only [Tree.addrs, List.append_nil, List.nil_append, List.mem_append,
      not_or] at h0 hfresh ⊢
    rw [List.append_assoc, List.nodup_append]
    rw [List.nodup_append] at h0
    refine ⟨h0.1, ?_, ?_⟩
    · exact List.nodup_cons.2 ⟨hfresh.2, h0.2.1⟩
    · intro x hx hx'
      rcases List.mem_cons.1 hx' with rfl | hx'
      · exact hfresh.1 hx
      · exact h0.2.2 hx hx'
  · have h2 := plug_length_le (fr :: fs') (Tree.nil : Tree K V)
    rw [hplug] at h2
    simp only [List.length_cons] at h2
    simp only [Heap.fuel, hlen1]
    omega

/-- `insert` of an absent key into an AVL tree, with the record of the walk:
the walk visits the ancestors of the new node from its parent to the root, one
per round; every rotation called returns a node; a rotation is called in at
most one round. -/
theorem AVLmap.insertLog_new {m : AVLmap K V} {t : Tree K V} {key : K} (value : V)
    (hm : m.Represents t) (hb : t.BST) (havl : t.AVL) (hk : key ∉ t.keys) :
    ∃ m' log, m.insertLog key value = some (m', log) ∧ m.insert key value = some m' ∧
      log.map Visit.node = (t.descend key []).1.map Frame.addr ∧
      (∀ v ∈ log, ∀ x ∈ v.calls, x.ret ≠ none) ∧ rotations log ≤ 1 := by
  obtain ⟨h', eins, -⟩ := AVLmap.insert_new value hm hb hk
  obtain ⟨log, elog⟩ := exists_log_of_fst ((AVLmap.insertLog_fst m key value).trans eins)
  refine ⟨_, log, elog, eins, ?_⟩
  obtain ⟨hloop, hlink⟩ := AVLmap.insert_prewalk value hm hb hk
  rw [AVLmap.insertLog_eq, hloop, obind_some] at elog
  simp only [] at elog
  rcases hfs : (t.descend key []).1 with _ | ⟨fr, fs⟩
  · rw [hfs] at elog
    simp only [ctxParent, linkNewNode_none, obind_some, Heap.fuel, walkLog_null] at elog
    rcases hq : rebindRoot (m.heap.alloc ⟨key, value, none, none, none, 0, 0⟩).1
      (some (m.heap.alloc ⟨key, value, none, none, none, 0, 0⟩).2) with _ | rt
    · rw [hq] at elog; simp [obind] at elog
    · rw [hq] at elog
      simp only [obind_some, Option.some_bind, Option.some.injEq, Prod.mk.injEq] at elog
      rw [← elog.2]
      exact ⟨rfl, by simp, by simp [rotations]⟩
  · obtain ⟨hplug, h1, e1, hr1, hnd1, hlen⟩ := hlink fr fs hfs
    rw [hfs] at elog
    simp only [ctxParent] at elog
    rw [e1, obind_some] at elog
    have hleaf : (Tree.node m.heap.cells.length .nil key value 0 0 .nil : Tree K V).Res (-1) := by
      refine ⟨?_, by simp, Or.inr ⟨by simp, ?_⟩⟩
      · simp [Tree.AVL]
      · simp [Tree.Grown]
    have hctx : CtxOK (fr :: fs) (-1) :=
      ctxOK_of_avl (fr :: fs) (t := .nil) (by rw [hplug]; exact havl)
    obtain ⟨h2, log0, w1, w2, w3, w4, -⟩ := walkLog_plug fs fr hleaf hctx hr1 hnd1 hlen
    simp only [] at elog
    rw [w1, obind_some] at elog
    rcases hq : rebindRoot h2 m.pRoot with _ | rt
    · rw [hq] at elog; simp [obind] at elog
    · rw [hq] at elog
      simp only [obind_some, Option.some_bind, Option.some.injEq, Prod.mk.injEq] at elog
      rw [← elog.2]
      exact ⟨w2, w3, w4⟩

/-- `insert` of a present key runs no round of the walk. -/
theorem AVLmap.insertLog_existing {m : AVLmap K V} {t : Tree K V} {key : K} (value : V)
    (hm : m.Represents t) (hb : t.BST) (hk : key ∈ t.keys) :
    ∃ m', m.insertLog key value = some (m', []) ∧ m.insert key value = some m' := by
  obtain ⟨a, c, -, -, -, eins, -⟩ := AVLmap.insert_existing value hm hb hk
  obtain ⟨log, elog⟩ := exists_log_of_fst ((AVLmap.insertLog_fst m key value).trans eins)
  have helog := elog
  rw [AVLmap.insertLog_eq] at elog
  rcases hl : insertLoop m.heap key m.heap.fuel m.pRoot none with _ | ⟨N, P⟩
  · rw [hl] at elog; simp [obind] at elog
  rw [hl, obind_some] at elog
  rcases N with _ | N
  · exfalso
    have hnd := hm.2.nodup_of_bst hb
    have hsz := hm.2.size_le hnd
    have hloop := insertLoop_repr key t [] hm.2 (n := m.heap.fuel) (by simp [Heap.fuel]; omega)
    rw [show ctxParent ([] : List (Frame K V)) = none from rfl, ← hm.1, hl] at hloop
    rcases Tree.descend_spec key t [] hb with ⟨_, hn⟩ | ⟨a', l, v, ht, bal, r, e, _, _⟩
    · exact hn hk
    · rw [e] at hloop
      simp at hloop
  · simp only [] at elog
    rcases hq : m.heap.modify N (fun c => { c with value := value }) with _ | h1
    · rw [hq] at elog; simp [obind] at elog
    · rw [hq] at elog
      simp only [obind_some, Option.some_bind, Option.some.injEq, Prod.mk.injEq] at elog
      rw [← elog.2] at helog
      exact ⟨_, helog, eins⟩

end Ordered

end CS280

namespace CS280
variable {K V : Type}

/-! ## `decrement`, the mirror image of `increment` -/

theorem Heap.get?_mirror (h : Heap K V) (a : Nat) :
    h.mirror.get? a = (h.get? a).map Node.mirror := by
  simp only [Heap.get?, Heap.mirror, List.getElem?_map]
  rcases h.cells[a]? with _ | (_ | c) <;> rfl

theorem Heap.fuel_mirror (h : Heap K V) : h.mirror.fuel = h.fuel := by
  simp [Heap.fuel, Heap.mirror]

theorem Tree.mirror_ptr (t : Tree K V) : t.mirror.ptr = t.ptr := by
  cases t <;> rfl

theorem Tree.mirror_addrs : ∀ t : Tree K V, t.mirror.addrs = t.addrs.reverse
  | .nil => rfl
  | .node a l k v ht bal r => by
    simp [Tree.mirror, Tree.addrs, Tree.mirror_addrs l, Tree.mirror_addrs r]

theorem Heap.Repr.mirror_repr {h : Heap K V} : ∀ {t : Tree K V} {par : Option Nat},
    h.Repr par t → h.mirror.Repr par t.mirror
  | .nil, _, _ => trivial
  | .node a l k v ht bal r, par, hr => by
    refine ⟨?_, hr.2.2.mirror_repr, hr.2.1.mirror_repr⟩
    rw [Heap.get?_mirror, hr.1, Tree.mirror_ptr, Tree.mirror_ptr]
    rfl

theorem lastLoop_mirror (h : Heap K V) : ∀ (n N : Nat), lastLoop h n N = firstLoop h.mirror n N
  | 0, _ => rfl
  | n + 1, N => by
    rw [firstLoop_succ, Heap.get?_mirror]
    simp only [lastLoop, Option.bind_eq_bind]
    rcases h.get? N with _ | c
    · rfl
    · simp only [Option.some_bind, Option.map_some', obind_some, Node.mirror]
      rcases c.right with _ | r
      · rfl
      · exact lastLoop_mirror h n r

theorem decrementLoop_mirror (h : Heap K V) : ∀ (n N : Nat),
    decrementLoop h n N = incrementLoop h.mirror n N
  | 0, _ => rfl
  | n + 1, N => by
    rw [incrementLoop_succ, Heap.get?_mirror]
    simp only [decrementLoop, Option.bind_eq_bind]
    rcases h.get? N with _ | c
    · rfl
    · simp only [Option.some_bind, Option.map_some', obind_some, Node.mirror]
      rcases c.parent with _ | p
      · rfl
      · rw [climbStep_some, Heap.get?_mirror]
        simp only [climbStepLeft, Option.bind_eq_bind]
        rcases h.get? p with _ | pc
        · rfl
        · simp only [Option.some_bind, Option.map_some', obind_some, Node.mirror]
          rw [decrementLoop_mirror h n p]

/-- `decrement` is `increment` on the mirror image of the heap. -/
theorem decrement_mirror (h : Heap K V) (N : Nat) :
    Node.decrement h N = Node.increment h.mirror N := by
  rw [increment_eq, Heap.get?_mirror]
  simp only [Node.decrement, Option.bind_eq_bind]
  rcases h.get? N with _ | c
  · rfl
  · simp only [Option.some_bind, Option.map_some', obind_some, Node.mirror]
    rcases c.left with _ | l
    · simp only [Heap.fuel_mirror, ← decrementLoop_mirror]
      rcases decrementLoop h h.fuel N with _ | N'
      · rfl
      · simp only [Option.some_bind, obind_some, Heap.get?_mirror]
        rcases h.get? N' with _ | c' <;> rfl
    · simp only [Node.first, Node.last, Heap.fuel_mirror, ← lastLoop_mirror]
      rfl

/-- `Node::decrement` on a node of a represented tree without shared nodes
returns the node that precedes it in in-order, and `nullptr` on the first
node. -/
theorem decrement_spec {h : Heap K V} {t : Tree K V} (hr : h.Repr none t)
    (hnd : t.addrs.Nodup) {pre post : List Nat} {a : Nat} (e : t.addrs = pre ++ a :: post) :
    Node.decrement h a = some pre.getLast? := by
  rw [decrement_mirror, ← List.head?_reverse]
  have hnd' : t.mirror.addrs.Nodup := by
    rw [Tree.mirror_addrs]
    exact List.nodup_reverse.2 hnd
  have e' : t.mirror.addrs = post.reverse ++ a :: pre.reverse := by
    rw [Tree.mirror_addrs, e]
    simp
  exact increment_spec hr.mirror_repr hnd' e'

end CS280

namespace CS280
variable {K V : Type}

/-! ## Parent links of a represented tree -/

/-- In a represented tree, every child pointer of a node of the tree leads to a
node of the tree whose `parent` field points back. -/
theorem Heap.Repr.child {h : Heap K V} {t : Tree K V} (hr : h.Repr none t) {a c : Nat}
    {n : Node K V} (ha : a ∈ t.addrs) (hn : h.get? a = some n)
    (hc : n.left = some c ∨ n.right = some c) :
    c ∈ t.addrs ∧ ∃ cn, h.get? c = some cn ∧ cn.parent = some a := by
  obtain ⟨fs, l, k, v, ht, bal, r, rfl⟩ := Tree.exists_plug_of_mem t ha
  have hr1 : h.Repr (ctxParent fs) (.node a l k v ht bal r) := Heap.Repr.of_plug hr
  obtain ⟨e1, e2, e3⟩ := hr1
  rw [e1] at hn
  simp only [Option.some.injEq] at hn
  subst hn
  simp only at hc
  rw [plug_addrs]
  simp only [Tree.addrs, List.mem_append, List.mem_cons]
  rcases hc with hc | hc
  · rcases l with _ | ⟨c', ll, lk, lv, lht, lbal, lr⟩
    · simp at hc
    simp only [Tree.ptr_node, Option.some.injEq] at hc
    subst hc
    exact ⟨Or.inl (Or.inr (Or.inl (by simp [Tree.addrs]))), _, e2.1, rfl⟩
  · rcases r with _ | ⟨c', rl, rk, rv, rht, rbal, rr⟩
    · simp at hc
    simp only [Tree.ptr_node, Option.some.injEq] at hc
    subst hc
    exact ⟨Or.inl (Or.inr (Or.inr (Or.inr (by simp [Tree.addrs])))), _, e3.1, rfl⟩

/-- The nodes reached from the root of a represented tree are nodes of the
tree. -/
theorem Linked.mem {h : Heap K V} {t : Tree K V} (hr : h.Repr none t) {p : Option Nat}
    {a : Nat} (hl : Linked h p a) (hp : p = t.ptr) : a ∈ t.addrs := by
  induction hl with
  | root a => exact Tree.ptr_mem_addrs hp.symm
  | left _ hn hc ih => exact (hr.child (ih hp) hn (Or.inl hc)).1
  | right _ hn hc ih => exact (hr.child (ih hp) hn (Or.inr hc)).1

/-- A map that represents a tree is parent-consistent. -/
theorem AVLmap.Represents.parentConsistent {m : AVLmap K V} {t : Tree K V}
    (hm : m.Represents t) : m.ParentConsistent := by
  refine ⟨fun r hp => ?_, fun a n c hl hn hc => ?_⟩
  · rcases t with _ | ⟨r', l, k, v, ht, bal, rt⟩
    · rw [hm.1] at hp; simp at hp
    · rw [hm.1] at hp
      simp only [Tree.ptr_node, Option.some.injEq] at hp
      subst hp
      exact ⟨_, hm.2.1, rfl⟩
  · exact (hm.2.child (Linked.mem hm.2 hl hm.1) hn hc).2

/-! ## The rounds of `clear` -/

/-- `erase` on a node with at most one child does not make the recursive call:
the outcome is that of recursion depth 1. -/
theorem eraseAux_shallow_fuel (f : Nat) {m : AVLmap K V} {N : Nat} {n : Node K V}
    (hn : m.heap.get? N = some n) (h : n.left = none ∨ n.right = none) :
    eraseAux (f + 1) m (some N) = eraseAux 1 m (some N) := by
  rw [eraseAux_succ, eraseAux_succ, hn, obind_some, obind_some]
  simp only [h, if_true]

/-- One round of the loop of `clear` on a nonempty tree without shared nodes:
`begin()` is the first node of the in-order sequence, which has no left child;
`erase` on it returns without the recursive call (recursion depth 1 suffices),
removes that node only and decrements `size_` once. -/
theorem AVLmap.clear_step {m : AVLmap K V} {t : Tree K V} (hm : m.Represents t)
    (hnd : t.addrs.Nodup) (hne : t ≠ .nil) :
    ∃ b c m' t', m.begin = some (some b) ∧ m.heap.get? b = some c ∧ c.left = none ∧
      eraseAux 1 m (some b) = some m' ∧ m.erase (some b) = some m' ∧ m'.Represents t' ∧
      t.addrs = b :: t'.addrs ∧ t'.size + 1 = t.size ∧
      m'.size_ = (m.size_ + 2 ^ 32 - 1) % 2 ^ 32 := by
  obtain ⟨path, a, ka, va, hta, bala, r', hmp, hplug, -, had⟩ := Tree.minPath_spec t [] hne
  have hbegin := AVLmap.begin_spec hm hnd
  rw [had, List.head?_cons] at hbegin
  have hr0 : m.heap.Repr none (plug path (.node a .nil ka va hta bala r')) := by
    rw [hplug]; exact hm.2
  have hnd0 : (plug path (.node a .nil ka va hta bala r')).addrs.Nodup := by
    rw [hplug]; exact hnd
  have hcell := (Heap.Repr.of_plug (F := path) hr0).1
  obtain ⟨h1, e1, hr1, -, -, -⟩ := eraseShallow_plug (Or.inl rfl) m.size_ 0 hr0 hnd0
  simp only [Tree.ptr_nil, ne_eq, not_true_eq_false, if_false] at e1 hr1
  rw [hplug] at e1
  have hmeq : m = ⟨m.heap, t.ptr, m.size_⟩ := by
    obtain ⟨h, root, sz⟩ := m
    have hp : root = t.ptr := hm.1
    subst hp
    rfl
  have herase1 : eraseAux 1 m (some a) =
      some ⟨h1, (plug path r').ptr, (m.size_ + 2 ^ 32 - 1) % 2 ^ 32⟩ := by
    rw [← e1]
    exact congrArg (fun x => eraseAux 1 x (some a)) hmeq
  have herase : m.erase (some a) = eraseAux 1 m (some a) :=
    eraseAux_shallow_fuel m.heap.cells.length hcell (Or.inl rfl)
  refine ⟨a, _, _, plug path r', hbegin, hcell, rfl, herase1, herase.trans herase1,
    ⟨rfl, hr1⟩, had, ?_, rfl⟩
  have h1 := Tree.addrs_length t
  rw [had, List.length_cons, Tree.addrs_length] at h1
  omega

/-- The loop of `clear` on a tree without shared nodes comes to an end exactly
when it is given one round per node of the tree (and the final test of
`pRoot`): it runs as many rounds as the tree has nodes. -/
theorem clearLoop_rounds : ∀ (n : Nat) (m : AVLmap K V) (t : Tree K V),
    m.Represents t → t.addrs.Nodup → ((clearLoop n m).isSome ↔ t.size + 1 ≤ n)
  | 0, _, _, _, _ => by simp [clearLoop]
  | n + 1, m, t, hm, hnd => by
    by_cases hne : t = .nil
    · subst hne
      rw [clearLoop_none n m hm.1]
      simp [Tree.size]
    · obtain ⟨b, c, m', t', e1, -, -, -, e2, hm', had, hsz, -⟩ := AVLmap.clear_step hm hnd hne
      obtain ⟨r, hr⟩ : ∃ r, m.pRoot = some r := by
        rw [hm.1]
        rcases t with _ | ⟨r, _, _, _, _, _, _⟩
        · exact absurd rfl hne
        · exact ⟨r, rfl⟩
      rw [clearLoop_some n m hr, e1, obind_some, e2, obind_some]
      have hnd' : t'.addrs.Nodup := by
        rw [had] at hnd
        exact (List.nodup_cons.1 hnd).2
      rw [clearLoop_rounds n m' t' hm' hnd']
      omega

end CS280

namespace CS280
variable {K V : Type}

/-! ## A rotation followed by the opposite rotation -/

theorem Heap.modify_length {h h' : Heap K V} {a : Nat} {f : Node K V → Node K V}
    (e : h.modify a f = some h') : h'.cells.length = h.cells.length := by
  rw [Heap.modify_map] at e
  rcases hq : h.get? a with _ | n
  · rw [hq] at e; simp at e
  · rw [hq] at e
    simp only [Option.map_some', Option.some.injEq] at e
    rw [← e, Heap.put_length]

theorem replaceChild_length {h h' : Heap K V} {par : Option Nat} {y : Nat} {n : Option Nat}
    (e : replaceChild h par y n = some h') : h'.cells.length = h.cells.length := by
  rcases par with _ | p
  · simp only [replaceChild_none, Option.some.injEq] at e
    rw [e]
  · rw [replaceChild_some] at e
    rcases hq : h.get? p with _ | pn
    · rw [hq] at e; simp [obind] at e
    · rw [hq, obind_some] at e
      exact Heap.modify_length e

theorem setParent_length {h h' : Heap K V} {v p : Option Nat}
    (e : setParent h v p = some h') : h'.cells.length = h.cells.length := by
  rcases v with _ | a
  · simp only [setParent_none, Option.some.injEq] at e
    rw [e]
  · rw [setParent_some] at e
    exact Heap.modify_length e

/-- A heap is determined by its length and the cells read at every address. -/
theorem Heap.ext_get? {h h' : Heap K V} (hl : h.cells.length = h'.cells.length)
    (hg : ∀ x, h.get? x = h'.get? x) : h = h' := by
  obtain ⟨c⟩ := h
  obtain ⟨c'⟩ := h'
  simp only [Heap.mk.injEq]
  simp only at hl
  apply List.ext_getElem? 
  intro n
  have := hg n
  simp only [Heap.get?] at this
  by_cases hn : n < c.length
  · have hn' : n < c'.length := hl ▸ hn
    rw [List.getElem?_eq_getElem hn, List.getElem?_eq_getElem hn'] at this ⊢
    simpa using this
  · have hn' : ¬ n < c'.length := hl ▸ hn
    rw [List.getElem?_eq_none (by omega), List.getElem?_eq_none (by omega)]

/-- Two heaps that store the same tree hold the same cells at its nodes. -/
theorem Heap.Repr.get?_eq {h h' : Heap K V} : ∀ {t : Tree K V} {par : Option Nat},
    h.Repr par t → h'.Repr par t → ∀ x ∈ t.addrs, h.get? x = h'.get? x
  | .nil, _, _, _, x, hx => by simp [Tree.addrs] at hx
  | .node a l k v ht bal r, par, hr, hr', x, hx => by
    simp only [Tree.addrs, List.mem_append, List.mem_cons] at hx
    rcases hx with hx | rfl | hx
    · exact Heap.Repr.get?_eq hr.2.1 hr'.2.1 x hx
    · rw [hr.1, hr'.1]
    · exact Heap.Repr.get?_eq hr.2.2 hr'.2.2 x hx

theorem leftRotate_length {h h' : Heap K V} {y r : Option Nat}
    (e : leftRotate h y = some (h', r)) : h'.cells.length = h.cells.length := by
  rcases y with _ | y
  · simp only [leftRotate, Option.some.injEq, Prod.mk.injEq] at e
    rw [← e.1]
  · rw [leftRotate_some] at e
    rcases hy : h.get? y with _ | yn
    · rw [hy] at e; simp [obind] at e
    rw [hy, obind_some] at e
    rcases hr : yn.right with _ | s
    · rw [hr] at e
      simp only [Option.some.injEq, Prod.mk.injEq] at e
      rw [← e.1]
    · rw [hr] at e
      simp only [Option.bind_eq_bind, Option.bind_eq_some, Option.some.injEq,
        Prod.mk.injEq] at e
      obtain ⟨rn, -, h1, e1, h2, e2, yn', -, h3, e3, h4, e4, h5, e5, h6, e6, hy', -, h7, e7,
        hr', -, h8, e8, e9, -⟩ := e
      rw [← e9, Heap.modify_length e8, Heap.modify_length e7, setParent_length e6,
        Heap.modify_length e5, replaceChild_length e4, Heap.modify_length e3,
        Heap.modify_length e2, Heap.modify_length e1]

theorem rightRotate_length {h h' : Heap K V} {y r : Option Nat}
    (e : rightRotate h y = some (h', r)) : h'.cells.length = h.cells.length := by
  rcases y with _ | y
  · simp only [rightRotate, Option.some.injEq, Prod.mk.injEq] at e
    rw [← e.1]
  · rw [rightRotate_some] at e
    rcases hy : h.get? y with _ | yn
    · rw [hy] at e; simp [obind] at e
    rw [hy, obind_some] at e
    rcases hr : yn.left with _ | s
    · rw [hr] at e
      simp only [Option.some.injEq, Prod.mk.injEq] at e
      rw [← e.1]
    · rw [hr] at e
      simp only [Option.bind_eq_bind, Option.bind_eq_some, Option.some.injEq,
        Prod.mk.injEq] at e
      obtain ⟨rn, -, h1, e1, h2, e2, yn', -, h3, e3, h4, e4, h5, e5, h6, e6, hy', -, h7, e7,
        hr', -, h8, e8, e9, -⟩ := e
      rw [← e9, Heap.modify_length e8, Heap.modify_length e7, setParent_length e6,
        Heap.modify_length e5, replaceChild_length e4, Heap.modify_length e3,
        Heap.modify_length e2, Heap.modify_length e1]

/-- `leftRotate` returns a node exactly when the node passed has a right
child. -/
theorem leftRotate_ret_iff {h h' : Heap K V} {y : Nat} {r : Option Nat}
    (e : leftRotate h (some y) = some (h', r)) :
    r ≠ none ↔ ∃ yn, h.get? y = some yn ∧ yn.right ≠ none := by
  constructor
  · intro hr
    rw [leftRotate_some] at e
    rcases hy : h.get? y with _ | yn
    · rw [hy] at e; simp [obind] at e
    · rw [hy, obind_some] at e
      refine ⟨yn, rfl, fun hl => ?_⟩
      rw [hl] at e
      simp only [Option.some.injEq, Prod.mk.injEq] at e
      exact hr e.2.symm
  · rintro ⟨yn, hy, hr⟩
    rw [leftRotate_some, hy, obind_some] at e
    rcases hr' : yn.right with _ | s
    · exact absurd hr' hr
    · rw [hr'] at e
      simp only [Option.bind_eq_bind, Option.bind_eq_some, Option.some.injEq,
        Prod.mk.injEq] at e
      obtain ⟨rn, -, h1, e1, h2, e2, yn', -, h3, e3, h4, e4, h5, e5, h6, e6, hy', -, h7, e7,
        hr', -, h8, e8, -, e10⟩ := e
      rw [← e10]
      simp

/-- `rightRotate` returns a node exactly when the node passed has a left
child. -/
theorem rightRotate_ret_iff {h h' : Heap K V} {y : Nat} {r : Option Nat}
    (e : rightRotate h (some y) = some (h', r)) :
    r ≠ none ↔ ∃ yn, h.get? y = some yn ∧ yn.left ≠ none := by
  constructor
  · intro hr
    rw [rightRotate_some] at e
    rcases hy : h.get? y with _ | yn
    · rw [hy] at e; simp [obind] at e
    · rw [hy, obind_some] at e
      refine ⟨yn, rfl, fun hl => ?_⟩
      rw [hl] at e
      simp only [Option.some.injEq, Prod.mk.injEq] at e
      exact hr e.2.symm
  · rintro ⟨yn, hy, hr⟩
    rw [rightRotate_some, hy, obind_some] at e
    rcases hr' : yn.left with _ | s
    · exact absurd hr' hr
    · rw [hr'] at e
      simp only [Option.bind_eq_bind, Option.bind_eq_some, Option.some.injEq,
        Prod.mk.injEq] at e
      obtain ⟨rn, -, h1, e1, h2, e2, yn', -, h3, e3, h4, e4, h5, e5, h6, e6, hy', -, h7, e7,
        hr', -, h8, e8, -, e10⟩ := e
      rw [← e10]
      simp

/-- `leftRotate` on a node `y` with a right child `s`, the cached heights of
`y` and `s` being consistent with those of their children, followed by
`rightRotate` on `s`: the second call returns `y` and the heap is the heap
before the two calls. -/
theorem leftRotate_rightRotate {h : Heap K V} {F : List (Frame K V)} {y s : Nat}
    {l sl sr : Tree K V} {k sk : K} {v sv : V} {ht bal sht sbal : Int}
    (hr : h.Repr none (plug F (.node y l k v ht bal (.node s sl sk sv sht sbal sr))))
    (hnd : (plug F (.node y l k v ht bal (.node s sl sk sv sht sbal sr))).addrs.Nodup)
    (e1 : ht = 1 + max l.ht sht) (e2 : sht = 1 + max sl.ht sr.ht) :
    ∃ h1, leftRotate h (some y) = some (h1, some s) ∧
      rightRotate h1 (some s) = some (h, some y) := by
  obtain ⟨h1, q1, -, r1, a1⟩ := leftRotate_plug
    (s := .node y l k v ht bal (.node s sl sk sv sht sbal sr)) rfl rfl hr hnd
  have hnd1 := plug_nodup_of_sublist (F := F)
    (u := .node s (.node y l k v (1 + max l.ht sl.ht) bal sl) sk sv
      (1 + max (1 + max l.ht sl.ht) sr.ht) sbal sr) hnd
    (by simp [Tree.addrs])
  obtain ⟨h2, q2, -, r2, a2⟩ := rightRotate_plug
    (s := .node s (.node y l k v (1 + max l.ht sl.ht) bal sl) sk sv
      (1 + max (1 + max l.ht sl.ht) sr.ht) sbal sr) rfl rfl r1 hnd1
  simp only [Tree.ptr_node] at q1 q2
  have r2' : h2.Repr none (plug F (.node y l k v ht bal (.node s sl sk sv sht sbal sr))) := by
    subst e2
    subst e1
    exact r2
  have hsame : ∀ x, x ∈ (plug F (.node s (.node y l k v (1 + max l.ht sl.ht) bal sl) sk sv
      (1 + max (1 + max l.ht sl.ht) sr.ht) sbal sr)).addrs ↔
      x ∈ (plug F (.node y l k v ht bal (.node s sl sk sv sht sbal sr))).addrs := by
    intro x
    simp only [plug_addrs, Tree.addrs, List.mem_append, List.mem_cons]
    tauto
  have heq : h2 = h := by
    refine Heap.ext_get? ((rightRotate_length q2).trans (leftRotate_length q1)) fun x => ?_
    by_cases hx : x ∈ (plug F (.node y l k v ht bal (.node s sl sk sv sht sbal sr))).addrs
    · exact Heap.Repr.get?_eq r2' hr x hx
    · rw [a2 x (fun hm => hx ((hsame x).1 hm)), a1 x hx]
  rw [heq] at q2
  exact ⟨h1, q1, q2⟩

/-- The mirror image of `leftRotate_rightRotate`: `rightRotate` on a node `y`
with a left child `s`, followed by `leftRotate` on `s`. -/
theorem rightRotate_leftRotate {h : Heap K V} {F : List (Frame K V)} {y s : Nat}
    {r sl sr : Tree K V} {k sk : K} {v sv : V} {ht bal sht sbal : Int}
    (hr : h.Repr none (plug F (.node y (.node s sl sk sv sht sbal sr) k v ht bal r)))
    (hnd : (plug F (.node y (.node s sl sk sv sht sbal sr) k v ht bal r)).addrs.Nodup)
    (e1 : ht = 1 + max sht r.ht) (e2 : sht = 1 + max sl.ht sr.ht) :
    ∃ h1, rightRotate h (some y) = some (h1, some s) ∧
      leftRotate h1 (some s) = some (h, some y) := by
  obtain ⟨h1, q1, -, r1, a1⟩ := rightRotate_plug
    (s := .node y (.node s sl sk sv sht sbal sr) k v ht bal r) rfl rfl hr hnd
  have hnd1 := plug_nodup_of_sublist (F := F)
    (u := .node s sl sk sv (1 + max sl.ht (1 + max sr.ht r.ht)) sbal
      (.node y sr k v (1 + max sr.ht r.ht) bal r)) hnd
    (by simp [Tree.addrs])
  obtain ⟨h2, q2, -, r2, a2⟩ := leftRotate_plug
    (s := .node s sl sk sv (1 + max sl.ht (1 + max sr.ht r.ht)) sbal
      (.node y sr k v (1 + max sr.ht r.ht) bal r)) rfl rfl r1 hnd1
  simp only [Tree.ptr_node] at q1 q2
  have r2' : h2.Repr none (plug F (.node y (.node s sl sk sv sht sbal sr) k v ht bal r)) := by
    subst e2
    subst e1
    exact r2
  have hsame : ∀ x, x ∈ (plug F (.node s sl sk sv (1 + max sl.ht (1 + max sr.ht r.ht)) sbal
      (.node y sr k v (1 + max sr.ht r.ht) bal r))).addrs ↔
      x ∈ (plug F (.node y (.node s sl sk sv sht sbal sr) k v ht bal r)).addrs := by
    intro x
    simp only [plug_addrs, Tree.addrs, List.mem_append, List.mem_cons]
    tauto
  have heq : h2 = h := by
    refine Heap.ext_get? ((leftRotate_length q2).trans (rightRotate_length q1)) fun x => ?_
    by_cases hx : x ∈ (plug F (.node y (.node s sl sk sv sht sbal sr) k v ht bal r)).addrs
    · exact Heap.Repr.get?_eq r2' hr x hx
    · rw [a2 x (fun hm => hx ((hsame x).1 hm)), a1 x hx]
  rw [heq] at q2
  exact ⟨h1, q1, q2⟩

end CS280

namespace CS280
variable {K V : Type}

/-! ## Validity of the maps built by `insert` -/

section Ordered
variable [LinearOrder K]

theorem Tree.setValue_ht (key : K) (value : V) (t : Tree K V) :
    (t.setValue key value).ht = t.ht := by
  cases t <;> rfl

theorem Tree.setValue_avl (key : K) (value : V) : ∀ {t : Tree K V}, t.AVL →
    (t.setValue key value).AVL
  | .nil, _ => trivial
  | .node a l k v ht bal r, h => by
    obtain ⟨h1, h2, h3, h4, h5⟩ := h
    simp only [Tree.setValue, Tree.AVL, Tree.setValue_ht]
    exact ⟨h1, h2, h3, Tree.setValue_avl key value h4, Tree.setValue_avl key value h5⟩

theorem Tree.setValue_size (key : K) (value : V) : ∀ t : Tree K V,
    (t.setValue key value).size = t.size
  | .nil => rfl
  | .node a l k v ht bal r => by
    simp only [Tree.setValue, Tree.size, Tree.setValue_size key value l,
      Tree.setValue_size key value r]

theorem Tree.setValue_keys (key : K) (value : V) : ∀ t : Tree K V,
    (t.setValue key value).keys = t.keys
  | .nil => rfl
  | .node a l k v ht bal r => by
    simp only [Tree.setValue, Tree.keys_node, Tree.setValue_keys key value l,
      Tree.setValue_keys key value r]

/-- `insert` on a valid map with fewer than `2 ^ 32 - 1` nodes gives a valid
map: the call returns, and the new tree is BST-ordered, AVL-balanced with
consistent cached heights, parent-consistent (it is represented), and has
`size_` nodes. -/
theorem AVLmap.insert_valid {m : AVLmap K V} {t : Tree K V} (key : K) (value : V)
    (hm : m.Represents t) (hb : t.BST) (havl : t.AVL) (hs : m.size_ = t.size)
    (hlt : t.size + 1 < 2 ^ 32) :
    ∃ m' t', m.insert key value = some m' ∧ m'.Represents t' ∧ t'.BST ∧ t'.AVL ∧
      m'.size_ = t'.size ∧ t'.size ≤ t.size + 1 := by
  by_cases hk : key ∈ t.keys
  · obtain ⟨a, c, -, -, -, e, hr, -⟩ := AVLmap.insert_existing value hm hb hk
    refine ⟨_, _, e, hr, ?_, Tree.setValue_avl key value havl, ?_, ?_⟩
    · rw [Tree.bst_iff_pairwise, Tree.setValue_keys]
      exact (Tree.bst_iff_pairwise t).1 hb
    · rw [Tree.setValue_size]; exact hs
    · rw [Tree.setValue_size]; omega
  · obtain ⟨h', e, hr⟩ := AVLmap.insert_new value hm hb hk
    obtain ⟨pre, post, s1, -, -, -, s5⟩ :=
      Tree.insertAt_new_sublist key value m.heap.cells.length hb hk
    obtain ⟨s6, s7⟩ := s5 havl
    have hsize : (t.insertAt key value m.heap.cells.length).size = t.size + 1 := by
      rw [← Tree.toList_length, s6, ← Tree.toList_length, s1]
      simp only [List.length_append, List.length_cons]
      omega
    refine ⟨_, _, e, ⟨rfl, hr⟩, Tree.insertAt_bst key value _ hb, s7, ?_, by omega⟩
    simp only [hsize, hs]
    exact Nat.mod_eq_of_lt hlt

theorem AVLmap.run_append (m : AVLmap K V) : ∀ (cs ds : List (Call K V)),
    m.run (cs ++ ds) = (m.run cs).bind (fun m' => m'.run ds) := by
  intro cs
  induction cs generalizing m with
  | nil => intro ds; rfl
  | cons c cs ih =>
    intro ds
    simp only [List.cons_append, AVLmap.run, Option.bind_eq_bind]
    rcases m.call c with _ | m1
    · rfl
    · simp only [Option.some_bind]
      exact ih m1 ds

/-- A sequence of `insert` calls on a valid map, the number of nodes staying
below `2 ^ 32`: every call returns and the final map is valid. -/
theorem AVLmap.run_inserts_valid : ∀ (kvs : List (K × V)) {m : AVLmap K V} {t : Tree K V},
    m.Represents t → t.BST → t.AVL → m.size_ = t.size → t.size + kvs.length < 2 ^ 32 →
    ∃ m' t', m.run (kvs.map (fun p => Call.insert p.1 p.2)) = some m' ∧ m'.Represents t' ∧
      t'.BST ∧ t'.AVL ∧ m'.size_ = t'.size
  | [], m, t, hm, hb, havl, hs, _ => ⟨m, t, rfl, hm, hb, havl, hs⟩
  | (k, v) :: kvs, m, t, hm, hb, havl, hs, hlt => by
    simp only [List.length_cons] at hlt
    obtain ⟨m1, t1, e1, hm1, hb1, havl1, hs1, hle⟩ :=
      AVLmap.insert_valid k v hm hb havl hs (by omega)
    obtain ⟨m2, t2, e2, hm2, hb2, havl2, hs2⟩ :=
      AVLmap.run_inserts_valid kvs hm1 hb1 havl1 hs1 (by omega)
    refine ⟨m2, t2, ?_, hm2, hb2, havl2, hs2⟩
    simp only [List.map_cons, AVLmap.run, AVLmap.call, e1, Option.bind_eq_bind,
      Option.some_bind]
    exact e2

end Ordered

/-- The map built by inserting the keys `0`, ..., `n - 1` in ascending order:
the calls return, the tree is BST-ordered and AVL-balanced with consistent
cached heights, it has `n` nodes, and `size_` is `n` modulo `2 ^ 32`. -/
theorem ascending_spec : ∀ n : Nat, ∃ (m : AVLmap Nat Nat) (t : Tree Nat Nat),
    AVLmap.empty.run (ascending n) = some m ∧ m.Represents t ∧ t.BST ∧ t.AVL ∧
      (∀ k ∈ t.keys, k < n) ∧ t.size = n ∧ m.size_ = n % 2 ^ 32
  | 0 => ⟨AVLmap.empty, .nil, rfl, ⟨rfl, trivial⟩, trivial, trivial,
      by simp [Tree.keys_nil], rfl, rfl⟩
  | n + 1 => by
    obtain ⟨m, t, e, hm, hb, havl, hk, hsz, hs⟩ := ascending_spec n
    have hn : n ∉ t.keys := fun h => Nat.lt_irrefl _ (hk n h)
    obtain ⟨h', e1, hr⟩ := AVLmap.insert_new 0 hm hb hn
    obtain ⟨pre, post, s1, -, -, -, s5⟩ :=
      Tree.insertAt_new_sublist n 0 m.heap.cells.length hb hn
    obtain ⟨s6, s7⟩ := s5 havl
    have hsize : (t.insertAt n 0 m.heap.cells.length).size = t.size + 1 := by
      rw [← Tree.toList_length, s6, ← Tree.toList_length, s1]
      simp only [List.length_append, List.length_cons]
      omega
    have hm1 : (⟨h', (t.insertAt n 0 m.heap.cells.length).ptr, (m.size_ + 1) % 2 ^ 32⟩ :
        AVLmap Nat Nat).Represents (t.insertAt n 0 m.heap.cells.length) := ⟨rfl, hr⟩
    refine ⟨_, _, ?_, hm1, Tree.insertAt_bst n 0 _ hb, s7, ?_, by omega, ?_⟩
    · rw [ascending, List.range_succ, List.map_append, AVLmap.run_append]
      have : AVLmap.empty.run (List.map (fun k => Call.insert k 0) (List.range n)) = some m := e
      rw [this]
      simp only [List.map_cons, List.map_nil, Option.some_bind, AVLmap.run, AVLmap.call, e1,
        Option.bind_eq_bind]
    · intro k hk'
      rcases Tree.insertAt_new_keys 0 m.heap.cells.length hb hn k hk' with rfl | h
      · omega
      · exact Nat.lt_succ_of_lt (hk k h)
    · simp only [hs]
      omega

end CS280

namespace CS280
variable {K V : Type}

/-! ## The claims on the walks, the cached balance, validity under `insert`,
parent links, `clear`, `decrement` and the rotations -/

/-- C21 (evaluation at the failing input): in the map built by inserting 5, 3,
6, 2, 4, 7, 1 and erasing key 7, the walk `updateBalanceAfterDelete` started at
the parent of the removed node (key 6, address 2) finds that node in balance and
then visits the root (key 5, address 0), whose balance factor is 2: it calls
`leftRotate` on the root, which puts key 6 on top of the left-heavy subtree,
where the specified rule (that of the post-insert walk) right-rotates the root
and gives the balanced tree with root key 3.  The walk ends with a tree of
height 4 that is not balanced. -/
theorem delete_walk_rotates_wrong_way :
    ∃ (m : AVLmap Nat Nat) (h1 h2 hs h3 : Heap Nat Nat),
      AVLmap.empty.run [.insert 5 50, .insert 3 30, .insert 6 60, .insert 2 20, .insert 4 40,
        .insert 7 70, .insert 1 10, .erase 7] = some m ∧
      m.Represents (.node 0 (.node 1 (.node 3 (.node 6 .nil 1 10 0 0 .nil) 2 20 1 1 .nil) 3 30
        2 1 (.node 4 .nil 4 40 0 0 .nil)) 5 50 3 1 (.node 2 .nil 6 60 1 (-1) .nil)) ∧
      deleteStepAt m.heap 2 = some h1 ∧ deleteStepSpec m.heap 2 = some h1 ∧
      Node.getBalanceFactor h1 0 = some 2 ∧
      deleteStepAt h1 0 = some h2 ∧
      h2.Repr none (.node 2 (.node 0 (.node 1 (.node 3 (.node 6 .nil 1 10 0 0 .nil) 2 20 1 1
        .nil) 3 30 2 1 (.node 4 .nil 4 40 0 0 .nil)) 5 50 3 2 .nil) 6 60 4 0 .nil) ∧
      deleteStepSpec h1 0 = some hs ∧
      hs.Repr none (.node 1 (.node 3 (.node 6 .nil 1 10 0 0 .nil) 2 20 1 1 .nil) 3 30 2 1
        (.node 0 (.node 4 .nil 4 40 0 0 .nil) 5 50 1 2 (.node 2 .nil 6 60 0 0 .nil))) ∧
      (Tree.node 1 (.node 3 (.node 6 .nil 1 10 0 0 .nil) 2 20 1 1 .nil) 3 30 2 1
        (.node 0 (.node 4 .nil 4 40 0 0 .nil) 5 50 1 2 (.node 2 .nil 6 60 0 0 .nil)) :
          Tree Nat Nat).Balanced ∧
      updateBalanceAfterDelete m.heap (some 2) = some h3 ∧
      h3.Repr none (.node 2 (.node 0 (.node 1 (.node 3 (.node 6 .nil 1 10 0 0 .nil) 2 20 1 1
        .nil) 3 30 2 1 (.node 4 .nil 4 40 0 0 .nil)) 5 50 3 2 .nil) 6 60 4 4 .nil) ∧
      ¬ (Tree.node 2 (.node 0 (.node 1 (.node 3 (.node 6 .nil 1 10 0 0 .nil) 2 20 1 1
        .nil) 3 30 2 1 (.node 4 .nil 4 40 0 0 .nil)) 5 50 3 2 .nil) 6 60 4 4 .nil :
          Tree Nat Nat).Balanced :=
  ⟨_, _, _, _, _, rfl, by decide, rfl, rfl, rfl, rfl, by decide, rfl, by decide, by decide, rfl,
    by decide, by decide⟩

/-- C22 (evaluation at the failing input): after `insert(1, 10)`,
`insert(2, 20)`, `insert(3, 30)` the tree has root key 2 with the leaves 1 and
3, but the stored balance of the node of key 1 is -2 and that of the root is
-1, while the balance factor computed from the cached heights of the children
is 0 at both: the rotation recomputes the heights of the two rotated nodes and
leaves their `balance` fields as they were. -/
theorem insert_leaves_balance_stale :
    ∃ m : AVLmap Nat Nat,
      AVLmap.empty.run [.insert 1 10, .insert 2 20, .insert 3 30] = some m ∧
      m.Represents (.node 1 (.node 0 .nil 1 10 0 (-2) .nil) 2 20 1 (-1)
        (.node 2 .nil 3 30 0 0 .nil)) ∧
      m.heap.get? 0 = some ⟨1, 10, some 1, none, none, 0, -2⟩ ∧
      Node.getBalanceFactor m.heap 0 = some 0 ∧
      m.heap.get? 1 = some ⟨2, 20, none, some 0, some 2, 1, -1⟩ ∧
      Node.getBalanceFactor m.heap 1 = some 0 ∧
      ¬ (Tree.node 1 (.node 0 .nil 1 10 0 (-2) .nil) 2 20 1 (-1)
        (.node 2 .nil 3 30 0 0 .nil) : Tree Nat Nat).Cached :=
  ⟨_, rfl, by decide, rfl, rfl, rfl, rfl, by simp [Tree.Cached]⟩

section Ordered
variable [LinearOrder K]

/-- C23 (amended): if the tree of a map is BST-ordered, AVL-balanced on actual
heights, height-consistent and parent-consistent with a parentless root, `size()`
is its number of nodes and that number is less than `2 ^ 32 - 1`, then
`insert(key, value)` returns and all five properties hold again, whatever the
stored balance fields are; hence every map built from the empty map by fewer
than `2 ^ 32` calls of `insert` has them. -/
theorem insert_preserves_validity (m : AVLmap K V) (t : Tree K V) (key : K) (value : V)
    (hm : m.Represents t) (hb : t.BST) (hbal : t.Balanced) (hh : t.HeightOK)
    (hs : m.size = t.size) (hlt : t.size + 1 < 2 ^ 32) :
    (∃ m' t', m.insert key value = some m' ∧ m'.Represents t' ∧ m'.ParentConsistent ∧
      t'.BST ∧ t'.Balanced ∧ t'.HeightOK ∧ m'.size = t'.size) ∧
    ∀ kvs : List (K × V), kvs.length < 2 ^ 32 →
      ∃ m' t', AVLmap.empty.run (kvs.map (fun p => Call.insert p.1 p.2)) = some m' ∧
        m'.Represents t' ∧ m'.ParentConsistent ∧ t'.BST ∧ t'.Balanced ∧ t'.HeightOK ∧
        m'.size = t'.size := by
  constructor
  · obtain ⟨m', t', e, hm', hb', havl', hs', -⟩ :=
      AVLmap.insert_valid key value hm hb ((Tree.avl_iff t).2 ⟨hbal, hh⟩) hs hlt
    obtain ⟨s8, s9⟩ := (Tree.avl_iff _).1 havl'
    exact ⟨m', t', e, hm', hm'.parentConsistent, hb', s8, s9, hs'⟩
  · intro kvs hk
    obtain ⟨m', t', e, hm', hb', havl', hs'⟩ :=
      AVLmap.run_inserts_valid kvs (m := (AVLmap.empty : AVLmap K V)) (t := .nil)
        ⟨rfl, trivial⟩ trivial trivial rfl (by simpa [Tree.size] using hk)
    obtain ⟨s8, s9⟩ := (Tree.avl_iff _).1 havl'
    exact ⟨m', t', e, hm', hm'.parentConsistent, hb', s8, s9, hs'⟩

/-- C24: `insert` of an absent key into a tree that is BST-ordered,
AVL-balanced and height-consistent returns; the walk it runs visits the
ancestors of the new node in turn, from its parent to the root of the tree (one
round each, in which the cached balance and height of the ancestor are
assigned), calls rotations in at most one of these rounds, and leaves a tree
with consistent cached heights. -/
theorem insert_walk_rotates_once (m : AVLmap K V) (t : Tree K V) (key : K) (value : V)
    (hm : m.Represents t) (hb : t.BST) (hbal : t.Balanced) (hh : t.HeightOK)
    (hk : key ∉ t.keys) :
    ∃ m' t' log, m.insertLog key value = some (m', log) ∧ m.insert key value = some m' ∧
      rotations log ≤ 1 ∧
      log.map Visit.node = (t.descend key []).1.map Frame.addr ∧
      (plug (t.descend key []).1 .nil = t) ∧
      (t ≠ .nil → (log.map Visit.node).getLast? = m.pRoot) ∧
      m'.Represents t' ∧ t'.HeightOK := by
  have havl := (Tree.avl_iff t).2 ⟨hbal, hh⟩
  obtain ⟨m', log, e1, e2, e3, -, e5⟩ := AVLmap.insertLog_new value hm hb havl hk
  obtain ⟨h', e, hr⟩ := AVLmap.insert_new value hm hb hk
  obtain ⟨pre, post, -, -, -, -, s5⟩ :=
    Tree.insertAt_new_sublist key value m.heap.cells.length hb hk
  have hnil : (t.descend key []).2 = .nil := by
    rcases Tree.descend_spec key t [] hb with ⟨e, _⟩ | ⟨_, _, _, _, _, _, _, hm', _⟩
    · exact e
    · exact absurd hm' hk
  have hplug : plug (t.descend key []).1 .nil = t := by
    have := Tree.descend_plug key t []
    rw [hnil] at this
    exact this
  have hm' : m' = ⟨h', (t.insertAt key value m.heap.cells.length).ptr,
      (m.size_ + 1) % 2 ^ 32⟩ := by
    rw [e2] at e
    exact Option.some.inj e
  refine ⟨m', _, log, e1, e2, e5, e3, hplug, ?_, hm' ▸ ⟨rfl, hr⟩,
    ((Tree.avl_iff _).1 (s5 havl).2).2⟩
  intro hne
  rw [e3, hm.1]
  rcases hfs : (t.descend key []).1 with _ | ⟨fr, fs⟩
  · rw [hfs] at hplug
    exact absurd hplug.symm hne
  · rw [hfs] at hplug
    rw [← hplug, plug, plug_ptr fs (Frame.fill_ptr fr .nil)]
    clear hplug hfs
    induction fs generalizing fr with
    | nil => rfl
    | cons g fs ih =>
      rw [List.map_cons, List.map_cons, List.getLast?_cons_cons, ← List.map_cons, ih g]
      rfl

/-- C27: `insert` into a tree that is BST-ordered, AVL-balanced and
height-consistent returns, and every call of `leftRotate` or `rightRotate`
made by the walk it runs returns a node, not `nullptr`; a rotation returns a
node exactly when the node passed has the child the rotation needs, so the
branch that returns `nullptr` is not taken; the pointer stored by
`node->left = leftRotate(node->left)` or its mirror image is the pointer
returned, so no child link is overwritten with `nullptr`. -/
theorem insert_rotations_never_null (m : AVLmap K V) (t : Tree K V) (key : K) (value : V)
    (hm : m.Represents t) (hb : t.BST) (hbal : t.Balanced) (hh : t.HeightOK) :
    (∃ m' log, m.insertLog key value = some (m', log) ∧ m.insert key value = some m' ∧
      ∀ v ∈ log, ∀ x ∈ v.calls, x.ret ≠ none) ∧
    (∀ (h h' : Heap K V) (y : Nat) (r : Option Nat), leftRotate h (some y) = some (h', r) →
      (r ≠ none ↔ ∃ yn, h.get? y = some yn ∧ yn.right ≠ none)) ∧
    (∀ (h h' : Heap K V) (y : Nat) (r : Option Nat), rightRotate h (some y) = some (h', r) →
      (r ≠ none ↔ ∃ yn, h.get? y = some yn ∧ yn.left ≠ none)) := by
  refine ⟨?_, fun _ _ _ _ e => leftRotate_ret_iff e, fun _ _ _ _ e => rightRotate_ret_iff e⟩
  by_cases hk : key ∈ t.keys
  · obtain ⟨m', e1, e2⟩ := AVLmap.insertLog_existing value hm hb hk
    exact ⟨m', [], e1, e2, fun v hv => by simp at hv⟩
  · obtain ⟨m', log, e1, e2, -, e4, -⟩ :=
      AVLmap.insertLog_new value hm hb ((Tree.avl_iff t).2 ⟨hbal, hh⟩) hk
    exact ⟨m', log, e1, e2, e4⟩

end Ordered

/-- C26: in a round of the post-insert walk at `node`, after the assignment of
the cached balance and height of `node` (heap `h2`): if the balance of `node`
is greater than 1 and the stored balance of its left child is 0 or positive,
the round consists of the one call `rightRotate(node)`, no rotation of the
child being called; if the balance is less than -1 and the stored balance of
the right child is 0 or negative, it consists of the one call
`leftRotate(node)`. -/
theorem tie_break_single_rotation (h h2 : Heap K V) (node : Nat) (n : Node K V)
    (e : refreshCached h node = some h2) (hn : h2.get? node = some n) :
    (∀ l ln, 1 < n.balance → n.left = some l → h2.get? l = some ln → 0 ≤ ln.balance →
      rebalanceAt h node = rightRotate h2 (some node) ∧
      rebalanceAtLog h node =
        (rightRotate h2 (some node)).map (fun p => (p.1, p.2, [⟨false, node, p.2⟩]))) ∧
    (∀ r rn, n.balance < -1 → n.right = some r → h2.get? r = some rn → rn.balance ≤ 0 →
      rebalanceAt h node = leftRotate h2 (some node) ∧
      rebalanceAtLog h node =
        (leftRotate h2 (some node)).map (fun p => (p.1, p.2, [⟨true, node, p.2⟩]))) := by
  constructor
  · intro l ln hb hl hln hpos
    have hb' : n.balance > 1 := hb
    rw [rebalanceAt_refresh, rebalanceAtLog_eq, e, obind_some, obind_some, hn, obind_some,
      obind_some]
    simp only [hb', if_true, hl, rotateLeftChild_some, rotateLeftChildLog, hln, obind_some,
      not_lt.2 hpos, if_false, Option.bind_eq_bind, Option.some_bind, List.nil_append]
    refine ⟨trivial, ?_⟩
    rcases rightRotate h2 (some node) with _ | ⟨h3, r⟩ <;> rfl
  · intro r rn hb hr hrn hneg
    have hb1 : ¬ n.balance > 1 := by omega
    rw [rebalanceAt_refresh, rebalanceAtLog_eq, e, obind_some, obind_some, hn, obind_some,
      obind_some]
    have hneg' : ¬ rn.balance > 0 := by omega
    simp only [hb1, hb, if_true, if_false, hr, rotateRightChild_some, rotateRightChildLog, hrn,
      obind_some, hneg', Option.bind_eq_bind, Option.some_bind, List.nil_append]
    refine ⟨trivial, ?_⟩
    rcases leftRotate h2 (some node) with _ | ⟨h3, l⟩ <;> rfl

section Ordered
variable [LinearOrder K]

/-- C29: on a heap that stores a BST-ordered tree with consistent parent
links, `increment` and `decrement` return on every node `N` of the tree; if
`N.increment()` is a node `S` then `S` is a node of the tree and
`S.decrement()` is `N`, and if `N.decrement()` is a node `P` then `P` is a node
of the tree and `P.increment()` is `N`. -/
theorem increment_decrement_inverse (h : Heap K V) (t : Tree K V) (hr : h.Repr none t)
    (hb : t.BST) (N : Nat) (hN : N ∈ t.addrs) :
    (∃ x, Node.increment h N = some x) ∧ (∃ x, Node.decrement h N = some x) ∧
    (∀ S, Node.increment h N = some (some S) →
      S ∈ t.addrs ∧ Node.decrement h S = some (some N)) ∧
    (∀ P, Node.decrement h N = some (some P) →
      P ∈ t.addrs ∧ Node.increment h P = some (some N)) := by
  have hnd := hr.nodup_of_bst hb
  obtain ⟨pre, post, e⟩ := List.append_of_mem hN
  have hi := increment_spec hr hnd e
  have hd := decrement_spec hr hnd e
  refine ⟨⟨_, hi⟩, ⟨_, hd⟩, fun S hS => ?_, fun P hP => ?_⟩
  · rw [hi] at hS
    simp only [Option.some.injEq] at hS
    rcases post with _ | ⟨S', post'⟩
    · simp at hS
    simp only [List.head?_cons, Option.some.injEq] at hS
    subst hS
    have e' : t.addrs = (pre ++ [N]) ++ S' :: post' := by rw [e]; simp
    refine ⟨by rw [e']; simp, ?_⟩
    rw [decrement_spec hr hnd e']
    simp
  · rw [hd] at hP
    simp only [Option.some.injEq] at hP
    rcases List.eq_nil_or_concat pre with rfl | ⟨pre', P', rfl⟩
    · simp at hP
    rw [List.concat_eq_append] at e hP
    rw [List.getLast?_concat] at hP
    simp only [Option.some.injEq] at hP
    subst hP
    have e' : t.addrs = pre' ++ P' :: (N :: post) := by rw [e]; simp
    refine ⟨by rw [e']; simp, ?_⟩
    rw [increment_spec hr hnd e']
    simp

end Ordered

/-- C30: for a node `y` with a right child `s`, anywhere in a tree without
shared nodes, whose cached height and whose child's cached height are
consistent with the cached heights of their children, `leftRotate(y)` returns
`s` and `rightRotate(s)` then returns `y` and leaves the heap exactly as it was
before the two calls (every child link, parent link, cached height and the link
from the parent of `y`); symmetrically `rightRotate(y)` followed by
`leftRotate` of the node returned, for a node `y` with a left child. -/
theorem rotations_mutually_inverse (h h2 : Heap K V) (F : List (Frame K V)) (y s : Nat)
    (l sl sr : Tree K V) (k sk : K) (v sv : V) (ht ht2 bal sht sbal : Int)
    (hA : h.Repr none (plug F (.node y l k v ht bal (.node s sl sk sv sht sbal sr))))
    (hAn : (plug F (.node y l k v ht bal (.node s sl sk sv sht sbal sr))).addrs.Nodup)
    (hB : h2.Repr none (plug F (.node y (.node s sl sk sv sht sbal sr) k v ht2 bal l)))
    (hBn : (plug F (.node y (.node s sl sk sv sht sbal sr) k v ht2 bal l)).addrs.Nodup)
    (e1 : ht = 1 + max l.ht sht) (e2 : sht = 1 + max sl.ht sr.ht)
    (e3 : ht2 = 1 + max sht l.ht) :
    (∃ h1, leftRotate h (some y) = some (h1, some s) ∧
      rightRotate h1 (some s) = some (h, some y)) ∧
    (∃ h1, rightRotate h2 (some y) = some (h1, some s) ∧
      leftRotate h1 (some s) = some (h2, some y)) :=
  ⟨leftRotate_rightRotate hA hAn e1 e2, rightRotate_leftRotate hB hBn e3 e2⟩

theorem pairMap_spec :
    AVLmap.empty.run [.insert 1 10, .insert 2 20] = some pairMap ∧
    pairMap.Represents rotLeftTree ∧ rotLeftTree.BST ∧ rotLeftTree.Balanced ∧
    rotLeftTree.HeightOK ∧ 3 ∉ rotLeftTree.keys :=
  ⟨rfl, by decide, by simp [rotLeftTree, Tree.BST, Tree.All], by decide,
    by simp [rotLeftTree, Tree.HeightOK], by decide⟩

theorem insert_preserves_validity_witness :
    singleMap.Represents singleTree ∧ singleTree.BST ∧ singleTree.Balanced ∧
    singleTree.HeightOK ∧ singleMap.size = singleTree.size ∧ singleTree.size + 1 < 2 ^ 32 ∧
    ∃ m' t', singleMap.insert 2 20 = some m' ∧ m'.Represents t' ∧ m'.ParentConsistent ∧
      t'.BST ∧ t'.Balanced ∧ t'.HeightOK ∧ m'.size = t'.size :=
  ⟨singleMap_spec.2, singleTree_bst, by decide, by simp [singleTree, Tree.HeightOK], rfl,
    by norm_num [singleTree, Tree.size],
    (insert_preserves_validity singleMap singleTree 2 20 singleMap_spec.2 singleTree_bst
      (by decide) (by simp [singleTree, Tree.HeightOK]) rfl
      (by norm_num [singleTree, Tree.size])).1⟩

theorem insert_walk_rotates_once_witness :
    pairMap.Represents rotLeftTree ∧ rotLeftTree.BST ∧ rotLeftTree.Balanced ∧
    rotLeftTree.HeightOK ∧ 3 ∉ rotLeftTree.keys ∧
    (∃ m', pairMap.insertLog 3 30 = some (m', [⟨1, []⟩, ⟨0, [⟨true, 0, some 1⟩]⟩])) ∧
    ∃ m' t' log, pairMap.insertLog 3 30 = some (m', log) ∧ pairMap.insert 3 30 = some m' ∧
      rotations log ≤ 1 ∧
      log.map Visit.node = (rotLeftTree.descend 3 []).1.map Frame.addr ∧
      (plug (rotLeftTree.descend 3 []).1 .nil = rotLeftTree) ∧
      (rotLeftTree ≠ .nil → (log.map Visit.node).getLast? = pairMap.pRoot) ∧
      m'.Represents t' ∧ t'.HeightOK :=
  ⟨pairMap_spec.2.1, pairMap_spec.2.2.1, pairMap_spec.2.2.2.1, pairMap_spec.2.2.2.2.1,
    pairMap_spec.2.2.2.2.2, ⟨_, rfl⟩,
    insert_walk_rotates_once pairMap rotLeftTree 3 30 pairMap_spec.2.1 pairMap_spec.2.2.1
      pairMap_spec.2.2.2.1 pairMap_spec.2.2.2.2.1 pairMap_spec.2.2.2.2.2⟩

theorem insert_rotations_never_null_witness :
    pairMap.Represents rotLeftTree ∧ rotLeftTree.BST ∧ rotLeftTree.Balanced ∧
    rotLeftTree.HeightOK ∧
    ∃ m' log, pairMap.insertLog 3 30 = some (m', log) ∧ pairMap.insert 3 30 = some m' ∧
      ∀ v ∈ log, ∀ x ∈ v.calls, x.ret ≠ none :=
  ⟨pairMap_spec.2.1, pairMap_spec.2.2.1, pairMap_spec.2.2.2.1, pairMap_spec.2.2.2.2.1,
    (insert_rotations_never_null pairMap rotLeftTree 3 30 pairMap_spec.2.1 pairMap_spec.2.2.1
      pairMap_spec.2.2.2.1 pairMap_spec.2.2.2.2.1).1⟩

theorem tie_break_single_rotation_witness :
    ∃ h2 hL hR : Heap Nat Nat,
      refreshCached chainHeap 0 = some h2 ∧
      h2.get? 0 = some ⟨3, 30, none, some 1, none, 2, 2⟩ ∧
      h2.get? 1 = some ⟨2, 20, some 0, some 2, none, 1, 1⟩ ∧
      rebalanceAtLog chainHeap 0 = some (hL, some 1, [⟨false, 0, some 1⟩]) ∧
      rebalanceAtLog chainHeapR 0 = some (hR, some 1, [⟨true, 0, some 1⟩]) ∧
      (rebalanceAt chainHeap 0 = rightRotate h2 (some 0) ∧
        rebalanceAtLog chainHeap 0 =
          (rightRotate h2 (some 0)).map (fun p => (p.1, p.2, [⟨false, 0, p.2⟩]))) :=
  ⟨_, _, _, rfl, rfl, rfl, rfl, rfl,
    (tie_break_single_rotation chainHeap _ 0 ⟨3, 30, none, some 1, none, 2, 2⟩ rfl rfl).1
      1 ⟨2, 20, some 0, some 2, none, 1, 1⟩ (by decide) rfl rfl (by decide)⟩

theorem increment_decrement_inverse_witness :
    threeMap.heap.Repr none threeTree ∧ threeTree.BST ∧ 1 ∈ threeTree.addrs ∧
    Node.increment threeMap.heap 1 = some (some 2) ∧
    Node.decrement threeMap.heap 1 = some (some 0) ∧
    (∀ S, Node.increment threeMap.heap 1 = some (some S) →
      S ∈ threeTree.addrs ∧ Node.decrement threeMap.heap S = some (some 1)) ∧
    (∀ P, Node.decrement threeMap.heap 1 = some (some P) →
      P ∈ threeTree.addrs ∧ Node.increment threeMap.heap P = some (some 1)) :=
  ⟨threeMap_spec.2.2, threeTree_bst, by decide, rfl, rfl,
    (increment_decrement_inverse threeMap.heap threeTree threeMap_spec.2.2 threeTree_bst 1
      (by decide)).2.2.1,
    (increment_decrement_inverse threeMap.heap threeTree threeMap_spec.2.2 threeTree_bst 1
      (by decide)).2.2.2⟩

theorem rotations_mutually_inverse_witness :
    rotLeftHeap.Repr none (plug [] (.node 0 .nil 1 10 1 (-1) (.node 1 .nil 2 20 0 0 .nil))) ∧
    rotRightHeap.Repr none (plug [] (.node 0 (.node 1 .nil 2 20 0 0 .nil) 1 10 1 (-1) .nil)) ∧
    (∃ h1, leftRotate rotLeftHeap (some 0) = some (h1, some 1) ∧
      rightRotate h1 (some 1) = some (rotLeftHeap, some 0)) ∧
    (∃ h1, rightRotate rotRightHeap (some 0) = some (h1, some 1) ∧
      leftRotate h1 (some 1) = some (rotRightHeap, some 0)) :=
  ⟨rotHeaps_spec.1, rotHeaps_spec.2.2.1,
    rotations_mutually_inverse rotLeftHeap rotRightHeap [] 0 1 .nil .nil .nil 1 2 10 20 1 1
      (-1) 0 0 rotHeaps_spec.1 rotHeaps_spec.2.1 rotHeaps_spec.2.2.1 rotHeaps_spec.2.2.2
      (by decide) (by decide) (by decide)⟩

/-- C23 (counterexample to the claim as stated): the map built by inserting the
keys 0, 1, ..., 4294967294 in ascending order is BST-ordered, balanced,
height-consistent and represented (hence parent-consistent), and `size()` is
its number of nodes, 4294967295; after `insert(4294967295, 0)` the tree has
`2 ^ 32` nodes and `size()` is 0.  So the map built from the empty map by these
`2 ^ 32` calls of `insert` has `size()` different from its number of nodes. -/
theorem insert_count_wraps :
    (∃ (m m' : AVLmap Nat Nat) (t t' : Tree Nat Nat),
      AVLmap.empty.run (ascending (2 ^ 32 - 1)) = some m ∧ m.Represents t ∧ t.BST ∧
      t.Balanced ∧ t.HeightOK ∧ m.size = t.size ∧ t.size = 2 ^ 32 - 1 ∧
      m.insert (2 ^ 32 - 1) 0 = some m' ∧ m'.Represents t' ∧ t'.size = 2 ^ 32 ∧
      m'.size = 0 ∧ m'.size ≠ t'.size) ∧
    ∃ (m : AVLmap Nat Nat) (t : Tree Nat Nat),
      AVLmap.empty.run (ascending (2 ^ 32)) = some m ∧ m.Represents t ∧ t.size = 2 ^ 32 ∧
      m.size = 0 := by
  constructor
  · obtain ⟨m, t, e, hm, hb, havl, hk, hsz, hs⟩ := ascending_spec (2 ^ 32 - 1)
    have hn : (2 ^ 32 - 1) ∉ t.keys := fun h => Nat.lt_irrefl _ (hk _ h)
    obtain ⟨h', e1, hr⟩ := AVLmap.insert_new 0 hm hb hn
    obtain ⟨pre, post, s1, -, -, -, s5⟩ :=
      Tree.insertAt_new_sublist (2 ^ 32 - 1) 0 m.heap.cells.length hb hn
    obtain ⟨s6, -⟩ := s5 havl
    have hsize : (t.insertAt (2 ^ 32 - 1) 0 m.heap.cells.length).size = t.size + 1 := by
      rw [← Tree.toList_length, s6, ← Tree.toList_length, s1]
      simp only [List.length_append, List.length_cons]
      omega
    obtain ⟨s8, s9⟩ := (Tree.avl_iff _).1 havl
    have hs' : m.size_ = 2 ^ 32 - 1 := by
      rw [hs]
      norm_num
    have hm1 : (⟨h', (t.insertAt (2 ^ 32 - 1) 0 m.heap.cells.length).ptr,
        (m.size_ + 1) % 2 ^ 32⟩ : AVLmap Nat Nat).Represents
          (t.insertAt (2 ^ 32 - 1) 0 m.heap.cells.length) := ⟨rfl, hr⟩
    have hz : (m.size_ + 1) % 2 ^ 32 = 0 := by
      rw [hs']
      norm_num
    refine ⟨m, _, t, _, e, hm, hb, s8, s9, by rw [hsz]; exact hs', hsz, e1, hm1,
      by rw [hsize, hsz]; norm_num, hz, ?_⟩
    · show (m.size_ + 1) % 2 ^ 32 ≠ _
      rw [hz, hsize, hsz]
      norm_num
  · obtain ⟨m, t, e, hm, -, -, -, hsz, hs⟩ := ascending_spec (2 ^ 32)
    exact ⟨m, t, e, hm, hsz, by rw [AVLmap.size, hs]; norm_num⟩

end CS280

namespace CS280
variable {K V : Type}

/-! ## Consistency of the pointer structure under pointer updates -/

theorem Ptrs.mirror_mirror (n : Ptrs) : n.mirror.mirror = n := rfl

theorem LinksOK.mirror_ok {G : Nat → Option Ptrs} {len : Nat} (hok : LinksOK G len) :
    LinksOK (fun a => (G a).map Ptrs.mirror) len := by
  refine ⟨?_, ?_, ?_, ?_⟩
  · intro a n c ha hc
    simp only [Option.map_eq_some'] at ha
    obtain ⟨n0, h0, rfl⟩ := ha
    obtain ⟨cn, h1, h2⟩ := hok.back a n0 c h0 (Or.symm hc)
    exact ⟨cn.mirror, by simp only [h1, Option.map_some'], h2⟩
  · intro a n c ha hc hr
    simp only [Option.map_eq_some'] at ha
    obtain ⟨n0, h0, rfl⟩ := ha
    exact hok.sides a n0 c h0 hr hc
  · intro a n ha
    simp only [Option.map_eq_some'] at ha
    obtain ⟨n0, h0, rfl⟩ := ha
    exact hok.bound a n0 h0
  · obtain ⟨rk, hrk⟩ := hok.rank
    refine ⟨rk, ?_⟩
    intro a n p pn ha hp hpn
    simp only [Option.map_eq_some'] at ha hpn
    obtain ⟨n0, h0, rfl⟩ := ha
    obtain ⟨p0, hp0, rfl⟩ := hpn
    exact hrk a n0 p p0 h0 hp hp0

theorem LinksOK.of_eq {G G' : Nat → Option Ptrs} {len : Nat} (hok : LinksOK G len)
    (e : ∀ x, G' x = G x) : LinksOK G' len := by
  have : G' = G := funext e
  rw [this]; exact hok

/-- Pointer updates of `leftRotate` on `y` with right child `s`: `s` takes the
place of `y` below the parent `p` of `y`, `y` becomes the left child of `s`, and
the former left child `v` of `s` becomes the right child of `y`.  The parent
receives `s` on one side and keeps its other child, which is not `y`. -/
theorem LinksOK.rotate_left {G G' : Nat → Option Ptrs} {len y s : Nat} {p u v w : Option Nat}
    (hok : LinksOK G len)
    (hy : G y = some ⟨p, u, some s⟩) (hs : G s = some ⟨some y, v, w⟩)
    (hp : ∀ q, p = some q → ∃ pn pn', G q = some pn ∧ G' q = some pn' ∧
      pn'.parent = pn.parent ∧
      ((pn'.left = some s ∧ pn'.right = pn.right ∧ pn.right ≠ some y) ∨
       (pn'.right = some s ∧ pn'.left = pn.left ∧ pn.left ≠ some y)))
    (hy' : G' y = some ⟨some s, u, v⟩) (hs' : G' s = some ⟨p, some y, w⟩)
    (hv : ∀ x, v = some x → ∃ vn, G x = some vn ∧ G' x = some ⟨some y, vn.left, vn.right⟩)
    (ho : ∀ x, x ≠ y → x ≠ s → p ≠ some x → v ≠ some x → G' x = G x) :
    LinksOK G' len := by
  obtain ⟨rk, hrk⟩ := hok.rank
  have r1 : rk y < rk s := hrk s _ y _ hs rfl hy
  have hys : y ≠ s := by
    intro e; rw [e] at r1; omega
  have fv : ∀ x, v = some x → ∃ vn, G x = some vn ∧ vn.parent = some s ∧ rk s < rk x ∧
      G' x = some ⟨some y, vn.left, vn.right⟩ := by
    intro x hx
    obtain ⟨vn, g, g'⟩ := hv x hx
    obtain ⟨cn, gc, gp⟩ := hok.back s _ x hs (Or.inl hx)
    rw [g] at gc; cases gc
    exact ⟨vn, g, gp, hrk x vn s _ g gp hs, g'⟩
  have fp : ∀ q, p = some q → ∃ pn pn', G q = some pn ∧ rk q < rk y ∧ G' q = some pn' ∧
      pn'.parent = pn.parent ∧
      ((pn'.left = some s ∧ pn'.right = pn.right ∧ pn.right ≠ some y) ∨
       (pn'.right = some s ∧ pn'.left = pn.left ∧ pn.left ≠ some y)) := by
    intro q hq
    obtain ⟨pn, pn', g, g', e1, e2⟩ := hp q hq
    exact ⟨pn, pn', g, hrk y _ q pn hy hq g, g', e1, e2⟩
  have par : ∀ c cn, G c = some cn → c ≠ y → c ≠ s → v ≠ some c →
      ∃ cn', G' c = some cn' ∧ cn'.parent = cn.parent := by
    intro c cn gc h1 h2 h3
    by_cases h4 : p = some c
    · obtain ⟨pn, pn', g, _, g', e1, _⟩ := fp c h4
      rw [gc] at g; cases g
      exact ⟨pn', g', e1⟩
    · exact ⟨cn, by rw [ho c h1 h2 h4 h3]; exact gc, rfl⟩
  have old : ∀ a n', G' a = some n' → ∃ n, G a = some n ∧
      (a ≠ y → a ≠ s → v ≠ some a → n'.parent = n.parent) ∧
      (a ≠ y → a ≠ s → p ≠ some a → n'.left = n.left ∧ n'.right = n.right) := by
    intro a n' ga
    by_cases h1 : a = y
    · rw [h1]; exact ⟨_, hy, fun h => absurd rfl h, fun h => absurd rfl h⟩
    by_cases h2 : a = s
    · rw [h2]; exact ⟨_, hs, fun _ h => absurd rfl h, fun _ h => absurd rfl h⟩
    by_cases h3 : v = some a
    · obtain ⟨vn, g, _, _, g'⟩ := fv a h3
      rw [g'] at ga; cases ga
      exact ⟨vn, g, fun _ _ h => absurd h3 h, fun _ _ _ => ⟨rfl, rfl⟩⟩
    by_cases h4 : p = some a
    · obtain ⟨pn, pn', g, _, g', e1, _⟩ := fp a h4
      rw [g'] at ga; cases ga
      exact ⟨pn, g, fun _ _ _ => e1, fun _ _ h => absurd h4 h⟩
    · rw [ho a h1 h2 h4 h3] at ga
      exact ⟨n', ga, fun _ _ _ => rfl, fun _ _ _ => ⟨rfl, rfl⟩⟩
  -- a child `c` of a cell `a` other than `y`, `s` keeps `a` as its parent
  have keep : ∀ a n c, G a = some n → (n.left = some c ∨ n.right = some c) → a ≠ y →
      c ≠ y → v ≠ some c → ∃ cn', G' c = some cn' ∧ cn'.parent = some a := by
    intro a n c ga hc hay hcy hvc
    obtain ⟨cn, gc, gp⟩ := hok.back a n c ga hc
    have hcs : c ≠ s := by
      intro e
      rw [e, hs] at gc; cases gc
      exact hay (Option.some.inj gp).symm
    obtain ⟨cn', g', e'⟩ := par c cn gc hcy hcs hvc
    exact ⟨cn', g', e'.trans gp⟩
  have notv : ∀ a n c, G a = some n → (n.left = some c ∨ n.right = some c) → a ≠ s →
      v ≠ some c := by
    intro a n c ga hc has e
    obtain ⟨cn, gc, gp⟩ := hok.back a n c ga hc
    obtain ⟨vn, gv, gp', _⟩ := fv c e
    rw [gc] at gv; cases gv
    rw [gp] at gp'
    exact has (Option.some.inj gp')
  refine ⟨?_, ?_, ?_, ?_⟩
  · intro a n c ha hc
    by_cases h1 : a = y
    · rw [h1] at ha ⊢
      rw [hy'] at ha; cases ha
      rcases hc with hc | hc
      · obtain ⟨cn, gc, gp⟩ := hok.back y _ c hy (Or.inl hc)
        have rc : rk y < rk c := hrk c cn y _ gc gp hy
        have hcy : c ≠ y := by
          intro e; rw [e] at rc; omega
        have hcs : c ≠ s := fun e => hok.sides y _ c hy hc (by rw [e])
        obtain ⟨cn', g', e'⟩ := par c cn gc hcy hcs (notv y _ c hy (Or.inl hc) hys)
        exact ⟨cn', g', e'.trans gp⟩
      · obtain ⟨vn, _, _, _, g'⟩ := fv c hc
        exact ⟨_, g', rfl⟩
    by_cases h2 : a = s
    · rw [h2] at ha ⊢
      rw [hs'] at ha; cases ha
      rcases hc with hc | hc
      · obtain rfl : y = c := Option.some.inj hc
        exact ⟨_, hy', rfl⟩
      · obtain ⟨cn, gc, gp⟩ := hok.back s _ c hs (Or.inr hc)
        have rc : rk s < rk c := hrk c cn s _ gc gp hs
        have hcy : c ≠ y := by
          intro e; rw [e] at rc; omega
        exact keep s _ c hs (Or.inr hc) (fun e => hys e.symm) hcy
          (fun e => hok.sides s _ c hs e hc)
    by_cases h4 : p = some a
    · obtain ⟨pn, pn', g, rq, g', e1, e2⟩ := fp a h4
      rw [g'] at ha; cases ha
      have toS : ∃ cn, G' s = some cn ∧ cn.parent = some a := ⟨_, hs', h4⟩
      rcases e2 with ⟨e3, e4, e5⟩ | ⟨e3, e4, e5⟩
      · rcases hc with hc | hc
        · rw [e3] at hc; cases hc; exact toS
        · rw [e4] at hc
          exact keep a pn c g (Or.inr hc) h1 (fun e => e5 (by rw [← e]; exact hc))
            (notv a pn c g (Or.inr hc) h2)
      · rcases hc with hc | hc
        · rw [e4] at hc
          exact keep a pn c g (Or.inl hc) h1 (fun e => e5 (by rw [← e]; exact hc))
            (notv a pn c g (Or.inl hc) h2)
        · rw [e3] at hc; cases hc; exact toS
    · obtain ⟨n0, g0, _, e2⟩ := old a n ha
      obtain ⟨el, er⟩ := e2 h1 h2 h4
      rw [el, er] at hc
      refine keep a n0 c g0 hc h1 ?_ (notv a n0 c g0 hc h2)
      intro e
      obtain ⟨cn, gc, gp⟩ := hok.back a n0 c g0 hc
      rw [e, hy] at gc; cases gc
      exact h4 gp
  · intro a n c ha hl hr
    by_cases h1 : a = y
    · rw [h1] at ha
      rw [hy'] at ha; cases ha
      exact notv y _ c hy (Or.inl hl) hys hr
    by_cases h2 : a = s
    · rw [h2] at ha
      rw [hs'] at ha; cases ha
      obtain rfl : y = c := Option.some.inj hl
      obtain ⟨cn, gc, gp⟩ := hok.back s _ y hs (Or.inr hr)
      have := hrk y cn s _ gc gp hs
      omega
    by_cases h4 : p = some a
    · obtain ⟨pn, pn', g, rq, g', e1, e2⟩ := fp a h4
      rw [g'] at ha; cases ha
      have nos : ∀ c, (pn.left = some c ∨ pn.right = some c) → c ≠ s := by
        intro c hc e
        obtain ⟨cn, gc, gp⟩ := hok.back a pn c g hc
        rw [e, hs] at gc; cases gc
        exact h1 (Option.some.inj gp).symm
      rcases e2 with ⟨e3, e4, e5⟩ | ⟨e3, e4, e5⟩
      · rw [e3] at hl; rw [e4] at hr
        exact nos c (Or.inr hr) (Option.some.inj hl).symm
      · rw [e3] at hr; rw [e4] at hl
        exact nos c (Or.inl hl) (Option.some.inj hr).symm
    · obtain ⟨n0, g0, _, e2⟩ := old a n ha
      obtain ⟨el, er⟩ := e2 h1 h2 h4
      rw [el] at hl; rw [er] at hr
      exact hok.sides a n0 c g0 hl hr
  · intro a n ha
    obtain ⟨n0, g0, e1, _⟩ := old a n ha
    refine ⟨(hok.bound a n0 g0).1, ?_⟩
    intro q hq
    by_cases h1 : a = y
    · rw [h1] at ha
      rw [hy'] at ha; cases ha
      obtain rfl : s = q := Option.some.inj hq
      exact (hok.bound s _ hs).1
    by_cases h2 : a = s
    · rw [h2] at ha
      rw [hs'] at ha; cases ha
      exact (hok.bound y _ hy).2 q hq
    by_cases h3 : v = some a
    · obtain ⟨vn, g, _, _, g'⟩ := fv a h3
      rw [g'] at ha; cases ha
      obtain rfl : y = q := Option.some.inj hq
      exact (hok.bound y _ hy).1
    · rw [e1 h1 h2 h3] at hq
      exact (hok.bound a n0 g0).2 q hq
  · refine ⟨fun x => if x = y then 3 * rk y + 1 else if x = s then 3 * rk y else 3 * rk x, ?_⟩
    intro a n q qn ha hq hqn
    obtain ⟨n0, g0, e1, _⟩ := old a n ha
    obtain ⟨q0, gq, _⟩ := old q qn hqn
    show (if q = y then 3 * rk y + 1 else if q = s then 3 * rk y else 3 * rk q) <
      (if a = y then 3 * rk y + 1 else if a = s then 3 * rk y else 3 * rk a)
    by_cases h1 : a = y
    · rw [h1] at ha
      rw [hy'] at ha; cases ha
      have hqs : s = q := Option.some.inj hq
      split_ifs <;> omega
    by_cases h2 : a = s
    · rw [h2] at ha
      rw [hs'] at ha; cases ha
      obtain ⟨pn, _, _, rq, _⟩ := fp q hq
      have hqy : q ≠ y := by
        intro e; rw [e] at rq; omega
      have hqs : q ≠ s := by
        intro e; rw [e] at rq; omega
      split_ifs <;> omega
    by_cases h3 : v = some a
    · obtain ⟨vn, g, _, ra, g'⟩ := fv a h3
      rw [g'] at ha; cases ha
      have hqy : y = q := Option.some.inj hq
      split_ifs <;> omega
    · rw [e1 h1 h2 h3] at hq
      have := hrk a n0 q q0 g0 hq gq
      by_cases c1 : q = y
      · rw [c1] at this
        split_ifs
        omega
      by_cases c2 : q = s
      · rw [c2] at this
        split_ifs
        omega
      split_ifs
      omega

/-- Pointer updates of `rightRotate`: the mirror image of
`LinksOK.rotate_left`. -/
theorem LinksOK.rotate_right {G G' : Nat → Option Ptrs} {len y s : Nat} {p u v w : Option Nat}
    (hok : LinksOK G len)
    (hy : G y = some ⟨p, some s, u⟩) (hs : G s = some ⟨some y, w, v⟩)
    (hp : ∀ q, p = some q → ∃ pn pn', G q = some pn ∧ G' q = some pn' ∧
      pn'.parent = pn.parent ∧
      ((pn'.left = some s ∧ pn'.right = pn.right ∧ pn.right ≠ some y) ∨
       (pn'.right = some s ∧ pn'.left = pn.left ∧ pn.left ≠ some y)))
    (hy' : G' y = some ⟨some s, v, u⟩) (hs' : G' s = some ⟨p, w, some y⟩)
    (hv : ∀ x, v = some x → ∃ vn, G x = some vn ∧ G' x = some ⟨some y, vn.left, vn.right⟩)
    (ho : ∀ x, x ≠ y → x ≠ s → p ≠ some x → v ≠ some x → G' x = G x) :
    LinksOK G' len := by
  have key : LinksOK (fun a => (G' a).map Ptrs.mirror) len := by
    refine LinksOK.rotate_left (y := y) (s := s) (p := p) (u := u) (v := v) (w := w)
      hok.mirror_ok ?_ ?_ ?_ ?_ ?_ ?_ ?_
    · simp only [hy, Option.map_some', Ptrs.mirror]
    · simp only [hs, Option.map_some', Ptrs.mirror]
    · intro q hq
      obtain ⟨pn, pn', g, g', e1, e2⟩ := hp q hq
      refine ⟨pn.mirror, pn'.mirror, by simp only [g, Option.map_some'],
        by simp only [g', Option.map_some'], e1, ?_⟩
      rcases e2 with e2 | e2
      · exact Or.inr e2
      · exact Or.inl e2
    · simp only [hy', Option.map_some', Ptrs.mirror]
    · simp only [hs', Option.map_some', Ptrs.mirror]
    · intro x hx
      obtain ⟨vn, g, g'⟩ := hv x hx
      exact ⟨vn.mirror, by simp only [g, Option.map_some'],
        by simp only [g', Option.map_some', Ptrs.mirror]⟩
    · intro x h1 h2 h3 h4
      simp only [ho x h1 h2 h3 h4]
  refine key.mirror_ok.of_eq ?_
  intro x
  cases G' x <;> rfl

end CS280

namespace CS280
variable {K V : Type}

/-! ## Removing, adding and dropping nodes in the pointer structure -/

/-- Pointer updates of the leaf and one-child cases of `erase` on the node `N`:
`N` is deleted, its parent receives the only child of `N` (or null) on one side
and keeps its other child, which is not `N`; the child receives the parent of
`N` as its parent. -/
theorem LinksOK.splice {G G' : Nat → Option Ptrs} {len N : Nat} {p l r k : Option Nat}
    (hok : LinksOK G len) (hN : G N = some ⟨p, l, r⟩)
    (hch : (l = none ∧ k = r) ∨ (r = none ∧ k = l))
    (hN' : G' N = none)
    (hp : ∀ q, p = some q → ∃ pn pn', G q = some pn ∧ G' q = some pn' ∧
      pn'.parent = pn.parent ∧
      ((pn'.left = k ∧ pn'.right = pn.right ∧ pn.right ≠ some N) ∨
       (pn'.right = k ∧ pn'.left = pn.left ∧ pn.left ≠ some N)))
    (hc : ∀ x, k = some x → ∃ cn, G x = some cn ∧ G' x = some ⟨p, cn.left, cn.right⟩)
    (ho : ∀ x, x ≠ N → p ≠ some x → k ≠ some x → G' x = G x) :
    LinksOK G' len := by
  obtain ⟨rk, hrk⟩ := hok.rank
  have fc : ∀ x, k = some x → ∃ cn, G x = some cn ∧ cn.parent = some N ∧ rk N < rk x ∧
      G' x = some ⟨p, cn.left, cn.right⟩ := by
    intro x hx
    obtain ⟨cn, g, g'⟩ := hc x hx
    have hl : l = some x ∨ r = some x := by
      rcases hch with ⟨_, e⟩ | ⟨_, e⟩
      · exact Or.inr (e ▸ hx)
      · exact Or.inl (e ▸ hx)
    obtain ⟨cn2, gc, gp⟩ := hok.back N _ x hN hl
    rw [g] at gc; cases gc
    exact ⟨cn, g, gp, hrk x cn N _ g gp hN, g'⟩
  have fp : ∀ q, p = some q → ∃ pn pn', G q = some pn ∧ rk q < rk N ∧ G' q = some pn' ∧
      pn'.parent = pn.parent ∧
      ((pn'.left = k ∧ pn'.right = pn.right ∧ pn.right ≠ some N) ∨
       (pn'.right = k ∧ pn'.left = pn.left ∧ pn.left ≠ some N)) := by
    intro q hq
    obtain ⟨pn, pn', g, g', e1, e2⟩ := hp q hq
    exact ⟨pn, pn', g, hrk N _ q pn hN hq g, g', e1, e2⟩
  have par : ∀ c cn, G c = some cn → c ≠ N → k ≠ some c →
      ∃ cn', G' c = some cn' ∧ cn'.parent = cn.parent := by
    intro c cn gc h1 h3
    by_cases h4 : p = some c
    · obtain ⟨pn, pn', g, _, g', e1, _⟩ := fp c h4
      rw [gc] at g; cases g
      exact ⟨pn', g', e1⟩
    · exact ⟨cn, by rw [ho c h1 h4 h3]; exact gc, rfl⟩
  have old : ∀ a n', G' a = some n' → a ≠ N ∧ ∃ n, G a = some n ∧
      (k ≠ some a → n'.parent = n.parent) ∧
      (p ≠ some a → n'.left = n.left ∧ n'.right = n.right) := by
    intro a n' ga
    have h1 : a ≠ N := by
      intro e; rw [e, hN'] at ga; cases ga
    refine ⟨h1, ?_⟩
    by_cases h3 : k = some a
    · obtain ⟨cn, g, _, _, g'⟩ := fc a h3
      rw [g'] at ga; cases ga
      exact ⟨cn, g, fun h => absurd h3 h, fun _ => ⟨rfl, rfl⟩⟩
    by_cases h4 : p = some a
    · obtain ⟨pn, pn', g, _, g', e1, _⟩ := fp a h4
      rw [g'] at ga; cases ga
      exact ⟨pn, g, fun _ => e1, fun h => absurd h4 h⟩
    · rw [ho a h1 h4 h3] at ga
      exact ⟨n', ga, fun _ => rfl, fun _ => ⟨rfl, rfl⟩⟩
  have keep : ∀ a n c, G a = some n → (n.left = some c ∨ n.right = some c) → a ≠ N →
      c ≠ N → ∃ cn', G' c = some cn' ∧ cn'.parent = some a := by
    intro a n c ga hc haN hcN
    obtain ⟨cn, gc, gp⟩ := hok.back a n c ga hc
    have hcc : k ≠ some c := by
      intro e
      obtain ⟨cn2, g2, gp2, _⟩ := fc c e
      rw [gc] at g2; cases g2
      rw [gp] at gp2
      exact haN (Option.some.inj gp2)
    obtain ⟨cn', g', e'⟩ := par c cn gc hcN hcc
    exact ⟨cn', g', e'.trans gp⟩
  refine ⟨?_, ?_, ?_, ⟨rk, ?_⟩⟩
  · intro a n c ha hc
    obtain ⟨h1, n0, g0, _, e2⟩ := old a n ha
    by_cases h4 : p = some a
    · obtain ⟨pn, pn', g, rq, g', e1, e3⟩ := fp a h4
      rw [g'] at ha; cases ha
      have toC : k = some c → ∃ cn, G' c = some cn ∧ cn.parent = some a := by
        intro e
        obtain ⟨cn, _, _, _, gc'⟩ := fc c e
        exact ⟨_, gc', h4⟩
      rcases e3 with ⟨e3, e4, e5⟩ | ⟨e3, e4, e5⟩
      · rcases hc with hc | hc
        · exact toC (e3 ▸ hc)
        · rw [e4] at hc
          exact keep a pn c g (Or.inr hc) h1 (fun e => e5 (by rw [← e]; exact hc))
      · rcases hc with hc | hc
        · rw [e4] at hc
          exact keep a pn c g (Or.inl hc) h1 (fun e => e5 (by rw [← e]; exact hc))
        · exact toC (e3 ▸ hc)
    · obtain ⟨el, er⟩ := e2 h4
      rw [el, er] at hc
      refine keep a n0 c g0 hc h1 ?_
      intro e
      obtain ⟨cn, gc, gp⟩ := hok.back a n0 c g0 hc
      rw [e, hN] at gc; cases gc
      exact h4 gp
  · intro a n c ha hl hr
    obtain ⟨h1, n0, g0, _, e2⟩ := old a n ha
    by_cases h4 : p = some a
    · obtain ⟨pn, pn', g, rq, g', e1, e3⟩ := fp a h4
      rw [g'] at ha; cases ha
      have noc : ∀ c, k = some c → (pn.left = some c ∨ pn.right = some c) → False := by
        intro c e hc
        obtain ⟨cn, gc, gp⟩ := hok.back a pn c g hc
        obtain ⟨cn2, g2, gp2, _⟩ := fc c e
        rw [gc] at g2; cases g2
        rw [gp] at gp2
        exact h1 (Option.some.inj gp2)
      rcases e3 with ⟨e3, e4, e5⟩ | ⟨e3, e4, e5⟩
      · rw [e3] at hl; rw [e4] at hr
        exact noc c hl (Or.inr hr)
      · rw [e3] at hr; rw [e4] at hl
        exact noc c hr (Or.inl hl)
    · obtain ⟨el, er⟩ := e2 h4
      rw [el] at hl; rw [er] at hr
      exact hok.sides a n0 c g0 hl hr
  · intro a n ha
    obtain ⟨h1, n0, g0, e1, _⟩ := old a n ha
    refine ⟨(hok.bound a n0 g0).1, ?_⟩
    intro q hq
    by_cases h3 : k = some a
    · obtain ⟨cn, g, _, _, g'⟩ := fc a h3
      rw [g'] at ha; cases ha
      exact (hok.bound N _ hN).2 q hq
    · rw [e1 h3] at hq
      exact (hok.bound a n0 g0).2 q hq
  · intro a n q qn ha hq hqn
    obtain ⟨h1, n0, g0, e1, _⟩ := old a n ha
    obtain ⟨_, q0, gq, _⟩ := old q qn hqn
    by_cases h3 : k = some a
    · obtain ⟨cn, g, _, ra, g'⟩ := fc a h3
      rw [g'] at ha; cases ha
      obtain ⟨_, _, _, rq, _⟩ := fp q hq
      omega
    · rw [e1 h3] at hq
      exact hrk a n0 q q0 g0 hq gq

/-- Pointer updates of the linking of a new node in `insert`: the new cell is
stored at the first free address `len`, with null child pointers; its parent
`P`, if any, receives it on one side and keeps its other child. -/
theorem LinksOK.link {G G' : Nat → Option Ptrs} {len : Nat} {P : Option Nat}
    (hok : LinksOK G len)
    (hnew : G' len = some ⟨P, none, none⟩)
    (hP : ∀ q, P = some q → ∃ pn pn', G q = some pn ∧ G' q = some pn' ∧
      pn'.parent = pn.parent ∧
      ((pn'.left = some len ∧ pn'.right = pn.right) ∨
       (pn'.right = some len ∧ pn'.left = pn.left)))
    (ho : ∀ x, x ≠ len → P ≠ some x → G' x = G x) :
    LinksOK G' (len + 1) := by
  obtain ⟨rk, hrk⟩ := hok.rank
  have fresh : ∀ n, G len ≠ some n := by
    intro n e
    have := (hok.bound len n e).1
    omega
  have par : ∀ c cn, G c = some cn → c ≠ len ∧ ∃ cn', G' c = some cn' ∧
      cn'.parent = cn.parent := by
    intro c cn gc
    have h1 : c ≠ len := by
      intro e; rw [e] at gc; exact fresh _ gc
    refine ⟨h1, ?_⟩
    by_cases h4 : P = some c
    · obtain ⟨pn, pn', g, g', e1, _⟩ := hP c h4
      rw [gc] at g; cases g
      exact ⟨pn', g', e1⟩
    · exact ⟨cn, by rw [ho c h1 h4]; exact gc, rfl⟩
  have old : ∀ a n', G' a = some n' → a ≠ len → ∃ n, G a = some n ∧
      n'.parent = n.parent ∧ (P ≠ some a → n'.left = n.left ∧ n'.right = n.right) := by
    intro a n' ga h1
    by_cases h4 : P = some a
    · obtain ⟨pn, pn', g, g', e1, _⟩ := hP a h4
      rw [g'] at ga; cases ga
      exact ⟨pn, g, e1, fun h => absurd h4 h⟩
    · rw [ho a h1 h4] at ga
      exact ⟨n', ga, rfl, fun _ => ⟨rfl, rfl⟩⟩
  have keep : ∀ a n c, G a = some n → (n.left = some c ∨ n.right = some c) →
      ∃ cn', G' c = some cn' ∧ cn'.parent = some a := by
    intro a n c ga hc
    obtain ⟨cn, gc, gp⟩ := hok.back a n c ga hc
    obtain ⟨_, cn', g', e'⟩ := par c cn gc
    exact ⟨cn', g', e'.trans gp⟩
  refine ⟨?_, ?_, ?_, ?_⟩
  · intro a n c ha hc
    by_cases h1 : a = len
    · rw [h1, hnew] at ha; cases ha
      rcases hc with hc | hc <;> cases hc
    obtain ⟨n0, g0, _, e2⟩ := old a n ha h1
    by_cases h4 : P = some a
    · obtain ⟨pn, pn', g, g', e1, e3⟩ := hP a h4
      rw [g'] at ha; cases ha
      have toN : ∃ cn, G' len = some cn ∧ cn.parent = some a := ⟨_, hnew, h4⟩
      rcases e3 with ⟨e3, e4⟩ | ⟨e3, e4⟩
      · rcases hc with hc | hc
        · rw [e3] at hc; cases hc; exact toN
        · rw [e4] at hc; exact keep a pn c g (Or.inr hc)
      · rcases hc with hc | hc
        · rw [e4] at hc; exact keep a pn c g (Or.inl hc)
        · rw [e3] at hc; cases hc; exact toN
    · obtain ⟨el, er⟩ := e2 h4
      rw [el, er] at hc
      exact keep a n0 c g0 hc
  · intro a n c ha hl hr
    by_cases h1 : a = len
    · rw [h1, hnew] at ha; cases ha
      cases hl
    obtain ⟨n0, g0, _, e2⟩ := old a n ha h1
    by_cases h4 : P = some a
    · obtain ⟨pn, pn', g, g', e1, e3⟩ := hP a h4
      rw [g'] at ha; cases ha
      have nol : ∀ c, (pn.left = some c ∨ pn.right = some c) → c ≠ len := by
        intro c hc e
        obtain ⟨cn, gc, _⟩ := hok.back a pn c g hc
        rw [e] at gc; exact fresh _ gc
      rcases e3 with ⟨e3, e4⟩ | ⟨e3, e4⟩
      · rw [e3] at hl; rw [e4] at hr
        exact nol c (Or.inr hr) (Option.some.inj hl).symm
      · rw [e3] at hr; rw [e4] at hl
        exact nol c (Or.inl hl) (Option.some.inj hr).symm
    · obtain ⟨el, er⟩ := e2 h4
      rw [el] at hl; rw [er] at hr
      exact hok.sides a n0 c g0 hl hr
  · intro a n ha
    by_cases h1 : a = len
    · rw [h1, hnew] at ha; cases ha
      refine ⟨by omega, ?_⟩
      intro q hq
      obtain ⟨pn, _, g, _⟩ := hP q hq
      have := (hok.bound q pn g).1
      omega
    obtain ⟨n0, g0, e1, _⟩ := old a n ha h1
    have hb := hok.bound a n0 g0
    refine ⟨by omega, ?_⟩
    intro q hq
    rw [e1] at hq
    have := hb.2 q hq
    omega
  · refine ⟨fun x => if x = len then (match P with | some q => rk q + 1 | none => 0) else rk x, ?_⟩
    intro a n q qn ha hq hqn
    show (if q = len then (match P with | some q => rk q + 1 | none => 0) else rk q) <
      (if a = len then (match P with | some q => rk q + 1 | none => 0) else rk a)
    by_cases h1 : a = len
    · rw [h1, hnew] at ha; cases ha
      obtain ⟨pn, _, g, _⟩ := hP q hq
      have h2 : q ≠ len := by
        intro e; rw [e] at g; exact fresh _ g
      have hq' : P = some q := hq
      subst hq'
      rw [if_neg h2, if_pos h1]
      exact Nat.lt_succ_self _
    obtain ⟨n0, g0, e1, _⟩ := old a n ha h1
    rw [e1] at hq
    have h2 : q ≠ len := by
      intro e
      have := (hok.bound a n0 g0).2 q hq
      omega
    obtain ⟨q0, gq, _⟩ := old q qn hqn h2
    rw [if_neg h2, if_neg h1]
    exact hrk a n0 q q0 g0 hq gq

/-- A pointer update that only resets child pointers of one cell to null. -/
theorem LinksOK.unlink {G G' : Nat → Option Ptrs} {len a : Nat} {n n' : Ptrs}
    (hok : LinksOK G len) (ha : G a = some n) (ha' : G' a = some n')
    (e1 : n'.parent = n.parent) (e2 : n'.left = n.left ∨ n'.left = none)
    (e3 : n'.right = n.right ∨ n'.right = none)
    (ho : ∀ x, x ≠ a → G' x = G x) : LinksOK G' len := by
  obtain ⟨rk, hrk⟩ := hok.rank
  have old : ∀ x m', G' x = some m' → ∃ m, G x = some m ∧ m'.parent = m.parent ∧
      (m'.left = m.left ∨ m'.left = none) ∧ (m'.right = m.right ∨ m'.right = none) := by
    intro x m' gx
    by_cases h1 : x = a
    · rw [h1] at gx ⊢
      rw [ha'] at gx; cases gx
      exact ⟨n, ha, e1, e2, e3⟩
    · rw [ho x h1] at gx
      exact ⟨m', gx, rfl, Or.inl rfl, Or.inl rfl⟩
  have par : ∀ c cn, G c = some cn → ∃ cn', G' c = some cn' ∧ cn'.parent = cn.parent := by
    intro c cn gc
    by_cases h1 : c = a
    · rw [h1] at gc ⊢
      rw [ha] at gc; cases gc
      exact ⟨n', ha', e1⟩
    · exact ⟨cn, by rw [ho c h1]; exact gc, rfl⟩
  refine ⟨?_, ?_, ?_, ⟨rk, ?_⟩⟩
  · intro x m' c gx hc
    obtain ⟨m, g, _, l1, l2⟩ := old x m' gx
    have hc' : m.left = some c ∨ m.right = some c := by
      rcases hc with hc | hc
      · rcases l1 with l1 | l1
        · exact Or.inl (l1 ▸ hc)
        · rw [l1] at hc; cases hc
      · rcases l2 with l2 | l2
        · exact Or.inr (l2 ▸ hc)
        · rw [l2] at hc; cases hc
    obtain ⟨cn, gc, gp⟩ := hok.back x m c g hc'
    obtain ⟨cn', g', e'⟩ := par c cn gc
    exact ⟨cn', g', e'.trans gp⟩
  · intro x m' c gx hl hr
    obtain ⟨m, g, _, l1, l2⟩ := old x m' gx
    rcases l1 with l1 | l1
    · rcases l2 with l2 | l2
      · exact hok.sides x m c g (l1 ▸ hl) (l2 ▸ hr)
      · rw [l2] at hr; cases hr
    · rw [l1] at hl; cases hl
  · intro x m' gx
    obtain ⟨m, g, e, _⟩ := old x m' gx
    refine ⟨(hok.bound x m g).1, ?_⟩
    intro q hq
    rw [e] at hq
    exact (hok.bound x m g).2 q hq
  · intro x m' q qn gx hq gq
    obtain ⟨m, g, e, _⟩ := old x m' gx
    obtain ⟨q0, g0, _⟩ := old q qn gq
    rw [e] at hq
    exact hrk x m q q0 g hq g0

end CS280

namespace CS280
variable {K V : Type}

/-! ## The pointer updates of the rotations, read off the code -/

theorem Heap.modify_eq_some {h h' : Heap K V} {a : Nat} {f : Node K V → Node K V} :
    h.modify a f = some h' ↔ ∃ n, h.get? a = some n ∧ h.put a (f n) = h' := by
  unfold Heap.modify; cases h.get? a <;> simp

theorem Heap.links_of_get? {h : Heap K V} {a : Nat} {n : Node K V} (hg : h.get? a = some n) :
    h.links a = some n.ptrs := by
  simp only [Heap.links, hg, Option.map_some']

theorem Heap.get?_of_links {h : Heap K V} {a : Nat} {n : Ptrs} (hg : h.links a = some n) :
    ∃ c, h.get? a = some c ∧ c.ptrs = n := by
  simp only [Heap.links, Option.map_eq_some'] at hg
  exact hg

theorem replaceChild_eq_some {h h' : Heap K V} {p : Option Nat} {y : Nat} {n : Option Nat}
    (e : replaceChild h p y n = some h') :
    (p = none ∧ h' = h) ∨ ∃ q pn, p = some q ∧ h.get? q = some pn ∧
      h' = h.put q (if pn.left = some y then { pn with left := n } else { pn with right := n }) := by
  rcases p with _ | q
  · rw [replaceChild_none] at e
    exact Or.inl ⟨rfl, (Option.some.inj e).symm⟩
  · rw [replaceChild_some] at e
    rcases hq : h.get? q with _ | pn
    · rw [hq] at e; cases e
    · rw [hq, obind_some, Heap.modify_eq hq] at e
      exact Or.inr ⟨q, pn, rfl, hq, (Option.some.inj e).symm⟩

theorem setParent_eq_some {h h' : Heap K V} {v p : Option Nat}
    (e : setParent h v p = some h') :
    (v = none ∧ h' = h) ∨ ∃ x vn, v = some x ∧ h.get? x = some vn ∧
      h' = h.put x { vn with parent := p } := by
  rcases v with _ | x
  · rw [setParent_none] at e
    exact Or.inl ⟨rfl, (Option.some.inj e).symm⟩
  · rw [setParent_some] at e
    obtain ⟨vn, g, e'⟩ := Heap.modify_eq_some.1 e
    exact Or.inr ⟨x, vn, rfl, g, e'.symm⟩

set_option maxHeartbeats 1000000 in
/-- The cells after `leftRotate(y)` has returned, when `y` has the right child
`s` and the cells of `y`, `s`, the parent of `y` and the left child of `s` are
distinct. -/
theorem leftRotate_effect {h h' : Heap K V} {y s : Nat} {r : Option Nat} {yn sn : Node K V}
    (hy : h.get? y = some yn) (hs : yn.right = some s) (hsn : h.get? s = some sn)
    (d1 : y ≠ s) (d2 : sn.left ≠ some y) (d3 : sn.left ≠ some s)
    (d4 : yn.parent ≠ some y) (d5 : yn.parent ≠ some s)
    (d6 : ∀ q, yn.parent = some q → sn.left ≠ some q)
    (e : leftRotate h (some y) = some (h', r)) :
    r = some s ∧ h'.cells.length = h.cells.length ∧
    h'.links y = some ⟨some s, yn.left, sn.left⟩ ∧
    h'.links s = some ⟨yn.parent, some y, sn.right⟩ ∧
    (∀ q, yn.parent = some q → ∃ pn, h.get? q = some pn ∧
      h'.links q = some (if pn.left = some y then ⟨pn.parent, some s, pn.right⟩
        else ⟨pn.parent, pn.left, some s⟩)) ∧
    (∀ x, sn.left = some x → ∃ vn, h.get? x = some vn ∧
      h'.links x = some ⟨some y, vn.left, vn.right⟩) ∧
    (∀ x, x ≠ y → x ≠ s → yn.parent ≠ some x → sn.left ≠ some x → h'.get? x = h.get? x) := by
  have ls : s < h.cells.length := Heap.lt_of_get? hsn
  have ly : y < h.cells.length := Heap.lt_of_get? hy
  rw [leftRotate_some, hy, obind_some] at e
  simp only [hs] at e
  simp only [Option.bind_eq_bind, Option.bind_eq_some, Heap.modify_eq_some, hsn,
    Option.some.injEq, exists_eq_left'] at e
  obtain ⟨H2, ⟨n2, g2, rfl⟩, yn2, gy2, H3, ⟨n3, g3, rfl⟩, H4, hrc, H5, ⟨n5, g5, rfl⟩, H6, hsp,
    hy6, hgh, H7, ⟨n7, g7, rfl⟩, hs7, hgh2, H8, ⟨n8, g8, rfl⟩, hfin⟩ := e
  rw [Heap.get?_put_ne _ _ d1, hy] at g2
  cases g2
  rw [Heap.get?_put_self (by simpa using ly)] at gy2
  cases gy2
  rw [Heap.get?_put_ne _ _ (Ne.symm d1), Heap.get?_put_self ls] at g3
  cases g3
  simp only at hrc
  obtain ⟨rfl, rfl⟩ := Prod.mk.inj hfin
  rcases replaceChild_eq_some hrc with ⟨hp, rfl⟩ | ⟨q, pn, hp, gq, rfl⟩
  · rcases setParent_eq_some hsp with ⟨hv, rfl⟩ | ⟨x, vn, hv, gx, rfl⟩
    · simp (disch := first | assumption | exact Ne.symm (by assumption) |
        (simp only [Heap.put_length]; assumption)) only
        [Heap.get?_put_ne, Heap.get?_put_self] at g5
      cases g5
      simp (disch := first | assumption | exact Ne.symm (by assumption) |
        (simp only [Heap.put_length]; assumption)) only
        [Heap.get?_put_ne, Heap.get?_put_self] at g7
      cases g7
      simp (disch := first | assumption | exact Ne.symm (by assumption) |
        (simp only [Heap.put_length]; assumption)) only
        [Heap.get?_put_ne, Heap.get?_put_self] at g8
      cases g8
      refine ⟨rfl, by simp only [Heap.put_length], ?_, ?_, ?_, ?_, ?_⟩
      · simp (disch := first | assumption | exact Ne.symm (by assumption) |
        (simp only [Heap.put_length]; assumption)) only
          [Heap.links, Heap.get?_put_ne, Heap.get?_put_self, Option.map_some', Node.ptrs]
      · simp (disch := first | assumption | exact Ne.symm (by assumption) |
        (simp only [Heap.put_length]; assumption)) only
          [Heap.links, Heap.get?_put_ne, Heap.get?_put_self, Option.map_some', Node.ptrs]
      · intro q hq; rw [hp] at hq; cases hq
      · intro x hx; rw [hv] at hx; cases hx
      · intro z h1 h2 h3 h4
        simp (disch := first | assumption | exact Ne.symm (by assumption) |
        (simp only [Heap.put_length]; assumption)) only
          [Heap.get?_put_ne]
    · simp (disch := first | assumption | exact Ne.symm (by assumption) |
        (simp only [Heap.put_length]; assumption)) only
        [Heap.get?_put_ne, Heap.get?_put_self] at g5
      cases g5
      have hxy : x ≠ y := fun e => d2 (by rw [hv, e])
      have hxs : x ≠ s := fun e => d3 (by rw [hv, e])
      simp (disch := first | assumption | exact Ne.symm (by assumption) |
        (simp only [Heap.put_length]; assumption)) only
        [Heap.get?_put_ne, Heap.get?_put_self] at gx
      have lx : x < h.cells.length := Heap.lt_of_get? gx
      simp (disch := first | assumption | exact Ne.symm (by assumption) |
        (simp only [Heap.put_length]; assumption)) only
        [Heap.get?_put_ne, Heap.get?_put_self] at g7
      cases g7
      simp (disch := first | assumption | exact Ne.symm (by assumption) |
        (simp only [Heap.put_length]; assumption)) only
        [Heap.get?_put_ne, Heap.get?_put_self] at g8
      cases g8
      refine ⟨rfl, by simp only [Heap.put_length], ?_, ?_, ?_, ?_, ?_⟩
      · simp (disch := first | assumption | exact Ne.symm (by assumption) |
        (simp only [Heap.put_length]; assumption)) only
          [Heap.links, Heap.get?_put_ne, Heap.get?_put_self, Option.map_some', Node.ptrs]
      · simp (disch := first | assumption | exact Ne.symm (by assumption) |
        (simp only [Heap.put_length]; assumption)) only
          [Heap.links, Heap.get?_put_ne, Heap.get?_put_self, Option.map_some', Node.ptrs]
      · intro q hq; rw [hp] at hq; cases hq
      · intro x' hx'
        rw [hv] at hx'
        obtain rfl : x = x' := Option.some.inj hx'
        refine ⟨vn, gx, ?_⟩
        simp (disch := first | assumption | exact Ne.symm (by assumption) |
        (simp only [Heap.put_length]; assumption)) only
          [Heap.links, Heap.get?_put_ne, Heap.get?_put_self, Option.map_some', Node.ptrs]
      · intro z h1 h2 h3 h4
        have h6 : z ≠ x := fun e => h4 (by rw [hv, e])
        simp (disch := first | assumption | exact Ne.symm (by assumption) |
        (simp only [Heap.put_length]; assumption)) only
          [Heap.get?_put_ne]
  · rcases setParent_eq_some hsp with ⟨hv, rfl⟩ | ⟨x, vn, hv, gx, rfl⟩
    · have hqy : q ≠ y := fun e => d4 (by rw [hp, e])
      have hqs : q ≠ s := fun e => d5 (by rw [hp, e])
      simp (disch := first | assumption | exact Ne.symm (by assumption) |
        (simp only [Heap.put_length]; assumption)) only
        [Heap.get?_put_ne, Heap.get?_put_self] at gq
      have lq : q < h.cells.length := Heap.lt_of_get? gq
      simp (disch := first | assumption | exact Ne.symm (by assumption) |
        (simp only [Heap.put_length]; assumption)) only
        [Heap.get?_put_ne, Heap.get?_put_self] at g5
      cases g5
      simp (disch := first | assumption | exact Ne.symm (by assumption) |
        (simp only [Heap.put_length]; assumption)) only
        [Heap.get?_put_ne, Heap.get?_put_self] at g7
      cases g7
      simp (disch := first | assumption | exact Ne.symm (by assumption) |
        (simp only [Heap.put_length]; assumption)) only
        [Heap.get?_put_ne, Heap.get?_put_self] at g8
      cases g8
      refine ⟨rfl, by simp only [Heap.put_length], ?_, ?_, ?_, ?_, ?_⟩
      · simp (disch := first | assumption | exact Ne.symm (by assumption) |
        (simp only [Heap.put_length]; assumption)) only
          [Heap.links, Heap.get?_put_ne, Heap.get?_put_self, Option.map_some', Node.ptrs]
      · simp (disch := first | assumption | exact Ne.symm (by assumption) |
        (simp only [Heap.put_length]; assumption)) only
          [Heap.links, Heap.get?_put_ne, Heap.get?_put_self, Option.map_some', Node.ptrs]
      · intro q' hq'
        rw [hp] at hq'
        obtain rfl : q = q' := Option.some.inj hq'
        refine ⟨pn, gq, ?_⟩
        by_cases hc : pn.left = some y
        · simp (disch := first | assumption | exact Ne.symm (by assumption) |
        (simp only [Heap.put_length]; assumption)) only
          [Heap.links, Heap.get?_put_ne, Heap.get?_put_self, Option.map_some', Node.ptrs, hc, if_true]
        · simp (disch := first | assumption | exact Ne.symm (by assumption) |
        (simp only [Heap.put_length]; assumption)) only
          [Heap.links, Heap.get?_put_ne, Heap.get?_put_self, Option.map_some', Node.ptrs, hc, if_false]
      · intro x hx; rw [hv] at hx; cases hx
      · intro z h1 h2 h3 h4
        have h5 : z ≠ q := fun e => h3 (by rw [hp, e])
        simp (disch := first | assumption | exact Ne.symm (by assumption) |
        (simp only [Heap.put_length]; assumption)) only
          [Heap.get?_put_ne]
    · have hqy : q ≠ y := fun e => d4 (by rw [hp, e])
      have hqs : q ≠ s := fun e => d5 (by rw [hp, e])
      simp (disch := first | assumption | exact Ne.symm (by assumption) |
        (simp only [Heap.put_length]; assumption)) only
        [Heap.get?_put_ne, Heap.get?_put_self] at gq
      have lq : q < h.cells.length := Heap.lt_of_get? gq
      simp (disch := first | assumption | exact Ne.symm (by assumption) |
        (simp only [Heap.put_length]; assumption)) only
        [Heap.get?_put_ne, Heap.get?_put_self] at g5
      cases g5
      have hxy : x ≠ y := fun e => d2 (by rw [hv, e])
      have hxs : x ≠ s := fun e => d3 (by rw [hv, e])
      have hxq : x ≠ q := fun e => d6 q hp (by rw [hv, e])
      simp (disch := first | assumption | exact Ne.symm (by assumption) |
        (simp only [Heap.put_length]; assumption)) only
        [Heap.get?_put_ne, Heap.get?_put_self] at gx
      have lx : x < h.cells.length := Heap.lt_of_get? gx
      simp (disch := first | assumption | exact Ne.symm (by assumption) |
        (simp only [Heap.put_length]; assumption)) only
        [Heap.get?_put_ne, Heap.get?_put_self] at g7
      cases g7
      simp (disch := first | assumption | exact Ne.symm (by assumption) |
        (simp only [Heap.put_length]; assumption)) only
        [Heap.get?_put_ne, Heap.get?_put_self] at g8
      cases g8
      refine ⟨rfl, by simp only [Heap.put_length], ?_, ?_, ?_, ?_, ?_⟩
      · simp (disch := first | assumption | exact Ne.symm (by assumption) |
        (simp only [Heap.put_length]; assumption)) only
          [Heap.links, Heap.get?_put_ne, Heap.get?_put_self, Option.map_some', Node.ptrs]
      · simp (disch := first | assumption | exact Ne.symm (by assumption) |
        (simp only [Heap.put_length]; assumption)) only
          [Heap.links, Heap.get?_put_ne, Heap.get?_put_self, Option.map_some', Node.ptrs]
      · intro q' hq'
        rw [hp] at hq'
        obtain rfl : q = q' := Option.some.inj hq'
        refine ⟨pn, gq, ?_⟩
        by_cases hc : pn.left = some y
        · simp (disch := first | assumption | exact Ne.symm (by assumption) |
        (simp only [Heap.put_length]; assumption)) only
          [Heap.links, Heap.get?_put_ne, Heap.get?_put_self, Option.map_some', Node.ptrs, hc, if_true]
        · simp (disch := first | assumption | exact Ne.symm (by assumption) |
        (simp only [Heap.put_length]; assumption)) only
          [Heap.links, Heap.get?_put_ne, Heap.get?_put_self, Option.map_some', Node.ptrs, hc, if_false]
      · intro x' hx'
        rw [hv] at hx'
        obtain rfl : x = x' := Option.some.inj hx'
        refine ⟨vn, gx, ?_⟩
        simp (disch := first | assumption | exact Ne.symm (by assumption) |
        (simp only [Heap.put_length]; assumption)) only
          [Heap.links, Heap.get?_put_ne, Heap.get?_put_self, Option.map_some', Node.ptrs]
      · intro z h1 h2 h3 h4
        have h5 : z ≠ q := fun e => h3 (by rw [hp, e])
        have h6 : z ≠ x := fun e => h4 (by rw [hv, e])
        simp (disch := first | assumption | exact Ne.symm (by assumption) |
        (simp only [Heap.put_length]; assumption)) only
          [Heap.get?_put_ne]

set_option maxHeartbeats 1000000 in
/-- The cells after `rightRotate(y)` has returned, when `y` has the left child
`s` and the cells of `y`, `s`, the parent of `y` and the right child of `s` are
distinct. -/
theorem rightRotate_effect {h h' : Heap K V} {y s : Nat} {r : Option Nat} {yn sn : Node K V}
    (hy : h.get? y = some yn) (hs : yn.left = some s) (hsn : h.get? s = some sn)
    (d1 : y ≠ s) (d2 : sn.right ≠ some y) (d3 : sn.right ≠ some s)
    (d4 : yn.parent ≠ some y) (d5 : yn.parent ≠ some s)
    (d6 : ∀ q, yn.parent = some q → sn.right ≠ some q)
    (e : rightRotate h (some y) = some (h', r)) :
    r = some s ∧ h'.cells.length = h.cells.length ∧
    h'.links y = some ⟨some s, sn.right, yn.right⟩ ∧
    h'.links s = some ⟨yn.parent, sn.left, some y⟩ ∧
    (∀ q, yn.parent = some q → ∃ pn, h.get? q = some pn ∧
      h'.links q = some (if pn.left = some y then ⟨pn.parent, some s, pn.right⟩
        else ⟨pn.parent, pn.left, some s⟩)) ∧
    (∀ x, sn.right = some x → ∃ vn, h.get? x = some vn ∧
      h'.links x = some ⟨some y, vn.left, vn.right⟩) ∧
    (∀ x, x ≠ y → x ≠ s → yn.parent ≠ some x → sn.right ≠ some x → h'.get? x = h.get? x) := by
  have ls : s < h.cells.length := Heap.lt_of_get? hsn
  have ly : y < h.cells.length := Heap.lt_of_get? hy
  rw [rightRotate_some, hy, obind_some] at e
  simp only [hs] at e
  simp only [Option.bind_eq_bind, Option.bind_eq_some, Heap.modify_eq_some, hsn,
    Option.some.injEq, exists_eq_left'] at e
  obtain ⟨H2, ⟨n2, g2, rfl⟩, yn2, gy2, H3, ⟨n3, g3, rfl⟩, H4, hrc, H5, ⟨n5, g5, rfl⟩, H6, hsp,
    hy6, hgh, H7, ⟨n7, g7, rfl⟩, hs7, hgh2, H8, ⟨n8, g8, rfl⟩, hfin⟩ := e
  rw [Heap.get?_put_ne _ _ d1, hy] at g2
  cases g2
  rw [Heap.get?_put_self (by simpa using ly)] at gy2
  cases gy2
  rw [Heap.get?_put_ne _ _ (Ne.symm d1), Heap.get?_put_self ls] at g3
  cases g3
  simp only at hrc
  obtain ⟨rfl, rfl⟩ := Prod.mk.inj hfin
  rcases replaceChild_eq_some hrc with ⟨hp, rfl⟩ | ⟨q, pn, hp, gq, rfl⟩
  · rcases setParent_eq_some hsp with ⟨hv, rfl⟩ | ⟨x, vn, hv, gx, rfl⟩
    · simp (disch := first | assumption | exact Ne.symm (by assumption) |
        (simp only [Heap.put_length]; assumption)) only
        [Heap.get?_put_ne, Heap.get?_put_self] at g5
      cases g5
      simp (disch := first | assumption | exact Ne.symm (by assumption) |
        (simp only [Heap.put_length]; assumption)) only
        [Heap.get?_put_ne, Heap.get?_put_self] at g7
      cases g7
      simp (disch := first | assumption | exact Ne.symm (by assumption) |
        (simp only [Heap.put_length]; assumption)) only
        [Heap.get?_put_ne, Heap.get?_put_self] at g8
      cases g8
      refine ⟨rfl, by simp only [Heap.put_length], ?_, ?_, ?_, ?_, ?_⟩
      · simp (disch := first | assumption | exact Ne.symm (by assumption) |
        (simp only [Heap.put_length]; assumption)) only
          [Heap.links, Heap.get?_put_ne, Heap.get?_put_self, Option.map_some', Node.ptrs]
      · simp (disch := first | assumption | exact Ne.symm (by assumption) |
        (simp only [Heap.put_length]; assumption)) only
          [Heap.links, Heap.get?_put_ne, Heap.get?_put_self, Option.map_some', Node.ptrs]
      · intro q hq; rw [hp] at hq; cases hq
      · intro x hx; rw [hv] at hx; cases hx
      · intro z h1 h2 h3 h4
        simp (disch := first | assumption | exact Ne.symm (by assumption) |
        (simp only [Heap.put_length]; assumption)) only
          [Heap.get?_put_ne]
    · simp (disch := first | assumption | exact Ne.symm (by assumption) |
        (simp only [Heap.put_length]; assumption)) only
        [Heap.get?_put_ne, Heap.get?_put_self] at g5
      cases g5
      have hxy : x ≠ y := fun e => d2 (by rw [hv, e])
      have hxs : x ≠ s := fun e => d3 (by rw [hv, e])
      simp (disch := first | assumption | exact Ne.symm (by assumption) |
        (simp only [Heap.put_length]; assumption)) only
        [Heap.get?_put_ne, Heap.get?_put_self] at gx
      have lx : x < h.cells.length := Heap.lt_of_get? gx
      simp (disch := first | assumption | exact Ne.symm (by assumption) |
        (simp only [Heap.put_length]; assumption)) only
        [Heap.get?_put_ne, Heap.get?_put_self] at g7
      cases g7
      simp (disch := first | assumption | exact Ne.symm (by assumption) |
        (simp only [Heap.put_length]; assumption)) only
        [Heap.get?_put_ne, Heap.get?_put_self] at g8
      cases g8
      refine ⟨rfl, by simp only [Heap.put_length], ?_, ?_, ?_, ?_, ?_⟩
      · simp (disch := first | assumption | exact Ne.symm (by assumption) |
        (simp only [Heap.put_length]; assumption)) only
          [Heap.links, Heap.get?_put_ne, Heap.get?_put_self, Option.map_some', Node.ptrs]
      · simp (disch := first | assumption | exact Ne.symm (by assumption) |
        (simp only [Heap.put_length]; assumption)) only
          [Heap.links, Heap.get?_put_ne, Heap.get?_put_self, Option.map_some', Node.ptrs]
      · intro q hq; rw [hp] at hq; cases hq
      · intro x' hx'
        rw [hv] at hx'
        obtain rfl : x = x' := Option.some.inj hx'
        refine ⟨vn, gx, ?_⟩
        simp (disch := first | assumption | exact Ne.symm (by assumption) |
        (simp only [Heap.put_length]; assumption)) only
          [Heap.links, Heap.get?_put_ne, Heap.get?_put_self, Option.map_some', Node.ptrs]
      · intro z h1 h2 h3 h4
        have h6 : z ≠ x := fun e => h4 (by rw [hv, e])
        simp (disch := first | assumption | exact Ne.symm (by assumption) |
        (simp only [Heap.put_length]; assumption)) only
          [Heap.get?_put_ne]
  · rcases setParent_eq_some hsp with ⟨hv, rfl⟩ | ⟨x, vn, hv, gx, rfl⟩
    · have hqy : q ≠ y := fun e => d4 (by rw [hp, e])
      have hqs : q ≠ s := fun e => d5 (by rw [hp, e])
      simp (disch := first | assumption | exact Ne.symm (by assumption) |
        (simp only [Heap.put_length]; assumption)) only
        [Heap.get?_put_ne, Heap.get?_put_self] at gq
      have lq : q < h.cells.length := Heap.lt_of_get? gq
      simp (disch := first | assumption | exact Ne.symm (by assumption) |
        (simp only [Heap.put_length]; assumption)) only
        [Heap.get?_put_ne, Heap.get?_put_self] at g5
      cases g5
      simp (disch := first | assumption | exact Ne.symm (by assumption) |
        (simp only [Heap.put_length]; assumption)) only
        [Heap.get?_put_ne, Heap.get?_put_self] at g7
      cases g7
      simp (disch := first | assumption | exact Ne.symm (by assumption) |
        (simp only [Heap.put_length]; assumption)) only
        [Heap.get?_put_ne, Heap.get?_put_self] at g8
      cases g8
      refine ⟨rfl, by simp only [Heap.put_length], ?_, ?_, ?_, ?_, ?_⟩
      · simp (disch := first | assumption | exact Ne.symm (by assumption) |
        (simp only [Heap.put_length]; assumption)) only
          [Heap.links, Heap.get?_put_ne, Heap.get?_put_self, Option.map_some', Node.ptrs]
      · simp (disch := first | assumption | exact Ne.symm (by assumption) |
        (simp only [Heap.put_length]; assumption)) only
          [Heap.links, Heap.get?_put_ne, Heap.get?_put_self, Option.map_some', Node.ptrs]
      · intro q' hq'
        rw [hp] at hq'
        obtain rfl : q = q' := Option.some.inj hq'
        refine ⟨pn, gq, ?_⟩
        by_cases hc : pn.left = some y
        · simp (disch := first | assumption | exact Ne.symm (by assumption) |
        (simp only [Heap.put_length]; assumption)) only
          [Heap.links, Heap.get?_put_ne, Heap.get?_put_self, Option.map_some', Node.ptrs, hc, if_true]
        · simp (disch := first | assumption | exact Ne.symm (by assumption) |
        (simp only [Heap.put_length]; assumption)) only
          [Heap.links, Heap.get?_put_ne, Heap.get?_put_self, Option.map_some', Node.ptrs, hc, if_false]
      · intro x hx; rw [hv] at hx; cases hx
      · intro z h1 h2 h3 h4
        have h5 : z ≠ q := fun e => h3 (by rw [hp, e])
        simp (disch := first | assumption | exact Ne.symm (by assumption) |
        (simp only [Heap.put_length]; assumption)) only
          [Heap.get?_put_ne]
    · have hqy : q ≠ y := fun e => d4 (by rw [hp, e])
      have hqs : q ≠ s := fun e => d5 (by rw [hp, e])
      simp (disch := first | assumption | exact Ne.symm (by assumption) |
        (simp only [Heap.put_length]; assumption)) only
        [Heap.get?_put_ne, Heap.get?_put_self] at gq
      have lq : q < h.cells.length := Heap.lt_of_get? gq
      simp (disch := first | assumption | exact Ne.symm (by assumption) |
        (simp only [Heap.put_length]; assumption)) only
        [Heap.get?_put_ne, Heap.get?_put_self] at g5
      cases g5
      have hxy : x ≠ y := fun e => d2 (by rw [hv, e])
      have hxs : x ≠ s := fun e => d3 (by rw [hv, e])
      have hxq : x ≠ q := fun e => d6 q hp (by rw [hv, e])
      simp (disch := first | assumption | exact Ne.symm (by assumption) |
        (simp only [Heap.put_length]; assumption)) only
        [Heap.get?_put_ne, Heap.get?_put_self] at gx
      have lx : x < h.cells.length := Heap.lt_of_get? gx
      simp (disch := first | assumption | exact Ne.symm (by assumption) |
        (simp only [Heap.put_length]; assumption)) only
        [Heap.get?_put_ne, Heap.get?_put_self] at g7
      cases g7
      simp (disch := first | assumption | exact Ne.symm (by assumption) |
        (simp only [Heap.put_length]; assumption)) only
        [Heap.get?_put_ne, Heap.get?_put_self] at g8
      cases g8
      refine ⟨rfl, by simp only [Heap.put_length], ?_, ?_, ?_, ?_, ?_⟩
      · simp (disch := first | assumption | exact Ne.symm (by assumption) |
        (simp only [Heap.put_length]; assumption)) only
          [Heap.links, Heap.get?_put_ne, Heap.get?_put_self, Option.map_some', Node.ptrs]
      · simp (disch := first | assumption | exact Ne.symm (by assumption) |
        (simp only [Heap.put_length]; assumption)) only
          [Heap.links, Heap.get?_put_ne, Heap.get?_put_self, Option.map_some', Node.ptrs]
      · intro q' hq'
        rw [hp] at hq'
        obtain rfl : q = q' := Option.some.inj hq'
        refine ⟨pn, gq, ?_⟩
        by_cases hc : pn.left = some y
        · simp (disch := first | assumption | exact Ne.symm (by assumption) |
        (simp only [Heap.put_length]; assumption)) only
          [Heap.links, Heap.get?_put_ne, Heap.get?_put_self, Option.map_some', Node.ptrs, hc, if_true]
        · simp (disch := first | assumption | exact Ne.symm (by assumption) |
        (simp only [Heap.put_length]; assumption)) only
          [Heap.links, Heap.get?_put_ne, Heap.get?_put_self, Option.map_some', Node.ptrs, hc, if_false]
      · intro x' hx'
        rw [hv] at hx'
        obtain rfl : x = x' := Option.some.inj hx'
        refine ⟨vn, gx, ?_⟩
        simp (disch := first | assumption | exact Ne.symm (by assumption) |
        (simp only [Heap.put_length]; assumption)) only
          [Heap.links, Heap.get?_put_ne, Heap.get?_put_self, Option.map_some', Node.ptrs]
      · intro z h1 h2 h3 h4
        have h5 : z ≠ q := fun e => h3 (by rw [hp, e])
        have h6 : z ≠ x := fun e => h4 (by rw [hv, e])
        simp (disch := first | assumption | exact Ne.symm (by assumption) |
        (simp only [Heap.put_length]; assumption)) only
          [Heap.get?_put_ne]

end CS280

namespace CS280
variable {K V : Type}

/-! ## The rotations keep the pointer structure consistent -/

/-- `leftRotate` keeps the pointer structure consistent; a cell with a null
`parent` pointer other than `y` keeps it; when a node is returned it is the
former right child `s` of `y`, it has taken the parent of `y`, `y` has `s` as
its parent, and a cell that pointed to `y` now points to `s` on the same side. -/
theorem leftRotate_linksOK {h h' : Heap K V} {y : Nat} {r : Option Nat}
    (hok : LinksOK h.links h.cells.length) (e : leftRotate h (some y) = some (h', r)) :
    h'.cells.length = h.cells.length ∧ LinksOK h'.links h.cells.length ∧
    (∀ x, RootTop h.links x → x ≠ y → RootTop h'.links x) ∧
    ((r = none ∧ h' = h) ∨
     ∃ s yn, r = some s ∧ h.links y = some yn ∧
       (∃ sn', h'.links s = some sn' ∧ sn'.parent = yn.parent) ∧
       (∃ yn', h'.links y = some yn' ∧ yn'.parent = some s) ∧
       ∀ q qn, h.links q = some qn → (qn.left = some y ∨ qn.right = some y) →
         ∃ qn', h'.links q = some qn' ∧ qn'.parent = qn.parent ∧
           (qn.left = some y → qn'.left = some s ∧ qn'.right = qn.right) ∧
           (qn.right = some y → qn'.right = some s ∧ qn'.left = qn.left)) := by
  rcases hy : h.get? y with _ | yn
  · rw [leftRotate_some, hy] at e; cases e
  rcases hs : yn.right with _ | s
  · rw [leftRotate_some, hy, obind_some] at e
    simp only [hs] at e
    obtain ⟨rfl, rfl⟩ := Prod.mk.inj (Option.some.inj e)
    exact ⟨rfl, hok, fun x hx _ => hx, Or.inl ⟨rfl, rfl⟩⟩
  have ly := Heap.links_of_get? hy
  obtain ⟨cn, gs, gsp⟩ := hok.back y _ s ly (Or.inr hs)
  obtain ⟨sn, hsn, rfl⟩ := Heap.get?_of_links gs
  have gsp' : sn.parent = some y := gsp
  obtain ⟨rk, hrk⟩ := hok.rank
  have r1 : rk y < rk s := hrk s _ y _ gs gsp ly
  have d1 : y ≠ s := by
    intro e'; rw [e'] at r1; omega
  have d2 : sn.left ≠ some y := by
    intro e'
    obtain ⟨c2, g2, p2⟩ := hok.back s _ y gs (Or.inl e')
    have := hrk y c2 s _ g2 p2 gs
    omega
  have d3 : sn.left ≠ some s := by
    intro e'
    obtain ⟨c2, g2, p2⟩ := hok.back s _ s gs (Or.inl e')
    have := hrk s c2 s _ g2 p2 gs
    omega
  have d4 : yn.parent ≠ some y := by
    intro e'
    have := hrk y _ y _ ly e' ly
    omega
  have d5 : yn.parent ≠ some s := by
    intro e'
    have := hrk y _ s _ ly e' gs
    omega
  have d6 : ∀ q, yn.parent = some q → sn.left ≠ some q := by
    intro q hq e'
    obtain ⟨c2, g2, p2⟩ := hok.back s _ q gs (Or.inl e')
    have := hrk q c2 s _ g2 p2 gs
    have := hrk y _ q _ ly hq g2
    omega
  obtain ⟨e1, e2, e3, e4, e5, e6, e7⟩ := leftRotate_effect hy hs hsn d1 d2 d3 d4 d5 d6 e
  have hp : ∀ q, yn.parent = some q → ∃ pn pn', h.links q = some pn ∧
      h'.links q = some pn' ∧ pn'.parent = pn.parent ∧
      ((pn'.left = some s ∧ pn'.right = pn.right ∧ pn.right ≠ some y) ∨
       (pn'.right = some s ∧ pn'.left = pn.left ∧ pn.left ≠ some y)) := by
    intro q hq
    obtain ⟨pn, gq, gq'⟩ := e5 q hq
    by_cases hc : pn.left = some y
    · rw [if_pos hc] at gq'
      exact ⟨_, _, Heap.links_of_get? gq, gq', rfl,
        Or.inl ⟨rfl, rfl, hok.sides q _ y (Heap.links_of_get? gq) hc⟩⟩
    · rw [if_neg hc] at gq'
      exact ⟨_, _, Heap.links_of_get? gq, gq', rfl, Or.inr ⟨rfl, rfl, hc⟩⟩
  have hv : ∀ x, sn.left = some x → ∃ vn, h.links x = some vn ∧
      h'.links x = some ⟨some y, vn.left, vn.right⟩ := by
    intro x hx
    obtain ⟨vn, gx, gx'⟩ := e6 x hx
    exact ⟨_, Heap.links_of_get? gx, gx'⟩
  have ho : ∀ x, x ≠ y → x ≠ s → yn.parent ≠ some x → sn.left ≠ some x →
      h'.links x = h.links x := by
    intro x h1 h2 h3 h4
    simp only [Heap.links, e7 x h1 h2 h3 h4]
  have hok' : LinksOK h'.links h.cells.length := by
    refine LinksOK.rotate_left (y := y) (s := s) (p := yn.parent) (u := yn.left) (v := sn.left)
      (w := sn.right) hok ?_ ?_ hp e3 e4 hv ho
    · rw [ly]; simp only [Node.ptrs, hs]
    · rw [gs]; simp only [Node.ptrs, gsp']
  refine ⟨e2, hok', ?_, Or.inr ⟨s, yn.ptrs, e1, ly, ⟨_, e4, rfl⟩, ⟨_, e3, rfl⟩, ?_⟩⟩
  · rintro x ⟨n, gx, hn⟩ hxy
    have hxs : x ≠ s := by
      intro e'
      rw [e', gs] at gx
      cases gx
      rw [gsp] at hn; cases hn
    by_cases h3 : yn.parent = some x
    · obtain ⟨pn, pn', g, g', ep, _⟩ := hp x h3
      rw [gx] at g; cases g
      exact ⟨pn', g', ep.trans hn⟩
    by_cases h4 : sn.left = some x
    · obtain ⟨c2, g2, p2⟩ := hok.back s _ x gs (Or.inl h4)
      rw [gx] at g2; cases g2
      rw [hn] at p2; cases p2
    · exact ⟨n, by rw [ho x hxy hxs h3 h4]; exact gx, hn⟩
  · intro q qn gq hc
    obtain ⟨c2, g2, p2⟩ := hok.back q qn y gq hc
    rw [ly] at g2; cases g2
    obtain ⟨pn, gq0, gq'⟩ := e5 q p2
    have hpq : pn.ptrs = qn := by
      have h0 := Heap.links_of_get? gq0
      rw [gq] at h0; exact (Option.some.inj h0).symm
    subst hpq
    by_cases hcl : pn.left = some y
    · rw [if_pos hcl] at gq'
      exact ⟨_, gq', rfl, fun _ => ⟨rfl, rfl⟩, fun hr => absurd hr (hok.sides q _ y gq hcl)⟩
    · rw [if_neg hcl] at gq'
      exact ⟨_, gq', rfl, fun hl => absurd hl hcl, fun _ => ⟨rfl, rfl⟩⟩

/-- `rightRotate` keeps the pointer structure consistent; a cell with a null
`parent` pointer other than `y` keeps it; when a node is returned it is the
former left child `s` of `y`, it has taken the parent of `y`, `y` has `s` as
its parent, and a cell that pointed to `y` now points to `s` on the same side. -/
theorem rightRotate_linksOK {h h' : Heap K V} {y : Nat} {r : Option Nat}
    (hok : LinksOK h.links h.cells.length) (e : rightRotate h (some y) = some (h', r)) :
    h'.cells.length = h.cells.length ∧ LinksOK h'.links h.cells.length ∧
    (∀ x, RootTop h.links x → x ≠ y → RootTop h'.links x) ∧
    ((r = none ∧ h' = h) ∨
     ∃ s yn, r = some s ∧ h.links y = some yn ∧
       (∃ sn', h'.links s = some sn' ∧ sn'.parent = yn.parent) ∧
       (∃ yn', h'.links y = some yn' ∧ yn'.parent = some s) ∧
       ∀ q qn, h.links q = some qn → (qn.left = some y ∨ qn.right = some y) →
         ∃ qn', h'.links q = some qn' ∧ qn'.parent = qn.parent ∧
           (qn.left = some y → qn'.left = some s ∧ qn'.right = qn.right) ∧
           (qn.right = some y → qn'.right = some s ∧ qn'.left = qn.left)) := by
  rcases hy : h.get? y with _ | yn
  · rw [rightRotate_some, hy] at e; cases e
  rcases hs : yn.left with _ | s
  · rw [rightRotate_some, hy, obind_some] at e
    simp only [hs] at e
    obtain ⟨rfl, rfl⟩ := Prod.mk.inj (Option.some.inj e)
    exact ⟨rfl, hok, fun x hx _ => hx, Or.inl ⟨rfl, rfl⟩⟩
  have ly := Heap.links_of_get? hy
  obtain ⟨cn, gs, gsp⟩ := hok.back y _ s ly (Or.inl hs)
  obtain ⟨sn, hsn, rfl⟩ := Heap.get?_of_links gs
  have gsp' : sn.parent = some y := gsp
  obtain ⟨rk, hrk⟩ := hok.rank
  have r1 : rk y < rk s := hrk s _ y _ gs gsp ly
  have d1 : y ≠ s := by
    intro e'; rw [e'] at r1; omega
  have d2 : sn.right ≠ some y := by
    intro e'
    obtain ⟨c2, g2, p2⟩ := hok.back s _ y gs (Or.inr e')
    have := hrk y c2 s _ g2 p2 gs
    omega
  have d3 : sn.right ≠ some s := by
    intro e'
    obtain ⟨c2, g2, p2⟩ := hok.back s _ s gs (Or.inr e')
    have := hrk s c2 s _ g2 p2 gs
    omega
  have d4 : yn.parent ≠ some y := by
    intro e'
    have := hrk y _ y _ ly e' ly
    omega
  have d5 : yn.parent ≠ some s := by
    intro e'
    have := hrk y _ s _ ly e' gs
    omega
  have d6 : ∀ q, yn.parent = some q → sn.right ≠ some q := by
    intro q hq e'
    obtain ⟨c2, g2, p2⟩ := hok.back s _ q gs (Or.inr e')
    have := hrk q c2 s _ g2 p2 gs
    have := hrk y _ q _ ly hq g2
    omega
  obtain ⟨e1, e2, e3, e4, e5, e6, e7⟩ := rightRotate_effect hy hs hsn d1 d2 d3 d4 d5 d6 e
  have hp : ∀ q, yn.parent = some q → ∃ pn pn', h.links q = some pn ∧
      h'.links q = some pn' ∧ pn'.parent = pn.parent ∧
      ((pn'.left = some s ∧ pn'.right = pn.right ∧ pn.right ≠ some y) ∨
       (pn'.right = some s ∧ pn'.left = pn.left ∧ pn.left ≠ some y)) := by
    intro q hq
    obtain ⟨pn, gq, gq'⟩ := e5 q hq
    by_cases hc : pn.left = some y
    · rw [if_pos hc] at gq'
      exact ⟨_, _, Heap.links_of_get? gq, gq', rfl,
        Or.inl ⟨rfl, rfl, hok.sides q _ y (Heap.links_of_get? gq) hc⟩⟩
    · rw [if_neg hc] at gq'
      exact ⟨_, _, Heap.links_of_get? gq, gq', rfl, Or.inr ⟨rfl, rfl, hc⟩⟩
  have hv : ∀ x, sn.right = some x → ∃ vn, h.links x = some vn ∧
      h'.links x = some ⟨some y, vn.left, vn.right⟩ := by
    intro x hx
    obtain ⟨vn, gx, gx'⟩ := e6 x hx
    exact ⟨_, Heap.links_of_get? gx, gx'⟩
  have ho : ∀ x, x ≠ y → x ≠ s → yn.parent ≠ some x → sn.right ≠ some x →
      h'.links x = h.links x := by
    intro x h1 h2 h3 h4
    simp only [Heap.links, e7 x h1 h2 h3 h4]
  have hok' : LinksOK h'.links h.cells.length := by
    refine LinksOK.rotate_right (y := y) (s := s) (p := yn.parent) (u := yn.right) (v := sn.right)
      (w := sn.left) hok ?_ ?_ hp e3 e4 hv ho
    · rw [ly]; simp only [Node.ptrs, hs]
    · rw [gs]; simp only [Node.ptrs, gsp']
  refine ⟨e2, hok', ?_, Or.inr ⟨s, yn.ptrs, e1, ly, ⟨_, e4, rfl⟩, ⟨_, e3, rfl⟩, ?_⟩⟩
  · rintro x ⟨n, gx, hn⟩ hxy
    have hxs : x ≠ s := by
      intro e'
      rw [e', gs] at gx
      cases gx
      rw [gsp] at hn; cases hn
    by_cases h3 : yn.parent = some x
    · obtain ⟨pn, pn', g, g', ep, _⟩ := hp x h3
      rw [gx] at g; cases g
      exact ⟨pn', g', ep.trans hn⟩
    by_cases h4 : sn.right = some x
    · obtain ⟨c2, g2, p2⟩ := hok.back s _ x gs (Or.inr h4)
      rw [gx] at g2; cases g2
      rw [hn] at p2; cases p2
    · exact ⟨n, by rw [ho x hxy hxs h3 h4]; exact gx, hn⟩
  · intro q qn gq hc
    obtain ⟨c2, g2, p2⟩ := hok.back q qn y gq hc
    rw [ly] at g2; cases g2
    obtain ⟨pn, gq0, gq'⟩ := e5 q p2
    have hpq : pn.ptrs = qn := by
      have h0 := Heap.links_of_get? gq0
      rw [gq] at h0; exact (Option.some.inj h0).symm
    subst hpq
    by_cases hcl : pn.left = some y
    · rw [if_pos hcl] at gq'
      exact ⟨_, gq', rfl, fun _ => ⟨rfl, rfl⟩, fun hr => absurd hr (hok.sides q _ y gq hcl)⟩
    · rw [if_neg hcl] at gq'
      exact ⟨_, gq', rfl, fun hl => absurd hl hcl, fun _ => ⟨rfl, rfl⟩⟩

end CS280

namespace CS280
variable {K V : Type}

/-! ## The post-insert walk keeps the pointer structure consistent -/

theorem obind_eq_some {α β : Type} {x : Option α} {f : α → Option β} {b : β} :
    obind x f = some b ↔ ∃ a, x = some a ∧ f a = some b := by
  cases x <;> simp [obind]

theorem Heap.links_put {h : Heap K V} {a : Nat} (ha : a < h.cells.length) (c : Node K V)
    (x : Nat) : (h.put a c).links x = if x = a then some c.ptrs else h.links x := by
  simp only [Heap.links, Heap.get?_put ha]
  by_cases hx : x = a
  · rw [if_pos hx, if_pos hx]; rfl
  · rw [if_neg hx, if_neg hx]

theorem Heap.links_put_self {h : Heap K V} {a : Nat} (ha : a < h.cells.length) (c : Node K V) :
    (h.put a c).links a = some c.ptrs := by
  rw [Heap.links_put ha, if_pos rfl]

theorem Heap.links_put_same {h : Heap K V} {a : Nat} {n c : Node K V} (hg : h.get? a = some n)
    (hc : c.ptrs = n.ptrs) : (h.put a c).links = h.links := by
  funext x
  rw [Heap.links_put (Heap.lt_of_get? hg)]
  by_cases hx : x = a
  · rw [if_pos hx, hx, Heap.links_of_get? hg, hc]
  · rw [if_neg hx]

/-- The statement `node->left = leftRotate(node->left)` of the walk keeps the pointer
structure consistent, and every cell with a null `parent` pointer keeps it. -/
theorem rotateLeftChild_linksOK {h h' : Heap K V} {node : Nat} {nn : Ptrs}
    (hok : LinksOK h.links h.cells.length) (hn : h.links node = some nn)
    (e : rotateLeftChild h node nn.left = some h') :
    h'.cells.length = h.cells.length ∧ LinksOK h'.links h.cells.length ∧
    (∀ x, RootTop h.links x → RootTop h'.links x) := by
  rcases hl : nn.left with _ | l
  · rw [hl, rotateLeftChild_none] at e
    cases e
    exact ⟨rfl, hok, fun _ hx => hx⟩
  rw [hl, rotateLeftChild_some] at e
  obtain ⟨ln, gl, e⟩ := obind_eq_some.1 e
  by_cases hb : ln.balance < 0
  · rw [if_pos hb] at e
    obtain ⟨⟨h1, r⟩, e1, e2⟩ := obind_eq_some.1 e
    obtain ⟨c, gc, e3⟩ := Heap.modify_eq_some.1 e2
    simp only at gc e3
    subst e3
    obtain ⟨len1, ok1, top1, alt⟩ := leftRotate_linksOK hok e1
    have topl : ∀ x, RootTop h.links x → x ≠ l := by
      rintro x ⟨xn, gx, hx⟩ e'
      obtain ⟨c2, g2, p2⟩ := hok.back node nn l hn (Or.inl hl)
      rw [e', g2] at gx
      cases gx
      rw [hx] at p2; cases p2
    have lc : node < h1.cells.length := Heap.lt_of_get? gc
    rcases alt with ⟨rfl, rfl⟩ | ⟨s, yn, rfl, gy, _, _, hq⟩
    · have gn := Heap.links_of_get? gc
      rw [hn] at gn
      obtain rfl := Option.some.inj gn
      refine ⟨by simp only [Heap.put_length], ?_, ?_⟩
      · refine LinksOK.unlink (a := node) hok hn (Heap.links_put_self lc _) rfl ?_ ?_ ?_
        · exact Or.inr rfl
        · exact Or.inl rfl
        · intro x hx
          rw [Heap.links_put lc, if_neg hx]
      · rintro x ⟨xn, gx, hx⟩
        by_cases hxn : x = node
        · rw [hxn] at gx ⊢
          rw [hn] at gx
          obtain rfl := Option.some.inj gx
          exact ⟨_, Heap.links_put_self lc _, hx⟩
        · exact ⟨xn, by rw [Heap.links_put lc, if_neg hxn]; exact gx, hx⟩
    · obtain ⟨qn', gq', _, hl', hr'⟩ := hq node nn hn (Or.inl hl)
      have gn := Heap.links_of_get? gc
      rw [gq'] at gn
      obtain rfl := Option.some.inj gn
      have hs : c.left = some s := (hl' hl).1
      have same : (h1.put node { c with left := some s }).links = h1.links :=
        Heap.links_put_same gc (by simp only [Node.ptrs, hs])
      rw [same, Heap.put_length]
      exact ⟨len1, ok1, fun x hx => top1 x hx (topl x hx)⟩
  · rw [if_neg hb] at e
    cases e
    exact ⟨rfl, hok, fun _ hx => hx⟩

/-- The statement `node->right = rightRotate(node->right)` of the walk keeps the pointer
structure consistent, and every cell with a null `parent` pointer keeps it. -/
theorem rotateRightChild_linksOK {h h' : Heap K V} {node : Nat} {nn : Ptrs}
    (hok : LinksOK h.links h.cells.length) (hn : h.links node = some nn)
    (e : rotateRightChild h node nn.right = some h') :
    h'.cells.length = h.cells.length ∧ LinksOK h'.links h.cells.length ∧
    (∀ x, RootTop h.links x → RootTop h'.links x) := by
  rcases hl : nn.right with _ | l
  · rw [hl, rotateRightChild_none] at e
    cases e
    exact ⟨rfl, hok, fun _ hx => hx⟩
  rw [hl, rotateRightChild_some] at e
  obtain ⟨ln, gl, e⟩ := obind_eq_some.1 e
  by_cases hb : ln.balance > 0
  · rw [if_pos hb] at e
    obtain ⟨⟨h1, r⟩, e1, e2⟩ := obind_eq_some.1 e
    obtain ⟨c, gc, e3⟩ := Heap.modify_eq_some.1 e2
    simp only at gc e3
    subst e3
    obtain ⟨len1, ok1, top1, alt⟩ := rightRotate_linksOK hok e1
    have topl : ∀ x, RootTop h.links x → x ≠ l := by
      rintro x ⟨xn, gx, hx⟩ e'
      obtain ⟨c2, g2, p2⟩ := hok.back node nn l hn (Or.inr hl)
      rw [e', g2] at gx
      cases gx
      rw [hx] at p2; cases p2
    have lc : node < h1.cells.length := Heap.lt_of_get? gc
    rcases alt with ⟨rfl, rfl⟩ | ⟨s, yn, rfl, gy, _, _, hq⟩
    · have gn := Heap.links_of_get? gc
      rw [hn] at gn
      obtain rfl := Option.some.inj gn
      refine ⟨by simp only [Heap.put_length], ?_, ?_⟩
      · refine LinksOK.unlink (a := node) hok hn (Heap.links_put_self lc _) rfl ?_ ?_ ?_
        · exact Or.inl rfl
        · exact Or.inr rfl
        · intro x hx
          rw [Heap.links_put lc, if_neg hx]
      · rintro x ⟨xn, gx, hx⟩
        by_cases hxn : x = node
        · rw [hxn] at gx ⊢
          rw [hn] at gx
          obtain rfl := Option.some.inj gx
          exact ⟨_, Heap.links_put_self lc _, hx⟩
        · exact ⟨xn, by rw [Heap.links_put lc, if_neg hxn]; exact gx, hx⟩
    · obtain ⟨qn', gq', _, hl', hr'⟩ := hq node nn hn (Or.inr hl)
      have gn := Heap.links_of_get? gc
      rw [gq'] at gn
      obtain rfl := Option.some.inj gn
      have hs : c.right = some s := (hr' hl).1
      have same : (h1.put node { c with right := some s }).links = h1.links :=
        Heap.links_put_same gc (by simp only [Node.ptrs, hs])
      rw [same, Heap.put_length]
      exact ⟨len1, ok1, fun x hx => top1 x hx (topl x hx)⟩
  · rw [if_neg hb] at e
    cases e
    exact ⟨rfl, hok, fun _ hx => hx⟩

theorem refreshCached_links {h H : Heap K V} {node : Nat} (e : refreshCached h node = some H) :
    H.links = h.links ∧ H.cells.length = h.cells.length := by
  unfold refreshCached at e
  simp only [Option.bind_eq_bind, Option.bind_eq_some, Heap.modify_eq_some] at e
  obtain ⟨b, _, H1, ⟨c1, g1, rfl⟩, ht, _, c2, g2, rfl⟩ := e
  refine ⟨?_, by simp only [Heap.put_length]⟩
  have s2 : ((h.put node { c1 with balance := b }).put node { c2 with height := ht }).links =
      (h.put node { c1 with balance := b }).links := Heap.links_put_same g2 rfl
  have s1 : (h.put node { c1 with balance := b }).links = h.links := Heap.links_put_same g1 rfl
  exact s2.trans s1

/-- One round of the post-insert walk at `node` keeps the pointer structure
consistent.  A cell with a null `parent` pointer other than `node` keeps it;
if `node` has a null `parent` pointer then afterwards either it still has, or
the round returns a node `s` that has a null `parent` pointer and is the parent
of `node`. -/
theorem rebalanceAt_linksOK {h h' : Heap K V} {node : Nat} {ret : Option Nat}
    (hok : LinksOK h.links h.cells.length) (e : rebalanceAt h node = some (h', ret)) :
    h'.cells.length = h.cells.length ∧ LinksOK h'.links h.cells.length ∧
    (∀ x, RootTop h.links x → x ≠ node → RootTop h'.links x) ∧
    (RootTop h.links node → RootTop h'.links node ∨
      ∃ s yn', ret = some s ∧ RootTop h'.links s ∧ h'.links node = some yn' ∧
        yn'.parent = some s) := by
  rw [rebalanceAt_refresh] at e
  obtain ⟨H, eH, e⟩ := obind_eq_some.1 e
  obtain ⟨lk, ln⟩ := refreshCached_links eH
  obtain ⟨n, gn, e⟩ := obind_eq_some.1 e
  have okH : LinksOK H.links H.cells.length := by rw [lk, ln]; exact hok
  have hnn := Heap.links_of_get? gn
  by_cases hb1 : n.balance > 1
  · rw [if_pos hb1] at e
    obtain ⟨H3, e3, e4⟩ := obind_eq_some.1 e
    obtain ⟨l3, ok3, top3⟩ := rotateLeftChild_linksOK okH hnn e3
    rw [← l3] at ok3
    obtain ⟨l4, ok4, top4, alt⟩ := rightRotate_linksOK ok3 e4
    refine ⟨by omega, by rw [l3, ln] at ok4; exact ok4, ?_, ?_⟩
    · intro x hx hxn
      exact top4 x (top3 x (by rw [lk]; exact hx)) hxn
    · intro hx
      have hx3 : RootTop H3.links node := top3 node (by rw [lk]; exact hx)
      rcases alt with ⟨rfl, rfl⟩ | ⟨s, yn, rfl, gy, ⟨sn', gs', ps'⟩, ⟨yn', gy', py'⟩, _⟩
      · exact Or.inl hx3
      · obtain ⟨rn, gr, pr⟩ := hx3
        rw [gy] at gr
        obtain rfl := Option.some.inj gr
        exact Or.inr ⟨s, yn', rfl, ⟨sn', gs', ps'.trans pr⟩, gy', py'⟩
  · rw [if_neg hb1] at e
    by_cases hb2 : n.balance < -1
    · rw [if_pos hb2] at e
      obtain ⟨H3, e3, e4⟩ := obind_eq_some.1 e
      obtain ⟨l3, ok3, top3⟩ := rotateRightChild_linksOK okH hnn e3
      rw [← l3] at ok3
      obtain ⟨l4, ok4, top4, alt⟩ := leftRotate_linksOK ok3 e4
      refine ⟨by omega, by rw [l3, ln] at ok4; exact ok4, ?_, ?_⟩
      · intro x hx hxn
        exact top4 x (top3 x (by rw [lk]; exact hx)) hxn
      · intro hx
        have hx3 : RootTop H3.links node := top3 node (by rw [lk]; exact hx)
        rcases alt with ⟨rfl, rfl⟩ | ⟨s, yn, rfl, gy, ⟨sn', gs', ps'⟩, ⟨yn', gy', py'⟩, _⟩
        · exact Or.inl hx3
        · obtain ⟨rn, gr, pr⟩ := hx3
          rw [gy] at gr
          obtain rfl := Option.some.inj gr
          exact Or.inr ⟨s, yn', rfl, ⟨sn', gs', ps'.trans pr⟩, gy', py'⟩
    · rw [if_neg hb2] at e
      obtain ⟨rfl, rfl⟩ := Prod.mk.inj (Option.some.inj e)
      exact ⟨ln, by rw [lk]; exact hok, fun x hx _ => by rw [lk]; exact hx,
        fun hx => Or.inl (by rw [lk]; exact hx)⟩

/-- The loop of `updateBalanceAfterInsert` keeps the pointer structure
consistent; a cell `r` with a null `parent` pointer keeps it, or ends as the
child of a cell with a null `parent` pointer. -/
theorem updateBalanceAfterInsertLoop_linksOK : ∀ (fuel : Nat) (h hf : Heap K V)
    (node : Option Nat), LinksOK h.links h.cells.length →
    updateBalanceAfterInsertLoop fuel h node = some hf →
    hf.cells.length = h.cells.length ∧ LinksOK hf.links h.cells.length ∧
    ∀ r, RootTop h.links r → RootTop hf.links r ∨
      ∃ s rn, hf.links r = some rn ∧ rn.parent = some s ∧ RootTop hf.links s
  | 0, _, _, _, _, e => by simp [updateBalanceAfterInsertLoop] at e
  | fuel + 1, h, hf, none, hok, e => by
    rw [updateBalanceAfterInsertLoop_null] at e
    cases e
    exact ⟨rfl, hok, fun r hr => Or.inl hr⟩
  | fuel + 1, h, hf, some y, hok, e => by
    rw [updateBalanceAfterInsertLoop_succ] at e
    obtain ⟨⟨h1, ret⟩, e1, e2⟩ := obind_eq_some.1 e
    obtain ⟨l1, ok1, top1, alt1⟩ := rebalanceAt_linksOK hok e1
    have ok1' : LinksOK h1.links h1.cells.length := by rw [l1]; exact ok1
    have rest : ∃ nxt, updateBalanceAfterInsertLoop fuel h1 nxt = some hf ∧
        (∀ s, ret = some s → RootTop h1.links s → nxt = none) := by
      rcases ret with _ | nd
      · exact ⟨none, e2, fun s hs => by cases hs⟩
      · simp only at e2
        obtain ⟨n, gn, e3⟩ := obind_eq_some.1 e2
        refine ⟨n.parent, e3, ?_⟩
        rintro s hs ⟨sn, gs, ps⟩
        cases hs
        rw [Heap.links_of_get? gn] at gs
        cases gs
        exact ps
    obtain ⟨nxt, e3, hnxt⟩ := rest
    obtain ⟨l2, ok2, top2⟩ := updateBalanceAfterInsertLoop_linksOK fuel h1 hf nxt ok1' e3
    refine ⟨by omega, by rw [l1] at ok2; exact ok2, ?_⟩
    intro r hr
    by_cases hry : r = y
    · rw [hry] at hr ⊢
      rcases alt1 hr with h1r | ⟨s, yn', hret, hs, gy', py'⟩
      · exact top2 y h1r
      · have hn := hnxt s hret hs
        rw [hn] at e3
        rcases fuel with _ | f
        · simp [updateBalanceAfterInsertLoop] at e3
        · rw [updateBalanceAfterInsertLoop_null] at e3
          cases e3
          exact Or.inr ⟨s, yn', gy', py', hs⟩
    · exact top2 r (top1 r hr hry)

end CS280

namespace CS280
variable {K V : Type}

/-! ## `erase` keeps the pointer structure consistent -/

set_option maxHeartbeats 1000000 in
/-- The pointer updates shared by the leaf and one-k cases of `erase`. -/
theorem splice_linksOK {h h1 h2 h3 : Heap K V} {N : Nat} {n n' : Node K V}
    {k : Option Nat}
    (hok : LinksOK h.links h.cells.length) (hn : h.get? N = some n)
    (hch : (n.left = none ∧ k = n.right) ∨ (n.right = none ∧ k = n.left))
    (e1 : replaceChild h n.parent N k = some h1)
    (gn : h1.get? N = some n')
    (e2 : setParent h1 k n'.parent = some h2) (e3 : h2.free N = some h3) :
    h3.cells.length = h.cells.length ∧ LinksOK h3.links h.cells.length ∧
    (∀ x, RootTop h.links x → x ≠ N → RootTop h3.links x) ∧
    (∀ c, k = some c → n.parent = none → RootTop h3.links c) := by
  obtain ⟨rk, hrk⟩ := hok.rank
  have ln := Heap.links_of_get? hn
  have lN : N < h.cells.length := Heap.lt_of_get? hn
  rcases replaceChild_eq_some e1 with ⟨hp, hh1⟩ | ⟨q, pn, hp, gq, hh1⟩
  all_goals obtain rfl : _ = h1 := hh1.symm
  · rcases setParent_eq_some e2 with ⟨hv, hh2⟩ | ⟨c, cn, hv, gc, hh2⟩
    all_goals obtain rfl : _ = h2 := hh2.symm
    · rw [hn] at gn
      obtain rfl := Option.some.inj gn
      rw [Heap.free_map] at e3
      obtain ⟨_, _, rfl⟩ := Option.map_eq_some'.1 e3
      refine ⟨by simp only [Heap.del_length, Heap.put_length], ?_, ?_, ?_⟩
      · refine LinksOK.splice (N := N) (p := n.parent) (l := n.left) (r := n.right) (k := k)
          hok ln hch ?_ ?_ ?_ ?_
        · simp (disch := first | assumption | exact Ne.symm (by assumption) |
        (simp only [Heap.put_length]; assumption)) only
          [Heap.links, Heap.get?_put_ne, Heap.get?_put_self, Heap.get?_del_ne, Heap.get?_del_self,
           Option.map_some', Option.map_none', Node.ptrs]
        · intro q hq; rw [hp] at hq; cases hq
        · intro c hc; rw [hv] at hc; cases hc
        · intro z h1 h3 h4
          simp (disch := first | assumption | exact Ne.symm (by assumption) |
        (simp only [Heap.put_length]; assumption)) only
          [Heap.links, Heap.get?_put_ne, Heap.get?_put_self, Heap.get?_del_ne, Heap.get?_del_self,
           Option.map_some', Option.map_none', Node.ptrs]
      · rintro z ⟨zn, gz, hz⟩ hzN
        refine ⟨zn, ?_, hz⟩
        rw [← gz]
        simp (disch := first | assumption | exact Ne.symm (by assumption) |
        (simp only [Heap.put_length]; assumption)) only
          [Heap.links, Heap.get?_put_ne, Heap.get?_put_self, Heap.get?_del_ne, Heap.get?_del_self,
           Option.map_some', Option.map_none', Node.ptrs]
      · intro c hc; rw [hv] at hc; cases hc
    · rw [hn] at gn
      obtain rfl := Option.some.inj gn
      have hcl : n.left = some c ∨ n.right = some c := by
        rcases hch with ⟨_, e'⟩ | ⟨_, e'⟩
        · exact Or.inr (e' ▸ hv)
        · exact Or.inl (e' ▸ hv)
      obtain ⟨c2, g2, p2⟩ := hok.back N _ c ln hcl
      have rc : rk N < rk c := hrk c _ N _ g2 p2 ln
      have hcN : c ≠ N := by
        intro e'; rw [e'] at rc; omega
      have lc : c < h.cells.length := Heap.lt_of_get? gc
      rw [Heap.free_map] at e3
      obtain ⟨_, _, rfl⟩ := Option.map_eq_some'.1 e3
      refine ⟨by simp only [Heap.del_length, Heap.put_length], ?_, ?_, ?_⟩
      · refine LinksOK.splice (N := N) (p := n.parent) (l := n.left) (r := n.right) (k := k)
          hok ln hch ?_ ?_ ?_ ?_
        · simp (disch := first | assumption | exact Ne.symm (by assumption) |
        (simp only [Heap.put_length]; assumption)) only
          [Heap.links, Heap.get?_put_ne, Heap.get?_put_self, Heap.get?_del_ne, Heap.get?_del_self,
           Option.map_some', Option.map_none', Node.ptrs]
        · intro q hq; rw [hp] at hq; cases hq
        · intro c' hc'
          rw [hv] at hc'
          obtain rfl : c = c' := Option.some.inj hc'
          refine ⟨cn.ptrs, Heap.links_of_get? gc, ?_⟩
          simp (disch := first | assumption | exact Ne.symm (by assumption) |
        (simp only [Heap.put_length]; assumption)) only
          [Heap.links, Heap.get?_put_ne, Heap.get?_put_self, Heap.get?_del_ne, Heap.get?_del_self,
           Option.map_some', Option.map_none', Node.ptrs]
        · intro z h1 h3 h4
          have h6 : z ≠ c := fun e => h4 (by rw [hv, e])
          simp (disch := first | assumption | exact Ne.symm (by assumption) |
        (simp only [Heap.put_length]; assumption)) only
          [Heap.links, Heap.get?_put_ne, Heap.get?_put_self, Heap.get?_del_ne, Heap.get?_del_self,
           Option.map_some', Option.map_none', Node.ptrs]
      · rintro z ⟨zn, gz, hz⟩ hzN
        have hzc : z ≠ c := by
          intro e'
          rw [e', g2] at gz
          obtain rfl := Option.some.inj gz
          rw [hz] at p2; cases p2
        refine ⟨zn, ?_, hz⟩
        rw [← gz]
        simp (disch := first | assumption | exact Ne.symm (by assumption) |
        (simp only [Heap.put_length]; assumption)) only
          [Heap.links, Heap.get?_put_ne, Heap.get?_put_self, Heap.get?_del_ne, Heap.get?_del_self,
           Option.map_some', Option.map_none', Node.ptrs]
      · intro c' hc' hpar
        rw [hv] at hc'
        obtain rfl : c = c' := Option.some.inj hc'
        refine ⟨⟨n.parent, cn.left, cn.right⟩, ?_, hpar⟩
        simp (disch := first | assumption | exact Ne.symm (by assumption) |
        (simp only [Heap.put_length]; assumption)) only
          [Heap.links, Heap.get?_put_ne, Heap.get?_put_self, Heap.get?_del_ne, Heap.get?_del_self,
           Option.map_some', Option.map_none', Node.ptrs]
  · rcases setParent_eq_some e2 with ⟨hv, hh2⟩ | ⟨c, cn, hv, gc, hh2⟩
    all_goals obtain rfl : _ = h2 := hh2.symm
    · have rq : rk q < rk N := hrk N _ q _ ln hp (Heap.links_of_get? gq)
      have hqN : q ≠ N := by
        intro e'; rw [e'] at rq; omega
      have lq : q < h.cells.length := Heap.lt_of_get? gq
      simp (disch := first | assumption | exact Ne.symm (by assumption) |
        (simp only [Heap.put_length]; assumption)) only
        [Heap.get?_put_ne, Heap.get?_put_self] at gn
      rw [hn] at gn
      obtain rfl := Option.some.inj gn
      rw [Heap.free_map] at e3
      obtain ⟨_, _, rfl⟩ := Option.map_eq_some'.1 e3
      refine ⟨by simp only [Heap.del_length, Heap.put_length], ?_, ?_, ?_⟩
      · refine LinksOK.splice (N := N) (p := n.parent) (l := n.left) (r := n.right) (k := k)
          hok ln hch ?_ ?_ ?_ ?_
        · simp (disch := first | assumption | exact Ne.symm (by assumption) |
        (simp only [Heap.put_length]; assumption)) only
          [Heap.links, Heap.get?_put_ne, Heap.get?_put_self, Heap.get?_del_ne, Heap.get?_del_self,
           Option.map_some', Option.map_none', Node.ptrs]
        · intro q' hq'
          rw [hp] at hq'
          obtain rfl : q = q' := Option.some.inj hq'
          by_cases hc : pn.left = some N
          · refine ⟨pn.ptrs, ⟨pn.parent, k, pn.right⟩, Heap.links_of_get? gq, ?_, rfl,
              Or.inl ⟨rfl, rfl, hok.sides q _ N (Heap.links_of_get? gq) hc⟩⟩
            simp (disch := first | assumption | exact Ne.symm (by assumption) |
        (simp only [Heap.put_length]; assumption)) only
          [Heap.links, Heap.get?_put_ne, Heap.get?_put_self, Heap.get?_del_ne, Heap.get?_del_self,
           Option.map_some', Option.map_none', Node.ptrs, hc, if_true]
          · refine ⟨pn.ptrs, ⟨pn.parent, pn.left, k⟩, Heap.links_of_get? gq, ?_, rfl,
              Or.inr ⟨rfl, rfl, hc⟩⟩
            simp (disch := first | assumption | exact Ne.symm (by assumption) |
        (simp only [Heap.put_length]; assumption)) only
          [Heap.links, Heap.get?_put_ne, Heap.get?_put_self, Heap.get?_del_ne, Heap.get?_del_self,
           Option.map_some', Option.map_none', Node.ptrs, hc, if_false]
        · intro c hc; rw [hv] at hc; cases hc
        · intro z h1 h3 h4
          have h5 : z ≠ q := fun e => h3 (by rw [hp, e])
          simp (disch := first | assumption | exact Ne.symm (by assumption) |
        (simp only [Heap.put_length]; assumption)) only
          [Heap.links, Heap.get?_put_ne, Heap.get?_put_self, Heap.get?_del_ne, Heap.get?_del_self,
           Option.map_some', Option.map_none', Node.ptrs]
      · rintro z ⟨zn, gz, hz⟩ hzN
        by_cases hzq : z = q
        · rw [hzq] at gz ⊢
          rw [Heap.links_of_get? gq] at gz
          obtain rfl := Option.some.inj gz
          by_cases hc : pn.left = some N
          · refine ⟨⟨pn.parent, k, pn.right⟩, ?_, hz⟩
            simp (disch := first | assumption | exact Ne.symm (by assumption) |
        (simp only [Heap.put_length]; assumption)) only
          [Heap.links, Heap.get?_put_ne, Heap.get?_put_self, Heap.get?_del_ne, Heap.get?_del_self,
           Option.map_some', Option.map_none', Node.ptrs, hc, if_true]
          · refine ⟨⟨pn.parent, pn.left, k⟩, ?_, hz⟩
            simp (disch := first | assumption | exact Ne.symm (by assumption) |
        (simp only [Heap.put_length]; assumption)) only
          [Heap.links, Heap.get?_put_ne, Heap.get?_put_self, Heap.get?_del_ne, Heap.get?_del_self,
           Option.map_some', Option.map_none', Node.ptrs, hc, if_false]
        · refine ⟨zn, ?_, hz⟩
          rw [← gz]
          simp (disch := first | assumption | exact Ne.symm (by assumption) |
        (simp only [Heap.put_length]; assumption)) only
          [Heap.links, Heap.get?_put_ne, Heap.get?_put_self, Heap.get?_del_ne, Heap.get?_del_self,
           Option.map_some', Option.map_none', Node.ptrs]
      · intro c hc; rw [hv] at hc; cases hc
    · have rq : rk q < rk N := hrk N _ q _ ln hp (Heap.links_of_get? gq)
      have hqN : q ≠ N := by
        intro e'; rw [e'] at rq; omega
      have lq : q < h.cells.length := Heap.lt_of_get? gq
      simp (disch := first | assumption | exact Ne.symm (by assumption) |
        (simp only [Heap.put_length]; assumption)) only
        [Heap.get?_put_ne, Heap.get?_put_self] at gn
      rw [hn] at gn
      obtain rfl := Option.some.inj gn
      have hcl : n.left = some c ∨ n.right = some c := by
        rcases hch with ⟨_, e'⟩ | ⟨_, e'⟩
        · exact Or.inr (e' ▸ hv)
        · exact Or.inl (e' ▸ hv)
      obtain ⟨c2, g2, p2⟩ := hok.back N _ c ln hcl
      have rc : rk N < rk c := hrk c _ N _ g2 p2 ln
      have hcN : c ≠ N := by
        intro e'; rw [e'] at rc; omega
      have hcq : c ≠ q := by
        intro e'; rw [e'] at rc; omega
      simp (disch := first | assumption | exact Ne.symm (by assumption) |
        (simp only [Heap.put_length]; assumption)) only
        [Heap.get?_put_ne, Heap.get?_put_self] at gc
      have lc : c < h.cells.length := Heap.lt_of_get? gc
      rw [Heap.free_map] at e3
      obtain ⟨_, _, rfl⟩ := Option.map_eq_some'.1 e3
      refine ⟨by simp only [Heap.del_length, Heap.put_length], ?_, ?_, ?_⟩
      · refine LinksOK.splice (N := N) (p := n.parent) (l := n.left) (r := n.right) (k := k)
          hok ln hch ?_ ?_ ?_ ?_
        · simp (disch := first | assumption | exact Ne.symm (by assumption) |
        (simp only [Heap.put_length]; assumption)) only
          [Heap.links, Heap.get?_put_ne, Heap.get?_put_self, Heap.get?_del_ne, Heap.get?_del_self,
           Option.map_some', Option.map_none', Node.ptrs]
        · intro q' hq'
          rw [hp] at hq'
          obtain rfl : q = q' := Option.some.inj hq'
          by_cases hc : pn.left = some N
          · refine ⟨pn.ptrs, ⟨pn.parent, k, pn.right⟩, Heap.links_of_get? gq, ?_, rfl,
              Or.inl ⟨rfl, rfl, hok.sides q _ N (Heap.links_of_get? gq) hc⟩⟩
            simp (disch := first | assumption | exact Ne.symm (by assumption) |
        (simp only [Heap.put_length]; assumption)) only
          [Heap.links, Heap.get?_put_ne, Heap.get?_put_self, Heap.get?_del_ne, Heap.get?_del_self,
           Option.map_some', Option.map_none', Node.ptrs, hc, if_true]
          · refine ⟨pn.ptrs, ⟨pn.parent, pn.left, k⟩, Heap.links_of_get? gq, ?_, rfl,
              Or.inr ⟨rfl, rfl, hc⟩⟩
            simp (disch := first | assumption | exact Ne.symm (by assumption) |
        (simp only [Heap.put_length]; assumption)) only
          [Heap.links, Heap.get?_put_ne, Heap.get?_put_self, Heap.get?_del_ne, Heap.get?_del_self,
           Option.map_some', Option.map_none', Node.ptrs, hc, if_false]
        · intro c' hc'
          rw [hv] at hc'
          obtain rfl : c = c' := Option.some.inj hc'
          refine ⟨cn.ptrs, Heap.links_of_get? gc, ?_⟩
          simp (disch := first | assumption | exact Ne.symm (by assumption) |
        (simp only [Heap.put_length]; assumption)) only
          [Heap.links, Heap.get?_put_ne, Heap.get?_put_self, Heap.get?_del_ne, Heap.get?_del_self,
           Option.map_some', Option.map_none', Node.ptrs]
        · intro z h1 h3 h4
          have h5 : z ≠ q := fun e => h3 (by rw [hp, e])
          have h6 : z ≠ c := fun e => h4 (by rw [hv, e])
          simp (disch := first | assumption | exact Ne.symm (by assumption) |
        (simp only [Heap.put_length]; assumption)) only
          [Heap.links, Heap.get?_put_ne, Heap.get?_put_self, Heap.get?_del_ne, Heap.get?_del_self,
           Option.map_some', Option.map_none', Node.ptrs]
      · rintro z ⟨zn, gz, hz⟩ hzN
        have hzc : z ≠ c := by
          intro e'
          rw [e', g2] at gz
          obtain rfl := Option.some.inj gz
          rw [hz] at p2; cases p2
        by_cases hzq : z = q
        · rw [hzq] at gz ⊢
          rw [Heap.links_of_get? gq] at gz
          obtain rfl := Option.some.inj gz
          by_cases hc : pn.left = some N
          · refine ⟨⟨pn.parent, k, pn.right⟩, ?_, hz⟩
            simp (disch := first | assumption | exact Ne.symm (by assumption) |
        (simp only [Heap.put_length]; assumption)) only
          [Heap.links, Heap.get?_put_ne, Heap.get?_put_self, Heap.get?_del_ne, Heap.get?_del_self,
           Option.map_some', Option.map_none', Node.ptrs, hc, if_true]
          · refine ⟨⟨pn.parent, pn.left, k⟩, ?_, hz⟩
            simp (disch := first | assumption | exact Ne.symm (by assumption) |
        (simp only [Heap.put_length]; assumption)) only
          [Heap.links, Heap.get?_put_ne, Heap.get?_put_self, Heap.get?_del_ne, Heap.get?_del_self,
           Option.map_some', Option.map_none', Node.ptrs, hc, if_false]
        · refine ⟨zn, ?_, hz⟩
          rw [← gz]
          simp (disch := first | assumption | exact Ne.symm (by assumption) |
        (simp only [Heap.put_length]; assumption)) only
          [Heap.links, Heap.get?_put_ne, Heap.get?_put_self, Heap.get?_del_ne, Heap.get?_del_self,
           Option.map_some', Option.map_none', Node.ptrs]
      · intro c' hc' hpar
        rw [hv] at hc'
        obtain rfl : c = c' := Option.some.inj hc'
        refine ⟨⟨n.parent, cn.left, cn.right⟩, ?_, hpar⟩
        simp (disch := first | assumption | exact Ne.symm (by assumption) |
        (simp only [Heap.put_length]; assumption)) only
          [Heap.links, Heap.get?_put_ne, Heap.get?_put_self, Heap.get?_del_ne, Heap.get?_del_self,
           Option.map_some', Option.map_none', Node.ptrs]

theorem AVLmap.WellLinked.of_links {m m' : AVLmap K V} (hm : m.WellLinked)
    (hl : m'.heap.links = m.heap.links) (hlen : m'.heap.cells.length = m.heap.cells.length)
    (hr : m'.pRoot = m.pRoot) : m'.WellLinked := by
  unfold AVLmap.WellLinked
  rw [hl, hlen, hr]
  exact hm

/-- The leaf case of `erase` keeps the pointer structure consistent. -/
theorem eraseLeaf_wellLinked {m m' : AVLmap K V} {N : Nat} {n : Node K V} (hm : m.WellLinked)
    (hn : m.heap.get? N = some n) (hl : n.left = none ∧ n.right = none)
    (e : eraseLeaf m N n = some m') : m'.WellLinked := by
  rw [eraseLeaf_eq] at e
  obtain ⟨h1, e1, e⟩ := obind_eq_some.1 e
  obtain ⟨h3, e3, e⟩ := obind_eq_some.1 e
  cases e
  have gl : ∃ n', h1.get? N = some n' := by
    rw [Heap.free_map] at e3
    obtain ⟨n', g, _⟩ := Option.map_eq_some'.1 e3
    exact ⟨n', g⟩
  obtain ⟨n', gn⟩ := gl
  obtain ⟨len, ok, top, _⟩ :=
    splice_linksOK (k := none) hm.1 hn (Or.inl ⟨hl.1, hl.2.symm⟩) e1 gn rfl e3
  refine ⟨by rw [len]; exact ok, ?_⟩
  intro r hr
  by_cases hp : n.parent = none
  · simp only [hp, ne_eq, not_true_eq_false, if_false] at hr
    cases hr
  · simp only [ne_eq, hp, not_false_eq_true, if_true] at hr
    have hr0 := hm.2 r hr
    refine top r hr0 ?_
    intro e'
    obtain ⟨rn, gr, pr⟩ := hr0
    rw [e', Heap.links_of_get? hn] at gr
    obtain rfl := Option.some.inj gr
    exact hp pr

/-- The one-child case of `erase` keeps the pointer structure consistent. -/
theorem eraseOneChild_wellLinked {m m' : AVLmap K V} {N : Nat} {n : Node K V}
    (hm : m.WellLinked) (hn : m.heap.get? N = some n) (hc : n.left = none ∨ n.right = none)
    (e : eraseOneChild m N n = some m') : m'.WellLinked := by
  rw [eraseOneChild_eq] at e
  obtain ⟨h1, e1, e⟩ := obind_eq_some.1 e
  obtain ⟨n', gn, e⟩ := obind_eq_some.1 e
  obtain ⟨h2, e2, e⟩ := obind_eq_some.1 e
  obtain ⟨h3, e3, e⟩ := obind_eq_some.1 e
  cases e
  have hch : (n.left = none ∧ (if n.left ≠ none then n.left else n.right) = n.right) ∨
      (n.right = none ∧ (if n.left ≠ none then n.left else n.right) = n.left) := by
    by_cases hl : n.left = none
    · exact Or.inl ⟨hl, by rw [if_neg (not_not.2 hl)]⟩
    · rcases hc with hc | hc
      · exact absurd hc hl
      · exact Or.inr ⟨hc, by rw [if_pos hl]⟩
  obtain ⟨len, ok, top, topc⟩ := splice_linksOK hm.1 hn hch e1 gn e2 e3
  refine ⟨by rw [len]; exact ok, ?_⟩
  intro r hr
  by_cases hp : n.parent = none
  · simp only [hp, ne_eq, not_true_eq_false, if_false] at hr
    exact topc r hr hp
  · simp only [ne_eq, hp, not_false_eq_true, if_true] at hr
    have hr0 := hm.2 r hr
    refine top r hr0 ?_
    intro e'
    obtain ⟨rn, gr, pr⟩ := hr0
    rw [e', Heap.links_of_get? hn] at gr
    obtain rfl := Option.some.inj gr
    exact hp pr

/-- `erase` on any cursor keeps the pointer structure consistent, whenever it
returns. -/
theorem eraseAux_wellLinked : ∀ (fuel : Nat) (m : AVLmap K V) (it : Option Nat)
    (m' : AVLmap K V), m.WellLinked → eraseAux fuel m it = some m' → m'.WellLinked
  | 0, _, _, _, _, e => by simp [eraseAux] at e
  | _ + 1, m, none, m', hm, e => by
    simp only [eraseAux, Option.some.injEq] at e
    rw [← e]; exact hm
  | fuel + 1, m, some N, m', hm, e => by
    rw [eraseAux_succ] at e
    obtain ⟨n, gn, e⟩ := obind_eq_some.1 e
    by_cases c1 : n.left = none ∧ n.right = none
    · rw [if_pos c1] at e
      obtain ⟨y, ey, e⟩ := obind_eq_some.1 e
      cases e
      exact (eraseLeaf_wellLinked hm gn c1 ey).of_links rfl rfl rfl
    rw [if_neg c1] at e
    by_cases c2 : n.left = none ∨ n.right = none
    · rw [if_pos c2] at e
      obtain ⟨y, ey, e⟩ := obind_eq_some.1 e
      cases e
      exact (eraseOneChild_wellLinked hm gn c2 ey).of_links rfl rfl rfl
    rw [if_neg c2] at e
    obtain ⟨r, _, e⟩ := obind_eq_some.1 e
    obtain ⟨su, _, e⟩ := obind_eq_some.1 e
    obtain ⟨sn, _, e⟩ := obind_eq_some.1 e
    obtain ⟨h1, e1, e⟩ := obind_eq_some.1 e
    obtain ⟨sn', _, e⟩ := obind_eq_some.1 e
    obtain ⟨h2, e2, e⟩ := obind_eq_some.1 e
    obtain ⟨y, ey, e⟩ := obind_eq_some.1 e
    cases e
    obtain ⟨c1', g1, rfl⟩ := Heap.modify_eq_some.1 e1
    obtain ⟨c2', g2, rfl⟩ := Heap.modify_eq_some.1 e2
    have s2 : ((m.heap.put N { c1' with key := sn.key }).put N
        { c2' with value := sn'.value }).links = (m.heap.put N { c1' with key := sn.key }).links :=
      Heap.links_put_same g2 rfl
    have s1 : (m.heap.put N { c1' with key := sn.key }).links = m.heap.links :=
      Heap.links_put_same g1 rfl
    have hm2 : (AVLmap.mk ((m.heap.put N { c1' with key := sn.key }).put N
        { c2' with value := sn'.value }) m.pRoot m.size_).WellLinked :=
      hm.of_links (s2.trans s1) (by simp only [Heap.put_length]) rfl
    exact (eraseAux_wellLinked fuel _ (some su) y hm2 ey).of_links rfl rfl rfl

/-- `clear` keeps the pointer structure consistent, whenever it returns. -/
theorem clearLoop_wellLinked : ∀ (fuel : Nat) (m m' : AVLmap K V), m.WellLinked →
    clearLoop fuel m = some m' → m'.WellLinked
  | 0, _, _, _, e => by simp [clearLoop] at e
  | fuel + 1, m, m', hm, e => by
    rw [clearLoop] at e
    split at e
    · simp only [Option.some.injEq] at e
      rw [← e]; exact hm
    · simp only [Option.bind_eq_bind, Option.bind_eq_some] at e
      obtain ⟨b, _, m1, e1, e2⟩ := e
      exact clearLoop_wellLinked fuel m1 m' (eraseAux_wellLinked _ m b m1 hm e1) e2

end CS280

namespace CS280
variable {K V : Type}

/-! ## `insert` keeps the pointer structure consistent -/

theorem AVLmap.empty_wellLinked : (AVLmap.empty : AVLmap K V).WellLinked := by
  have hnone : ∀ a, (AVLmap.empty : AVLmap K V).heap.links a = none := fun a => by
    simp [AVLmap.empty, Heap.links, Heap.get?]
  refine ⟨⟨?_, ?_, ?_, ⟨fun _ => 0, ?_⟩⟩, ?_⟩
  · intro a n c ha; rw [hnone] at ha; cases ha
  · intro a n c ha; rw [hnone] at ha; cases ha
  · intro a n ha; rw [hnone] at ha; cases ha
  · intro a n p pn ha; rw [hnone] at ha; cases ha
  · intro r hr; cases hr

section Ordered
variable [LinearOrder K]

/-- The node `P` found by the search loop of `insert` is a live cell. -/
theorem insertLoop_parent {h : Heap K V} {key : K} : ∀ (fuel : Nat) (N P0 x P : Option Nat),
    insertLoop h key fuel N P0 = some (x, P) →
    P = P0 ∨ ∃ p pn, P = some p ∧ h.get? p = some pn
  | 0, _, _, _, _, e => by simp [insertLoop] at e
  | _ + 1, none, P0, x, P, e => by
    rw [insertLoop_null] at e
    cases e
    exact Or.inl rfl
  | fuel + 1, some a, P0, x, P, e => by
    rw [insertLoop_succ] at e
    obtain ⟨n, gn, e⟩ := obind_eq_some.1 e
    have step : ∀ N', insertLoop h key fuel N' (some a) = some (x, P) →
        P = P0 ∨ ∃ p pn, P = some p ∧ h.get? p = some pn := by
      intro N' e'
      rcases insertLoop_parent fuel N' (some a) x P e' with hP | hP
      · exact Or.inr ⟨a, n, hP, gn⟩
      · exact Or.inr hP
    split_ifs at e with c1 c2
    · exact step _ e
    · exact step _ e
    · cases e
      exact Or.inr ⟨a, n, rfl, gn⟩

/-- The allocation and linking of the new node keep the pointer structure
consistent; the new node has null child pointers and the parent `P`. -/
theorem linkNewNode_linksOK {h h2 : Heap K V} {pRoot P root : Option Nat} {key : K}
    {c : Node K V}
    (hok : LinksOK h.links h.cells.length) (hc : c.ptrs = ⟨none, none, none⟩)
    (hP : ∀ p, P = some p → ∃ pn, h.get? p = some pn)
    (e : linkNewNode (h.alloc c).1 pRoot P (h.alloc c).2 key = some (h2, root)) :
    h2.cells.length = h.cells.length + 1 ∧ LinksOK h2.links (h.cells.length + 1) ∧
    (∀ r, RootTop h.links r → RootTop h2.links r) ∧
    (P = none → root = some h.cells.length ∧ RootTop h2.links h.cells.length) ∧
    (P ≠ none → root = pRoot) := by
  have la : (h.alloc c).1.cells.length = h.cells.length + 1 := by simp [Heap.alloc]
  have ga : ∀ x, (h.alloc c).1.get? x = if x = h.cells.length then some c else h.get? x :=
    Heap.get?_alloc h c
  have e2 : (h.alloc c).2 = h.cells.length := rfl
  rw [e2] at e
  generalize (h.alloc c).1 = H at e la ga
  have live : ∀ x n, h.get? x = some n → x ≠ h.cells.length ∧ H.get? x = some n := by
    intro x n g
    have := Heap.lt_of_get? g
    have hx : x ≠ h.cells.length := by omega
    exact ⟨hx, by rw [ga, if_neg hx]; exact g⟩
  have gnew : H.get? h.cells.length = some c := by rw [ga, if_pos rfl]
  have hcp : c.parent = none := congrArg Ptrs.parent hc
  have hcl : c.left = none := congrArg Ptrs.left hc
  have hcr : c.right = none := congrArg Ptrs.right hc
  rcases P with _ | p
  · rw [linkNewNode_none] at e
    obtain ⟨rfl, rfl⟩ := Prod.mk.inj (Option.some.inj e)
    refine ⟨la, ?_, ?_, fun _ => ⟨rfl, ⟨c.ptrs, Heap.links_of_get? gnew, hcp⟩⟩,
      fun hne => absurd rfl hne⟩
    · refine LinksOK.link (P := none) hok ?_ ?_ ?_
      · rw [Heap.links_of_get? gnew, hc]
      · intro q hq; cases hq
      · intro x hx _
        simp only [Heap.links, ga, if_neg hx]
    · rintro r ⟨rn, gr, pr⟩
      obtain ⟨cr, gcr, rfl⟩ := Heap.get?_of_links gr
      exact ⟨_, Heap.links_of_get? (live r cr gcr).2, pr⟩
  · obtain ⟨pn, gp⟩ := hP p rfl
    obtain ⟨hpl, gp'⟩ := live p pn gp
    rw [linkNewNode_some, gp', obind_some] at e
    have lp : p < H.cells.length := Heap.lt_of_get? gp'
    have ll : h.cells.length < H.cells.length := by omega
    have main : ∃ c1 : Node K V, c1.parent = pn.parent ∧
        ((c1.left = some h.cells.length ∧ c1.right = pn.right) ∨
         (c1.right = some h.cells.length ∧ c1.left = pn.left)) ∧
        h2 = (H.put p c1).put h.cells.length { c with parent := some p } ∧ root = pRoot := by
      by_cases hk : key < pn.key
      · rw [if_pos hk, Heap.modify_eq gp', obind_some,
          Heap.modify_eq (by rw [Heap.get?_put_ne _ _ (Ne.symm hpl)]; exact gnew),
          obind_some] at e
        obtain ⟨rfl, rfl⟩ := Prod.mk.inj (Option.some.inj e)
        exact ⟨{ pn with left := some h.cells.length }, rfl, Or.inl ⟨rfl, rfl⟩, rfl, rfl⟩
      · rw [if_neg hk, Heap.modify_eq gp', obind_some,
          Heap.modify_eq (by rw [Heap.get?_put_ne _ _ (Ne.symm hpl)]; exact gnew),
          obind_some] at e
        obtain ⟨rfl, rfl⟩ := Prod.mk.inj (Option.some.inj e)
        exact ⟨{ pn with right := some h.cells.length }, rfl, Or.inr ⟨rfl, rfl⟩, rfl, rfl⟩
    obtain ⟨c1, hc1, hside, rfl, rfl⟩ := main
    have lk : ∀ x, ((H.put p c1).put h.cells.length { c with parent := some p }).links x =
        if x = h.cells.length then some ⟨some p, none, none⟩
        else if x = p then some c1.ptrs else h.links x := by
      intro x
      rw [Heap.links_put (by simpa using ll), Heap.links_put lp]
      by_cases h1 : x = h.cells.length
      · simp only [h1, if_true, Node.ptrs, hcl, hcr]
      · simp only [if_neg h1]
        by_cases h2 : x = p
        · simp only [h2, if_true]
        · simp only [if_neg h2, Heap.links, ga, if_neg h1]
    refine ⟨by simp only [Heap.put_length, la], ?_, ?_, (fun hne => by cases hne), fun _ => rfl⟩
    · refine LinksOK.link (P := some p) hok ?_ ?_ ?_
      · rw [lk, if_pos rfl]
      · intro q hq
        obtain rfl : p = q := Option.some.inj hq
        exact ⟨pn.ptrs, c1.ptrs, Heap.links_of_get? gp, by rw [lk, if_neg hpl, if_pos rfl],
          hc1, hside⟩
      · intro x hx hpx
        have hxp : x ≠ p := fun e' => hpx (by rw [e'])
        rw [lk, if_neg hx, if_neg hxp]
    · rintro r ⟨rn, gr, pr⟩
      obtain ⟨cr, gcr, rfl⟩ := Heap.get?_of_links gr
      have hr : r ≠ h.cells.length := (live r cr gcr).1
      by_cases hrp : r = p
      · rw [hrp] at gcr ⊢
        rw [gp] at gcr
        obtain rfl := Option.some.inj gcr
        exact ⟨c1.ptrs, by rw [lk, if_neg hpl, if_pos rfl], hc1.trans pr⟩
      · exact ⟨cr.ptrs, by rw [lk, if_neg hr, if_neg hrp]; exact gr, pr⟩

/-- `insert` keeps the pointer structure consistent, whenever it returns. -/
theorem AVLmap.insert_wellLinked {m m' : AVLmap K V} {key : K} {value : V}
    (hm : m.WellLinked) (e : m.insert key value = some m') : m'.WellLinked := by
  rw [AVLmap.insert_eq] at e
  obtain ⟨⟨N, P⟩, e0, e⟩ := obind_eq_some.1 e
  rcases N with _ | N
  · simp only at e
    obtain ⟨⟨h2, root⟩, e1, e⟩ := obind_eq_some.1 e
    obtain ⟨hf, e2, e⟩ := obind_eq_some.1 e
    obtain ⟨root', e3, e⟩ := obind_eq_some.1 e
    cases e
    have hP : ∀ p, P = some p → ∃ pn, m.heap.get? p = some pn := by
      intro p hp
      rcases insertLoop_parent _ _ _ _ _ e0 with h0 | ⟨p', pn, h1, g⟩
      · rw [h0] at hp; cases hp
      · rw [h1] at hp
        obtain rfl := Option.some.inj hp
        exact ⟨pn, g⟩
    obtain ⟨l2, ok2, top2, hnone, hsome⟩ := linkNewNode_linksOK (c := ⟨key, value, none, none, none, 0, 0⟩) hm.1 rfl hP e1
    have ok2' : LinksOK h2.links h2.cells.length := by rw [l2]; exact ok2
    obtain ⟨lf, okf, topf⟩ := updateBalanceAfterInsertLoop_linksOK _ h2 hf P ok2' e2
    refine ⟨by rw [lf]; exact okf, ?_⟩
    intro r hr
    have hr' : root' = some r := hr
    rcases root with _ | r0
    · simp only [rebindRoot, Option.some.injEq] at e3
      rw [← e3] at hr'; cases hr'
    · rw [rebindRoot_some] at e3
      obtain ⟨rn, grn, e3⟩ := obind_eq_some.1 e3
      have top0 : RootTop h2.links r0 := by
        rcases P with _ | p
        · obtain ⟨h1, h2'⟩ := hnone rfl
          obtain rfl := Option.some.inj h1
          exact h2'
        · have h0 := hsome (by simp)
          exact top2 r0 (hm.2 r0 h0.symm)
      rcases topf r0 top0 with ⟨rn', g', p'⟩ | ⟨s, rn', g', p', hs⟩
      · rw [Heap.links_of_get? grn] at g'
        obtain rfl := Option.some.inj g'
        have hpn : rn.parent = none := p'
        rw [if_neg (by simp [hpn])] at e3
        rw [← Option.some.inj e3] at hr'
        obtain rfl := Option.some.inj hr'
        exact ⟨_, Heap.links_of_get? grn, p'⟩
      · rw [Heap.links_of_get? grn] at g'
        obtain rfl := Option.some.inj g'
        have hpn : rn.parent = some s := p'
        rw [if_pos (by simp [hpn])] at e3
        rw [← Option.some.inj e3, hpn] at hr'
        obtain rfl := Option.some.inj hr'
        exact hs
  · simp only at e
    obtain ⟨h1, e1, e⟩ := obind_eq_some.1 e
    cases e
    obtain ⟨c, gc, rfl⟩ := Heap.modify_eq_some.1 e1
    exact hm.of_links (Heap.links_put_same gc rfl) (by simp only [Heap.put_length]) rfl

/-! ## Reachable states -/

/-- Every state reached from the empty map by calls of `insert`, `erase` (on
any cursor) and `clear` that return has a consistent pointer structure. -/
theorem Reachable.wellLinked {m : AVLmap K V} (hm : Reachable m) : m.WellLinked := by
  induction hm with
  | empty => exact AVLmap.empty_wellLinked
  | insert k v _ hi ih => exact AVLmap.insert_wellLinked ih hi
  | erase it _ he ih => exact eraseAux_wellLinked _ _ it _ ih he
  | clear _ hc ih => exact clearLoop_wellLinked _ _ _ ih hc

end Ordered

/-- A map with a consistent pointer structure has consistent parent links. -/
theorem AVLmap.WellLinked.parent_links {m : AVLmap K V} (hm : m.WellLinked) :
    m.ParentConsistent := by
  refine ⟨?_, ?_⟩
  · intro r hr
    obtain ⟨n, g, p⟩ := hm.2 r hr
    obtain ⟨c, gc, rfl⟩ := Heap.get?_of_links g
    exact ⟨c, gc, p⟩
  · intro a n c _ ha hc
    obtain ⟨cn, g, p⟩ := hm.1.back a n.ptrs c (Heap.links_of_get? ha) hc
    obtain ⟨c', gc, rfl⟩ := Heap.get?_of_links g
    exact ⟨c', gc, p⟩

end CS280

namespace CS280
variable {K V : Type}

/-! ## The rounds of `clear`, recorded -/

theorem clearLogLoop_none (fuel : Nat) (m : AVLmap K V) (hp : m.pRoot = none) :
    clearLogLoop (fuel + 1) m = some (m, []) := by
  rw [clearLogLoop, hp]

theorem clearLogLoop_some (fuel : Nat) (m : AVLmap K V) {r : Nat} (hp : m.pRoot = some r) :
    clearLogLoop (fuel + 1) m =
      obind m.begin (fun b => obind (m.erase b) (fun m' =>
        obind (clearLogLoop fuel m') (fun p => some (p.1, b :: p.2)))) := by
  rw [clearLogLoop, hp]
  rfl

/-- The recorded loop computes the map that the loop of `clear` computes. -/
theorem clearLogLoop_fst : ∀ (fuel : Nat) (m : AVLmap K V),
    (clearLogLoop fuel m).map Prod.fst = clearLoop fuel m
  | 0, _ => rfl
  | fuel + 1, m => by
    rcases hp : m.pRoot with _ | r
    · rw [clearLogLoop_none fuel m hp, clearLoop_none fuel m hp]; rfl
    · rw [clearLogLoop_some fuel m hp, clearLoop_some fuel m hp]
      rcases m.begin with _ | b
      · rfl
      · rw [obind_some, obind_some]
        rcases m.erase b with _ | m'
        · rfl
        · rw [obind_some, obind_some, ← clearLogLoop_fst fuel m']
          rcases clearLogLoop fuel m' with _ | p
          · rfl
          · rfl

theorem AVLmap.clearLog_fst (m : AVLmap K V) : m.clearLog.map Prod.fst = m.clear :=
  clearLogLoop_fst _ m

theorem AVLmap.Represents.root_some {m : AVLmap K V} {t : Tree K V} (hm : m.Represents t)
    (hne : t ≠ .nil) : ∃ r, m.pRoot = some r := by
  rw [hm.1]
  rcases t with _ | ⟨r, _, _, _, _, _, _⟩
  · exact absurd rfl hne
  · exact ⟨r, rfl⟩

/-- One round of the loop of `clear` on a nonempty tree: the loop goes on from
the map that `erase(begin())` returns. -/
theorem clearLoop_round {m m' : AVLmap K V} {r b : Nat} (hr : m.pRoot = some r)
    (e1 : m.begin = some (some b)) (e2 : m.erase (some b) = some m') (n : Nat) :
    clearLoop (n + 1) m = clearLoop n m' := by
  rw [clearLoop_some n m hr, e1, obind_some, e2, obind_some]

/-- More rounds than the tree has nodes do not change the outcome of the loop
of `clear`. -/
theorem clearLoop_stable : ∀ (k : Nat) (m : AVLmap K V) (t : Tree K V) (n : Nat),
    m.Represents t → t.addrs.Nodup → t.size = k → k + 1 ≤ n →
    clearLoop n m = clearLoop (k + 1) m
  | 0, m, t, n, hm, _, hk, hn => by
    obtain ⟨f, rfl⟩ : ∃ f, n = f + 1 := ⟨n - 1, by omega⟩
    have ht : t = .nil := by
      cases t with
      | nil => rfl
      | node a l k v ht bal r => simp only [Tree.size] at hk; omega
    subst ht
    rw [clearLoop_none f m hm.1, clearLoop_none 0 m hm.1]
  | k + 1, m, t, n, hm, hnd, hk, hn => by
    obtain ⟨f, rfl⟩ : ∃ f, n = f + 1 := ⟨n - 1, by omega⟩
    have hne : t ≠ .nil := by
      rintro rfl
      simp [Tree.size] at hk
    obtain ⟨b, c, m', t', e1, -, -, -, e2, hm', had, hsz, -⟩ := AVLmap.clear_step hm hnd hne
    obtain ⟨r, hr⟩ := hm.root_some hne
    have hnd' : t'.addrs.Nodup := by
      rw [had] at hnd
      exact (List.nodup_cons.1 hnd).2
    rw [clearLoop_round hr e1 e2 f, clearLoop_round hr e1 e2 (k + 1)]
    exact clearLoop_stable k m' t' f hm' hnd' (by omega) (by omega)

/-- The record of the loop of `clear` on a tree without shared nodes: one round
per node, on the nodes of the tree in ascending order. -/
theorem clearLogLoop_spec : ∀ (k : Nat) (m : AVLmap K V) (t : Tree K V) (n : Nat),
    m.Represents t → t.addrs.Nodup → t.size = k → k + 1 ≤ n →
    ∃ m', clearLogLoop n m = some (m', t.addrs.map some)
  | 0, m, t, n, hm, _, hk, hn => by
    obtain ⟨f, rfl⟩ : ∃ f, n = f + 1 := ⟨n - 1, by omega⟩
    have ht : t = .nil := by
      cases t with
      | nil => rfl
      | node a l k v ht bal r => simp only [Tree.size] at hk; omega
    subst ht
    exact ⟨m, by rw [clearLogLoop_none f m hm.1]; rfl⟩
  | k + 1, m, t, n, hm, hnd, hk, hn => by
    obtain ⟨f, rfl⟩ : ∃ f, n = f + 1 := ⟨n - 1, by omega⟩
    have hne : t ≠ .nil := by
      rintro rfl
      simp [Tree.size] at hk
    obtain ⟨b, c, m', t', e1, -, -, -, e2, hm', had, hsz, -⟩ := AVLmap.clear_step hm hnd hne
    obtain ⟨r, hr⟩ := hm.root_some hne
    have hnd' : t'.addrs.Nodup := by
      rw [had] at hnd
      exact (List.nodup_cons.1 hnd).2
    obtain ⟨mf, e3⟩ := clearLogLoop_spec k m' t' f hm' hnd' (by omega) (by omega)
    refine ⟨mf, ?_⟩
    rw [clearLogLoop_some f m hr, e1, obind_some, e2, obind_some, e3, obind_some, had]
    rfl

/-- `clear` on a map whose tree has no shared node: it returns with an absent
root; its rounds are one per node of the tree, on the nodes in ascending order;
afterwards the cells of the tree are freed, no other cell is touched, and
`size_` has been decremented once per node; the run is that of the loop with
one round per node and the final test, and the loop does not end within fewer
rounds. -/
theorem AVLmap.clear_rounds {m : AVLmap K V} {t : Tree K V} (hm : m.Represents t)
    (hnd : t.addrs.Nodup) :
    (∃ h' sz, m.clear = some ⟨h', none, sz⟩ ∧
      m.clearLog = some (⟨h', none, sz⟩, t.addrs.map some) ∧
      (∀ x ∈ t.addrs, h'.get? x = none) ∧ (∀ x, x ∉ t.addrs → h'.get? x = m.heap.get? x) ∧
      h'.cells.length = m.heap.cells.length ∧
      (m.size_ < 2 ^ 32 → sz = (m.size_ + t.size * (2 ^ 32 - 1)) % 2 ^ 32)) ∧
    m.clear = clearLoop (t.size + 1) m ∧ clearLoop t.size m = none := by
  have hsz := hm.2.size_le hnd
  obtain ⟨h', sz, e, hs, hl, hag, hfr⟩ := AVLmap.clear_spec hm hnd
  obtain ⟨mf, elog⟩ := clearLogLoop_spec t.size m t m.heap.fuel hm hnd rfl
    (by simp only [Heap.fuel]; omega)
  have hfst := AVLmap.clearLog_fst m
  have elog' : m.clearLog = some (mf, t.addrs.map some) := elog
  rw [elog', e, Option.map_some'] at hfst
  have hmf : mf = ⟨h', none, sz⟩ := Option.some.inj hfst
  subst hmf
  refine ⟨⟨h', sz, e, elog', hfr, hag, hl, hs⟩, ?_, ?_⟩
  · exact clearLoop_stable t.size m t m.heap.fuel hm hnd rfl (by simp only [Heap.fuel]; omega)
  · have h0 := clearLoop_rounds t.size m t hm hnd
    rcases hc : clearLoop t.size m with _ | x
    · rfl
    · rw [hc] at h0
      simp at h0

/-- One round of `clear` on a nonempty tree without shared nodes, and what is
left to do: `clear` ends as `clear` on the map after the round does. -/
theorem AVLmap.clear_round {m : AVLmap K V} {t : Tree K V} (hm : m.Represents t)
    (hnd : t.addrs.Nodup) (hne : t ≠ .nil) :
    ∃ b c m' t', m.begin = some (some b) ∧ m.heap.get? b = some c ∧ c.left = none ∧
      eraseAux 1 m (some b) = some m' ∧ m.erase (some b) = some m' ∧ m'.Represents t' ∧
      t.addrs = b :: t'.addrs ∧ t'.size + 1 = t.size ∧
      m'.size_ = (m.size_ + 2 ^ 32 - 1) % 2 ^ 32 ∧
      (∀ n, clearLoop (n + 1) m = clearLoop n m') ∧ m.clear = m'.clear := by
  obtain ⟨b, c, m', t', e1, e2, e3, e4, e5, hm', had, hsz, e6⟩ := AVLmap.clear_step hm hnd hne
  obtain ⟨r, hr⟩ := hm.root_some hne
  have hnd' : t'.addrs.Nodup := by
    rw [had] at hnd
    exact (List.nodup_cons.1 hnd).2
  refine ⟨b, c, m', t', e1, e2, e3, e4, e5, hm', had, hsz, e6, clearLoop_round hr e1 e5, ?_⟩
  have h1 := (AVLmap.clear_rounds hm hnd).2.1
  have h2 := (AVLmap.clear_rounds hm' hnd').2.1
  rw [h1, h2, ← hsz]
  exact clearLoop_round hr e1 e5 (t'.size + 1)

end CS280

namespace CS280
variable {K V : Type}

/-! ## The claims on reachable states and on `clear` -/

section Ordered
variable [LinearOrder K]

/-- A sequence of calls that returns leads from a reachable state to a
reachable state. -/
theorem Reachable.of_run {m : AVLmap K V} (hm : Reachable m) : ∀ (cs : List (Call K V))
    {m' : AVLmap K V}, m.run cs = some m' → Reachable m' := by
  intro cs
  induction cs generalizing m with
  | nil =>
    intro m' e
    simp only [AVLmap.run, Option.some.injEq] at e
    rw [← e]; exact hm
  | cons c cs ih =>
    intro m' e
    simp only [AVLmap.run, Option.bind_eq_bind, Option.bind_eq_some] at e
    obtain ⟨m1, e1, e2⟩ := e
    refine ih ?_ e2
    cases c with
    | insert k v => exact Reachable.insert k v hm e1
    | erase k =>
      simp only [AVLmap.call, Option.bind_eq_bind, Option.bind_eq_some] at e1
      obtain ⟨it, _, e3⟩ := e1
      exact Reachable.erase it hm e3
    | clear => exact Reachable.clear hm e1

end Ordered

/-- The calls `orphanCalls`, then `it = find(5)`, `insert(12, 120)` and
`erase(it)` all return and lead to `orphanMap`; the cursor `it` is the address
of node 5, whose cell is live when `erase(it)` is called. -/
theorem orphanMap_spec :
    ∃ m m1 : AVLmap Nat Nat, AVLmap.empty.run orphanCalls = some m ∧
      m.find 5 = some (some 1) ∧ m.insert 12 120 = some m1 ∧
      (∃ c, m1.heap.get? 1 = some c ∧ c.key = 5) ∧ m1.find 5 = some AVLmap.end_it ∧
      m1.erase (some 1) = some orphanMap :=
  ⟨_, _, rfl, by decide, rfl, ⟨_, rfl, rfl⟩, by decide, rfl⟩

theorem orphanMap_reachable : Reachable orphanMap := by
  obtain ⟨m, m1, e1, _, e2, _, _, e3⟩ := orphanMap_spec
  exact Reachable.erase (some 1) (Reachable.insert 12 120 (Reachable.empty.of_run _ e1) e2) e3

theorem orphanMap_represents : orphanMap.Represents orphanTree := by decide

/-- C2 (evaluation at the failing input): after `insert` of 10, 5, 15, 3, 7,
20, 8 and `erase(find(k))` of 8, 7, 20, 15 the cursor `it = find(5)` points to
node 5; `insert(12, 120)` unlinks node 5 from node 10 without deleting it, and
`erase(it)`, which returns, writes the child of node 5 into the right link of
node 10.  The state reached stores the tree `10 -> (-, 3)`: key 3 is in the
right subtree of key 10, so the tree is not BST-ordered; the traversal from
`begin()` to `end()` reads the keys 10, 3 in this order, `find(3)` returns the
terminal cursor and `size()` is 3. -/
theorem erase_unlinked_node_breaks_order :
    ∃ m m1 : AVLmap Nat Nat, AVLmap.empty.run orphanCalls = some m ∧
      m.find 5 = some (some 1) ∧ m.insert 12 120 = some m1 ∧
      (∃ c, m1.heap.get? 1 = some c ∧ c.key = 5) ∧
      m1.erase (some 1) = some orphanMap ∧ Reachable orphanMap ∧
      orphanMap.Represents orphanTree ∧ orphanTree.toList = [(10, 100), (3, 30)] ∧
      ¬ orphanTree.BST ∧ (∀ t, orphanMap.Represents t → ¬ t.BST) ∧
      orphanMap.traverseKeys = some [10, 3] ∧ orphanMap.find 3 = some AVLmap.end_it ∧
      orphanMap.size = 3 := by
  obtain ⟨m, m1, e1, e2, e3, e4, _, e5⟩ := orphanMap_spec
  have hb : ¬ orphanTree.BST := by simp [orphanTree, Tree.BST, Tree.All]
  refine ⟨m, m1, e1, e2, e3, e4, e5, orphanMap_reachable, orphanMap_represents, rfl, hb, ?_,
    by decide, by decide, rfl⟩
  intro t ht
  rw [AVLmap.represents_unique ht orphanMap_represents]
  exact hb

section Ordered
variable [LinearOrder K]

/-- C25: in every map state reached from the empty map by calls of `insert`,
`erase` and `clear` that return, whatever cursor is passed to `erase`, the node
recorded as root is live and has an absent parent, and every node that is the
left or right child of a node reached from the root is live and has that node
as its parent. -/
theorem parent_consistency_invariant (m : AVLmap K V) (hm : Reachable m) :
    m.ParentConsistent :=
  hm.wellLinked.parent_links

end Ordered

/-- C28: `clear` on a map whose tree has no shared node returns, with an absent
root.  Its rounds are one per node of the tree, on the nodes in ascending
order; afterwards every cell of the tree is freed, no other cell is touched and
`size_` has been decremented once per node.  The run of `clear` is the run of
its loop with one round per node and the final test of `pRoot`; the loop does
not come to an end within fewer rounds.  In each round `begin()` is the first
node in in-order, which has no left child; `erase` on it takes the leaf or
one-child case (it returns with recursion depth 1), removes that node only and
decrements `size_` once; the loop goes on from the map so obtained, and `clear`
ends as `clear` on that map does. -/
theorem clear_runs_once_per_node (m : AVLmap K V) (t : Tree K V) (hm : m.Represents t)
    (hnd : t.addrs.Nodup) :
    (∃ h' sz, m.clear = some ⟨h', none, sz⟩ ∧
      m.clearLog = some (⟨h', none, sz⟩, t.addrs.map some) ∧
      (∀ x ∈ t.addrs, h'.get? x = none) ∧ (∀ x, x ∉ t.addrs → h'.get? x = m.heap.get? x) ∧
      h'.cells.length = m.heap.cells.length ∧
      (m.size < 2 ^ 32 → sz = (m.size + t.size * (2 ^ 32 - 1)) % 2 ^ 32)) ∧
    (m.clear = clearLoop (t.size + 1) m ∧ clearLoop t.size m = none) ∧
    (∀ n, (clearLoop n m).isSome ↔ t.size + 1 ≤ n) ∧
    (t ≠ .nil → ∃ b c m' t', m.begin = some (some b) ∧ m.heap.get? b = some c ∧
      c.left = none ∧ eraseAux 1 m (some b) = some m' ∧ m.erase (some b) = some m' ∧
      m'.Represents t' ∧ t.addrs = b :: t'.addrs ∧ t'.size + 1 = t.size ∧
      m'.size = (m.size + 2 ^ 32 - 1) % 2 ^ 32 ∧
      (∀ n, clearLoop (n + 1) m = clearLoop n m') ∧ m.clear = m'.clear) := by
  obtain ⟨h1, h2, h3⟩ := AVLmap.clear_rounds hm hnd
  exact ⟨h1, ⟨h2, h3⟩, fun n => clearLoop_rounds n m t hm hnd,
    fun hne => AVLmap.clear_round hm hnd hne⟩

theorem parent_consistency_invariant_witness :
    Reachable orphanMap ∧ orphanMap.ParentConsistent :=
  ⟨orphanMap_reachable, parent_consistency_invariant orphanMap orphanMap_reachable⟩

theorem clear_runs_once_per_node_witness :
    threeMap.Represents threeTree ∧ threeTree.addrs.Nodup ∧
    threeMap.clear = some ⟨⟨[none, none, none]⟩, none, 0⟩ ∧
    threeMap.clearLog = some (⟨⟨[none, none, none]⟩, none, 0⟩, [some 0, some 1, some 2]) ∧
    (∃ h' sz, threeMap.clear = some ⟨h', none, sz⟩ ∧
      threeMap.clearLog = some (⟨h', none, sz⟩, threeTree.addrs.map some) ∧
      (∀ x ∈ threeTree.addrs, h'.get? x = none) ∧
      (∀ x, x ∉ threeTree.addrs → h'.get? x = threeMap.heap.get? x) ∧
      h'.cells.length = threeMap.heap.cells.length ∧
      (threeMap.size < 2 ^ 32 →
        sz = (threeMap.size + threeTree.size * (2 ^ 32 - 1)) % 2 ^ 32)) ∧
    (threeMap.clear = clearLoop (threeTree.size + 1) threeMap ∧
      clearLoop threeTree.size threeMap = none) ∧
    (∀ n, (clearLoop n threeMap).isSome ↔ threeTree.size + 1 ≤ n) ∧
    (threeTree ≠ .nil → ∃ b c m' t', threeMap.begin = some (some b) ∧
      threeMap.heap.get? b = some c ∧ c.left = none ∧
      eraseAux 1 threeMap (some b) = some m' ∧ threeMap.erase (some b) = some m' ∧
      m'.Represents t' ∧ threeTree.addrs = b :: t'.addrs ∧ t'.size + 1 = threeTree.size ∧
      m'.size = (threeMap.size + 2 ^ 32 - 1) % 2 ^ 32 ∧
      (∀ n, clearLoop (n + 1) threeMap = clearLoop n m') ∧ threeMap.clear = m'.clear) :=
  ⟨threeMap_spec.2, by decide, rfl, rfl,
    clear_runs_once_per_node threeMap threeTree threeMap_spec.2 (by decide)⟩

end CS280
